import Mathlib

/-!
# HeapSimulator: a shallow embedding of `mm.c`

The allocator of `src/mm.c` (an explicit free list threaded through boundary-tagged
blocks, first fit, LIFO insertion, coalescing on free) is embedded as pure functions
on an explicit state.

* Memory is a total map from byte addresses to byte values; a 32-bit word is four
  consecutive bytes, least significant first (`GET`, `PUT`).
* Pointers are natural numbers.  `size_t` and `unsigned int` arithmetic is reduced
  modulo `2^64` and `2^32` where the source computes in those types.  Pointer
  arithmetic is plain addition and (truncated) subtraction: leaving the address space
  is undefined behaviour in C and is not modelled.
* The two loops of the source (`fit`, `mm_checkheap`) walk the free list and need not
  terminate on a cyclic list, so they take a fuel argument; exhaustion is reported as
  `Res.timeout`.
* `memlib` (`mem_sbrk`, `mem_heap_lo`, `mem_heap_hi`) is not part of the sources and
  is modelled from the specification.
-/

namespace MM

/-- Byte-addressed memory: the byte stored at every address. -/
structure Mem where
  byte : Nat → Nat

/-- The allocator state: the memory, the region managed by the heap-growth primitive
(`lo` up to, not including, `brk`; growth is refused past `lim`), and the two globals
`heap_listp` and `heap_hi` of `mm.c`. -/
structure State where
  mem : Mem
  lo : Nat
  brk : Nat
  lim : Nat
  heap_listp : Nat
  heap_hi : Nat

/-- Outcome of a call: a value and the state after it, a trap on a write through the
null pointer, or exhaustion of the loop fuel. -/
inductive Res (α : Type) where
  | ok (val : α) (st : State) : Res α
  | fault : Res α
  | timeout : Res α

/-! ## Macros of `mm.c` -/

/-- `PACK(size, alloc)  ((size) | (alloc))`. -/
def PACK (size alloc : Nat) : Nat := size ||| alloc

/-- `GET(p)  (*(unsigned int *)(p))`: the little-endian word at `p`. -/
def GET (m : Mem) (p : Nat) : Nat :=
  m.byte p % 256 + 256 * (m.byte (p + 1) % 256) + 65536 * (m.byte (p + 2) % 256)
    + 16777216 * (m.byte (p + 3) % 256)

/-- `PUT(p, val)  (*(unsigned int *)(p) = (unsigned int)(val))`. -/
def PUT (m : Mem) (p val : Nat) : Mem := ⟨fun x =>
  if x = p then val % 256
  else if x = p + 1 then val / 256 % 256
  else if x = p + 2 then val / 65536 % 256
  else if x = p + 3 then val / 16777216 % 256
  else m.byte x⟩

/-- `GET_SIZE(p)  (GET(p) & ~0x1)`, as a function of the word read. -/
def SIZE (w : Nat) : Nat := w &&& 0xFFFFFFFE

/-- `GET_ALLOC(p)  (GET(p) & 0x1)`, as a function of the word read. -/
def ALLOC (w : Nat) : Nat := w &&& 1

/-- `GET_SIZE(p)`. -/
def GET_SIZE (m : Mem) (p : Nat) : Nat := SIZE (GET m p)

/-- `GET_ALLOC(p)`. -/
def GET_ALLOC (m : Mem) (p : Nat) : Nat := ALLOC (GET m p)

/-- `memset(p, c, n)`. -/
def memset (m : Mem) (p c n : Nat) : Mem := ⟨fun x =>
  if p ≤ x ∧ x < p + n then c % 256 else m.byte x⟩

/-- `memcpy(dst, src, n)` (the ranges do not overlap at the call site). -/
def memcpy (m : Mem) (dst src n : Nat) : Mem := ⟨fun x =>
  if dst ≤ x ∧ x < dst + n then m.byte (src + (x - dst)) else m.byte x⟩

/-- `bzero(p, n)`.  It is the one library call the source makes on a pointer it has
not checked: zeroing a non-empty range through the null pointer traps (`none`). -/
def bzero (m : Mem) (p n : Nat) : Option Mem :=
  if p = 0 ∧ n ≠ 0 then none else some (memset m p 0 n)

/-! ## The heap-growth primitive (`memlib`) -/

/-- Modelled from the spec: `memlib.c` is not among the sources.  `grow(nBytes)`
"extends the managed region by `nBytes`, returns the address of the first byte of new
space; space is zero-filled; failure indicates the platform has no more memory to
give".  Failure is `none`. -/
def mem_sbrk (s : State) (incr : Nat) : Option (Nat × State) :=
  if s.brk + incr ≤ s.lim then
    some (s.brk, { s with brk := s.brk + incr, mem := memset s.mem s.brk 0 incr })
  else none

/-- Modelled from the spec: `lowAddress()`, the low bound of the managed region. -/
def mem_heap_lo (s : State) : Nat := s.lo

/-- Modelled from the spec: `highAddress()`; the data model fixes the tracked high
address as "the address of the last word of the last block". -/
def mem_heap_hi (s : State) : Nat := s.brk - 4

/-! ## Pointer codec -/

/-- `addrSplit(bp, mode)`: the low (`mode == 0`) or high 32 bits of a 64-bit address. -/
def addrSplit (bp : Nat) (mode : Nat) : Nat :=
  if mode = 0 then bp &&& 0xFFFFFFFF
  else (bp &&& 0xFFFFFFFF00000000) >>> 32

/-- Conversion `unsigned int → int → unsigned long` performed when a word read by
`GET` is passed to an `int` parameter and then cast: sign extension. -/
def sext32 (u : Nat) : Nat :=
  if u % 4294967296 < 2147483648 then u % 4294967296
  else u % 4294967296 + 18446744069414584320

/-- `addrPair(i1, i2)`: `(((unsigned long)i2) << 32) | (unsigned long)i1` on `int`
parameters. -/
def addrPair (i1 i2 : Nat) : Nat :=
  ((sext32 i2 <<< 32) % 18446744073709551616) ||| sext32 i1

/-- The pointer stored in the two words at `a` and `a + 4`:
`addrPair(GET(a), GET(a + WSIZE))`. -/
def getLink (m : Mem) (a : Nat) : Nat := addrPair (GET m a) (GET m (a + 4))

/-- The statement pair `PUT(a, addrSplit(p, 0)); PUT(a + WSIZE, addrSplit(p, 1));`. -/
def putLink (m : Mem) (a p : Nat) : Mem :=
  PUT (PUT m a (addrSplit p 0)) (a + 4) (addrSplit p 1)

/-- The statement pair `PUT(dst, GET(src)); PUT(dst + WSIZE, GET(src + WSIZE));`. -/
def copyLink (m : Mem) (dst src : Nat) : Mem :=
  let m1 := PUT m dst (GET m src)
  PUT m1 (dst + 4) (GET m1 (src + 4))

/-! ## `place`, `fit`, `coalesce` -/

/-- The `size_t` subtraction `a - b`. -/
def sub64 (a b : Nat) : Nat := (a + 18446744073709551616 - b) % 18446744073709551616

/-- `place(bp, asize)`: carve `asize` bytes out of the free block `bp`, splitting when
the remainder can hold a free block. -/
def place (m : Mem) (bp asize : Nat) : Mem :=
  let csize := GET_SIZE m bp
  let prev := getLink m (bp + 4)
  let post := getLink m (bp + 12)
  if sub64 csize asize ≥ 24 then
    let m1 := PUT m bp (PACK asize 1)
    let m2 := PUT m1 (bp + asize - 4) (PACK asize 1)
    let bp2 := bp + asize
    let m3 := PUT m2 bp2 (PACK (sub64 csize asize) 0)
    let m4 := PUT m3 (bp2 + csize - asize - 4) (PACK (sub64 csize asize) 0)
    let m5 := if prev ≠ 0 then putLink m4 (prev + 12) bp2 else m4
    let m6 := if post ≠ 0 then putLink m5 (post + 4) bp2 else m5
    let m7 := putLink m6 (bp2 + 4) prev
    putLink m7 (bp2 + 12) post
  else
    let m1 := PUT m bp (PACK csize 1)
    let m2 := PUT m1 (bp + csize - 4) (PACK csize 1)
    let m3 := if post ≠ 0 then copyLink m2 (post + 4) (bp + 4) else m2
    copyLink m3 (prev + 12) (bp + 12)

/-- The loop of `fit(size)`, entered at `bp`: first list member that is free and at
least `size` bytes; `some 0` is the `NULL` result, `none` is fuel exhaustion. -/
def fitLoop (m : Mem) (size : Nat) : Nat → Nat → Option Nat
  | 0, _ => none
  | fuel + 1, bp =>
    if bp ≠ 0 ∧ GET_SIZE m bp > 1 then
      if GET_ALLOC m bp = 0 ∧ size ≤ sext32 (GET_SIZE m bp) then some bp
      else fitLoop m size fuel (getLink m (bp + 12))
    else some 0

/-- `fit(size)`: the walk starts at the sentinel `heap_listp`. -/
def fit (fuel : Nat) (s : State) (size : Nat) : Option Nat :=
  fitLoop s.mem size fuel s.heap_listp

/-- The loop of `mm_checkheap`: it only prints; what matters to its caller is
whether it terminates (`true`) within the fuel. -/
def checkLoop (m : Mem) : Nat → Nat → Bool
  | 0, _ => false
  | fuel + 1, bp =>
    if bp ≠ 0 ∧ GET_SIZE m bp > 1 then checkLoop m fuel (getLink m (bp + 12))
    else true

/-- `mm_checkheap(verbose)`: diagnostics only, no write; `true` when the walk ends. -/
def mm_checkheap (fuel : Nat) (s : State) : Bool :=
  checkLoop s.mem fuel s.heap_listp

/-- `coalesce`, branch `!(H || L)`: insert `bp` at the head of the free list. -/
def coalesceNone (m : Mem) (root bp : Nat) : Mem :=
  let m1 := putLink m (bp + 4) root
  let m2 := copyLink m1 (bp + 12) (root + 12)
  let back := getLink m2 (root + 12)
  let m3 := if back ≠ 0 then putLink m2 (back + 4) bp else m2
  putLink m3 (root + 12) bp

/-- `coalesce`, branch `if(H)`: unlink the physical successor, merge it into `bp`,
insert `bp` at the head.  (`PUT` truncates the `unsigned int` sum to 32 bits.) -/
def coalesceH (m : Mem) (root bp : Nat) : Mem :=
  let s := GET_SIZE m bp
  let bH := getLink m (bp + s + 4)
  let aH := getLink m (bp + s + 12)
  let m1 := if bH ≠ 0 then copyLink m (bH + 12) (bp + s + 12) else m
  let m2 := if aH ≠ 0 then copyLink m1 (aH + 4) (bp + s + 4) else m1
  let m3 := PUT m2 (bp + s + GET_SIZE m2 (bp + s) - 4) (PACK (s + GET_SIZE m2 (bp + s)) 0)
  let m4 := PUT m3 bp (PACK (s + GET_SIZE m3 (bp + s)) 0)
  let m5 := copyLink m4 (bp + 12) (root + 12)
  let m6 := putLink m5 (bp + 4) root
  let back := getLink m6 (root + 12)
  let m7 := if back ≠ 0 then putLink m6 (back + 4) bp else m6
  putLink m7 (root + 12) bp

/-- `coalesce`, branch `if(L)`: unlink the physical predecessor, merge `bp` into it,
insert the merged block `bp - s` at the head. -/
def coalesceL (m : Mem) (root bp : Nat) : Mem :=
  let s := GET_SIZE m (bp - 4)
  let bL := getLink m (bp - s + 4)
  let aL := getLink m (bp - s + 12)
  let m1 := if bL ≠ 0 then copyLink m (bL + 12) (bp - s + 12) else m
  let m2 := if aL ≠ 0 then copyLink m1 (aL + 4) (bp - s + 4) else m1
  let m3 := PUT m2 (bp + GET_SIZE m2 bp - 4) (PACK (s + GET_SIZE m2 bp) 0)
  let m4 := PUT m3 (bp - s) (PACK (s + GET_SIZE m3 bp) 0)
  let m5 := copyLink m4 (bp - s + 12) (root + 12)
  let m6 := putLink m5 (bp - s + 4) root
  let back := getLink m6 (root + 12)
  let m7 := if back ≠ 0 then putLink m6 (back + 4) (bp - s) else m6
  putLink m7 (root + 12) (bp - s)

/-- `coalesce`, branch `if(H && L)`: unlink both neighbours and merge the three
blocks at the predecessor. -/
def coalesceBoth (m : Mem) (root bp : Nat) : Mem :=
  let sL := GET_SIZE m (bp - 4)
  let s := GET_SIZE m bp
  let bL := getLink m (bp - sL + 4)
  let aL := getLink m (bp - sL + 12)
  let bH := getLink m (bp + s + 4)
  let aH := getLink m (bp + s + 12)
  let m1 := if bL ≠ 0 then copyLink m (bL + 12) (bp - sL + 12) else m
  let m2 := if aL ≠ 0 then copyLink m1 (aL + 4) (bp - sL + 4) else m1
  let m3 := if bH ≠ 0 then copyLink m2 (bH + 12) (bp + s + 12) else m2
  let m4 := if aH ≠ 0 then copyLink m3 (aH + 4) (bp + s + 4) else m3
  let m5 := PUT m4 (bp + s + GET_SIZE m4 (bp + s) - 4) (PACK (sL + s + GET_SIZE m4 (bp + s)) 0)
  let m6 := PUT m5 (bp - sL) (PACK (sL + s + GET_SIZE m5 (bp + s)) 0)
  let m7 := copyLink m6 (bp - sL + 12) (root + 12)
  let m8 := putLink m7 (bp - sL + 4) root
  let back := getLink m8 (root + 12)
  let m9 := if back ≠ 0 then putLink m8 (back + 4) (bp - sL) else m8
  putLink m9 (root + 12) (bp - sL)

/-- Flag `L` of `coalesce`: `!GET_ALLOC(bp - WSIZE) && GET_SIZE(bp - WSIZE)`. -/
def flagL (m : Mem) (bp : Nat) : Bool :=
  GET_ALLOC m (bp - 4) = 0 ∧ GET_SIZE m (bp - 4) ≠ 0

/-- Flag `H` of `coalesce`: the successor's header lies at or below `heap_hi`, is
free and has a non-zero size. -/
def flagH (m : Mem) (hi bp : Nat) : Bool :=
  bp + GET_SIZE m bp ≤ hi ∧
    GET_ALLOC m (bp + GET_SIZE m bp) = 0 ∧ GET_SIZE m (bp + GET_SIZE m bp) ≠ 0

/-- `coalesce(bp)`: the branches are tested in the order of the source, each one
returning: `!(H || L)`, `H`, `L`, `H && L`. -/
def coalesce (s : State) (bp : Nat) : Nat × State :=
  if GET s.mem bp &&& 1 ≠ 0 then (0, s)
  else
    let L := flagL s.mem bp
    let H := flagH s.mem s.heap_hi bp
    if !(H || L) then (bp, { s with mem := coalesceNone s.mem s.heap_listp bp })
    else if H then (bp, { s with mem := coalesceH s.mem s.heap_listp bp })
    else if L then
      (bp - GET_SIZE s.mem (bp - 4), { s with mem := coalesceL s.mem s.heap_listp bp })
    else if H && L then
      (bp - GET_SIZE s.mem bp, { s with mem := coalesceBoth s.mem s.heap_listp bp })
    else (0, s)

/-! ## `extend_heap` and the public entry points -/

/-- The number of bytes `extend_heap(words)` asks of the growth primitive:
`words = (words + (words & 1))*WSIZE; words = MAX(words, (1 << 12));`. -/
def extendBytes (words : Nat) : Nat :=
  max (((words + (words &&& 1)) * 4) % 18446744073709551616) 4096

/-- `extend_heap(words)`. -/
def extend_heap (fuel : Nat) (s : State) (words : Nat) : Res Nat :=
  let bytes := extendBytes words
  match mem_sbrk s bytes with
  | none => Res.ok 0 s
  | some (bp, s1) =>
    if 9223372036854775808 ≤ bp then Res.ok 0 s1
    else
      let m1 := memset s1.mem bp 0 bytes
      let hi := mem_heap_hi s1
      let m2 := PUT m1 bp (PACK bytes 0)
      let m3 := PUT m2 hi (PACK bytes 0)
      let r := coalesce { s1 with mem := m3, heap_hi := hi } bp
      if mm_checkheap fuel r.2 then Res.ok r.1 r.2 else Res.timeout

/-- `mm_init()`: `0` on success, `-1` on error. -/
def mm_init (fuel : Nat) (s : State) : Res Int :=
  match mem_sbrk s 28 with
  | none => Res.ok (-1) s
  | some (p, s1) =>
    if p = 0 then Res.ok (-1) s1
    else
      let h := mem_heap_lo s1
      let m1 := PUT s1.mem h 0
      let m2 := PUT m1 (h + 4) (PACK 24 1)
      let m3 := PUT m2 (h + 8) 0
      let m4 := PUT m3 (h + 12) 0
      let m5 := PUT m4 (h + 16) 0
      let m6 := PUT m5 (h + 20) 0
      let m7 := PUT m6 (h + 24) (PACK 24 1)
      let s2 := { s1 with mem := m7, heap_listp := mem_heap_lo s1 + 4 }
      match extend_heap fuel s2 (4096 / 4) with
      | Res.ok r s3 => if r = 0 then Res.ok (-1) s3 else Res.ok 0 s3
      | Res.fault => Res.fault
      | Res.timeout => Res.timeout

/-- The guard `if (heap_listp == 0) mm_init();` (the result of `mm_init` is
discarded). -/
def lazyInit (fuel : Nat) (s : State) : Res Unit :=
  if s.heap_listp = 0 then
    match mm_init fuel s with
    | Res.ok _ s1 => Res.ok () s1
    | Res.fault => Res.fault
    | Res.timeout => Res.timeout
  else Res.ok () s

/-- The size adjustment of `mm_malloc` (on `size_t`). -/
def adjust (size : Nat) : Nat :=
  if size ≤ 16 then 24
  else (8 * ((size + 8 + 7) % 18446744073709551616 / 8)) % 18446744073709551616

/-- `mm_malloc(size)`. -/
def mm_malloc (fuel : Nat) (s : State) (size : Nat) : Res Nat :=
  match lazyInit fuel s with
  | Res.fault => Res.fault
  | Res.timeout => Res.timeout
  | Res.ok _ s1 =>
    if size = 0 then Res.ok 0 s1
    else
      let asize := adjust size
      match fit fuel s1 asize with
      | none => Res.timeout
      | some bp =>
        if bp ≠ 0 then Res.ok (bp + 4) { s1 with mem := place s1.mem bp asize }
        else
          let extendsize := max asize 4096
          match extend_heap fuel s1 (extendsize / 4) with
          | Res.fault => Res.fault
          | Res.timeout => Res.timeout
          | Res.ok bp2 s2 =>
            if bp2 = 0 then Res.ok 0 s2
            else Res.ok (bp2 + 4) { s2 with mem := place s2.mem bp2 asize }

/-- `mm_free(ptr)`. -/
def mm_free (fuel : Nat) (s : State) (ptr : Nat) : Res Unit :=
  let bp := if ptr ≠ 0 then ptr - 4 else ptr
  if bp = 0 then Res.ok () s
  else
    match lazyInit fuel s with
    | Res.fault => Res.fault
    | Res.timeout => Res.timeout
    | Res.ok _ s1 =>
      if bp = s1.heap_listp then Res.ok () s1
      else
        let m1 := PUT s1.mem bp (PACK (GET_SIZE s1.mem bp) 0)
        let m2 := PUT m1 (bp + GET_SIZE m1 bp - 4) (PACK (GET_SIZE m1 bp) 0)
        Res.ok () (coalesce { s1 with mem := m2 } bp).2

/-- `mm_realloc(ptr, size)`. -/
def mm_realloc (fuel : Nat) (s : State) (ptr size : Nat) : Res Nat :=
  let bp := if ptr ≠ 0 ∧ size > 0 then ptr - 4 else ptr
  if size = 0 then
    match mm_free fuel s bp with
    | Res.ok _ s1 => Res.ok 0 s1
    | Res.fault => Res.fault
    | Res.timeout => Res.timeout
  else if bp = 0 then mm_malloc fuel s size
  else
    match mm_malloc fuel s size with
    | Res.fault => Res.fault
    | Res.timeout => Res.timeout
    | Res.ok newptr s1 =>
      if newptr = 0 then Res.ok 0 s1
      else
        let oldsize := (GET_SIZE s1.mem bp + 4294967296 - 8) % 4294967296
        let n := if size < oldsize then size else oldsize
        let m1 := memcpy s1.mem newptr (bp + 4) n
        match mm_free fuel { s1 with mem := m1 } (bp + 4) with
        | Res.ok _ s2 => Res.ok newptr s2
        | Res.fault => Res.fault
        | Res.timeout => Res.timeout

/-- `mm_calloc(nmemb, size)`. -/
def mm_calloc (fuel : Nat) (s : State) (nmemb size : Nat) : Res Nat :=
  match lazyInit fuel s with
  | Res.fault => Res.fault
  | Res.timeout => Res.timeout
  | Res.ok _ s1 =>
    let n := (nmemb * size) % 18446744073709551616
    match mm_malloc fuel s1 n with
    | Res.fault => Res.fault
    | Res.timeout => Res.timeout
    | Res.ok ptr s2 =>
      match bzero s2.mem ptr n with
      | none => Res.fault
      | some m1 => Res.ok ptr { s2 with mem := m1 }

/-! ## Observing outcomes -/

/-- The state after a call, `d` when the call did not return. -/
def Res.stateOr {α : Type} (r : Res α) (d : State) : State :=
  match r with
  | Res.ok _ s => s
  | _ => d

/-- The value returned by a call, `d` when the call did not return. -/
def Res.valOr {α : Type} (r : Res α) (d : α) : α :=
  match r with
  | Res.ok v _ => v
  | _ => d

/-- The call returned. -/
def Res.returned {α : Type} (r : Res α) : Bool :=
  match r with
  | Res.ok _ _ => true
  | _ => false

/-- The call trapped. -/
def Res.faulted {α : Type} (r : Res α) : Bool :=
  match r with
  | Res.fault => true
  | _ => false

/-- A region that has not been grown yet, with all memory zero and the globals as
the loader leaves them (`heap_listp = 0`). -/
def freshState (lo lim : Nat) : State :=
  { mem := ⟨fun _ => 0⟩, lo := lo, brk := lo, lim := lim, heap_listp := 0, heap_hi := 0 }

/-- The blocks visited by the loop of `fit` and `mm_checkheap` entered at `bp`:
`Walk m bp l` says the loop visits exactly the addresses of `l`, in order, and then
leaves (at the null pointer or at a word of size `0`). -/
def Walk (m : Mem) : Nat → List Nat → Prop
  | bp, [] => bp = 0 ∨ GET_SIZE m bp ≤ 1
  | bp, b :: l => bp = b ∧ bp ≠ 0 ∧ 1 < GET_SIZE m bp ∧ Walk m (getLink m (bp + 12)) l

/-- `Walk` is decidable: it is a finite conjunction of comparisons of words. -/
instance Walk.instDecidable (m : Mem) : ∀ (l : List Nat) (bp : Nat), Decidable (Walk m bp l)
  | [], bp => by unfold Walk; exact inferInstance
  | b :: l, bp => by
    unfold Walk
    have := Walk.instDecidable m l (getLink m (bp + 12))
    exact inferInstance

/-- The state reached from a fresh region at `4096` by `mm_init`, with room for
growth up to `lim`. -/
def initState (lim : Nat) : State := (mm_init 8 (freshState 4096 lim)).stateOr (freshState 4096 lim)

/-- The state reached by the calls `a = mm_malloc(16)`, `b = mm_malloc(16)`,
`c = mm_malloc(16)`, `d = mm_malloc(16)` (four consecutive 24-byte blocks at
`4124`, `4148`, `4172`, `4196`), then `mm_free(a)`, `mm_free(c)`. -/
def acFreed : State :=
  let s1 := (mm_malloc 8 (initState 100000) 16).stateOr (initState 100000)
  let s2 := (mm_malloc 8 s1 16).stateOr s1
  let s3 := (mm_malloc 8 s2 16).stateOr s2
  let s4 := (mm_malloc 8 s3 16).stateOr s3
  let s5 := (mm_free 8 s4 4128).stateOr s4
  (mm_free 8 s5 4176).stateOr s5

/-- The state `acFreed` after the further call `mm_free(b)`: the block `b` had both
physical neighbours free. -/
def abcFreed : State := (mm_free 8 acFreed 4152).stateOr acFreed

/-- The state `acFreed` in the middle of `mm_free(b)`: header and footer of `b`
rewritten with the allocated bit clear, `coalesce(b)` not yet called. -/
def bMarked : State :=
  let m1 := PUT acFreed.mem 4148 (PACK (GET_SIZE acFreed.mem 4148) 0)
  { acFreed with mem := PUT m1 (4148 + GET_SIZE m1 4148 - 4) (PACK (GET_SIZE m1 4148) 0) }

/-! ## The heap invariant -/

/-- The free list as the code reads it: `Chain m prev l` says that the forward link
of `prev` leads through exactly the blocks of `l`, each one's back link naming the
block before it, and that the last forward link is null. -/
def Chain (m : Mem) : Nat → List Nat → Prop
  | prev, [] => getLink m (prev + 12) = 0
  | prev, b :: l => getLink m (prev + 12) = b ∧ getLink m (b + 4) = prev ∧ Chain m b l

/-- The physical layout: `B` is the set of block addresses of the heap that starts at
the sentinel `root` and ends at `brk`.  Every block carries its size (a multiple of 8,
at least 24) in a header and an identical footer, blocks do not overlap, and each one
is followed (preceded) by another block unless it is the last (the sentinel). -/
structure Shape (m : Mem) (root brk : Nat) (B : Set Nat) : Prop where
  root_mem : root ∈ B
  root_hdr : GET m root = 25
  blk : ∀ a ∈ B, root ≤ a ∧ a % 8 = 4 ∧ 24 ≤ GET_SIZE m a ∧ GET_SIZE m a % 8 = 0 ∧
    a + GET_SIZE m a ≤ brk ∧ GET m (a + GET_SIZE m a - 4) = GET m a
  succ : ∀ a ∈ B, a + GET_SIZE m a < brk → a + GET_SIZE m a ∈ B
  pred : ∀ a ∈ B, a ≠ root → ∃ a' ∈ B, a' + GET_SIZE m a' = a
  disj : ∀ a ∈ B, ∀ a' ∈ B, a < a' → a + GET_SIZE m a ≤ a'

/-- The globals and the bounds of the region. -/
structure Glob (s : State) : Prop where
  lo_pos : 0 < s.lo
  lo_al : s.lo % 8 = 0
  root_eq : s.heap_listp = s.lo + 4
  brk_ge : s.lo + 28 ≤ s.brk
  brk_al : s.brk % 8 = 4
  brk_le : s.brk ≤ s.lim
  lim_le : s.lim ≤ 2147483648
  hi : s.lo + 28 < s.brk → s.heap_hi = s.brk - 4

/-- The invariant of an initialised heap.  `B` are the blocks, `fl` the free list in
list order, `L` the payload pointers handed out and not yet freed.  `P` are the blocks
that are marked free but not linked at the moment (inside `mm_free`, `extend_heap` and
`coalesce`); `P` is empty between calls. -/
structure WF (s : State) (B : Set Nat) (fl : List Nat) (L : Set Nat) (P : Set Nat) : Prop where
  glob : Glob s
  shape : Shape s.mem s.heap_listp s.brk B
  chain : Chain s.mem s.heap_listp fl
  nodup : fl.Nodup
  free : ∀ a, a ∈ fl ↔ a ∈ B ∧ GET_ALLOC s.mem a = 0 ∧ a ∉ P
  live : ∀ p, p ∈ L ↔ ∃ a ∈ B, a ≠ s.heap_listp ∧ GET_ALLOC s.mem a = 1 ∧ p = a + 4

/-- What a call leaves alone: every allocated block other than the sentinel and `x`
keeps its header word and its payload bytes. -/
def Frame (m m' : Mem) (root : Nat) (B : Set Nat) (x : Nat) : Prop :=
  ∀ a ∈ B, a ≠ root → a ≠ x → GET_ALLOC m a = 1 →
    GET m' a = GET m a ∧
      ∀ y, a + 4 ≤ y → y + 4 ≤ a + GET_SIZE m a → m'.byte y = m.byte y

/-- The bytes a list operation may write: those of the extent `[e1, e2)`, the
forward-link field of the blocks in `F` and the back-link field of the blocks in `G`
(`0` in `G` stands for an absent block). -/
def Touch (m m' : Mem) (e1 e2 : Nat) (F G : List Nat) : Prop :=
  ∀ x, (x < e1 ∨ e2 ≤ x) → (∀ f ∈ F, x < f + 12 ∨ f + 20 ≤ x) →
    (∀ g ∈ G, g = 0 ∨ x < g + 4 ∨ g + 12 ≤ x) → m'.byte x = m.byte x

/-- The unlinking statements shared by the branches of `coalesce`: with `b` and `a`
the back and forward links of `y`, `b`'s forward link and `a`'s back link are
overwritten with `y`'s. -/
def unlinkMem (m : Mem) (y : Nat) : Mem :=
  let b := getLink m (y + 4)
  let a := getLink m (y + 12)
  let m1 := if b ≠ 0 then copyLink m (b + 12) (y + 12) else m
  if a ≠ 0 then copyLink m1 (a + 4) (y + 4) else m1

/-- The head-insertion statements shared by the merging branches of `coalesce`. -/
def headInsert (m : Mem) (root b : Nat) : Mem :=
  let m5 := copyLink m (b + 12) (root + 12)
  let m6 := putLink m5 (b + 4) root
  let back := getLink m6 (root + 12)
  let m7 := if back ≠ 0 then putLink m6 (back + 4) b else m6
  putLink m7 (root + 12) b

/-- What `coalesce(bp)` achieves on a heap whose only pending block is `bp`: the
result `r.1` is the head of the free list of a well-formed heap, it covers `bp`, the
allocated blocks are untouched and only the memory has changed. -/
def CoalPost (s : State) (B : Set Nat) (fl : List Nat) (L : Set Nat) (bp : Nat)
    (r : Nat × State) : Prop :=
  ∃ B' fl', WF r.2 B' (r.1 :: fl') L ∅ ∧ fl'.length ≤ fl.length ∧
    Frame s.mem r.2.mem s.heap_listp B 0 ∧
    r.2.lo = s.lo ∧ r.2.brk = s.brk ∧ r.2.lim = s.lim ∧
    r.2.heap_listp = s.heap_listp ∧ r.2.heap_hi = s.heap_hi ∧
    r.1 ≤ bp ∧ bp + GET_SIZE s.mem bp ≤ r.1 + GET_SIZE r.2.mem r.1 ∧
    (∀ a ∈ B, GET_ALLOC s.mem a = 1 → a ∈ B') ∧ (∀ a ∈ B', a ∈ B)

/-- What `mm_malloc(n)` achieves on a well-formed heap: either NULL with the state
unchanged, or the payload pointer `p` of a block of the new well-formed heap that is
allocated, large enough and was not live before. -/
def MallocPost (s : State) (B : Set Nat) (fl : List Nat) (L : Set Nat) (n p : Nat)
    (s' : State) : Prop :=
  (p = 0 ∧ s' = s) ∨
  (p ≠ 0 ∧ ∃ B' fl', WF s' B' fl' (insert p L) ∅ ∧ fl'.length ≤ fl.length + 1 ∧
    p - 4 ∈ B' ∧ p % 8 = 0 ∧ p ∉ L ∧ GET_ALLOC s'.mem (p - 4) = 1 ∧
    n + 8 ≤ GET_SIZE s'.mem (p - 4) ∧ Frame s.mem s'.mem s.heap_listp B 0 ∧
    s'.lo = s.lo ∧ s'.lim = s.lim ∧ s'.heap_listp = s.heap_listp ∧ s.brk ≤ s'.brk ∧
    (∀ a ∈ B, GET_ALLOC s.mem a = 1 → a ∈ B'))

/-- The state in which `mm_init` could not even obtain the sentinel: nothing is
initialised and the region cannot grow by 28 bytes. -/
structure Uninit (s : State) : Prop where
  root_eq : s.heap_listp = 0
  brk_eq : s.brk = s.lo
  lo_pos : 0 < s.lo
  full : s.lim < s.lo + 28

/-- A state in which the allocator has not run yet: the region is empty, its low
address is 8-byte aligned and not null, `heap_listp` is null, and the region can never
reach past `2^31`. -/
structure Fresh (s : State) : Prop where
  root_eq : s.heap_listp = 0
  brk_eq : s.brk = s.lo
  lo_pos : 0 < s.lo
  lo_al : s.lo % 8 = 0
  lim_le : s.lim ≤ 2147483648

/-- The invariant of every reachable state. -/
def Inv (s : State) (L : Set Nat) : Prop :=
  (Uninit s ∧ L = ∅) ∨ ∃ B fl, WF s B fl L ∅

/-- The `k`-th block of the heap, counted from the sentinel at `root`: each block
starts where the previous one ends (`NEXT_BLKP`, the header's size field). -/
def blockAt (m : Mem) (root : Nat) : Nat → Nat
  | 0 => root
  | k + 1 => blockAt m root k + GET_SIZE m (blockAt m root k)

/-- The state reached from `initState 100000` by the call `mm_malloc(16)`, which
returns `4128`. -/
def oneLive : State := (mm_malloc 8 (initState 100000) 16).stateOr (initState 100000)

/-- A store of one byte by the client. -/
def storeByte (m : Mem) (a v : Nat) : Mem :=
  ⟨fun x => if x = a then v % 256 else m.byte x⟩

/-- The states reachable from `mm_init()` by allocator calls, each with the set of
payload pointers that are currently allocated.  A call is a step when it returns (for
some fuel); `mm_free` and `mm_realloc` are only applied to the null pointer or to a
currently allocated pointer, and requested sizes are below `2^31`.  Between calls the
client may store into the payload of a block it holds. -/
inductive Reach : State → Set Nat → Prop
  | init (s0 s : State) (fuel : Nat) (r : Int) :
      Fresh s0 → mm_init fuel s0 = Res.ok r s → Reach s ∅
  | malloc (s s' : State) (L : Set Nat) (fuel n p : Nat) :
      Reach s L → n < 2147483648 → mm_malloc fuel s n = Res.ok p s' →
      Reach s' (if p = 0 then L else insert p L)
  | calloc (s s' : State) (L : Set Nat) (fuel c n p : Nat) :
      Reach s L → c * n < 2147483648 → mm_calloc fuel s c n = Res.ok p s' →
      Reach s' (if p = 0 then L else insert p L)
  | realloc (s s' : State) (L : Set Nat) (fuel p n q : Nat) :
      Reach s L → (p = 0 ∨ p ∈ L) → n < 2147483648 →
      mm_realloc fuel s p n = Res.ok q s' →
      Reach s' (if n = 0 then L \ {p} else if q = 0 then L else insert q (L \ {p}))
  | free (s s' : State) (L : Set Nat) (fuel p : Nat) :
      Reach s L → (p = 0 ∨ p ∈ L) → mm_free fuel s p = Res.ok () s' →
      Reach s' (L \ {p})
  | store (s : State) (L : Set Nat) (p i v : Nat) :
      Reach s L → p ∈ L → i + 8 < GET_SIZE s.mem (p - 4) →
      Reach { s with mem := storeByte s.mem (p + i) v } L

/-- The two stores of `mm_free(ptr)` on the block `bp = ptr - WSIZE`, before it calls
`coalesce(bp)`: header and footer are rewritten with the allocated bit clear. -/
def freeMark (s : State) (bp : Nat) : State :=
  let m1 := PUT s.mem bp (PACK (GET_SIZE s.mem bp) 0)
  { s with mem := PUT m1 (bp + GET_SIZE m1 bp - 4) (PACK (GET_SIZE m1 bp) 0) }

/-- The block format of the heap of `s`: the walk `blockAt` from the sentinel reaches
the end of the region `brk` exactly, after `K` blocks, and each of these blocks lies in
the region at an address congruent to 4 modulo 8, has a size that is a multiple of 8 and
at least 24, and has a footer word (at `block + size - 4`) equal to its header word. -/
def BlockFormat (s : State) : Prop :=
  ∃ K, 0 < K ∧ blockAt s.mem s.heap_listp K = s.brk ∧
    ∀ k, k < K →
      s.heap_listp ≤ blockAt s.mem s.heap_listp k ∧ blockAt s.mem s.heap_listp k < s.brk ∧
      blockAt s.mem s.heap_listp k % 8 = 4 ∧
      24 ≤ GET_SIZE s.mem (blockAt s.mem s.heap_listp k) ∧
      GET_SIZE s.mem (blockAt s.mem s.heap_listp k) % 8 = 0 ∧
      GET s.mem (blockAt s.mem s.heap_listp k +
        GET_SIZE s.mem (blockAt s.mem s.heap_listp k) - 4) =
        GET s.mem (blockAt s.mem s.heap_listp k)

/-- The states reachable from `mm_init()` by allocator calls whose request sizes do not
wrap in the size adjustment of `mm_malloc`: `n + 15 < 2^64` (for `mm_calloc` the
product `nmemb * size` is taken modulo `2^64`, as the code computes it).  Otherwise as
`Reach`: a call is a step when it returns, `mm_free` and `mm_realloc` are applied to the
null pointer or to a currently allocated pointer, and the client may store into the
payload of a block it holds. -/
inductive ReachW : State → Set Nat → Prop
  | init (s0 s : State) (fuel : Nat) (r : Int) :
      Fresh s0 → mm_init fuel s0 = Res.ok r s → ReachW s ∅
  | malloc (s s' : State) (L : Set Nat) (fuel n p : Nat) :
      ReachW s L → n + 15 < 18446744073709551616 → mm_malloc fuel s n = Res.ok p s' →
      ReachW s' (if p = 0 then L else insert p L)
  | calloc (s s' : State) (L : Set Nat) (fuel c n p : Nat) :
      ReachW s L → c * n % 18446744073709551616 + 15 < 18446744073709551616 →
      mm_calloc fuel s c n = Res.ok p s' →
      ReachW s' (if p = 0 then L else insert p L)
  | realloc (s s' : State) (L : Set Nat) (fuel p n q : Nat) :
      ReachW s L → (p = 0 ∨ p ∈ L) → n + 15 < 18446744073709551616 →
      mm_realloc fuel s p n = Res.ok q s' →
      ReachW s' (if n = 0 then L \ {p} else if q = 0 then L else insert q (L \ {p}))
  | free (s s' : State) (L : Set Nat) (fuel p : Nat) :
      ReachW s L → (p = 0 ∨ p ∈ L) → mm_free fuel s p = Res.ok () s' →
      ReachW s' (L \ {p})
  | store (s : State) (L : Set Nat) (p i v : Nat) :
      ReachW s L → p ∈ L → i + 8 < GET_SIZE s.mem (p - 4) →
      ReachW { s with mem := storeByte s.mem (p + i) v } L

/-- The state after the call `mm_malloc(2^64 - 1)` in `initState 100000`. -/
def wrapState : State :=
  (mm_malloc 8 (initState 100000) 18446744073709551615).stateOr (initState 100000)

/-- The state `mm_init()` leaves in an empty region at `2^31`. -/
def highInit : State :=
  (mm_init 8 (freshState 2147483648 2147583648)).stateOr (freshState 2147483648 2147583648)

/-- The state after `p1 = mm_malloc(100)` and `p2 = mm_malloc(100)` in `highInit`. -/
def highTwo : State :=
  let s2 := (mm_malloc 8 highInit 100).stateOr highInit
  (mm_malloc 8 s2 100).stateOr s2

/-- The state after `mm_free(p1)` in `highTwo`, with `p1 = 2^31 + 32`. -/
def highFreed : State := (mm_free 8 highTwo 2147483680).stateOr highTwo

/-! # Theorems -/

/-! ## Degenerate calls -/

theorem lazyInit_of_ne_zero (fuel : Nat) (s : State) (h : s.heap_listp ≠ 0) :
    lazyInit fuel s = Res.ok () s := by
  simp [lazyInit, h]

/-- C8 (as stated, refuted): in the state before any initialisation `mm_malloc(0)`
returns NULL but does not leave the state unchanged: the guard
`if (heap_listp == 0) mm_init();` runs first, so the region has grown from empty to
`28 + 4096` bytes and `heap_listp` is no longer `0`. -/
theorem mm_malloc_zero_uninit_changes :
    (mm_malloc 8 (freshState 4096 100000) 0).valOr 1 = 0 ∧
    (freshState 4096 100000).heap_listp = 0 ∧
    (freshState 4096 100000).brk = 4096 ∧
    ((mm_malloc 8 (freshState 4096 100000) 0).stateOr (freshState 4096 100000)).heap_listp = 4100 ∧
    ((mm_malloc 8 (freshState 4096 100000) 0).stateOr (freshState 4096 100000)).brk = 8220 := by
  decide

/-- C8 (amended): in every state in which the heap is initialised (`heap_listp ≠ 0`),
`mm_malloc(0)` returns NULL and the state after the call (memory, region bounds,
`heap_listp`, `heap_hi`) is the state before it. -/
theorem mm_malloc_zero (fuel : Nat) (s : State) (hinit : s.heap_listp ≠ 0) :
    mm_malloc fuel s 0 = Res.ok 0 s := by
  simp [mm_malloc, lazyInit_of_ne_zero fuel s hinit]

theorem mm_malloc_zero_witness :
    (initState 100000).heap_listp ≠ 0 ∧
      mm_malloc 8 (initState 100000) 0 = Res.ok 0 (initState 100000) :=
  ⟨by decide, mm_malloc_zero 8 (initState 100000) (by decide)⟩

/-- In an initialised state `mm_free` returns, whatever the fuel: it has no loop. -/
theorem mm_free_returns (fuel : Nat) (s : State) (ptr : Nat) (hinit : s.heap_listp ≠ 0) :
    ∃ s1, mm_free fuel s ptr = Res.ok () s1 := by
  unfold mm_free
  simp only [lazyInit_of_ne_zero fuel s hinit]
  split_ifs <;> exact ⟨_, rfl⟩

/-- C9: in every initialised state, (a) `mm_realloc(p, 0)` returns NULL and leaves
exactly the state that `mm_free(p)` leaves from the same state (and `mm_free(p)` does
return); (b) for `n > 0`, `mm_realloc(NULL, n)` is `mm_malloc(n)`: same outcome, same
pointer, same state. -/
theorem mm_realloc_degenerate (fuel : Nat) (s : State) (p n : Nat)
    (hinit : s.heap_listp ≠ 0) (hn : 0 < n) :
    (∃ s1, mm_free fuel s p = Res.ok () s1 ∧ mm_realloc fuel s p 0 = Res.ok 0 s1) ∧
    mm_realloc fuel s 0 n = mm_malloc fuel s n := by
  constructor
  · obtain ⟨s1, h1⟩ := mm_free_returns fuel s p hinit
    refine ⟨s1, h1, ?_⟩
    simp [mm_realloc, h1]
  · have hn0 : n ≠ 0 := Nat.pos_iff_ne_zero.mp hn
    simp [mm_realloc, hn0]

theorem mm_realloc_degenerate_witness :
    acFreed.heap_listp ≠ 0 ∧ 0 < 40 ∧
    (∃ s1, mm_free 8 acFreed 4152 = Res.ok () s1 ∧ mm_realloc 8 acFreed 4152 0 = Res.ok 0 s1) ∧
    mm_realloc 8 acFreed 0 40 = mm_malloc 8 acFreed 40 :=
  ⟨by decide, by decide, mm_realloc_degenerate 8 acFreed 4152 40 (by decide) (by decide)⟩

/-- C10: in every initialised state `mm_free(NULL)` and `mm_free(heap_listp + 4)`
(the sentinel's payload pointer) return with the state unchanged: no byte of memory,
no bound and no global is written. -/
theorem mm_free_null_sentinel (fuel : Nat) (s : State) (hinit : s.heap_listp ≠ 0) :
    mm_free fuel s 0 = Res.ok () s ∧ mm_free fuel s (s.heap_listp + 4) = Res.ok () s := by
  constructor
  · simp [mm_free]
  · simp [mm_free, lazyInit_of_ne_zero fuel s hinit, hinit]

theorem mm_free_null_sentinel_witness :
    acFreed.heap_listp ≠ 0 ∧ mm_free 8 acFreed 0 = Res.ok () acFreed ∧
      mm_free 8 acFreed (acFreed.heap_listp + 4) = Res.ok () acFreed :=
  ⟨by decide, mm_free_null_sentinel 8 acFreed (by decide)⟩

/-! ## Out of memory -/

theorem fitLoop_no_fit (m : Mem) (size : Nat) :
    ∀ (l : List Nat) (bp fuel : Nat), Walk m bp l →
      (∀ b ∈ l, ¬ (GET_ALLOC m b = 0 ∧ size ≤ sext32 (GET_SIZE m b))) →
      l.length < fuel → fitLoop m size fuel bp = some 0 := by
  intro l
  induction l with
  | nil =>
    intro bp fuel hw _ hf
    obtain ⟨k, rfl⟩ : ∃ k, fuel = k + 1 := ⟨fuel - 1, by simp at hf; omega⟩
    unfold Walk at hw
    have : ¬ (bp ≠ 0 ∧ GET_SIZE m bp > 1) := by
      rcases hw with h | h
      · simp [h]
      · intro hc; omega
    simp only [fitLoop, this, if_false]
  | cons b l ih =>
    intro bp fuel hw hno hf
    obtain ⟨k, rfl⟩ : ∃ k, fuel = k + 1 := ⟨fuel - 1, by simp at hf; omega⟩
    unfold Walk at hw
    obtain ⟨rfl, hne, hsz, hrest⟩ := hw
    have h1 : bp ≠ 0 ∧ GET_SIZE m bp > 1 := ⟨hne, hsz⟩
    have h2 := hno bp (List.mem_cons_self _ _)
    rw [fitLoop, if_pos h1, if_neg h2]
    exact ih _ k hrest (fun b hb => hno b (List.mem_cons_of_mem _ hb))
      (by simp at hf; omega)

theorem sext32_of_lt (u : Nat) (h : u < 2147483648) : sext32 u = u := by
  unfold sext32
  have : u % 4294967296 = u := Nat.mod_eq_of_lt (by omega)
  simp [this, h]

/-- When the list walk meets no block that fits and the growth primitive refuses the
extension, `mm_malloc(n)` and `mm_realloc(p, n)` return NULL and leave the state as it
was: `fit` writes nothing, and `extend_heap` returns before its first write. -/
theorem no_fit_no_growth_null (s : State) (n p : Nat) (fl : List Nat) (fuel : Nat)
    (hinit : s.heap_listp ≠ 0) (hn : 0 < n)
    (hwalk : Walk s.mem s.heap_listp (s.heap_listp :: fl))
    (hsent : GET_ALLOC s.mem s.heap_listp ≠ 0)
    (hsmall : ∀ b ∈ fl, GET_SIZE s.mem b < 2147483648 ∧ GET_SIZE s.mem b < adjust n)
    (hgrow : mem_sbrk s (extendBytes (max (adjust n) 4096 / 4)) = none)
    (hfuel : fl.length + 1 < fuel) :
    mm_malloc fuel s n = Res.ok 0 s ∧ mm_realloc fuel s p n = Res.ok 0 s := by
  have hn0 : n ≠ 0 := Nat.pos_iff_ne_zero.mp hn
  have hfit : fit fuel s (adjust n) = some 0 := by
    unfold fit
    apply fitLoop_no_fit s.mem (adjust n) (s.heap_listp :: fl) _ _ hwalk
    · intro b hb
      rcases List.mem_cons.mp hb with rfl | hb
      · intro hc; exact hsent hc.1
      · obtain ⟨h31, hlt⟩ := hsmall b hb
        rw [sext32_of_lt _ h31]
        intro hc; omega
    · simpa using hfuel
  have hmal : mm_malloc fuel s n = Res.ok 0 s := by
    simp [mm_malloc, lazyInit_of_ne_zero fuel s hinit, hn0, hfit, extend_heap, hgrow]
  refine ⟨hmal, ?_⟩
  unfold mm_realloc
  simp only [hn0, if_false, hmal]
  split_ifs <;> rfl

/-- C6 (the code at the failing input): in the initialised state whose region cannot
grow, `mm_malloc(5000)` finds no fit and returns NULL with the state unchanged, and
`mm_calloc(1, 5000)` then runs `bzero(NULL, 5000)`: it does not return NULL, it traps
on the write through the null pointer. -/
theorem mm_calloc_out_of_memory_faults :
    mm_malloc 8 (initState 8220) 5000 = Res.ok 0 (initState 8220) ∧
    bzero (initState 8220).mem 0 5000 = none ∧
    (mm_calloc 8 (initState 8220) 1 5000).faulted = true ∧
    (mm_calloc 8 (initState 8220) 1 5000).returned = false := by
  refine ⟨?_, by simp [bzero], by decide, by decide⟩
  exact (no_fit_no_growth_null (initState 8220) 5000 4128 [4124] 8
      (by decide) (by decide) (by decide) (by decide) (by decide)
      (by rw [mem_sbrk, if_neg (by decide)]) (by decide)).1

/-! ## The order of the branches of `coalesce` -/

/-- C4 (the code at the failing input): with `a`, `b`, `c` at `4124`, `4148`, `4172`
(24 bytes each) and `a`, `c` already free, `coalesce(b)` sees both flags `H` and `L`
set, takes the branch `if(H)` and returns `b`: the block at `a` keeps its header and
footer of size 24, the merged block of size 48 starts at `b` and is the list head,
and `a` is still a separate list member (the forward link of `b`). -/
theorem coalesce_both_free_takes_H :
    flagL bMarked.mem 4148 = true ∧ flagH bMarked.mem bMarked.heap_hi 4148 = true ∧
    (coalesce bMarked 4148).1 = 4148 ∧
    (coalesce bMarked 4148).2.mem = coalesceH bMarked.mem bMarked.heap_listp 4148 ∧
    GET abcFreed.mem 4124 = 24 ∧ GET abcFreed.mem (4124 + 24 - 4) = 24 ∧
    GET abcFreed.mem 4148 = 48 ∧ GET abcFreed.mem (4148 + 48 - 4) = 48 ∧
    getLink abcFreed.mem (abcFreed.heap_listp + 12) = 4148 ∧
    getLink abcFreed.mem (4148 + 12) = 4124 := by
  refine ⟨by decide, by decide, by decide, ?_, by decide, by decide, by decide, by decide,
    by decide, by decide⟩
  have hL : flagL bMarked.mem 4148 = true := by decide
  have hH : flagH bMarked.mem bMarked.heap_hi 4148 = true := by decide
  have h0 : ¬ (GET bMarked.mem 4148 &&& 1 ≠ 0) := by decide
  unfold coalesce
  rw [if_neg h0]
  simp [hL, hH]

set_option maxRecDepth 100000 in
/-- C3 (the code at the failing input): from the state reached by `a`, `b`, `c`,
`d = mm_malloc(16)` and `mm_free(a)`, `mm_free(c)`, `mm_free(b)`, the call
`p = mm_malloc(40)` returns `4152`; after `mm_free(p)` the very next `mm_malloc(40)`
returns `4128`, a different address. -/
theorem exact_fit_reuse_fails :
    (mm_malloc 8 abcFreed 40).valOr 0 = 4152 ∧
    (mm_free 8 ((mm_malloc 8 abcFreed 40).stateOr abcFreed) 4152).returned = true ∧
    (mm_malloc 8 ((mm_free 8 ((mm_malloc 8 abcFreed 40).stateOr abcFreed) 4152).stateOr
      abcFreed) 40).valOr 0 = 4128 := by
  decide

/-! ## Words -/

theorem GET_lt (m : Mem) (p : Nat) : GET m p < 4294967296 := by
  unfold GET; omega

theorem GET_congr (m m' : Mem) (q : Nat)
    (h : ∀ x, q ≤ x → x < q + 4 → m'.byte x = m.byte x) : GET m' q = GET m q := by
  unfold GET
  rw [h q (by omega) (by omega), h (q + 1) (by omega) (by omega),
    h (q + 2) (by omega) (by omega), h (q + 3) (by omega) (by omega)]

theorem PUT_byte_out (m : Mem) (p v x : Nat) (h : x < p ∨ p + 4 ≤ x) :
    (PUT m p v).byte x = m.byte x := by
  unfold PUT
  simp only
  rw [if_neg (by omega), if_neg (by omega), if_neg (by omega), if_neg (by omega)]

theorem GET_PUT_same (m : Mem) (p v : Nat) : GET (PUT m p v) p = v % 4294967296 := by
  have e0 : (PUT m p v).byte p = v % 256 := by
    unfold PUT; simp
  have e1 : (PUT m p v).byte (p + 1) = v / 256 % 256 := by
    unfold PUT; simp
  have e2 : (PUT m p v).byte (p + 2) = v / 65536 % 256 := by
    unfold PUT; simp
  have e3 : (PUT m p v).byte (p + 3) = v / 16777216 % 256 := by
    unfold PUT; simp
  unfold GET
  rw [e0, e1, e2, e3]
  omega

theorem GET_PUT_sep (m : Mem) (p v q : Nat) (h : q + 4 ≤ p ∨ p + 4 ≤ q) :
    GET (PUT m p v) q = GET m q :=
  GET_congr _ _ _ (fun x h1 h2 => PUT_byte_out m p v x (by omega))

theorem SIZE_eq (w : Nat) (h : w < 4294967296) : SIZE w = w - w % 2 := by
  unfold SIZE
  have h1 : (w &&& 0xFFFFFFFE) / 2 = w / 2 := by
    rw [Nat.and_div_two]
    have : (0xFFFFFFFE : Nat) / 2 = 2 ^ 31 - 1 := by norm_num
    rw [this, Nat.and_pow_two_sub_one_eq_mod]
    exact Nat.mod_eq_of_lt (by omega)
  have h2 : (w &&& 0xFFFFFFFE) % 2 ≠ 1 := by
    rw [Ne, Nat.and_mod_two_eq_one]
    intro hc
    exact absurd hc.2 (by norm_num)
  omega

theorem ALLOC_eq (w : Nat) : ALLOC w = w % 2 := Nat.and_one_is_mod w

theorem PACK_zero (s : Nat) : PACK s 0 = s := by simp [PACK]

theorem PACK_one (s : Nat) (h : s % 2 = 0) : PACK s 1 = s + 1 := by
  unfold PACK
  have h1 : (s ||| 1) / 2 = s / 2 := by
    rw [Nat.or_div_two]; simp
  have h2 : (s ||| 1) % 2 = 1 := by
    rw [Nat.or_mod_two_eq_one]; right; rfl
  omega

theorem addrSplit_lo (p : Nat) (h : p < 4294967296) : addrSplit p 0 = p := by
  unfold addrSplit
  rw [if_pos rfl]
  have : (0xFFFFFFFF : Nat) = 2 ^ 32 - 1 := by norm_num
  rw [this, Nat.and_pow_two_sub_one_eq_mod]
  exact Nat.mod_eq_of_lt (by omega)

theorem addrSplit_hi (p : Nat) (h : p < 4294967296) : addrSplit p 1 = 0 := by
  unfold addrSplit
  rw [if_neg (by omega)]
  apply Nat.eq_of_testBit_eq
  intro i
  rw [Nat.testBit_shiftRight, Nat.testBit_and]
  have : p.testBit (32 + i) = false := by
    apply Nat.testBit_lt_two_pow
    calc p < 2 ^ 32 := by omega
      _ ≤ 2 ^ (32 + i) := Nat.pow_le_pow_right (by omega) (by omega)
  simp [this]

theorem addrPair_small (a : Nat) (h : a < 2147483648) : addrPair a 0 = a := by
  unfold addrPair
  rw [sext32_of_lt a h, sext32_of_lt 0 (by omega)]
  simp

theorem GET_SIZE_lt (m : Mem) (p : Nat) : GET_SIZE m p < 4294967296 := by
  unfold GET_SIZE
  rw [SIZE_eq _ (GET_lt m p)]
  have := GET_lt m p
  omega

/-! ## Links -/

theorem getLink_congr (m m' : Mem) (a : Nat)
    (h : ∀ x, a ≤ x → x < a + 8 → m'.byte x = m.byte x) : getLink m' a = getLink m a := by
  unfold getLink
  rw [GET_congr m m' a (fun x h1 h2 => h x h1 (by omega)),
    GET_congr m m' (a + 4) (fun x h1 h2 => h x (by omega) (by omega))]

theorem putLink_byte_out (m : Mem) (a p x : Nat) (h : x < a ∨ a + 8 ≤ x) :
    (putLink m a p).byte x = m.byte x := by
  unfold putLink
  rw [PUT_byte_out _ _ _ _ (by omega), PUT_byte_out _ _ _ _ (by omega)]

theorem copyLink_byte_out (m : Mem) (d s x : Nat) (h : x < d ∨ d + 8 ≤ x) :
    (copyLink m d s).byte x = m.byte x := by
  unfold copyLink
  simp only
  rw [PUT_byte_out _ _ _ _ (by omega), PUT_byte_out _ _ _ _ (by omega)]

theorem GET_putLink_sep (m : Mem) (a p q : Nat) (h : q + 4 ≤ a ∨ a + 8 ≤ q) :
    GET (putLink m a p) q = GET m q :=
  GET_congr _ _ _ (fun x _ _ => putLink_byte_out m a p x (by omega))

theorem GET_copyLink_sep (m : Mem) (d s q : Nat) (h : q + 4 ≤ d ∨ d + 8 ≤ q) :
    GET (copyLink m d s) q = GET m q :=
  GET_congr _ _ _ (fun x _ _ => copyLink_byte_out m d s x (by omega))

theorem getLink_PUT_sep (m : Mem) (p v b : Nat) (h : b + 8 ≤ p ∨ p + 4 ≤ b) :
    getLink (PUT m p v) b = getLink m b :=
  getLink_congr _ _ _ (fun x _ _ => PUT_byte_out m p v x (by omega))

theorem getLink_putLink_sep (m : Mem) (a p b : Nat) (h : b + 8 ≤ a ∨ a + 8 ≤ b) :
    getLink (putLink m a p) b = getLink m b :=
  getLink_congr _ _ _ (fun x _ _ => putLink_byte_out m a p x (by omega))

theorem getLink_copyLink_sep (m : Mem) (d s b : Nat) (h : b + 8 ≤ d ∨ d + 8 ≤ b) :
    getLink (copyLink m d s) b = getLink m b :=
  getLink_congr _ _ _ (fun x _ _ => copyLink_byte_out m d s x (by omega))

theorem getLink_putLink_same (m : Mem) (a p : Nat) (h : p < 2147483648) :
    getLink (putLink m a p) a = p := by
  unfold getLink putLink
  rw [GET_PUT_sep _ _ _ _ (by omega), GET_PUT_same, GET_PUT_same,
    addrSplit_lo p (by omega), addrSplit_hi p (by omega),
    Nat.mod_eq_of_lt (by omega : p < 4294967296), Nat.zero_mod]
  exact addrPair_small p h

theorem getLink_copyLink_same (m : Mem) (d s : Nat) (h : d + 8 ≤ s ∨ s + 8 ≤ d) :
    getLink (copyLink m d s) d = getLink m s := by
  unfold getLink copyLink
  simp only
  rw [GET_PUT_sep _ _ _ d (by omega), GET_PUT_same, GET_PUT_same,
    GET_PUT_sep _ _ _ (s + 4) (by omega),
    Nat.mod_eq_of_lt (GET_lt m s), Nat.mod_eq_of_lt (GET_lt m (s + 4))]

/-! ## Boundary tags -/

theorem SIZE_even (s : Nat) (h : s < 4294967296) (he : s % 2 = 0) : SIZE s = s := by
  rw [SIZE_eq s h]; omega

theorem SIZE_odd (s : Nat) (h : s + 1 < 4294967296) (he : s % 2 = 0) : SIZE (s + 1) = s := by
  rw [SIZE_eq _ h]; omega

theorem GET_SIZE_eq (m : Mem) (p : Nat) : GET_SIZE m p = GET m p - GET m p % 2 := by
  unfold GET_SIZE; exact SIZE_eq _ (GET_lt m p)

theorem GET_ALLOC_eq (m : Mem) (p : Nat) : GET_ALLOC m p = GET m p % 2 := by
  unfold GET_ALLOC; exact ALLOC_eq _

theorem GET_eq_size_add_alloc (m : Mem) (p : Nat) :
    GET m p = GET_SIZE m p + GET_ALLOC m p := by
  rw [GET_SIZE_eq, GET_ALLOC_eq]; omega

theorem GET_SIZE_congr (m m' : Mem) (p : Nat) (h : GET m' p = GET m p) :
    GET_SIZE m' p = GET_SIZE m p := by
  unfold GET_SIZE; rw [h]

theorem GET_ALLOC_congr (m m' : Mem) (p : Nat) (h : GET m' p = GET m p) :
    GET_ALLOC m' p = GET_ALLOC m p := by
  unfold GET_ALLOC; rw [h]

/-! ## Library calls -/

theorem memset_byte_out (m : Mem) (p c n x : Nat) (h : x < p ∨ p + n ≤ x) :
    (memset m p c n).byte x = m.byte x := by
  unfold memset
  simp only
  rw [if_neg (by omega)]

theorem memset_byte_in (m : Mem) (p c n x : Nat) (h1 : p ≤ x) (h2 : x < p + n) :
    (memset m p c n).byte x = c % 256 := by
  unfold memset
  simp only
  rw [if_pos ⟨h1, h2⟩]

theorem memcpy_byte_out (m : Mem) (d s n x : Nat) (h : x < d ∨ d + n ≤ x) :
    (memcpy m d s n).byte x = m.byte x := by
  unfold memcpy
  simp only
  rw [if_neg (by omega)]

theorem memcpy_byte_in (m : Mem) (d s n i : Nat) (h : i < n) :
    (memcpy m d s n).byte (d + i) = m.byte (s + i) := by
  unfold memcpy
  simp only
  rw [if_pos ⟨by omega, by omega⟩]
  congr 1
  omega

/-! ## Lists of links -/

theorem Chain_congr (m m' : Mem) : ∀ (l : List Nat) (prev : Nat), Chain m prev l →
    (∀ x ∈ prev :: l, getLink m' (x + 12) = getLink m (x + 12)) →
    (∀ x ∈ l, getLink m' (x + 4) = getLink m (x + 4)) → Chain m' prev l := by
  intro l
  induction l with
  | nil =>
    intro prev h hf _
    unfold Chain at h ⊢
    rw [hf prev (List.mem_cons_self _ _)]; exact h
  | cons b l ih =>
    intro prev h hf hb
    unfold Chain at h ⊢
    obtain ⟨h1, h2, h3⟩ := h
    refine ⟨?_, ?_, ?_⟩
    · rw [hf prev (List.mem_cons_self _ _)]; exact h1
    · rw [hb b (List.mem_cons_self _ _)]; exact h2
    · exact ih b h3 (fun x hx => hf x (List.mem_cons_of_mem _ hx))
        (fun x hx => hb x (List.mem_cons_of_mem _ hx))

/-- Back link of a member: the element before it. -/
theorem Chain_back_mem (m : Mem) : ∀ (l : List Nat) (prev b : Nat), Chain m prev l →
    b ∈ l → getLink m (b + 4) ∈ prev :: l := by
  intro l
  induction l with
  | nil => intro prev b _ hb; simp at hb
  | cons c l ih =>
    intro prev b h hb
    unfold Chain at h
    obtain ⟨_, h2, h3⟩ := h
    rcases List.mem_cons.mp hb with rfl | hb
    · rw [h2]; exact List.mem_cons_self _ _
    · exact List.mem_cons_of_mem _ (ih c b h3 hb)

/-- Forward link of the anchor or of a member: null or a member. -/
theorem Chain_fwd_mem (m : Mem) : ∀ (l : List Nat) (prev b : Nat), Chain m prev l →
    b ∈ prev :: l → getLink m (b + 12) = 0 ∨ getLink m (b + 12) ∈ l := by
  intro l
  induction l with
  | nil =>
    intro prev b h hb
    unfold Chain at h
    simp at hb
    left; rw [hb]; exact h
  | cons c l ih =>
    intro prev b h hb
    unfold Chain at h
    obtain ⟨h1, _, h3⟩ := h
    rcases List.mem_cons.mp hb with rfl | hb
    · right; rw [h1]; exact List.mem_cons_self _ _
    · rcases ih c b h3 hb with h | h
      · left; exact h
      · right; exact List.mem_cons_of_mem _ h

theorem Chain_fwd_mid (m : Mem) (b : Nat) (l2 : List Nat) :
    ∀ (l1 : List Nat) (q : Nat), Chain m q (l1 ++ b :: l2) →
      getLink m (b + 12) = 0 ∨ getLink m (b + 12) ∈ l2 := by
  intro l1
  induction l1 with
  | nil =>
    intro q hq
    simp only [List.nil_append] at hq
    unfold Chain at hq
    exact Chain_fwd_mem m l2 b b hq.2.2 (List.mem_cons_self _ _)
  | cons c l1 ih2 =>
    intro q hq
    simp only [List.cons_append] at hq
    unfold Chain at hq
    exact ih2 c hq.2.2

theorem Chain_back_mid (m : Mem) (b : Nat) (l2 : List Nat) :
    ∀ (l1 : List Nat) (q : Nat), Chain m q (l1 ++ b :: l2) →
      getLink m (b + 4) ∈ q :: l1 := by
  intro l1
  induction l1 with
  | nil =>
    intro q hq
    simp only [List.nil_append] at hq
    unfold Chain at hq
    rw [hq.2.1]; exact List.mem_cons_self _ _
  | cons c l1 ih2 =>
    intro q hq
    simp only [List.cons_append] at hq
    unfold Chain at hq
    exact List.mem_cons_of_mem _ (ih2 c hq.2.2)

theorem Chain_unlink (m m' : Mem) (b : Nat) (l2 : List Nat) :
    ∀ (l1 : List Nat) (prev : Nat), Chain m prev (l1 ++ b :: l2) →
    (prev :: (l1 ++ b :: l2)).Nodup → (∀ x ∈ l1 ++ b :: l2, x ≠ 0) →
    getLink m' (getLink m (b + 4) + 12) = getLink m (b + 12) →
    (getLink m (b + 12) ≠ 0 → getLink m' (getLink m (b + 12) + 4) = getLink m (b + 4)) →
    (∀ x ∈ prev :: (l1 ++ l2), x ≠ getLink m (b + 4) →
      getLink m' (x + 12) = getLink m (x + 12)) →
    (∀ x ∈ l1 ++ l2, x ≠ getLink m (b + 12) → getLink m' (x + 4) = getLink m (x + 4)) →
    Chain m' prev (l1 ++ l2) := by
  intro l1
  induction l1 with
  | nil =>
    intro prev h hnd hnz h1 h2 h3 h4
    simp only [List.nil_append] at h hnd h3 h4 ⊢
    unfold Chain at h
    obtain ⟨_, hb, hc⟩ := h
    rw [hb] at h1 h2 h3
    cases l2 with
    | nil =>
      unfold Chain at hc ⊢
      rw [h1]; exact hc
    | cons n t =>
      unfold Chain at hc ⊢
      obtain ⟨hn, _, ht⟩ := hc
      rw [hn] at h1 h2 h4
      have hn0 : n ≠ 0 := hnz n (by simp)
      have hnd' := hnd
      simp only [List.nodup_cons, List.mem_cons, not_or] at hnd'
      refine ⟨h1, h2 hn0, ?_⟩
      apply Chain_congr m m' t n ht
      · intro x hx
        apply h3 x (List.mem_cons_of_mem _ hx)
        rintro rfl
        rcases List.mem_cons.mp hx with rfl | hx
        · exact hnd'.1.2.1 rfl
        · exact hnd'.1.2.2 hx
      · intro x hx
        apply h4 x (List.mem_cons_of_mem _ hx)
        rintro rfl
        exact hnd'.2.2.1 hx
  | cons a l1 ih =>
    intro prev h hnd hnz h1 h2 h3 h4
    simp only [List.cons_append] at h hnd h3 h4 ⊢
    unfold Chain at h ⊢
    obtain ⟨ha, hba, hc⟩ := h
    have hnd2 : (a :: (l1 ++ b :: l2)).Nodup := (List.nodup_cons.mp hnd).2
    have hback : getLink m (b + 4) ∈ a :: (l1 ++ b :: l2) :=
      Chain_back_mem m _ a b hc (by simp)
    have hfwd : getLink m (b + 12) = 0 ∨ getLink m (b + 12) ∈ l2 :=
      Chain_fwd_mid m b l2 l1 a hc
    refine ⟨?_, ?_, ?_⟩
    · rw [h3 prev (List.mem_cons_self _ _)]
      · exact ha
      · intro he
        rw [← he] at hback
        exact (List.nodup_cons.mp hnd).1 hback
    · rw [h4 a (List.mem_cons_self _ _)]
      · exact hba
      · intro he
        rcases hfwd with h0 | hm
        · exact hnz a (by simp) (he.trans h0)
        · rw [← he] at hm
          have := (List.nodup_cons.mp hnd2).1
          exact this (by simp [hm])
    · exact ih a hc hnd2 (fun x hx => hnz x (List.mem_cons_of_mem _ hx)) h1 h2
        (fun x hx => h3 x (List.mem_cons_of_mem _ hx))
        (fun x hx => h4 x (List.mem_cons_of_mem _ hx))

theorem Chain_replace (m m' : Mem) (b b2 : Nat) (l2 : List Nat) :
    ∀ (l1 : List Nat) (prev : Nat), Chain m prev (l1 ++ b :: l2) →
    (prev :: (l1 ++ b :: l2)).Nodup → (∀ x ∈ l1 ++ b :: l2, x ≠ 0) →
    getLink m' (getLink m (b + 4) + 12) = b2 →
    getLink m' (b2 + 4) = getLink m (b + 4) →
    getLink m' (b2 + 12) = getLink m (b + 12) →
    (getLink m (b + 12) ≠ 0 → getLink m' (getLink m (b + 12) + 4) = b2) →
    (∀ x ∈ prev :: (l1 ++ l2), x ≠ getLink m (b + 4) →
      getLink m' (x + 12) = getLink m (x + 12)) →
    (∀ x ∈ l1 ++ l2, x ≠ getLink m (b + 12) → getLink m' (x + 4) = getLink m (x + 4)) →
    Chain m' prev (l1 ++ b2 :: l2) := by
  intro l1
  induction l1 with
  | nil =>
    intro prev h hnd hnz h1 hb2 hf2 h2 h3 h4
    simp only [List.nil_append] at h hnd h3 h4 ⊢
    unfold Chain at h
    obtain ⟨_, hb, hc⟩ := h
    rw [hb] at h1 hb2 h3
    unfold Chain
    refine ⟨h1, hb2, ?_⟩
    cases l2 with
    | nil =>
      unfold Chain at hc ⊢
      rw [hf2]; exact hc
    | cons n t =>
      unfold Chain at hc ⊢
      obtain ⟨hn, _, ht⟩ := hc
      rw [hn] at hf2 h2 h4
      have hn0 : n ≠ 0 := hnz n (by simp)
      have hnd' := hnd
      simp only [List.nodup_cons, List.mem_cons, not_or] at hnd'
      refine ⟨hf2, h2 hn0, ?_⟩
      apply Chain_congr m m' t n ht
      · intro x hx
        apply h3 x (List.mem_cons_of_mem _ hx)
        rintro rfl
        rcases List.mem_cons.mp hx with rfl | hx
        · exact hnd'.1.2.1 rfl
        · exact hnd'.1.2.2 hx
      · intro x hx
        apply h4 x (List.mem_cons_of_mem _ hx)
        rintro rfl
        exact hnd'.2.2.1 hx
  | cons a l1 ih =>
    intro prev h hnd hnz h1 hb2 hf2 h2 h3 h4
    simp only [List.cons_append] at h hnd h3 h4 ⊢
    unfold Chain at h ⊢
    obtain ⟨ha, hba, hc⟩ := h
    have hnd2 : (a :: (l1 ++ b :: l2)).Nodup := (List.nodup_cons.mp hnd).2
    have hback : getLink m (b + 4) ∈ a :: (l1 ++ b :: l2) :=
      Chain_back_mem m _ a b hc (by simp)
    have hfwd : getLink m (b + 12) = 0 ∨ getLink m (b + 12) ∈ l2 :=
      Chain_fwd_mid m b l2 l1 a hc
    refine ⟨?_, ?_, ?_⟩
    · rw [h3 prev (List.mem_cons_self _ _)]
      · exact ha
      · intro he
        rw [← he] at hback
        exact (List.nodup_cons.mp hnd).1 hback
    · rw [h4 a (List.mem_cons_self _ _)]
      · exact hba
      · intro he
        rcases hfwd with h0 | hm
        · exact hnz a (by simp) (he.trans h0)
        · rw [← he] at hm
          have := (List.nodup_cons.mp hnd2).1
          exact this (by simp [hm])
    · exact ih a hc hnd2 (fun x hx => hnz x (List.mem_cons_of_mem _ hx)) h1 hb2 hf2 h2
        (fun x hx => h3 x (List.mem_cons_of_mem _ hx))
        (fun x hx => h4 x (List.mem_cons_of_mem _ hx))

theorem Chain_insert (m m' : Mem) (root b : Nat) (l : List Nat)
    (h : Chain m root l) (hnd : l.Nodup) (hnz : ∀ x ∈ l, x ≠ 0)
    (h1 : getLink m' (root + 12) = b) (h2 : getLink m' (b + 4) = root)
    (h3 : getLink m' (b + 12) = getLink m (root + 12))
    (h4 : getLink m (root + 12) ≠ 0 → getLink m' (getLink m (root + 12) + 4) = b)
    (h5 : ∀ x ∈ l, getLink m' (x + 12) = getLink m (x + 12))
    (h6 : ∀ x ∈ l, x ≠ getLink m (root + 12) → getLink m' (x + 4) = getLink m (x + 4)) :
    Chain m' root (b :: l) := by
  unfold Chain
  refine ⟨h1, h2, ?_⟩
  cases l with
  | nil =>
    unfold Chain at h ⊢
    rw [h3]; exact h
  | cons c t =>
    unfold Chain at h ⊢
    obtain ⟨hc, _, ht⟩ := h
    rw [hc] at h3 h4 h6
    refine ⟨h3, h4 (hnz c (List.mem_cons_self _ _)), ?_⟩
    apply Chain_congr m m' t c ht
    · intro x hx; exact h5 x hx
    · intro x hx
      apply h6 x (List.mem_cons_of_mem _ hx)
      rintro rfl
      exact (List.nodup_cons.mp hnd).1 hx

/-- The links that close the gap left by a member: read before the member goes. -/
theorem Chain_mid_links (m : Mem) (b : Nat) (l2 : List Nat) :
    ∀ (l1 : List Nat) (q : Nat), Chain m q (l1 ++ b :: l2) →
      getLink m (b + 4) = (q :: l1).getLast (List.cons_ne_nil _ _) ∧
      getLink m (b + 12) = l2.headD 0 := by
  intro l1
  induction l1 with
  | nil =>
    intro q hq
    simp only [List.nil_append] at hq
    unfold Chain at hq
    refine ⟨by simpa using hq.2.1, ?_⟩
    cases l2 with
    | nil => have := hq.2.2; unfold Chain at this; simpa using this
    | cons n t => have := hq.2.2; unfold Chain at this; simpa using this.1
  | cons c l1 ih2 =>
    intro q hq
    simp only [List.cons_append] at hq
    unfold Chain at hq
    have := ih2 c hq.2.2
    refine ⟨?_, this.2⟩
    rw [this.1]
    simp

/-! ## `place`, whole block -/

theorem place_nosplit_eq (m : Mem) (bp asize : Nat)
    (h : sub64 (GET_SIZE m bp) asize < 24) :
    place m bp asize =
      copyLink
        (if getLink m (bp + 12) ≠ 0 then
          copyLink (PUT (PUT m bp (PACK (GET_SIZE m bp) 1)) (bp + GET_SIZE m bp - 4)
            (PACK (GET_SIZE m bp) 1)) (getLink m (bp + 12) + 4) (bp + 4)
        else PUT (PUT m bp (PACK (GET_SIZE m bp) 1)) (bp + GET_SIZE m bp - 4)
            (PACK (GET_SIZE m bp) 1))
        (getLink m (bp + 4) + 12) (bp + 12) := by
  unfold place
  simp only
  rw [if_neg (by omega)]

theorem place_nosplit_mem (m : Mem) (bp asize csize p n : Nat)
    (h : sub64 (GET_SIZE m bp) asize < 24)
    (hcs : GET_SIZE m bp = csize) (hp : getLink m (bp + 4) = p)
    (hn : getLink m (bp + 12) = n)
    (hc1 : 24 ≤ csize) (hc2 : csize % 8 = 0) (hc3 : csize < 2147483648)
    (hpb : p + 24 ≤ bp ∨ bp + csize ≤ p)
    (hnb : n ≠ 0 → n + 24 ≤ bp ∨ bp + csize ≤ n)
    (hpn : n ≠ 0 → p + 24 ≤ n ∨ n + 24 ≤ p) :
    GET (place m bp asize) bp = csize + 1 ∧
    GET (place m bp asize) (bp + csize - 4) = csize + 1 ∧
    getLink (place m bp asize) (p + 12) = n ∧
    (n ≠ 0 → getLink (place m bp asize) (n + 4) = p) ∧
    (∀ x, (x < bp ∨ bp + 4 ≤ x) → (x < bp + csize - 4 ∨ bp + csize ≤ x) →
      (x < p + 12 ∨ p + 20 ≤ x) → (n = 0 ∨ x < n + 4 ∨ n + 12 ≤ x) →
      (place m bp asize).byte x = m.byte x) := by
  rw [place_nosplit_eq m bp asize h, hcs, hp, hn]
  have hpk : PACK csize 1 = csize + 1 := PACK_one csize (by omega)
  rw [hpk]
  by_cases hn0 : n = 0
  · rw [if_neg (by simpa using hn0)]
    refine ⟨?_, ?_, ?_, ?_, ?_⟩
    · rw [GET_copyLink_sep _ _ _ _ (by omega), GET_PUT_sep _ _ _ _ (by omega), GET_PUT_same]
      omega
    · rw [GET_copyLink_sep _ _ _ _ (by omega), GET_PUT_same]
      omega
    · rw [getLink_copyLink_same _ _ _ (by omega), getLink_PUT_sep _ _ _ _ (by omega),
        getLink_PUT_sep _ _ _ _ (by omega), hn]
    · intro hc; exact absurd hn0 hc
    · intro x h1 h2 h3 _
      rw [copyLink_byte_out _ _ _ _ (by omega), PUT_byte_out _ _ _ _ (by omega),
        PUT_byte_out _ _ _ _ (by omega)]
  · have hnb' := hnb hn0
    have hpn' := hpn hn0
    rw [if_pos hn0]
    refine ⟨?_, ?_, ?_, ?_, ?_⟩
    · rw [GET_copyLink_sep _ _ _ _ (by omega), GET_copyLink_sep _ _ _ _ (by omega),
        GET_PUT_sep _ _ _ _ (by omega), GET_PUT_same]
      omega
    · rw [GET_copyLink_sep _ _ _ _ (by omega), GET_copyLink_sep _ _ _ _ (by omega),
        GET_PUT_same]
      omega
    · rw [getLink_copyLink_same _ _ _ (by omega), getLink_copyLink_sep _ _ _ _ (by omega),
        getLink_PUT_sep _ _ _ _ (by omega), getLink_PUT_sep _ _ _ _ (by omega), hn]
    · intro _
      rw [getLink_copyLink_sep _ _ _ _ (by omega), getLink_copyLink_same _ _ _ (by omega),
        getLink_PUT_sep _ _ _ _ (by omega), getLink_PUT_sep _ _ _ _ (by omega), hp]
    · intro x h1 h2 h3 h4
      rw [copyLink_byte_out _ _ _ _ (by omega), copyLink_byte_out _ _ _ _ (by omega),
        PUT_byte_out _ _ _ _ (by omega), PUT_byte_out _ _ _ _ (by omega)]

/-! ## Consequences of the invariant -/

theorem Shape.sep {m : Mem} {root brk : Nat} {B : Set Nat} (h : Shape m root brk B)
    {a a' : Nat} (ha : a ∈ B) (ha' : a' ∈ B) :
    a = a' ∨ a + GET_SIZE m a ≤ a' ∨ a' + GET_SIZE m a' ≤ a := by
  rcases Nat.lt_trichotomy a a' with hlt | heq | hgt
  · right; left; exact h.disj a ha a' ha' hlt
  · left; exact heq
  · right; right; exact h.disj a' ha' a ha hgt

theorem Shape.root_size {m : Mem} {root brk : Nat} {B : Set Nat} (h : Shape m root brk B) :
    GET_SIZE m root = 24 ∧ GET_ALLOC m root = 1 := by
  rw [GET_SIZE_eq, GET_ALLOC_eq, h.root_hdr]
  exact ⟨by norm_num, by norm_num⟩

theorem Shape.congr {m m' : Mem} {root brk : Nat} {B : Set Nat} (h : Shape m root brk B)
    (hroot : GET m' root = 25)
    (hsz : ∀ a ∈ B, GET_SIZE m' a = GET_SIZE m a)
    (hft : ∀ a ∈ B, GET m' (a + GET_SIZE m a - 4) = GET m' a) : Shape m' root brk B where
  root_mem := h.root_mem
  root_hdr := hroot
  blk := by
    intro a ha
    have := h.blk a ha
    rw [hsz a ha]
    exact ⟨this.1, this.2.1, this.2.2.1, this.2.2.2.1, this.2.2.2.2.1, hft a ha⟩
  succ := by
    intro a ha
    rw [hsz a ha]
    exact h.succ a ha
  pred := by
    intro a ha hne
    obtain ⟨a', ha', he⟩ := h.pred a ha hne
    exact ⟨a', ha', by rw [hsz a' ha']; exact he⟩
  disj := by
    intro a ha a' ha' hlt
    rw [hsz a ha]
    exact h.disj a ha a' ha' hlt

theorem WF.root_pos {s : State} {B : Set Nat} {fl : List Nat} {L : Set Nat} {P : Set Nat}
    (h : WF s B fl L P) : 0 < s.heap_listp := by
  have := h.glob.root_eq; omega

theorem WF.ne_zero {s : State} {B : Set Nat} {fl : List Nat} {L : Set Nat} {P : Set Nat}
    (h : WF s B fl L P) {a : Nat} (ha : a ∈ B) : a ≠ 0 := by
  have := (h.shape.blk a ha).1
  have := h.root_pos
  omega

theorem WF.lt_top {s : State} {B : Set Nat} {fl : List Nat} {L : Set Nat} {P : Set Nat}
    (h : WF s B fl L P) {a : Nat} (ha : a ∈ B) :
    a + GET_SIZE s.mem a ≤ 2147483648 := by
  have := (h.shape.blk a ha).2.2.2.2.1
  have := h.glob.brk_le
  have := h.glob.lim_le
  omega

theorem WF.mem_B {s : State} {B : Set Nat} {fl : List Nat} {L : Set Nat} {P : Set Nat}
    (h : WF s B fl L P) {a : Nat} (ha : a ∈ fl) : a ∈ B := ((h.free a).mp ha).1

theorem WF.mem_free {s : State} {B : Set Nat} {fl : List Nat} {L : Set Nat} {P : Set Nat}
    (h : WF s B fl L P) {a : Nat} (ha : a ∈ fl) : GET_ALLOC s.mem a = 0 :=
  ((h.free a).mp ha).2.1

theorem WF.root_not_mem {s : State} {B : Set Nat} {fl : List Nat} {L : Set Nat} {P : Set Nat}
    (h : WF s B fl L P) : s.heap_listp ∉ fl := by
  intro hc
  have h1 := h.mem_free hc
  have h2 := h.shape.root_size.2
  omega

theorem WF.nodup_root {s : State} {B : Set Nat} {fl : List Nat} {L : Set Nat} {P : Set Nat}
    (h : WF s B fl L P) : (s.heap_listp :: fl).Nodup :=
  List.nodup_cons.mpr ⟨h.root_not_mem, h.nodup⟩

theorem WF.anchor_mem_B {s : State} {B : Set Nat} {fl : List Nat} {L : Set Nat} {P : Set Nat}
    (h : WF s B fl L P) {a : Nat} (ha : a ∈ s.heap_listp :: fl) : a ∈ B := by
  rcases List.mem_cons.mp ha with rfl | ha
  · exact h.shape.root_mem
  · exact h.mem_B ha

theorem nodup_mid_facts {prev b : Nat} {l1 l2 : List Nat}
    (h : (prev :: (l1 ++ b :: l2)).Nodup) :
    prev ≠ b ∧ prev ∉ l1 ∧ prev ∉ l2 ∧ b ∉ l1 ∧ b ∉ l2 ∧ (∀ x ∈ l1, x ∉ l2) ∧
      (l1 ++ l2).Nodup := by
  rw [List.nodup_cons, List.nodup_middle, List.nodup_cons, List.nodup_append] at h
  simp only [List.mem_append, List.mem_cons, not_or] at h
  obtain ⟨⟨h1, h2, h3⟩, ⟨h4, h5⟩, h6, h7, h8⟩ := h
  exact ⟨fun e => h2 e, h1, h3, h4, h5, fun x hx hx2 => h8 hx hx2,
    List.nodup_append.mpr ⟨h6, h7, h8⟩⟩

theorem Glob.with_mem {s : State} (h : Glob s) (m' : Mem) : Glob { s with mem := m' } :=
  ⟨h.lo_pos, h.lo_al, h.root_eq, h.brk_ge, h.brk_al, h.brk_le, h.lim_le, h.hi⟩

theorem GET_of_free {m : Mem} {a : Nat} (h : GET_ALLOC m a = 0) : GET m a = GET_SIZE m a := by
  have := GET_eq_size_add_alloc m a; omega

theorem GET_SIZE_of_GET {m : Mem} {a c k : Nat} (h : GET m a = c + k) (hc : c % 2 = 0)
    (hk : k ≤ 1) : GET_SIZE m a = c ∧ GET_ALLOC m a = k := by
  rw [GET_SIZE_eq, GET_ALLOC_eq, h]; omega

theorem place_nosplit_WF {s : State} {B : Set Nat} {l1 l2 : List Nat} {L : Set Nat}
    (bp asize : Nat) (hwf : WF s B (l1 ++ bp :: l2) L ∅)
    (h : sub64 (GET_SIZE s.mem bp) asize < 24) :
    WF { s with mem := place s.mem bp asize } B (l1 ++ l2) (insert (bp + 4) L) ∅ ∧
    Frame s.mem (place s.mem bp asize) s.heap_listp B 0 ∧
    GET (place s.mem bp asize) bp = GET_SIZE s.mem bp + 1 := by
  have hS := hwf.shape
  have hbpm : bp ∈ l1 ++ bp :: l2 := by simp
  have hbpB := hwf.mem_B hbpm
  have hbpf := hwf.mem_free hbpm
  have hbp := hS.blk bp hbpB
  have hbptop := hwf.lt_top hbpB
  have hnd := hwf.nodup_root
  have hpm := Chain_back_mid s.mem bp l2 l1 s.heap_listp hwf.chain
  have hnm := Chain_fwd_mid s.mem bp l2 l1 s.heap_listp hwf.chain
  have hpB : getLink s.mem (bp + 4) ∈ B := by
    apply hwf.anchor_mem_B
    rcases List.mem_cons.mp hpm with h1 | h1
    · rw [h1]; exact List.mem_cons_self _ _
    · exact List.mem_cons_of_mem _ (List.mem_append_left _ h1)
  obtain ⟨hrb, hrl1, hrl2, hbl1, hbl2, hdis, hnd12⟩ := nodup_mid_facts hnd
  have hpne : getLink s.mem (bp + 4) ≠ bp := by
    intro he
    rw [he] at hpm
    rcases List.mem_cons.mp hpm with h1 | h1
    · exact hrb h1.symm
    · exact hbl1 h1
  have hnB : getLink s.mem (bp + 12) ≠ 0 → getLink s.mem (bp + 12) ∈ B ∧
      getLink s.mem (bp + 12) ≠ bp ∧ getLink s.mem (bp + 12) ≠ getLink s.mem (bp + 4) := by
    intro hn0
    rcases hnm with h1 | h1
    · exact absurd h1 hn0
    · refine ⟨hwf.mem_B (by simp [h1]), ?_, ?_⟩
      · intro he
        rw [he] at h1
        exact hbl2 h1
      · intro he
        rw [← he] at hpm
        rcases List.mem_cons.mp hpm with h2 | h2
        · exact hrl2 (h2 ▸ h1)
        · exact hdis _ h2 h1
  have hp := hS.blk _ hpB
  have hsp := hS.sep hpB hbpB
  obtain ⟨T1, T2, Lk1, Lk2, Fr⟩ := place_nosplit_mem s.mem bp asize (GET_SIZE s.mem bp)
    (getLink s.mem (bp + 4)) (getLink s.mem (bp + 12)) h rfl rfl rfl
    (by omega) (by omega) (by omega) (by omega)
    (by
      intro hn0
      obtain ⟨h1, h2, _⟩ := hnB hn0
      have := hS.blk _ h1
      have := hS.sep h1 hbpB
      omega)
    (by
      intro hn0
      obtain ⟨h1, _, h3⟩ := hnB hn0
      have := hS.blk _ h1
      have := hS.sep h1 hpB
      omega)
  -- bytes of the other blocks
  have key : ∀ a ∈ B, a ≠ bp → ∀ y, a ≤ y → y < a + GET_SIZE s.mem a →
      (a = getLink s.mem (bp + 4) → y < a + 12 ∨ a + 20 ≤ y) →
      (a = getLink s.mem (bp + 12) → y < a + 4 ∨ a + 12 ≤ y) →
      (place s.mem bp asize).byte y = s.mem.byte y := by
    intro a ha hab y hy1 hy2 hyp hyn
    have hsa := hS.sep ha hbpB
    have hsap := hS.sep ha hpB
    have hba := hS.blk a ha
    apply Fr y (by omega) (by omega)
    · by_cases hap : a = getLink s.mem (bp + 4)
      · have := hyp hap; omega
      · omega
    · by_cases hn0 : getLink s.mem (bp + 12) = 0
      · left; exact hn0
      · right
        obtain ⟨h1, _, _⟩ := hnB hn0
        have := hS.blk _ h1
        have := hS.sep ha h1
        by_cases han : a = getLink s.mem (bp + 12)
        · have := hyn han; omega
        · omega
  have hG : ∀ a ∈ B, a ≠ bp → GET (place s.mem bp asize) a = GET s.mem a ∧
      GET (place s.mem bp asize) (a + GET_SIZE s.mem a - 4) =
        GET s.mem (a + GET_SIZE s.mem a - 4) := by
    intro a ha hab
    have hba := hS.blk a ha
    constructor
    · exact GET_congr _ _ _ (fun y h1 h2 => key a ha hab y (by omega) (by omega)
        (fun _ => by omega) (fun _ => by omega))
    · exact GET_congr _ _ _ (fun y h1 h2 => key a ha hab y (by omega) (by omega)
        (fun _ => by omega) (fun _ => by omega))
  have hbp1 := GET_SIZE_of_GET T1 (by omega) (le_refl 1)
  have hsz : ∀ a ∈ B, GET_SIZE (place s.mem bp asize) a = GET_SIZE s.mem a := by
    intro a ha
    by_cases hab : a = bp
    · rw [hab]; exact hbp1.1
    · exact GET_SIZE_congr _ _ _ (hG a ha hab).1
  have hal : ∀ a ∈ B, a ≠ bp → GET_ALLOC (place s.mem bp asize) a = GET_ALLOC s.mem a :=
    fun a ha hab => GET_ALLOC_congr _ _ _ (hG a ha hab).1
  have hrootne : s.heap_listp ≠ bp := by
    intro he
    exact hwf.root_not_mem (he ▸ hbpm)
  refine ⟨⟨hwf.glob.with_mem _, ?_, ?_, ?_, ?_, ?_⟩, ?_, T1⟩
  · -- shape
    apply hS.congr
    · rw [(hG _ hS.root_mem hrootne).1]; exact hS.root_hdr
    · exact hsz
    · intro a ha
      by_cases hab : a = bp
      · rw [hab, T1, T2]
      · rw [(hG a ha hab).1, (hG a ha hab).2]; exact (hS.blk a ha).2.2.2.2.2
  · -- chain
    apply Chain_unlink s.mem _ bp l2 l1 _ hwf.chain hnd
      (fun x hx => hwf.ne_zero (hwf.mem_B hx)) Lk1 Lk2
    · intro x hx hxp
      have hxB : x ∈ B := by
        apply hwf.anchor_mem_B
        rcases List.mem_cons.mp hx with h1 | h1
        · rw [h1]; exact List.mem_cons_self _ _
        · apply List.mem_cons_of_mem
          rcases List.mem_append.mp h1 with h2 | h2
          · exact List.mem_append_left _ h2
          · exact List.mem_append_right _ (List.mem_cons_of_mem _ h2)
      have hxb : x ≠ bp := by
        rintro rfl
        simp only [List.mem_append, List.mem_cons] at hx
        rcases hx with h1 | h1 | h1
        · exact hrb h1.symm
        · exact hbl1 h1
        · exact hbl2 h1
      have hbx := hS.blk x hxB
      exact getLink_congr _ _ _ (fun y h1 h2 => key x hxB hxb y (by omega) (by omega)
        (fun he => absurd he hxp) (fun _ => by omega))
    · intro x hx hxn
      have hxB : x ∈ B := by
        apply hwf.mem_B
        rcases List.mem_append.mp hx with h2 | h2
        · exact List.mem_append_left _ h2
        · exact List.mem_append_right _ (List.mem_cons_of_mem _ h2)
      have hxb : x ≠ bp := by
        rintro rfl
        rcases List.mem_append.mp hx with h1 | h1
        · exact hbl1 h1
        · exact hbl2 h1
      have hbx := hS.blk x hxB
      exact getLink_congr _ _ _ (fun y h1 h2 => key x hxB hxb y (by omega) (by omega)
        (fun _ => by omega) (fun he => absurd he hxn))
  · -- nodup
    exact hnd12
  · -- free
    intro a
    by_cases hab : a = bp
    · subst hab
      have h1 : a ∉ l1 ++ l2 := by
        intro hc
        rcases List.mem_append.mp hc with h2 | h2
        · exact hbl1 h2
        · exact hbl2 h2
      simp only [h1, false_iff, not_and]
      intro _ hc
      rw [hbp1.2] at hc
      omega
    · have := hwf.free a
      simp only [List.mem_append, List.mem_cons, hab, false_or] at this ⊢
      rw [this]
      constructor
      · rintro ⟨h1, h2, h3⟩; exact ⟨h1, by rw [hal a h1 hab]; exact h2, h3⟩
      · rintro ⟨h1, h2, h3⟩; exact ⟨h1, by rw [← hal a h1 hab]; exact h2, h3⟩
  · -- live
    intro q
    simp only [Set.mem_insert_iff]
    constructor
    · rintro (rfl | hq)
      · exact ⟨bp, hbpB, fun he => hrootne he.symm, hbp1.2, rfl⟩
      · obtain ⟨a, ha, h1, h2, h3⟩ := (hwf.live q).mp hq
        have hab : a ≠ bp := by rintro rfl; omega
        exact ⟨a, ha, h1, by rw [hal a ha hab]; exact h2, h3⟩
    · rintro ⟨a, ha, h1, h2, h3⟩
      by_cases hab : a = bp
      · left; rw [h3, hab]
      · right
        exact (hwf.live q).mpr ⟨a, ha, h1, by rw [← hal a ha hab]; exact h2, h3⟩
  · -- frame
    intro a ha har _ haa
    have hab : a ≠ bp := by rintro rfl; omega
    have hba := hS.blk a ha
    have hap : a ≠ getLink s.mem (bp + 4) := by
      intro he
      rcases List.mem_cons.mp hpm with h1 | h1
      · exact har (he.trans h1)
      · have := hwf.mem_free (List.mem_append_left (bp :: l2) h1)
        rw [← he] at this; omega
    have han : a ≠ getLink s.mem (bp + 12) := by
      intro he
      rcases hnm with h1 | h1
      · exact hwf.ne_zero ha (he.trans h1)
      · have := hwf.mem_free (a := getLink s.mem (bp + 12)) (by simp [h1])
        rw [← he] at this; omega
    refine ⟨(hG a ha hab).1, fun y h1 h2 => key a ha hab y (by omega) (by omega)
      (fun he => absurd he hap) (fun he => absurd he han)⟩

/-! ## Tags: splitting and merging blocks -/

theorem Shape.split {m m' : Mem} {root brk : Nat} {B : Set Nat} (h : Shape m root brk B)
    {bp asize : Nat} (hb : bp ∈ B) (hne : bp ≠ root)
    (h1 : 24 ≤ asize) (h2 : asize % 8 = 0) (h3 : asize + 24 ≤ GET_SIZE m bp)
    (hT1 : GET m' bp = asize + 1) (hT2 : GET m' (bp + asize - 4) = asize + 1)
    (hT3 : GET m' (bp + asize) = GET_SIZE m bp - asize)
    (hT4 : GET m' (bp + GET_SIZE m bp - 4) = GET_SIZE m bp - asize)
    (hG : ∀ a ∈ B, a ≠ bp → GET m' a = GET m a ∧
      GET m' (a + GET_SIZE m a - 4) = GET m (a + GET_SIZE m a - 4)) :
    Shape m' root brk (insert (bp + asize) B) ∧ bp + asize ∉ B ∧
    GET_SIZE m' bp = asize ∧ GET_SIZE m' (bp + asize) = GET_SIZE m bp - asize ∧
    (∀ a ∈ B, a ≠ bp → GET_SIZE m' a = GET_SIZE m a) := by
  have hbp := h.blk bp hb
  have hs1 := GET_SIZE_of_GET hT1 (by omega) (le_refl 1)
  have hs2 : GET_SIZE m' (bp + asize) = GET_SIZE m bp - asize ∧
      GET_ALLOC m' (bp + asize) = 0 :=
    GET_SIZE_of_GET (k := 0) hT3 (by omega) (by omega)
  have hsz : ∀ a ∈ B, a ≠ bp → GET_SIZE m' a = GET_SIZE m a :=
    fun a ha hab => GET_SIZE_congr _ _ _ (hG a ha hab).1
  have hnew : bp + asize ∉ B := by
    intro hc
    have := h.sep hc hb
    have := h.blk _ hc
    omega
  have hszall : ∀ a ∈ insert (bp + asize) B,
      (a = bp + asize ∧ GET_SIZE m' a = GET_SIZE m bp - asize) ∨
      (a = bp ∧ GET_SIZE m' a = asize) ∨
      (a ∈ B ∧ a ≠ bp ∧ GET_SIZE m' a = GET_SIZE m a) := by
    intro a ha
    rcases Set.mem_insert_iff.mp ha with rfl | ha
    · left; exact ⟨rfl, hs2.1⟩
    · by_cases hab : a = bp
      · right; left; exact ⟨hab, hab ▸ hs1.1⟩
      · right; right; exact ⟨ha, hab, hsz a ha hab⟩
  refine ⟨⟨Set.mem_insert_of_mem _ h.root_mem, ?_, ?_, ?_, ?_, ?_⟩, hnew, hs1.1, hs2.1, hsz⟩
  · rw [(hG root h.root_mem (Ne.symm hne)).1]; exact h.root_hdr
  · intro a ha
    rcases hszall a ha with ⟨rfl, hs⟩ | ⟨rfl, hs⟩ | ⟨haB, hab, hs⟩
    · rw [hs]
      refine ⟨by omega, by omega, by omega, by omega, by omega, ?_⟩
      rw [hT3, ← hT4]; congr 1; omega
    · rw [hs]
      refine ⟨by omega, by omega, by omega, by omega, by omega, ?_⟩
      rw [hT1, hT2]
    · rw [hs]
      have := h.blk a haB
      refine ⟨this.1, this.2.1, this.2.2.1, this.2.2.2.1, this.2.2.2.2.1, ?_⟩
      rw [(hG a haB hab).1, (hG a haB hab).2]; exact this.2.2.2.2.2
  · intro a ha hlt
    rcases hszall a ha with ⟨rfl, hs⟩ | ⟨rfl, hs⟩ | ⟨haB, hab, hs⟩
    · rw [hs] at hlt ⊢
      apply Set.mem_insert_of_mem
      have := h.succ bp hb (by omega)
      have e : bp + asize + (GET_SIZE m bp - asize) = bp + GET_SIZE m bp := by omega
      rw [e]; exact this
    · rw [hs]; exact Set.mem_insert _ _
    · rw [hs] at hlt ⊢
      exact Set.mem_insert_of_mem _ (h.succ a haB hlt)
  · intro a ha hane
    rcases Set.mem_insert_iff.mp ha with rfl | haB
    · exact ⟨bp, Set.mem_insert_of_mem _ hb, by rw [hs1.1]⟩
    · obtain ⟨a', ha', he⟩ := h.pred a haB hane
      by_cases hab : a' = bp
      · subst hab
        refine ⟨a' + asize, Set.mem_insert _ _, ?_⟩
        rw [hs2.1]; omega
      · exact ⟨a', Set.mem_insert_of_mem _ ha', by rw [hsz a' ha' hab]; exact he⟩
  · intro a ha a' ha' hlt
    have hfacts : ∀ c ∈ B, c ≠ bp →
        24 ≤ GET_SIZE m c ∧ (c + GET_SIZE m c ≤ bp ∨ bp + GET_SIZE m bp ≤ c) := by
      intro c hc hcb
      have := h.sep hc hb
      have := h.blk c hc
      omega
    rcases hszall a ha with ⟨ha1, hs⟩ | ⟨ha1, hs⟩ | ⟨haB, hab, hs⟩ <;>
    rcases hszall a' ha' with ⟨ha2, hs'⟩ | ⟨ha2, hs'⟩ | ⟨haB', hab', hs'⟩ <;> rw [hs]
    · omega
    · omega
    · have := hfacts a' haB' hab'; omega
    · omega
    · omega
    · have := hfacts a' haB' hab'; omega
    · have := hfacts a haB hab; omega
    · have := hfacts a haB hab; omega
    · exact h.disj a haB a' haB' hlt

/-- Merging the block `y = x + size x` into `x`: header of `x` and footer of `y`
carry the sum. -/
theorem Shape.join {m m' : Mem} {root brk : Nat} {B : Set Nat} (h : Shape m root brk B)
    {x : Nat} (hx : x ∈ B) (hy : x + GET_SIZE m x ∈ B) (hxr : x ≠ root)
    (hlt : x + GET_SIZE m x + GET_SIZE m (x + GET_SIZE m x) ≤ 2147483648)
    (hT1 : GET m' x = GET_SIZE m x + GET_SIZE m (x + GET_SIZE m x))
    (hT2 : GET m' (x + GET_SIZE m x + GET_SIZE m (x + GET_SIZE m x) - 4) =
      GET_SIZE m x + GET_SIZE m (x + GET_SIZE m x))
    (hG : ∀ a ∈ B, a ≠ x → a ≠ x + GET_SIZE m x → GET m' a = GET m a ∧
      GET m' (a + GET_SIZE m a - 4) = GET m (a + GET_SIZE m a - 4)) :
    Shape m' root brk (B \ {x + GET_SIZE m x}) ∧
    GET_SIZE m' x = GET_SIZE m x + GET_SIZE m (x + GET_SIZE m x) ∧
    GET_ALLOC m' x = 0 ∧
    (∀ a ∈ B, a ≠ x → a ≠ x + GET_SIZE m x → GET_SIZE m' a = GET_SIZE m a) := by
  have hbx := h.blk x hx
  have hby := h.blk _ hy
  have hs1 : GET_SIZE m' x = GET_SIZE m x + GET_SIZE m (x + GET_SIZE m x) ∧
      GET_ALLOC m' x = 0 := GET_SIZE_of_GET (k := 0) hT1 (by omega) (by omega)
  have hsz : ∀ a ∈ B, a ≠ x → a ≠ x + GET_SIZE m x → GET_SIZE m' a = GET_SIZE m a :=
    fun a ha h1 h2 => GET_SIZE_congr _ _ _ (hG a ha h1 h2).1
  have hyr : x + GET_SIZE m x ≠ root := by omega
  have hszall : ∀ a ∈ B \ {x + GET_SIZE m x},
      (a = x ∧ GET_SIZE m' a = GET_SIZE m x + GET_SIZE m (x + GET_SIZE m x)) ∨
      (a ∈ B ∧ a ≠ x ∧ a ≠ x + GET_SIZE m x ∧ GET_SIZE m' a = GET_SIZE m a) := by
    intro a ha
    obtain ⟨haB, hay⟩ := ha
    simp only [Set.mem_singleton_iff] at hay
    by_cases hax : a = x
    · left; exact ⟨hax, hax ▸ hs1.1⟩
    · right; exact ⟨haB, hax, hay, hsz a haB hax hay⟩
  refine ⟨⟨⟨h.root_mem, fun hc => hyr (Set.mem_singleton_iff.mp hc).symm⟩, ?_, ?_, ?_, ?_, ?_⟩,
    hs1.1, hs1.2, hsz⟩
  · rw [(hG root h.root_mem (Ne.symm hxr) (Ne.symm hyr)).1]; exact h.root_hdr
  · intro a ha
    rcases hszall a ha with ⟨rfl, hs⟩ | ⟨haB, hax, hay, hs⟩
    · rw [hs]
      refine ⟨by omega, by omega, by omega, by omega, by omega, ?_⟩
      rw [hT1, ← hT2]; congr 1; omega
    · rw [hs]
      have := h.blk a haB
      refine ⟨this.1, this.2.1, this.2.2.1, this.2.2.2.1, this.2.2.2.2.1, ?_⟩
      rw [(hG a haB hax hay).1, (hG a haB hax hay).2]; exact this.2.2.2.2.2
  · intro a ha hlt2
    rcases hszall a ha with ⟨rfl, hs⟩ | ⟨haB, hax, hay, hs⟩
    · rw [hs] at hlt2 ⊢
      have := h.succ _ hy (by omega)
      refine ⟨by rw [← Nat.add_assoc]; exact this, ?_⟩
      simp only [Set.mem_singleton_iff]; omega
    · rw [hs] at hlt2 ⊢
      refine ⟨h.succ a haB hlt2, ?_⟩
      simp only [Set.mem_singleton_iff]
      intro he
      have := h.sep haB hx
      have := h.blk a haB
      omega
  · intro a ha hane
    obtain ⟨haB, hay⟩ := ha
    simp only [Set.mem_singleton_iff] at hay
    obtain ⟨a', ha', he⟩ := h.pred a haB hane
    by_cases ha'x : a' = x
    · exfalso; rw [ha'x] at he; exact hay he.symm
    · by_cases ha'y : a' = x + GET_SIZE m x
      · refine ⟨x, ⟨hx, by simp only [Set.mem_singleton_iff]; omega⟩, ?_⟩
        rw [hs1.1]; rw [ha'y] at he; omega
      · refine ⟨a', ⟨ha', by simpa using ha'y⟩, ?_⟩
        rw [hsz a' ha' ha'x ha'y]; exact he
  · intro a ha a' ha' hlt2
    rcases hszall a ha with ⟨ha1, hs⟩ | ⟨haB, hax, hay, hs⟩ <;>
    rcases hszall a' ha' with ⟨ha2, hs'⟩ | ⟨haB', hax', hay', hs'⟩ <;> rw [hs]
    · omega
    · have := h.sep haB' hx
      have := h.sep haB' hy
      have := h.blk a' haB'
      omega
    · have := h.sep haB hx
      have := h.blk a haB
      omega
    · exact h.disj a haB a' haB' hlt2

/-! ## `place`, splitting -/

theorem sub64_of_le (a b : Nat) (h : b ≤ a) (ha : a < 18446744073709551616) :
    sub64 a b = a - b := by
  unfold sub64; omega

theorem place_split_mem (m : Mem) (bp asize csize p n : Nat)
    (hcs : GET_SIZE m bp = csize) (hp : getLink m (bp + 4) = p)
    (hn : getLink m (bp + 12) = n)
    (ha1 : 24 ≤ asize) (ha2 : asize % 8 = 0) (ha3 : asize + 24 ≤ csize)
    (hc3 : bp + csize ≤ 2147483648) (hp0 : p ≠ 0) (hp3 : p < 2147483648)
    (hn3 : n < 2147483648)
    (hpb : p + 24 ≤ bp ∨ bp + csize ≤ p)
    (hnb : n ≠ 0 → n + 24 ≤ bp ∨ bp + csize ≤ n)
    (hpn : n ≠ 0 → p + 24 ≤ n ∨ n + 24 ≤ p) :
    GET (place m bp asize) bp = asize + 1 ∧
    GET (place m bp asize) (bp + asize - 4) = asize + 1 ∧
    GET (place m bp asize) (bp + asize) = csize - asize ∧
    GET (place m bp asize) (bp + csize - 4) = csize - asize ∧
    getLink (place m bp asize) (p + 12) = bp + asize ∧
    getLink (place m bp asize) (bp + asize + 4) = p ∧
    getLink (place m bp asize) (bp + asize + 12) = n ∧
    (n ≠ 0 → getLink (place m bp asize) (n + 4) = bp + asize) ∧
    (∀ x, (x < bp ∨ bp + csize ≤ x) →
      (x < p + 12 ∨ p + 20 ≤ x) → (n = 0 ∨ x < n + 4 ∨ n + 12 ≤ x) →
      (place m bp asize).byte x = m.byte x) := by
  have hsub : sub64 csize asize = csize - asize := sub64_of_le _ _ (by omega) (by omega)
  unfold place
  simp only
  rw [hcs, hp, hn, hsub, if_pos (by omega), if_pos hp0]
  have hpk : PACK asize 1 = asize + 1 := PACK_one asize (by omega)
  rw [hpk, PACK_zero]
  have hfoot : bp + asize + csize - asize - 4 = bp + csize - 4 := by omega
  rw [hfoot]
  by_cases hn0 : n = 0
  · rw [if_neg (by simpa using hn0)]
    refine ⟨?_, ?_, ?_, ?_, ?_, ?_, ?_, ?_, ?_⟩
    · rw [GET_putLink_sep _ _ _ _ (by omega), GET_putLink_sep _ _ _ _ (by omega),
        GET_putLink_sep _ _ _ _ (by omega), GET_PUT_sep _ _ _ _ (by omega),
        GET_PUT_sep _ _ _ _ (by omega), GET_PUT_sep _ _ _ _ (by omega), GET_PUT_same]
      omega
    · rw [GET_putLink_sep _ _ _ _ (by omega), GET_putLink_sep _ _ _ _ (by omega),
        GET_putLink_sep _ _ _ _ (by omega), GET_PUT_sep _ _ _ _ (by omega),
        GET_PUT_sep _ _ _ _ (by omega), GET_PUT_same]
      omega
    · rw [GET_putLink_sep _ _ _ _ (by omega), GET_putLink_sep _ _ _ _ (by omega),
        GET_putLink_sep _ _ _ _ (by omega), GET_PUT_sep _ _ _ _ (by omega), GET_PUT_same]
      omega
    · rw [GET_putLink_sep _ _ _ _ (by omega), GET_putLink_sep _ _ _ _ (by omega),
        GET_putLink_sep _ _ _ _ (by omega), GET_PUT_same]
      omega
    · rw [getLink_putLink_sep _ _ _ _ (by omega), getLink_putLink_sep _ _ _ _ (by omega),
        getLink_putLink_same _ _ _ (by omega)]
    · rw [getLink_putLink_sep _ _ _ _ (by omega), getLink_putLink_same _ _ _ (by omega)]
    · rw [getLink_putLink_same _ _ _ (by omega)]
    · intro hc; exact absurd hn0 hc
    · intro x h1 h2 _
      rw [putLink_byte_out _ _ _ _ (by omega), putLink_byte_out _ _ _ _ (by omega),
        putLink_byte_out _ _ _ _ (by omega), PUT_byte_out _ _ _ _ (by omega),
        PUT_byte_out _ _ _ _ (by omega), PUT_byte_out _ _ _ _ (by omega),
        PUT_byte_out _ _ _ _ (by omega)]
  · have hnb' := hnb hn0
    have hpn' := hpn hn0
    rw [if_pos hn0]
    refine ⟨?_, ?_, ?_, ?_, ?_, ?_, ?_, ?_, ?_⟩
    · rw [GET_putLink_sep _ _ _ _ (by omega), GET_putLink_sep _ _ _ _ (by omega),
        GET_putLink_sep _ _ _ _ (by omega), GET_putLink_sep _ _ _ _ (by omega),
        GET_PUT_sep _ _ _ _ (by omega),
        GET_PUT_sep _ _ _ _ (by omega), GET_PUT_sep _ _ _ _ (by omega), GET_PUT_same]
      omega
    · rw [GET_putLink_sep _ _ _ _ (by omega), GET_putLink_sep _ _ _ _ (by omega),
        GET_putLink_sep _ _ _ _ (by omega), GET_putLink_sep _ _ _ _ (by omega),
        GET_PUT_sep _ _ _ _ (by omega),
        GET_PUT_sep _ _ _ _ (by omega), GET_PUT_same]
      omega
    · rw [GET_putLink_sep _ _ _ _ (by omega), GET_putLink_sep _ _ _ _ (by omega),
        GET_putLink_sep _ _ _ _ (by omega), GET_putLink_sep _ _ _ _ (by omega),
        GET_PUT_sep _ _ _ _ (by omega), GET_PUT_same]
      omega
    · rw [GET_putLink_sep _ _ _ _ (by omega), GET_putLink_sep _ _ _ _ (by omega),
        GET_putLink_sep _ _ _ _ (by omega), GET_putLink_sep _ _ _ _ (by omega),
        GET_PUT_same]
      omega
    · rw [getLink_putLink_sep _ _ _ _ (by omega), getLink_putLink_sep _ _ _ _ (by omega),
        getLink_putLink_sep _ _ _ _ (by omega), getLink_putLink_same _ _ _ (by omega)]
    · rw [getLink_putLink_sep _ _ _ _ (by omega), getLink_putLink_same _ _ _ (by omega)]
    · rw [getLink_putLink_same _ _ _ (by omega)]
    · intro _
      rw [getLink_putLink_sep _ _ _ _ (by omega), getLink_putLink_sep _ _ _ _ (by omega),
        getLink_putLink_same _ _ _ (by omega)]
    · intro x h1 h2 h3
      rw [putLink_byte_out _ _ _ _ (by omega), putLink_byte_out _ _ _ _ (by omega),
        putLink_byte_out _ _ _ _ (by omega), putLink_byte_out _ _ _ _ (by omega),
        PUT_byte_out _ _ _ _ (by omega),
        PUT_byte_out _ _ _ _ (by omega), PUT_byte_out _ _ _ _ (by omega),
        PUT_byte_out _ _ _ _ (by omega)]

/-! ## What a list operation leaves alone -/

theorem Touch.block {m m' : Mem} {e1 e2 : Nat} {F G : List Nat} {root brk : Nat}
    {B : Set Nat} (hT : Touch m m' e1 e2 F G) (hS : Shape m root brk B)
    (hF : ∀ f ∈ F, f ∈ B) (hG : ∀ g ∈ G, g = 0 ∨ g ∈ B) {a : Nat} (ha : a ∈ B)
    (hout : a + GET_SIZE m a ≤ e1 ∨ e2 ≤ a) :
    ∀ y, a ≤ y → y < a + GET_SIZE m a → (a ∈ F → y < a + 12 ∨ a + 20 ≤ y) →
      (a ∈ G → y < a + 4 ∨ a + 12 ≤ y) → m'.byte y = m.byte y := by
  intro y hy1 hy2 hyF hyG
  have hba := hS.blk a ha
  apply hT y (by omega)
  · intro f hf
    by_cases haf : a = f
    · have := hyF (haf ▸ hf); omega
    · have := hS.sep ha (hF f hf)
      have := hS.blk f (hF f hf)
      omega
  · intro g hg
    rcases hG g hg with h0 | hgB
    · left; exact h0
    · right
      by_cases hag : a = g
      · have := hyG (hag ▸ hg); omega
      · have := hS.sep ha hgB
        have := hS.blk g hgB
        omega

theorem Touch.tags {m m' : Mem} {e1 e2 : Nat} {F G : List Nat} {root brk : Nat}
    {B : Set Nat} (hT : Touch m m' e1 e2 F G) (hS : Shape m root brk B)
    (hF : ∀ f ∈ F, f ∈ B) (hG : ∀ g ∈ G, g = 0 ∨ g ∈ B) {a : Nat} (ha : a ∈ B)
    (hout : a + GET_SIZE m a ≤ e1 ∨ e2 ≤ a) :
    GET m' a = GET m a ∧
      GET m' (a + GET_SIZE m a - 4) = GET m (a + GET_SIZE m a - 4) := by
  have hba := hS.blk a ha
  constructor
  · exact GET_congr _ _ _ (fun y h1 h2 => hT.block hS hF hG ha hout y (by omega) (by omega)
      (fun _ => by omega) (fun _ => by omega))
  · exact GET_congr _ _ _ (fun y h1 h2 => hT.block hS hF hG ha hout y (by omega) (by omega)
      (fun _ => by omega) (fun _ => by omega))

theorem Touch.fwd {m m' : Mem} {e1 e2 : Nat} {F G : List Nat} {root brk : Nat}
    {B : Set Nat} (hT : Touch m m' e1 e2 F G) (hS : Shape m root brk B)
    (hF : ∀ f ∈ F, f ∈ B) (hG : ∀ g ∈ G, g = 0 ∨ g ∈ B) {a : Nat} (ha : a ∈ B)
    (hout : a + GET_SIZE m a ≤ e1 ∨ e2 ≤ a) (haF : a ∉ F) :
    getLink m' (a + 12) = getLink m (a + 12) := by
  have hba := hS.blk a ha
  exact getLink_congr _ _ _ (fun y h1 h2 => hT.block hS hF hG ha hout y (by omega) (by omega)
      (fun h => absurd h haF) (fun _ => by omega))

theorem Touch.back {m m' : Mem} {e1 e2 : Nat} {F G : List Nat} {root brk : Nat}
    {B : Set Nat} (hT : Touch m m' e1 e2 F G) (hS : Shape m root brk B)
    (hF : ∀ f ∈ F, f ∈ B) (hG : ∀ g ∈ G, g = 0 ∨ g ∈ B) {a : Nat} (ha : a ∈ B)
    (hout : a + GET_SIZE m a ≤ e1 ∨ e2 ≤ a) (haG : a ∉ G) :
    getLink m' (a + 4) = getLink m (a + 4) := by
  have hba := hS.blk a ha
  exact getLink_congr _ _ _ (fun y h1 h2 => hT.block hS hF hG ha hout y (by omega) (by omega)
      (fun _ => by omega) (fun h => absurd h haG))

/-- Allocated blocks outside the extent keep header and payload, provided the blocks
whose links are written are free blocks or the sentinel. -/
theorem Touch.frame {m m' : Mem} {e1 e2 : Nat} {F G : List Nat} {root brk : Nat}
    {B : Set Nat} (hT : Touch m m' e1 e2 F G) (hS : Shape m root brk B)
    (hF : ∀ f ∈ F, f ∈ B ∧ (f = root ∨ GET_ALLOC m f = 0))
    (hG : ∀ g ∈ G, g = 0 ∨ (g ∈ B ∧ (g = root ∨ GET_ALLOC m g = 0)))
    {a : Nat} (ha : a ∈ B) (har : a ≠ root) (haa : GET_ALLOC m a = 1)
    (hout : a + GET_SIZE m a ≤ e1 ∨ e2 ≤ a) :
    GET m' a = GET m a ∧
      ∀ y, a + 4 ≤ y → y + 4 ≤ a + GET_SIZE m a → m'.byte y = m.byte y := by
  have hF' : ∀ f ∈ F, f ∈ B := fun f hf => (hF f hf).1
  have hG' : ∀ g ∈ G, g = 0 ∨ g ∈ B := fun g hg => (hG g hg).imp id (fun h => h.1)
  have haF : a ∉ F := by
    intro hc
    rcases (hF a hc).2 with h | h
    · exact har h
    · omega
  have haG : a ∉ G := by
    intro hc
    rcases hG a hc with h | h
    · have := (hS.blk a ha).2.1; omega
    · rcases h.2 with h | h
      · exact har h
      · omega
  refine ⟨(hT.tags hS hF' hG' ha hout).1, fun y h1 h2 =>
    hT.block hS hF' hG' ha hout y (by omega) (by omega) (fun h => absurd h haF)
      (fun h => absurd h haG)⟩

/-- The neighbours in the list of a member `bp`. -/
theorem WF.mid {s : State} {B : Set Nat} {l1 l2 : List Nat} {L : Set Nat} {P : Set Nat} {bp : Nat}
    (hwf : WF s B (l1 ++ bp :: l2) L P) :
    bp ∈ B ∧ GET_ALLOC s.mem bp = 0 ∧ bp ≠ s.heap_listp ∧
    getLink s.mem (bp + 4) ∈ s.heap_listp :: l1 ∧
    getLink s.mem (bp + 4) ∈ B ∧ getLink s.mem (bp + 4) ≠ bp ∧
    (getLink s.mem (bp + 4) = s.heap_listp ∨ GET_ALLOC s.mem (getLink s.mem (bp + 4)) = 0) ∧
    (getLink s.mem (bp + 12) = 0 ∨ getLink s.mem (bp + 12) ∈ l2) ∧
    (getLink s.mem (bp + 12) ≠ 0 → getLink s.mem (bp + 12) ∈ B ∧
      GET_ALLOC s.mem (getLink s.mem (bp + 12)) = 0 ∧
      getLink s.mem (bp + 12) ≠ bp ∧ getLink s.mem (bp + 12) ≠ getLink s.mem (bp + 4) ∧
      getLink s.mem (bp + 12) ≠ s.heap_listp) := by
  have hbpm : bp ∈ l1 ++ bp :: l2 := by simp
  have hnd := hwf.nodup_root
  obtain ⟨hrb, hrl1, hrl2, hbl1, hbl2, hdis, hnd12⟩ := nodup_mid_facts hnd
  have hpm := Chain_back_mid s.mem bp l2 l1 s.heap_listp hwf.chain
  have hnm := Chain_fwd_mid s.mem bp l2 l1 s.heap_listp hwf.chain
  refine ⟨hwf.mem_B hbpm, hwf.mem_free hbpm, fun h => hrb h.symm, hpm, ?_, ?_, ?_, hnm, ?_⟩
  · apply hwf.anchor_mem_B
    rcases List.mem_cons.mp hpm with h1 | h1
    · rw [h1]; exact List.mem_cons_self _ _
    · exact List.mem_cons_of_mem _ (List.mem_append_left _ h1)
  · intro he
    rw [he] at hpm
    rcases List.mem_cons.mp hpm with h1 | h1
    · exact hrb h1.symm
    · exact hbl1 h1
  · rcases List.mem_cons.mp hpm with h1 | h1
    · left; exact h1
    · right; exact hwf.mem_free (List.mem_append_left _ h1)
  · intro hn0
    rcases hnm with h1 | h1
    · exact absurd h1 hn0
    · have hmem : getLink s.mem (bp + 12) ∈ l1 ++ bp :: l2 := by simp [h1]
      refine ⟨hwf.mem_B hmem, hwf.mem_free hmem, ?_, ?_, ?_⟩
      · intro he
        rw [he] at h1
        exact hbl2 h1
      · intro he
        rw [← he] at hpm
        rcases List.mem_cons.mp hpm with h2 | h2
        · exact hrl2 (h2 ▸ h1)
        · exact hdis _ h2 h1
      · intro he
        exact hrl2 (he ▸ h1)

theorem place_split_WF {s : State} {B : Set Nat} {l1 l2 : List Nat} {L : Set Nat}
    (bp asize : Nat) (hwf : WF s B (l1 ++ bp :: l2) L ∅)
    (ha1 : 24 ≤ asize) (ha2 : asize % 8 = 0) (ha3 : asize + 24 ≤ GET_SIZE s.mem bp) :
    WF { s with mem := place s.mem bp asize } (insert (bp + asize) B)
      (l1 ++ (bp + asize) :: l2) (insert (bp + 4) L) ∅ ∧
    Frame s.mem (place s.mem bp asize) s.heap_listp B 0 ∧
    GET (place s.mem bp asize) bp = asize + 1 := by
  have hS := hwf.shape
  obtain ⟨hbpB, hbpf, hbpr, hpm, hpB, hpne, hpfree, hnm, hnfacts⟩ := hwf.mid
  have hbp := hS.blk bp hbpB
  have hbptop := hwf.lt_top hbpB
  have hnd := hwf.nodup_root
  obtain ⟨hrb, hrl1, hrl2, hbl1, hbl2, hdis, hnd12⟩ := nodup_mid_facts hnd
  have hp := hS.blk _ hpB
  have hptop := hwf.lt_top hpB
  have hsp := hS.sep hpB hbpB
  have hn3 : getLink s.mem (bp + 12) < 2147483648 := by
    by_cases hn0 : getLink s.mem (bp + 12) = 0
    · omega
    · have := hwf.lt_top (hnfacts hn0).1
      have := hS.blk _ (hnfacts hn0).1
      omega
  obtain ⟨T1, T2, T3, T4, Lk1, Lk2, Lk3, Lk4, Fr⟩ := place_split_mem s.mem bp asize
    (GET_SIZE s.mem bp) (getLink s.mem (bp + 4)) (getLink s.mem (bp + 12)) rfl rfl rfl
    ha1 ha2 ha3 (by omega) (hwf.ne_zero hpB) (by omega) hn3 (by omega)
    (by
      intro hn0
      obtain ⟨h1, _, h2, _⟩ := hnfacts hn0
      have := hS.blk _ h1
      have := hS.sep h1 hbpB
      omega)
    (by
      intro hn0
      obtain ⟨h1, _, _, h3, _⟩ := hnfacts hn0
      have := hS.blk _ h1
      have := hS.sep h1 hpB
      omega)
  have hT : Touch s.mem (place s.mem bp asize) bp (bp + GET_SIZE s.mem bp)
      [getLink s.mem (bp + 4)] [getLink s.mem (bp + 12)] := by
    intro x h1 hF hG
    exact Fr x h1 (hF _ (List.mem_singleton_self _)) (hG _ (List.mem_singleton_self _))
  have hF' : ∀ f ∈ [getLink s.mem (bp + 4)], f ∈ B := by
    intro f hf; rw [List.mem_singleton.mp hf]; exact hpB
  have hG' : ∀ g ∈ [getLink s.mem (bp + 12)], g = 0 ∨ g ∈ B := by
    intro g hg; rw [List.mem_singleton.mp hg]
    by_cases hn0 : getLink s.mem (bp + 12) = 0
    · left; exact hn0
    · right; exact (hnfacts hn0).1
  have hout : ∀ a ∈ B, a ≠ bp →
      a + GET_SIZE s.mem a ≤ bp ∨ bp + GET_SIZE s.mem bp ≤ a := by
    intro a ha hab
    have := hS.sep ha hbpB
    omega
  have hG : ∀ a ∈ B, a ≠ bp → GET (place s.mem bp asize) a = GET s.mem a ∧
      GET (place s.mem bp asize) (a + GET_SIZE s.mem a - 4) =
        GET s.mem (a + GET_SIZE s.mem a - 4) :=
    fun a ha hab => hT.tags hS hF' hG' ha (hout a ha hab)
  obtain ⟨hS', hnew, hsz1, hsz2, hszo⟩ := hS.split hbpB hbpr ha1 ha2 ha3 T1 T2 T3 T4 hG
  have hal : ∀ a ∈ B, a ≠ bp → GET_ALLOC (place s.mem bp asize) a = GET_ALLOC s.mem a :=
    fun a ha hab => GET_ALLOC_congr _ _ _ (hG a ha hab).1
  have hbp1 := GET_SIZE_of_GET T1 (by omega) (le_refl 1)
  have hb2 : GET_ALLOC (place s.mem bp asize) (bp + asize) = 0 :=
    (GET_SIZE_of_GET (c := GET_SIZE s.mem bp - asize) (k := 0) T3 (by omega) (by omega)).2
  have hb2l : bp + asize ∉ l1 ++ bp :: l2 := fun hc => hnew (hwf.mem_B hc)
  refine ⟨⟨hwf.glob.with_mem _, hS', ?_, ?_, ?_, ?_⟩, ?_, T1⟩
  · -- chain
    apply Chain_replace s.mem _ bp (bp + asize) l2 l1 _ hwf.chain hnd
      (fun x hx => hwf.ne_zero (hwf.mem_B hx)) Lk1 Lk2 Lk3 Lk4
    · intro x hx hxp
      have hxB : x ∈ B := by
        apply hwf.anchor_mem_B
        rcases List.mem_cons.mp hx with h1 | h1
        · rw [h1]; exact List.mem_cons_self _ _
        · apply List.mem_cons_of_mem
          rcases List.mem_append.mp h1 with h2 | h2
          · exact List.mem_append_left _ h2
          · exact List.mem_append_right _ (List.mem_cons_of_mem _ h2)
      have hxb : x ≠ bp := by
        rintro rfl
        simp only [List.mem_append, List.mem_cons] at hx
        rcases hx with h1 | h1 | h1
        · exact hrb h1.symm
        · exact hbl1 h1
        · exact hbl2 h1
      exact hT.fwd hS hF' hG' hxB (hout x hxB hxb) (by simpa using hxp)
    · intro x hx hxn
      have hxB : x ∈ B := by
        apply hwf.mem_B
        rcases List.mem_append.mp hx with h2 | h2
        · exact List.mem_append_left _ h2
        · exact List.mem_append_right _ (List.mem_cons_of_mem _ h2)
      have hxb : x ≠ bp := by
        rintro rfl
        rcases List.mem_append.mp hx with h1 | h1
        · exact hbl1 h1
        · exact hbl2 h1
      exact hT.back hS hF' hG' hxB (hout x hxB hxb) (by simpa using hxn)
  · -- nodup
    rw [List.nodup_middle, List.nodup_cons]
    refine ⟨fun hc => hb2l ?_, hnd12⟩
    rcases List.mem_append.mp hc with h1 | h1
    · exact List.mem_append_left _ h1
    · exact List.mem_append_right _ (List.mem_cons_of_mem _ h1)
  · -- free
    intro a
    by_cases ha2 : a = bp + asize
    · subst ha2
      simp only [List.mem_append, List.mem_cons, true_or, or_true, Set.mem_insert_iff, hb2,
        true_and, Set.mem_empty_iff_false, not_false_eq_true]
    · by_cases hab : a = bp
      · subst hab
        have h1 : a ∉ l1 ++ (a + asize) :: l2 := by
          intro hc
          simp only [List.mem_append, List.mem_cons] at hc
          rcases hc with h2 | h2 | h2
          · exact hbl1 h2
          · omega
          · exact hbl2 h2
        simp only [h1, false_iff, not_and]
        intro _ hc
        rw [hbp1.2] at hc
        omega
      · have := hwf.free a
        simp only [List.mem_append, List.mem_cons, hab, ha2, false_or, Set.mem_insert_iff]
          at this ⊢
        rw [this]
        constructor
        · rintro ⟨h1, h2, h3⟩; exact ⟨h1, by rw [hal a h1 hab]; exact h2, h3⟩
        · rintro ⟨h1, h2, h3⟩; exact ⟨h1, by rw [← hal a h1 hab]; exact h2, h3⟩
  · -- live
    intro q
    simp only [Set.mem_insert_iff]
    constructor
    · rintro (rfl | hq)
      · exact ⟨bp, Or.inr hbpB, hbpr, hbp1.2, rfl⟩
      · obtain ⟨a, ha, h1, h2, h3⟩ := (hwf.live q).mp hq
        have hab : a ≠ bp := by rintro rfl; omega
        exact ⟨a, Or.inr ha, h1, by rw [hal a ha hab]; exact h2, h3⟩
    · rintro ⟨a, ha, h1, h2, h3⟩
      rcases ha with ha | ha
      · rw [ha, hb2] at h2; omega
      · by_cases hab : a = bp
        · left; rw [h3, hab]
        · right
          exact (hwf.live q).mpr ⟨a, ha, h1, by rw [← hal a ha hab]; exact h2, h3⟩
  · -- frame
    intro a ha har _ haa
    have hab : a ≠ bp := by rintro rfl; omega
    apply hT.frame hS _ _ ha har haa (hout a ha hab)
    · intro f hf; rw [List.mem_singleton.mp hf]; exact ⟨hpB, hpfree⟩
    · intro g hg; rw [List.mem_singleton.mp hg]
      by_cases hn0 : getLink s.mem (bp + 12) = 0
      · left; exact hn0
      · right; exact ⟨(hnfacts hn0).1, Or.inr (hnfacts hn0).2.1⟩

/-! ## The statements of `coalesce` -/

theorem coalesceH_eq (m : Mem) (root bp : Nat) :
    coalesceH m root bp =
      headInsert
        (PUT
          (PUT (unlinkMem m (bp + GET_SIZE m bp))
            (bp + GET_SIZE m bp + GET_SIZE (unlinkMem m (bp + GET_SIZE m bp))
              (bp + GET_SIZE m bp) - 4)
            (PACK (GET_SIZE m bp + GET_SIZE (unlinkMem m (bp + GET_SIZE m bp))
              (bp + GET_SIZE m bp)) 0))
          bp
          (PACK (GET_SIZE m bp +
            GET_SIZE (PUT (unlinkMem m (bp + GET_SIZE m bp))
              (bp + GET_SIZE m bp + GET_SIZE (unlinkMem m (bp + GET_SIZE m bp))
                (bp + GET_SIZE m bp) - 4)
              (PACK (GET_SIZE m bp + GET_SIZE (unlinkMem m (bp + GET_SIZE m bp))
                (bp + GET_SIZE m bp)) 0)) (bp + GET_SIZE m bp)) 0))
        root bp := rfl

theorem coalesceL_eq (m : Mem) (root bp : Nat) :
    coalesceL m root bp =
      headInsert
        (PUT
          (PUT (unlinkMem m (bp - GET_SIZE m (bp - 4)))
            (bp + GET_SIZE (unlinkMem m (bp - GET_SIZE m (bp - 4))) bp - 4)
            (PACK (GET_SIZE m (bp - 4) +
              GET_SIZE (unlinkMem m (bp - GET_SIZE m (bp - 4))) bp) 0))
          (bp - GET_SIZE m (bp - 4))
          (PACK (GET_SIZE m (bp - 4) +
            GET_SIZE (PUT (unlinkMem m (bp - GET_SIZE m (bp - 4)))
              (bp + GET_SIZE (unlinkMem m (bp - GET_SIZE m (bp - 4))) bp - 4)
              (PACK (GET_SIZE m (bp - 4) +
                GET_SIZE (unlinkMem m (bp - GET_SIZE m (bp - 4))) bp) 0)) bp) 0))
        root (bp - GET_SIZE m (bp - 4)) := rfl

theorem unlink_mem (m : Mem) (y b a : Nat)
    (hb : getLink m (y + 4) = b) (ha : getLink m (y + 12) = a) (hb0 : b ≠ 0)
    (hby : b + 24 ≤ y ∨ y + 24 ≤ b)
    (hay : a ≠ 0 → a + 24 ≤ y ∨ y + 24 ≤ a)
    (hab : a ≠ 0 → a + 24 ≤ b ∨ b + 24 ≤ a) :
    getLink (unlinkMem m y) (b + 12) = a ∧
    (a ≠ 0 → getLink (unlinkMem m y) (a + 4) = b) ∧
    Touch m (unlinkMem m y) 0 0 [b] [a] := by
  unfold unlinkMem
  simp only
  rw [hb, ha, if_pos hb0]
  by_cases ha0 : a = 0
  · rw [if_neg (by simpa using ha0)]
    refine ⟨?_, fun hc => absurd ha0 hc, ?_⟩
    · rw [getLink_copyLink_same _ _ _ (by omega), ha]
    · intro x _ hF _
      have := hF b (List.mem_singleton_self _)
      rw [copyLink_byte_out _ _ _ _ (by omega)]
  · have hay' := hay ha0
    have hab' := hab ha0
    rw [if_pos ha0]
    refine ⟨?_, fun _ => ?_, ?_⟩
    · rw [getLink_copyLink_sep _ _ _ _ (by omega), getLink_copyLink_same _ _ _ (by omega), ha]
    · rw [getLink_copyLink_same _ _ _ (by omega), getLink_copyLink_sep _ _ _ _ (by omega), hb]
    · intro x _ hF hG
      have := hF b (List.mem_singleton_self _)
      have := hG a (List.mem_singleton_self _)
      rw [copyLink_byte_out _ _ _ _ (by omega), copyLink_byte_out _ _ _ _ (by omega)]

theorem headInsert_mem (m : Mem) (root b h : Nat)
    (hh : getLink m (root + 12) = h) (hb3 : b < 2147483648) (hr3 : root < 2147483648)
    (hrb : root + 24 ≤ b)
    (hhb : h ≠ 0 → h + 24 ≤ b ∨ b + 24 ≤ h)
    (hhr : h ≠ 0 → root + 24 ≤ h) :
    getLink (headInsert m root b) (root + 12) = b ∧
    getLink (headInsert m root b) (b + 4) = root ∧
    getLink (headInsert m root b) (b + 12) = h ∧
    (h ≠ 0 → getLink (headInsert m root b) (h + 4) = b) ∧
    Touch m (headInsert m root b) (b + 4) (b + 20) [root] [h] := by
  have hback : getLink (putLink (copyLink m (b + 12) (root + 12)) (b + 4) root) (root + 12)
      = h := by
    rw [getLink_putLink_sep _ _ _ _ (by omega), getLink_copyLink_sep _ _ _ _ (by omega), hh]
  unfold headInsert
  simp only
  rw [hback]
  by_cases hh0 : h = 0
  · rw [if_neg (by simpa using hh0)]
    refine ⟨?_, ?_, ?_, fun hc => absurd hh0 hc, ?_⟩
    · rw [getLink_putLink_same _ _ _ hb3]
    · rw [getLink_putLink_sep _ _ _ _ (by omega), getLink_putLink_same _ _ _ hr3]
    · rw [getLink_putLink_sep _ _ _ _ (by omega), getLink_putLink_sep _ _ _ _ (by omega),
        getLink_copyLink_same _ _ _ (by omega), hh]
    · intro x h1 hF _
      have := hF root (List.mem_singleton_self _)
      rw [putLink_byte_out _ _ _ _ (by omega), putLink_byte_out _ _ _ _ (by omega),
        copyLink_byte_out _ _ _ _ (by omega)]
  · have hhb' := hhb hh0
    have hhr' := hhr hh0
    rw [if_pos hh0]
    refine ⟨?_, ?_, ?_, fun _ => ?_, ?_⟩
    · rw [getLink_putLink_same _ _ _ hb3]
    · rw [getLink_putLink_sep _ _ _ _ (by omega), getLink_putLink_sep _ _ _ _ (by omega),
        getLink_putLink_same _ _ _ hr3]
    · rw [getLink_putLink_sep _ _ _ _ (by omega), getLink_putLink_sep _ _ _ _ (by omega),
        getLink_putLink_sep _ _ _ _ (by omega),
        getLink_copyLink_same _ _ _ (by omega), hh]
    · rw [getLink_putLink_sep _ _ _ _ (by omega), getLink_putLink_same _ _ _ hb3]
    · intro x h1 hF hG
      have := hF root (List.mem_singleton_self _)
      have := hG h (List.mem_singleton_self _)
      rw [putLink_byte_out _ _ _ _ (by omega), putLink_byte_out _ _ _ _ (by omega),
        putLink_byte_out _ _ _ _ (by omega), copyLink_byte_out _ _ _ _ (by omega)]

theorem coalesceNone_mem (m : Mem) (root b h : Nat)
    (hh : getLink m (root + 12) = h) (hb3 : b < 2147483648) (hr3 : root < 2147483648)
    (hrb : root + 24 ≤ b)
    (hhb : h ≠ 0 → h + 24 ≤ b ∨ b + 24 ≤ h)
    (hhr : h ≠ 0 → root + 24 ≤ h) :
    getLink (coalesceNone m root b) (root + 12) = b ∧
    getLink (coalesceNone m root b) (b + 4) = root ∧
    getLink (coalesceNone m root b) (b + 12) = h ∧
    (h ≠ 0 → getLink (coalesceNone m root b) (h + 4) = b) ∧
    Touch m (coalesceNone m root b) (b + 4) (b + 20) [root] [h] := by
  have hback : getLink (copyLink (putLink m (b + 4) root) (b + 12) (root + 12)) (root + 12)
      = h := by
    rw [getLink_copyLink_sep _ _ _ _ (by omega), getLink_putLink_sep _ _ _ _ (by omega), hh]
  have hsrc : getLink (putLink m (b + 4) root) (root + 12) = h := by
    rw [getLink_putLink_sep _ _ _ _ (by omega), hh]
  unfold coalesceNone
  simp only
  rw [hback]
  by_cases hh0 : h = 0
  · rw [if_neg (by simpa using hh0)]
    refine ⟨?_, ?_, ?_, fun hc => absurd hh0 hc, ?_⟩
    · rw [getLink_putLink_same _ _ _ hb3]
    · rw [getLink_putLink_sep _ _ _ _ (by omega), getLink_copyLink_sep _ _ _ _ (by omega),
        getLink_putLink_same _ _ _ hr3]
    · rw [getLink_putLink_sep _ _ _ _ (by omega),
        getLink_copyLink_same _ _ _ (by omega), hsrc]
    · intro x h1 hF _
      have := hF root (List.mem_singleton_self _)
      rw [putLink_byte_out _ _ _ _ (by omega), copyLink_byte_out _ _ _ _ (by omega),
        putLink_byte_out _ _ _ _ (by omega)]
  · have hhb' := hhb hh0
    have hhr' := hhr hh0
    rw [if_pos hh0]
    refine ⟨?_, ?_, ?_, fun _ => ?_, ?_⟩
    · rw [getLink_putLink_same _ _ _ hb3]
    · rw [getLink_putLink_sep _ _ _ _ (by omega), getLink_putLink_sep _ _ _ _ (by omega),
        getLink_copyLink_sep _ _ _ _ (by omega), getLink_putLink_same _ _ _ hr3]
    · rw [getLink_putLink_sep _ _ _ _ (by omega), getLink_putLink_sep _ _ _ _ (by omega),
        getLink_copyLink_same _ _ _ (by omega), hsrc]
    · rw [getLink_putLink_sep _ _ _ _ (by omega), getLink_putLink_same _ _ _ hb3]
    · intro x h1 hF hG
      have := hF root (List.mem_singleton_self _)
      have := hG h (List.mem_singleton_self _)
      rw [putLink_byte_out _ _ _ _ (by omega), putLink_byte_out _ _ _ _ (by omega),
        copyLink_byte_out _ _ _ _ (by omega), putLink_byte_out _ _ _ _ (by omega)]

/-! ## The three steps of `coalesce` on the invariant -/

/-- Step 1: taking the member `y` out of the list; it becomes pending. -/
theorem WF.unlink {s : State} {B : Set Nat} {l1 l2 : List Nat} {L P : Set Nat} {y : Nat}
    (hwf : WF s B (l1 ++ y :: l2) L P) :
    WF { s with mem := unlinkMem s.mem y } B (l1 ++ l2) L (insert y P) ∧
    (∀ a ∈ B, GET (unlinkMem s.mem y) a = GET s.mem a ∧
      GET (unlinkMem s.mem y) (a + GET_SIZE s.mem a - 4) =
        GET s.mem (a + GET_SIZE s.mem a - 4)) ∧
    Frame s.mem (unlinkMem s.mem y) s.heap_listp B 0 := by
  have hS := hwf.shape
  obtain ⟨hyB, hyf, hyr, hpm, hpB, hpne, hpfree, hnm, hnfacts⟩ := hwf.mid
  have hy := hS.blk y hyB
  have hnd := hwf.nodup_root
  obtain ⟨hrb, hrl1, hrl2, hbl1, hbl2, hdis, hnd12⟩ := nodup_mid_facts hnd
  have hp := hS.blk _ hpB
  have hsp := hS.sep hpB hyB
  obtain ⟨Lk1, Lk2, hT⟩ := unlink_mem s.mem y (getLink s.mem (y + 4))
    (getLink s.mem (y + 12)) rfl rfl (hwf.ne_zero hpB) (by omega)
    (by
      intro hn0
      obtain ⟨h1, _, h2, _⟩ := hnfacts hn0
      have := hS.blk _ h1
      have := hS.sep h1 hyB
      omega)
    (by
      intro hn0
      obtain ⟨h1, _, _, h3, _⟩ := hnfacts hn0
      have := hS.blk _ h1
      have := hS.sep h1 hpB
      omega)
  have hF' : ∀ f ∈ [getLink s.mem (y + 4)], f ∈ B := by
    intro f hf; rw [List.mem_singleton.mp hf]; exact hpB
  have hG' : ∀ g ∈ [getLink s.mem (y + 12)], g = 0 ∨ g ∈ B := by
    intro g hg; rw [List.mem_singleton.mp hg]
    by_cases hn0 : getLink s.mem (y + 12) = 0
    · left; exact hn0
    · right; exact (hnfacts hn0).1
  have hG : ∀ a ∈ B, GET (unlinkMem s.mem y) a = GET s.mem a ∧
      GET (unlinkMem s.mem y) (a + GET_SIZE s.mem a - 4) =
        GET s.mem (a + GET_SIZE s.mem a - 4) :=
    fun a ha => hT.tags hS hF' hG' ha (Or.inr (Nat.zero_le _))
  have hal : ∀ a ∈ B, GET_ALLOC (unlinkMem s.mem y) a = GET_ALLOC s.mem a :=
    fun a ha => GET_ALLOC_congr _ _ _ (hG a ha).1
  refine ⟨⟨hwf.glob.with_mem _, ?_, ?_, hnd12, ?_, ?_⟩, hG, ?_⟩
  · apply hS.congr
    · rw [(hG _ hS.root_mem).1]; exact hS.root_hdr
    · exact fun a ha => GET_SIZE_congr _ _ _ (hG a ha).1
    · intro a ha
      rw [(hG a ha).1, (hG a ha).2]; exact (hS.blk a ha).2.2.2.2.2
  · apply Chain_unlink s.mem _ y l2 l1 _ hwf.chain hnd
      (fun x hx => hwf.ne_zero (hwf.mem_B hx)) Lk1 Lk2
    · intro x hx hxp
      have hxB : x ∈ B := by
        apply hwf.anchor_mem_B
        rcases List.mem_cons.mp hx with h1 | h1
        · rw [h1]; exact List.mem_cons_self _ _
        · apply List.mem_cons_of_mem
          rcases List.mem_append.mp h1 with h2 | h2
          · exact List.mem_append_left _ h2
          · exact List.mem_append_right _ (List.mem_cons_of_mem _ h2)
      exact hT.fwd hS hF' hG' hxB (Or.inr (Nat.zero_le _)) (by simpa using hxp)
    · intro x hx hxn
      have hxB : x ∈ B := by
        apply hwf.mem_B
        rcases List.mem_append.mp hx with h2 | h2
        · exact List.mem_append_left _ h2
        · exact List.mem_append_right _ (List.mem_cons_of_mem _ h2)
      exact hT.back hS hF' hG' hxB (Or.inr (Nat.zero_le _)) (by simpa using hxn)
  · intro a
    by_cases hay : a = y
    · subst hay
      have h1 : a ∉ l1 ++ l2 := by
        intro hc
        rcases List.mem_append.mp hc with h2 | h2
        · exact hbl1 h2
        · exact hbl2 h2
      simp only [h1, false_iff, not_and, Set.mem_insert_iff, true_or, not_true_eq_false,
        imp_false]
      intro _ _; trivial
    · have := hwf.free a
      simp only [List.mem_append, List.mem_cons, hay, false_or, Set.mem_insert_iff] at this ⊢
      rw [this]
      constructor
      · rintro ⟨h1, h2, h3⟩; exact ⟨h1, by rw [hal a h1]; exact h2, h3⟩
      · rintro ⟨h1, h2, h3⟩; exact ⟨h1, by rw [← hal a h1]; exact h2, h3⟩
  · intro q
    rw [hwf.live q]
    constructor
    · rintro ⟨a, ha, h1, h2, h3⟩; exact ⟨a, ha, h1, by rw [hal a ha]; exact h2, h3⟩
    · rintro ⟨a, ha, h1, h2, h3⟩; exact ⟨a, ha, h1, by rw [← hal a ha]; exact h2, h3⟩
  · intro a ha har _ haa
    apply hT.frame hS _ _ ha har haa (Or.inr (Nat.zero_le _))
    · intro f hf; rw [List.mem_singleton.mp hf]; exact ⟨hpB, hpfree⟩
    · intro g hg; rw [List.mem_singleton.mp hg]
      by_cases hn0 : getLink s.mem (y + 12) = 0
      · left; exact hn0
      · right; exact ⟨(hnfacts hn0).1, Or.inr (hnfacts hn0).2.1⟩

/-- Step 3: a pending block `b` goes to the head of the list. -/
theorem WF.insert {s : State} {B : Set Nat} {fl : List Nat} {L P : Set Nat} {b : Nat}
    (hwf : WF s B fl L P) (hbB : b ∈ B) (hbP : b ∈ P) (hbf : GET_ALLOC s.mem b = 0)
    (hbr : b ≠ s.heap_listp) (m' : Mem)
    (Lk1 : getLink m' (s.heap_listp + 12) = b)
    (Lk2 : getLink m' (b + 4) = s.heap_listp)
    (Lk3 : getLink m' (b + 12) = getLink s.mem (s.heap_listp + 12))
    (Lk4 : getLink s.mem (s.heap_listp + 12) ≠ 0 →
      getLink m' (getLink s.mem (s.heap_listp + 12) + 4) = b)
    (hT : Touch s.mem m' (b + 4) (b + 20) [s.heap_listp]
      [getLink s.mem (s.heap_listp + 12)]) :
    WF { s with mem := m' } B (b :: fl) L (P \ {b}) ∧
    Frame s.mem m' s.heap_listp B 0 ∧ (∀ a ∈ B, GET m' a = GET s.mem a) := by
  have hS := hwf.shape
  have hbb := hS.blk b hbB
  have hrB := hS.root_mem
  have hbfl : b ∉ fl := fun hc => ((hwf.free b).mp hc).2.2 hbP
  have hh := Chain_fwd_mem s.mem fl s.heap_listp s.heap_listp hwf.chain
    (List.mem_cons_self _ _)
  have hhB : getLink s.mem (s.heap_listp + 12) ≠ 0 →
      getLink s.mem (s.heap_listp + 12) ∈ fl := fun h0 => hh.resolve_left h0
  have hF' : ∀ f ∈ [s.heap_listp], f ∈ B := by
    intro f hf; rw [List.mem_singleton.mp hf]; exact hrB
  have hG' : ∀ g ∈ [getLink s.mem (s.heap_listp + 12)], g = 0 ∨ g ∈ B := by
    intro g hg; rw [List.mem_singleton.mp hg]
    by_cases hn0 : getLink s.mem (s.heap_listp + 12) = 0
    · left; exact hn0
    · right; exact hwf.mem_B (hhB hn0)
  have hout : ∀ a ∈ B, a ≠ b → a + GET_SIZE s.mem a ≤ b + 4 ∨ b + 20 ≤ a := by
    intro a ha hab
    have := hS.sep ha hbB
    omega
  have hGo : ∀ a ∈ B, a ≠ b → GET m' a = GET s.mem a ∧
      GET m' (a + GET_SIZE s.mem a - 4) = GET s.mem (a + GET_SIZE s.mem a - 4) :=
    fun a ha hab => hT.tags hS hF' hG' ha (hout a ha hab)
  have hbytes : ∀ z, (z < b + 4 ∨ b + 20 ≤ z) → b ≤ z → z < b + GET_SIZE s.mem b →
      m'.byte z = s.mem.byte z := by
    intro z hz1 hz2 hz3
    apply hT z hz1
    · intro f hf
      rw [List.mem_singleton.mp hf]
      have := hS.sep hrB hbB
      have := hS.root_size
      omega
    · intro g hg
      rw [List.mem_singleton.mp hg]
      by_cases hn0 : getLink s.mem (s.heap_listp + 12) = 0
      · left; exact hn0
      · right
        have hgB := hwf.mem_B (hhB hn0)
        have hgb : getLink s.mem (s.heap_listp + 12) ≠ b := fun he => hbfl (he ▸ hhB hn0)
        have := hS.sep hgB hbB
        have := hS.blk _ hgB
        omega
  have hG : ∀ a ∈ B, GET m' a = GET s.mem a ∧
      GET m' (a + GET_SIZE s.mem a - 4) = GET s.mem (a + GET_SIZE s.mem a - 4) := by
    intro a ha
    by_cases hab : a = b
    · subst hab
      exact ⟨GET_congr _ _ _ (fun z h1 h2 => hbytes z (by omega) (by omega) (by omega)),
        GET_congr _ _ _ (fun z h1 h2 => hbytes z (by omega) (by omega) (by omega))⟩
    · exact hGo a ha hab
  have hal : ∀ a ∈ B, GET_ALLOC m' a = GET_ALLOC s.mem a :=
    fun a ha => GET_ALLOC_congr _ _ _ (hG a ha).1
  refine ⟨⟨hwf.glob.with_mem _, ?_, ?_, ?_, ?_, ?_⟩, ?_, fun a ha => (hG a ha).1⟩
  · apply hS.congr
    · rw [(hG _ hS.root_mem).1]; exact hS.root_hdr
    · exact fun a ha => GET_SIZE_congr _ _ _ (hG a ha).1
    · intro a ha
      rw [(hG a ha).1, (hG a ha).2]; exact (hS.blk a ha).2.2.2.2.2
  · apply Chain_insert s.mem m' s.heap_listp b fl hwf.chain hwf.nodup
      (fun x hx => hwf.ne_zero (hwf.mem_B hx)) Lk1 Lk2 Lk3 Lk4
    · intro x hx
      have hxB := hwf.mem_B hx
      have hxb : x ≠ b := fun he => hbfl (he ▸ hx)
      have hxr : x ≠ s.heap_listp := fun he => hwf.root_not_mem (he ▸ hx)
      exact hT.fwd hS hF' hG' hxB (hout x hxB hxb) (by simpa using hxr)
    · intro x hx hxh
      have hxB := hwf.mem_B hx
      have hxb : x ≠ b := fun he => hbfl (he ▸ hx)
      exact hT.back hS hF' hG' hxB (hout x hxB hxb) (by simpa using hxh)
  · exact List.nodup_cons.mpr ⟨hbfl, hwf.nodup⟩
  · intro a
    by_cases hab : a = b
    · subst hab
      simp only [List.mem_cons, true_or, true_iff, Set.mem_diff, Set.mem_singleton_iff,
        not_true_eq_false, and_false, not_false_eq_true, and_true]
      exact ⟨hbB, by rw [hal a hbB]; exact hbf⟩
    · have := hwf.free a
      simp only [List.mem_cons, hab, false_or, Set.mem_diff, Set.mem_singleton_iff,
        not_false_eq_true, and_true] at this ⊢
      rw [this]
      constructor
      · rintro ⟨h1, h2, h3⟩; exact ⟨h1, by rw [hal a h1]; exact h2, h3⟩
      · rintro ⟨h1, h2, h3⟩; exact ⟨h1, by rw [← hal a h1]; exact h2, h3⟩
  · intro q
    rw [hwf.live q]
    constructor
    · rintro ⟨a, ha, h1, h2, h3⟩; exact ⟨a, ha, h1, by rw [hal a ha]; exact h2, h3⟩
    · rintro ⟨a, ha, h1, h2, h3⟩; exact ⟨a, ha, h1, by rw [← hal a ha]; exact h2, h3⟩
  · intro a ha har _ haa
    have hab : a ≠ b := by rintro rfl; omega
    apply hT.frame hS _ _ ha har haa (hout a ha hab)
    · intro f hf; rw [List.mem_singleton.mp hf]; exact ⟨hrB, Or.inl rfl⟩
    · intro g hg; rw [List.mem_singleton.mp hg]
      by_cases hn0 : getLink s.mem (s.heap_listp + 12) = 0
      · left; exact hn0
      · right; exact ⟨hwf.mem_B (hhB hn0), Or.inr (hwf.mem_free (hhB hn0))⟩

/-- Step 2: two pending neighbours `x` and `y = x + size x` become one pending block
at `x`. -/
theorem WF.merge {s : State} {B : Set Nat} {fl : List Nat} {L P : Set Nat} {x : Nat}
    (hwf : WF s B fl L P) (hx : x ∈ B) (hxP : x ∈ P) (hxf : GET_ALLOC s.mem x = 0)
    (hy : x + GET_SIZE s.mem x ∈ B) (hyP : x + GET_SIZE s.mem x ∈ P)
    (hyf : GET_ALLOC s.mem (x + GET_SIZE s.mem x) = 0) (hxr : x ≠ s.heap_listp) (m' : Mem)
    (hT1 : GET m' x = GET_SIZE s.mem x + GET_SIZE s.mem (x + GET_SIZE s.mem x))
    (hT2 : GET m' (x + GET_SIZE s.mem x + GET_SIZE s.mem (x + GET_SIZE s.mem x) - 4) =
      GET_SIZE s.mem x + GET_SIZE s.mem (x + GET_SIZE s.mem x))
    (hfr : ∀ z, (z < x ∨ x + 4 ≤ z) →
      (z < x + GET_SIZE s.mem x + GET_SIZE s.mem (x + GET_SIZE s.mem x) - 4 ∨
        x + GET_SIZE s.mem x + GET_SIZE s.mem (x + GET_SIZE s.mem x) ≤ z) →
      m'.byte z = s.mem.byte z) :
    WF { s with mem := m' } (B \ {x + GET_SIZE s.mem x}) fl L (P \ {x + GET_SIZE s.mem x}) ∧
    Frame s.mem m' s.heap_listp B 0 ∧
    GET_SIZE m' x = GET_SIZE s.mem x + GET_SIZE s.mem (x + GET_SIZE s.mem x) ∧
    GET_ALLOC m' x = 0 := by
  have hS := hwf.shape
  have hbx := hS.blk x hx
  have hby := hS.blk _ hy
  have hytop := hwf.lt_top hy
  have hother : ∀ a ∈ B, a ≠ x → a ≠ x + GET_SIZE s.mem x →
      ∀ z, a ≤ z → z < a + GET_SIZE s.mem a → m'.byte z = s.mem.byte z := by
    intro a ha hax hay z hz1 hz2
    have := hS.sep ha hx
    have := hS.sep ha hy
    exact hfr z (by omega) (by omega)
  have hG : ∀ a ∈ B, a ≠ x → a ≠ x + GET_SIZE s.mem x → GET m' a = GET s.mem a ∧
      GET m' (a + GET_SIZE s.mem a - 4) = GET s.mem (a + GET_SIZE s.mem a - 4) := by
    intro a ha hax hay
    have hba := hS.blk a ha
    exact ⟨GET_congr _ _ _ (fun z h1 h2 => hother a ha hax hay z (by omega) (by omega)),
      GET_congr _ _ _ (fun z h1 h2 => hother a ha hax hay z (by omega) (by omega))⟩
  obtain ⟨hS', hsz, halx, hszo⟩ := hS.join hx hy hxr (by omega) hT1 hT2 hG
  have hal : ∀ a ∈ B, a ≠ x → a ≠ x + GET_SIZE s.mem x →
      GET_ALLOC m' a = GET_ALLOC s.mem a :=
    fun a ha h1 h2 => GET_ALLOC_congr _ _ _ (hG a ha h1 h2).1
  have hxfl : x ∉ fl := fun hc => ((hwf.free x).mp hc).2.2 hxP
  have hyfl : x + GET_SIZE s.mem x ∉ fl := fun hc => ((hwf.free _).mp hc).2.2 hyP
  have hyr : x + GET_SIZE s.mem x ≠ s.heap_listp := by omega
  have hmemne : ∀ z ∈ s.heap_listp :: fl, z ∈ B ∧ z ≠ x ∧ z ≠ x + GET_SIZE s.mem x := by
    intro z hz
    refine ⟨hwf.anchor_mem_B hz, ?_, ?_⟩
    · rintro rfl
      rcases List.mem_cons.mp hz with h1 | h1
      · exact hxr h1
      · exact hxfl h1
    · rintro rfl
      rcases List.mem_cons.mp hz with h1 | h1
      · exact hyr h1
      · exact hyfl h1
  refine ⟨⟨hwf.glob.with_mem _, hS', ?_, hwf.nodup, ?_, ?_⟩, ?_, hsz, halx⟩
  · apply Chain_congr s.mem m' fl _ hwf.chain
    · intro z hz
      obtain ⟨hzB, hzx, hzy⟩ := hmemne z hz
      have hbz := hS.blk z hzB
      exact getLink_congr _ _ _ (fun w h1 h2 => hother z hzB hzx hzy w (by omega) (by omega))
    · intro z hz
      obtain ⟨hzB, hzx, hzy⟩ := hmemne z (List.mem_cons_of_mem _ hz)
      have hbz := hS.blk z hzB
      exact getLink_congr _ _ _ (fun w h1 h2 => hother z hzB hzx hzy w (by omega) (by omega))
  · intro a
    by_cases hay : a = x + GET_SIZE s.mem x
    · rw [hay]
      simp only [hyfl, false_iff, Set.mem_diff, Set.mem_singleton_iff, not_true_eq_false,
        and_false, false_and, not_false_eq_true]
    · by_cases hax : a = x
      · rw [hax]
        refine iff_of_false hxfl ?_
        rintro ⟨_, _, h3⟩
        exact h3 ⟨hxP, by simp only [Set.mem_singleton_iff]; omega⟩
      · have := hwf.free a
        simp only [Set.mem_diff, Set.mem_singleton_iff, hay, not_false_eq_true, and_true]
        rw [this]
        constructor
        · rintro ⟨h1, h2, h3⟩; exact ⟨h1, by rw [hal a h1 hax hay]; exact h2, h3⟩
        · rintro ⟨h1, h2, h3⟩; exact ⟨h1, by rw [← hal a h1 hax hay]; exact h2, h3⟩
  · intro q
    rw [hwf.live q]
    constructor
    · rintro ⟨a, ha, h1, h2, h3⟩
      have hax : a ≠ x := by rintro rfl; omega
      have hay : a ≠ x + GET_SIZE s.mem x := by rintro rfl; omega
      exact ⟨a, ⟨ha, by simpa using hay⟩, h1, by rw [hal a ha hax hay]; exact h2, h3⟩
    · rintro ⟨a, ⟨ha, hay⟩, h1, h2, h3⟩
      simp only [Set.mem_singleton_iff] at hay
      have hax : a ≠ x := by
        rintro rfl
        have h2' : GET_ALLOC m' a = 1 := h2
        omega
      exact ⟨a, ha, h1, by rw [← hal a ha hax hay]; exact h2, h3⟩
  · intro a ha har _ haa
    have hax : a ≠ x := by rintro rfl; omega
    have hay : a ≠ x + GET_SIZE s.mem x := by rintro rfl; omega
    exact ⟨(hG a ha hax hay).1, fun z h1 h2 => hother a ha hax hay z (by omega) (by omega)⟩

/-- `WF.merge` with the two sizes named. -/
theorem WF.merge_sizes {s : State} {B : Set Nat} {fl : List Nat} {L P : Set Nat} {x sx sy : Nat}
    (hwf : WF s B fl L P) (hsx : GET_SIZE s.mem x = sx) (hsy : GET_SIZE s.mem (x + sx) = sy)
    (hx : x ∈ B) (hxP : x ∈ P) (hxf : GET_ALLOC s.mem x = 0)
    (hy : x + sx ∈ B) (hyP : x + sx ∈ P)
    (hyf : GET_ALLOC s.mem (x + sx) = 0) (hxr : x ≠ s.heap_listp) (m' : Mem)
    (hT1 : GET m' x = sx + sy) (hT2 : GET m' (x + sx + sy - 4) = sx + sy)
    (hfr : ∀ z, (z < x ∨ x + 4 ≤ z) → (z < x + sx + sy - 4 ∨ x + sx + sy ≤ z) →
      m'.byte z = s.mem.byte z) :
    WF { s with mem := m' } (B \ {x + sx}) fl L (P \ {x + sx}) ∧
    Frame s.mem m' s.heap_listp B 0 ∧ GET_SIZE m' x = sx + sy ∧ GET_ALLOC m' x = 0 := by
  subst hsx
  subst hsy
  exact hwf.merge hx hxP hxf hy hyP hyf hxr m' hT1 hT2 hfr

/-! ## `coalesce`: which branch runs -/

theorem Shape.pred_ftr {m : Mem} {root brk : Nat} {B : Set Nat} (h : Shape m root brk B)
    {a : Nat} (ha : a ∈ B) (hne : a ≠ root) :
    ∃ x ∈ B, x + GET_SIZE m x = a ∧ GET m (a - 4) = GET m x ∧
      GET_SIZE m (a - 4) = GET_SIZE m x ∧ GET_ALLOC m (a - 4) = GET_ALLOC m x ∧
      a - GET_SIZE m (a - 4) = x := by
  obtain ⟨x, hx, he⟩ := h.pred a ha hne
  have hbx := h.blk x hx
  have hf : GET m (a - 4) = GET m x := by
    rw [← he]; exact hbx.2.2.2.2.2
  have hs : GET_SIZE m (a - 4) = GET_SIZE m x := by unfold GET_SIZE; rw [hf]
  have hal : GET_ALLOC m (a - 4) = GET_ALLOC m x := by unfold GET_ALLOC; rw [hf]
  refine ⟨x, hx, he, hf, hs, hal, ?_⟩
  rw [hs]; omega

theorem GET_ALLOC_le (m : Mem) (a : Nat) : GET_ALLOC m a ≤ 1 := by
  rw [GET_ALLOC_eq]; omega

theorem coalesce_none_eq (s : State) (bp : Nat) (hf : GET_ALLOC s.mem bp = 0)
    (hL : flagL s.mem bp = false) (hH : flagH s.mem s.heap_hi bp = false) :
    coalesce s bp = (bp, { s with mem := coalesceNone s.mem s.heap_listp bp }) := by
  unfold coalesce
  have h0 : ¬ (GET s.mem bp &&& 1 ≠ 0) := by
    have : GET s.mem bp &&& 1 = GET_ALLOC s.mem bp := rfl
    rw [this, hf]; simp
  rw [if_neg h0]
  simp [hL, hH]

theorem coalesce_H_eq (s : State) (bp : Nat) (hf : GET_ALLOC s.mem bp = 0)
    (hH : flagH s.mem s.heap_hi bp = true) :
    coalesce s bp = (bp, { s with mem := coalesceH s.mem s.heap_listp bp }) := by
  unfold coalesce
  have h0 : ¬ (GET s.mem bp &&& 1 ≠ 0) := by
    have : GET s.mem bp &&& 1 = GET_ALLOC s.mem bp := rfl
    rw [this, hf]; simp
  rw [if_neg h0]
  simp [hH]

theorem coalesce_L_eq (s : State) (bp : Nat) (hf : GET_ALLOC s.mem bp = 0)
    (hL : flagL s.mem bp = true) (hH : flagH s.mem s.heap_hi bp = false) :
    coalesce s bp = (bp - GET_SIZE s.mem (bp - 4),
      { s with mem := coalesceL s.mem s.heap_listp bp }) := by
  unfold coalesce
  have h0 : ¬ (GET s.mem bp &&& 1 ≠ 0) := by
    have : GET s.mem bp &&& 1 = GET_ALLOC s.mem bp := rfl
    rw [this, hf]; simp
  rw [if_neg h0]
  simp [hL, hH]

/-- The flags of `coalesce` on a block of a well-formed heap: `L` says that the
physical predecessor is free, `H` that a physical successor exists and is free. -/
theorem WF.flags {s : State} {B : Set Nat} {fl : List Nat} {L P : Set Nat} {bp : Nat}
    (hwf : WF s B fl L P) (hbB : bp ∈ B) (hbr : bp ≠ s.heap_listp) :
    (∃ x ∈ B, x + GET_SIZE s.mem x = bp ∧ bp - GET_SIZE s.mem (bp - 4) = x ∧
      GET_SIZE s.mem (bp - 4) = GET_SIZE s.mem x ∧
      (flagL s.mem bp = true ↔ GET_ALLOC s.mem x = 0)) ∧
    (flagH s.mem s.heap_hi bp = true ↔
      bp + GET_SIZE s.mem bp ∈ B ∧ GET_ALLOC s.mem (bp + GET_SIZE s.mem bp) = 0) := by
  have hS := hwf.shape
  have hb := hS.blk bp hbB
  constructor
  · obtain ⟨x, hx, he, _, hs, ha, hx'⟩ := hS.pred_ftr hbB hbr
    refine ⟨x, hx, he, hx', hs, ?_⟩
    have hbx := hS.blk x hx
    unfold flagL
    rw [ha, hs]
    simp only [ne_eq, decide_eq_true_eq, and_iff_left_iff_imp]
    intro _; omega
  · have hg := hwf.glob
    have hrs := hS.sep hS.root_mem hbB
    have hrsz := hS.root_size
    have hhi : s.heap_hi = s.brk - 4 := hg.hi (by have := hg.root_eq; omega)
    unfold flagH
    rw [hhi]
    simp only [ne_eq, decide_eq_true_eq]
    constructor
    · rintro ⟨h1, h2, _⟩
      exact ⟨hS.succ bp hbB (by have := hg.brk_al; omega), h2⟩
    · rintro ⟨h1, h2⟩
      have := hS.blk _ h1
      exact ⟨by omega, h2, by omega⟩

theorem Frame.trans {m1 m2 m3 : Mem} {root x : Nat} {B1 B2 : Set Nat}
    (h1 : Frame m1 m2 root B1 x) (h2 : Frame m2 m3 root B2 x)
    (hsub : ∀ a ∈ B1, a ≠ root → a ≠ x → GET_ALLOC m1 a = 1 → a ∈ B2) :
    Frame m1 m3 root B1 x := by
  intro a ha har hax haa
  obtain ⟨g1, p1⟩ := h1 a ha har hax haa
  have haa2 : GET_ALLOC m2 a = 1 := by rw [GET_ALLOC_congr _ _ _ g1]; exact haa
  have hs2 : GET_SIZE m2 a = GET_SIZE m1 a := GET_SIZE_congr _ _ _ g1
  obtain ⟨g2, p2⟩ := h2 a (hsub a ha har hax haa) har hax haa2
  refine ⟨g2.trans g1, fun y hy1 hy2 => ?_⟩
  rw [p2 y hy1 (by rw [hs2]; exact hy2), p1 y hy1 hy2]

theorem WF.congr_P {s : State} {B : Set Nat} {fl : List Nat} {L P P' : Set Nat}
    (h : WF s B fl L P) (hP : ∀ a ∈ B, a ∈ P ↔ a ∈ P') : WF s B fl L P' :=
  ⟨h.glob, h.shape, h.chain, h.nodup, fun a => by
    rw [h.free a]
    constructor
    · rintro ⟨h1, h2, h3⟩; exact ⟨h1, h2, fun hc => h3 ((hP a h1).mpr hc)⟩
    · rintro ⟨h1, h2, h3⟩; exact ⟨h1, h2, fun hc => h3 ((hP a h1).mp hc)⟩, h.live⟩

/-- Branch `!(H || L)`. -/
theorem coalesceNone_WF {s : State} {B : Set Nat} {fl : List Nat} {L : Set Nat} {bp : Nat}
    (hwf : WF s B fl L {bp}) (hbB : bp ∈ B) (hbf : GET_ALLOC s.mem bp = 0)
    (hbr : bp ≠ s.heap_listp) :
    CoalPost s B fl L bp (bp, { s with mem := coalesceNone s.mem s.heap_listp bp }) := by
  have hS := hwf.shape
  have hb := hS.blk bp hbB
  have hrs := hS.sep hS.root_mem hbB
  have hrsz := hS.root_size
  have hbtop := hwf.lt_top hbB
  have hbfl : bp ∉ fl := fun hc => ((hwf.free bp).mp hc).2.2 rfl
  have hh := Chain_fwd_mem s.mem fl s.heap_listp s.heap_listp hwf.chain
    (List.mem_cons_self _ _)
  obtain ⟨Lk1, Lk2, Lk3, Lk4, hT⟩ := coalesceNone_mem s.mem s.heap_listp bp
    (getLink s.mem (s.heap_listp + 12)) rfl (by omega) (by omega) (by omega)
    (by
      intro h0
      have hm := hh.resolve_left h0
      have hhB := hwf.mem_B hm
      have : getLink s.mem (s.heap_listp + 12) ≠ bp := fun he => hbfl (he ▸ hm)
      have := hS.sep hhB hbB
      have := hS.blk _ hhB
      omega)
    (by
      intro h0
      have hm := hh.resolve_left h0
      have hhB := hwf.mem_B hm
      have : getLink s.mem (s.heap_listp + 12) ≠ s.heap_listp :=
        fun he => hwf.root_not_mem (he ▸ hm)
      have := hS.sep hS.root_mem hhB
      have := hS.blk _ hhB
      omega)
  obtain ⟨hwf', hfr, hG⟩ := hwf.insert hbB rfl hbf hbr _ Lk1 Lk2 Lk3 Lk4 hT
  refine ⟨B, fl, hwf'.congr_P (fun a _ => by simp), le_refl _, hfr, rfl, rfl, rfl, rfl, rfl,
    le_refl _, ?_, fun a ha _ => ha, fun a ha => ha⟩
  show bp + GET_SIZE s.mem bp ≤ bp + GET_SIZE (coalesceNone s.mem s.heap_listp bp) bp
  rw [GET_SIZE_congr _ _ _ (hG bp hbB)]

/-- The head insertion of the merging branches on the invariant. -/
theorem WF.headInsert {s : State} {B : Set Nat} {fl : List Nat} {L P : Set Nat} {b : Nat}
    (hwf : WF s B fl L P) (hbB : b ∈ B) (hbP : b ∈ P) (hbf : GET_ALLOC s.mem b = 0)
    (hbr : b ≠ s.heap_listp) :
    WF { s with mem := headInsert s.mem s.heap_listp b } B (b :: fl) L (P \ {b}) ∧
    Frame s.mem (headInsert s.mem s.heap_listp b) s.heap_listp B 0 ∧
    (∀ a ∈ B, GET (headInsert s.mem s.heap_listp b) a = GET s.mem a) := by
  have hS := hwf.shape
  have hb := hS.blk b hbB
  have hrs := hS.sep hS.root_mem hbB
  have hrsz := hS.root_size
  have hbtop := hwf.lt_top hbB
  have hbfl : b ∉ fl := fun hc => ((hwf.free b).mp hc).2.2 hbP
  have hh := Chain_fwd_mem s.mem fl s.heap_listp s.heap_listp hwf.chain
    (List.mem_cons_self _ _)
  obtain ⟨Lk1, Lk2, Lk3, Lk4, hT⟩ := headInsert_mem s.mem s.heap_listp b
    (getLink s.mem (s.heap_listp + 12)) rfl (by omega) (by omega) (by omega)
    (by
      intro h0
      have hm := hh.resolve_left h0
      have hhB := hwf.mem_B hm
      have : getLink s.mem (s.heap_listp + 12) ≠ b := fun he => hbfl (he ▸ hm)
      have := hS.sep hhB hbB
      have := hS.blk _ hhB
      omega)
    (by
      intro h0
      have hm := hh.resolve_left h0
      have hhB := hwf.mem_B hm
      have : getLink s.mem (s.heap_listp + 12) ≠ s.heap_listp :=
        fun he => hwf.root_not_mem (he ▸ hm)
      have := hS.sep hS.root_mem hhB
      have := hS.blk _ hhB
      omega)
  exact hwf.insert hbB hbP hbf hbr _ Lk1 Lk2 Lk3 Lk4 hT

/-- Branch `if(H)`. -/
theorem coalesceH_WF {s : State} {B : Set Nat} {fl : List Nat} {L : Set Nat} {bp : Nat}
    (hwf : WF s B fl L {bp}) (hbB : bp ∈ B) (hbf : GET_ALLOC s.mem bp = 0)
    (hbr : bp ≠ s.heap_listp) (hyB : bp + GET_SIZE s.mem bp ∈ B)
    (hyf : GET_ALLOC s.mem (bp + GET_SIZE s.mem bp) = 0) :
    CoalPost s B fl L bp (bp, { s with mem := coalesceH s.mem s.heap_listp bp }) := by
  have hS := hwf.shape
  have hb := hS.blk bp hbB
  have hy := hS.blk _ hyB
  have hytop := hwf.lt_top hyB
  have hyne : bp + GET_SIZE s.mem bp ≠ bp := by omega
  have hyfl : bp + GET_SIZE s.mem bp ∈ fl :=
    (hwf.free _).mpr ⟨hyB, hyf, by simpa using hyne⟩
  obtain ⟨l1, l2, rfl⟩ := List.append_of_mem hyfl
  obtain ⟨hwf1, htag1, hfr1⟩ := hwf.unlink
  have e1 : GET_SIZE (unlinkMem s.mem (bp + GET_SIZE s.mem bp)) bp = GET_SIZE s.mem bp :=
    GET_SIZE_congr _ _ _ (htag1 bp hbB).1
  have e2 : GET_SIZE (unlinkMem s.mem (bp + GET_SIZE s.mem bp)) (bp + GET_SIZE s.mem bp) =
      GET_SIZE s.mem (bp + GET_SIZE s.mem bp) := GET_SIZE_congr _ _ _ (htag1 _ hyB).1
  have a1 : GET_ALLOC (unlinkMem s.mem (bp + GET_SIZE s.mem bp)) bp = 0 := by
    rw [GET_ALLOC_congr _ _ _ (htag1 bp hbB).1]; exact hbf
  have a2 : GET_ALLOC (unlinkMem s.mem (bp + GET_SIZE s.mem bp)) (bp + GET_SIZE s.mem bp)
      = 0 := by
    rw [GET_ALLOC_congr _ _ _ (htag1 _ hyB).1]; exact hyf
  have key : ∃ M4 : Mem, coalesceH s.mem s.heap_listp bp = headInsert M4 s.heap_listp bp ∧
      GET M4 bp = GET_SIZE s.mem bp + GET_SIZE s.mem (bp + GET_SIZE s.mem bp) ∧
      GET M4 (bp + GET_SIZE s.mem bp + GET_SIZE s.mem (bp + GET_SIZE s.mem bp) - 4) =
        GET_SIZE s.mem bp + GET_SIZE s.mem (bp + GET_SIZE s.mem bp) ∧
      (∀ z, (z < bp ∨ bp + 4 ≤ z) →
        (z < bp + GET_SIZE s.mem bp + GET_SIZE s.mem (bp + GET_SIZE s.mem bp) - 4 ∨
          bp + GET_SIZE s.mem bp + GET_SIZE s.mem (bp + GET_SIZE s.mem bp) ≤ z) →
        M4.byte z = (unlinkMem s.mem (bp + GET_SIZE s.mem bp)).byte z) := by
    refine ⟨_, coalesceH_eq s.mem s.heap_listp bp, ?_, ?_, ?_⟩
    · rw [e2, GET_PUT_same, PACK_zero]
      have e3 : GET_SIZE (PUT (unlinkMem s.mem (bp + GET_SIZE s.mem bp))
          (bp + GET_SIZE s.mem bp + GET_SIZE s.mem (bp + GET_SIZE s.mem bp) - 4)
          (PACK (GET_SIZE s.mem bp + GET_SIZE s.mem (bp + GET_SIZE s.mem bp)) 0))
          (bp + GET_SIZE s.mem bp) = GET_SIZE s.mem (bp + GET_SIZE s.mem bp) := by
        rw [← e2]
        apply GET_SIZE_congr
        exact GET_PUT_sep _ _ _ _ (by omega)
      rw [e3]; omega
    · rw [e2, GET_PUT_sep _ _ _ _ (by omega), GET_PUT_same, PACK_zero]; omega
    · rw [e2]
      intro z h1 h2
      rw [PUT_byte_out _ _ _ _ (by omega), PUT_byte_out _ _ _ _ (by omega)]
  obtain ⟨M4, hmem, hT1, hT2, hfrM⟩ := key
  obtain ⟨hwf2, hfr2, hsz2, hal2⟩ := hwf1.merge_sizes (x := bp) e1 e2 hbB (by simp) a1 hyB
    (by simp) a2 hbr M4 hT1 hT2 hfrM
  have hwf2' : WF { s with mem := M4 } (B \ {bp + GET_SIZE s.mem bp}) (l1 ++ l2) L {bp} := by
    refine hwf2.congr_P (fun a ha => ?_)
    simp only [Set.mem_diff, Set.mem_insert_iff, Set.mem_singleton_iff]
    constructor
    · rintro ⟨h1 | h1, h2⟩
      · exact absurd h1 h2
      · exact h1
    · intro h1
      exact ⟨Or.inr h1, by rw [h1]; omega⟩
  have hbB' : bp ∈ B \ {bp + GET_SIZE s.mem bp} := ⟨hbB, by simpa using hyne.symm⟩
  obtain ⟨hwf3, hfr3, hG3⟩ := hwf2'.headInsert hbB' rfl hal2 hbr
  have hsz3 : GET_SIZE (headInsert M4 s.heap_listp bp) bp =
      GET_SIZE s.mem bp + GET_SIZE s.mem (bp + GET_SIZE s.mem bp) := by
    rw [GET_SIZE_congr _ _ _ (hG3 bp hbB')]; exact hsz2
  refine ⟨B \ {bp + GET_SIZE s.mem bp}, l1 ++ l2, ?_, ?_, ?_, rfl, rfl, rfl, rfl, rfl,
    le_refl _, ?_, ?_, fun a ha => ha.1⟩
  · show WF { s with mem := coalesceH s.mem s.heap_listp bp } _ _ _ _
    rw [hmem]
    exact hwf3.congr_P (fun a _ => by simp)
  · simp
  · show Frame s.mem (coalesceH s.mem s.heap_listp bp) _ _ _
    rw [hmem]
    refine (hfr1.trans hfr2 (fun a ha _ _ _ => ha)).trans hfr3 ?_
    intro a ha _ _ haa
    refine ⟨ha, ?_⟩
    simp only [Set.mem_singleton_iff]
    rintro rfl
    omega
  · show bp + GET_SIZE s.mem bp ≤ bp + GET_SIZE (coalesceH s.mem s.heap_listp bp) bp
    rw [hmem, hsz3]; omega
  · intro a ha haa
    refine ⟨ha, ?_⟩
    simp only [Set.mem_singleton_iff]
    rintro rfl
    omega

/-- Branch `if(L)`. -/
theorem coalesceL_WF {s : State} {B : Set Nat} {fl : List Nat} {L : Set Nat} {bp x : Nat}
    (hwf : WF s B fl L {bp}) (hbB : bp ∈ B) (hbf : GET_ALLOC s.mem bp = 0)
    (hxB : x ∈ B) (hxe : x + GET_SIZE s.mem x = bp)
    (hx' : bp - GET_SIZE s.mem (bp - 4) = x)
    (hxs : GET_SIZE s.mem (bp - 4) = GET_SIZE s.mem x) (hxf : GET_ALLOC s.mem x = 0) :
    CoalPost s B fl L bp (bp - GET_SIZE s.mem (bp - 4),
      { s with mem := coalesceL s.mem s.heap_listp bp }) := by
  subst hxe
  have hS := hwf.shape
  have hb := hS.blk _ hbB
  have hx := hS.blk x hxB
  have hbtop := hwf.lt_top hbB
  have hxne : x ≠ x + GET_SIZE s.mem x := by omega
  have hxr : x ≠ s.heap_listp := by
    intro he
    have := hS.root_size.2
    rw [he] at hxf; omega
  have hxfl : x ∈ fl := (hwf.free _).mpr ⟨hxB, hxf, by simpa using hxne⟩
  obtain ⟨l1, l2, rfl⟩ := List.append_of_mem hxfl
  obtain ⟨hwf1, htag1, hfr1⟩ := hwf.unlink
  have e1 : GET_SIZE (unlinkMem s.mem x) x = GET_SIZE s.mem x :=
    GET_SIZE_congr _ _ _ (htag1 x hxB).1
  have e2 : GET_SIZE (unlinkMem s.mem x) (x + GET_SIZE s.mem x) =
      GET_SIZE s.mem (x + GET_SIZE s.mem x) := GET_SIZE_congr _ _ _ (htag1 _ hbB).1
  have a1 : GET_ALLOC (unlinkMem s.mem x) x = 0 := by
    rw [GET_ALLOC_congr _ _ _ (htag1 x hxB).1]; exact hxf
  have a2 : GET_ALLOC (unlinkMem s.mem x) (x + GET_SIZE s.mem x) = 0 := by
    rw [GET_ALLOC_congr _ _ _ (htag1 _ hbB).1]; exact hbf
  have key : ∃ M4 : Mem, coalesceL s.mem s.heap_listp (x + GET_SIZE s.mem x) =
        headInsert M4 s.heap_listp x ∧
      GET M4 x = GET_SIZE s.mem x + GET_SIZE s.mem (x + GET_SIZE s.mem x) ∧
      GET M4 (x + GET_SIZE s.mem x + GET_SIZE s.mem (x + GET_SIZE s.mem x) - 4) =
        GET_SIZE s.mem x + GET_SIZE s.mem (x + GET_SIZE s.mem x) ∧
      (∀ z, (z < x ∨ x + 4 ≤ z) →
        (z < x + GET_SIZE s.mem x + GET_SIZE s.mem (x + GET_SIZE s.mem x) - 4 ∨
          x + GET_SIZE s.mem x + GET_SIZE s.mem (x + GET_SIZE s.mem x) ≤ z) →
        M4.byte z = (unlinkMem s.mem x).byte z) := by
    have hmem0 := coalesceL_eq s.mem s.heap_listp (x + GET_SIZE s.mem x)
    rw [hx', hxs] at hmem0
    refine ⟨_, hmem0, ?_, ?_, ?_⟩
    · rw [e2, GET_PUT_same, PACK_zero]
      have e3 : GET_SIZE (PUT (unlinkMem s.mem x)
          (x + GET_SIZE s.mem x + GET_SIZE s.mem (x + GET_SIZE s.mem x) - 4)
          (PACK (GET_SIZE s.mem x + GET_SIZE s.mem (x + GET_SIZE s.mem x)) 0))
          (x + GET_SIZE s.mem x) = GET_SIZE s.mem (x + GET_SIZE s.mem x) := by
        rw [← e2]
        apply GET_SIZE_congr
        exact GET_PUT_sep _ _ _ _ (by omega)
      rw [e3]; omega
    · rw [e2, GET_PUT_sep _ _ _ _ (by omega), GET_PUT_same, PACK_zero]; omega
    · rw [e2]
      intro z h1 h2
      rw [PUT_byte_out _ _ _ _ (by omega), PUT_byte_out _ _ _ _ (by omega)]
  obtain ⟨M4, hmem, hT1, hT2, hfrM⟩ := key
  obtain ⟨hwf2, hfr2, hsz2, hal2⟩ := hwf1.merge_sizes (x := x) e1 e2 hxB (by simp) a1 hbB
    (by simp) a2 hxr M4 hT1 hT2 hfrM
  have hwf2' : WF { s with mem := M4 } (B \ {x + GET_SIZE s.mem x}) (l1 ++ l2) L {x} := by
    refine hwf2.congr_P (fun a ha => ?_)
    simp only [Set.mem_diff, Set.mem_insert_iff, Set.mem_singleton_iff]
    constructor
    · rintro ⟨h1 | h1, h2⟩
      · exact h1
      · exact absurd h1 h2
    · intro h1
      exact ⟨Or.inl h1, by rw [h1]; omega⟩
  have hxB' : x ∈ B \ {x + GET_SIZE s.mem x} := ⟨hxB, by simpa using hxne⟩
  obtain ⟨hwf3, hfr3, hG3⟩ := hwf2'.headInsert hxB' rfl hal2 hxr
  have hsz3 : GET_SIZE (headInsert M4 s.heap_listp x) x =
      GET_SIZE s.mem x + GET_SIZE s.mem (x + GET_SIZE s.mem x) := by
    rw [GET_SIZE_congr _ _ _ (hG3 x hxB')]; exact hsz2
  rw [hx']
  refine ⟨B \ {x + GET_SIZE s.mem x}, l1 ++ l2, ?_, ?_, ?_, rfl, rfl, rfl, rfl, rfl,
    ?_, ?_, ?_, fun a ha => ha.1⟩
  · show WF { s with mem := coalesceL s.mem s.heap_listp (x + GET_SIZE s.mem x) } _ _ _ _
    rw [hmem]
    exact hwf3.congr_P (fun a _ => by simp)
  · simp
  · show Frame s.mem (coalesceL s.mem s.heap_listp (x + GET_SIZE s.mem x)) _ _ _
    rw [hmem]
    refine (hfr1.trans hfr2 (fun a ha _ _ _ => ha)).trans hfr3 ?_
    intro a ha _ _ haa
    refine ⟨ha, ?_⟩
    simp only [Set.mem_singleton_iff]
    rintro rfl
    omega
  · show x ≤ x + GET_SIZE s.mem x
    omega
  · show x + GET_SIZE s.mem x + GET_SIZE s.mem (x + GET_SIZE s.mem x) ≤
      x + GET_SIZE (coalesceL s.mem s.heap_listp (x + GET_SIZE s.mem x)) x
    rw [hmem, hsz3]; omega
  · intro a ha haa
    refine ⟨ha, ?_⟩
    simp only [Set.mem_singleton_iff]
    rintro rfl
    omega

/-- `coalesce(bp)` on a heap whose only pending block is `bp`. -/
theorem coalesce_WF {s : State} {B : Set Nat} {fl : List Nat} {L : Set Nat} {bp : Nat}
    (hwf : WF s B fl L {bp}) (hbB : bp ∈ B) (hbf : GET_ALLOC s.mem bp = 0)
    (hbr : bp ≠ s.heap_listp) : CoalPost s B fl L bp (coalesce s bp) := by
  obtain ⟨⟨x, hxB, hxe, hx', hxs, hL⟩, hH⟩ := hwf.flags hbB hbr
  by_cases hHt : flagH s.mem s.heap_hi bp = true
  · rw [coalesce_H_eq s bp hbf hHt]
    exact coalesceH_WF hwf hbB hbf hbr (hH.mp hHt).1 (hH.mp hHt).2
  · have hHf : flagH s.mem s.heap_hi bp = false := by simpa using hHt
    by_cases hLt : flagL s.mem bp = true
    · rw [coalesce_L_eq s bp hbf hLt hHf]
      exact coalesceL_WF hwf hbB hbf hxB hxe hx' hxs (hL.mp hLt)
    · have hLf : flagL s.mem bp = false := by simpa using hLt
      rw [coalesce_none_eq s bp hbf hLf hHf]
      exact coalesceNone_WF hwf hbB hbf hbr

/-! ## The two loops -/

theorem fitLoop_chain (m : Mem) (size : Nat) :
    ∀ (l : List Nat) (prev fuel : Nat), Chain m prev l →
      (∀ b ∈ l, b ≠ 0 ∧ 1 < GET_SIZE m b ∧ GET_SIZE m b < 2147483648 ∧ GET_ALLOC m b = 0) →
      l.length < fuel →
      (∃ l1 b l2, l = l1 ++ b :: l2 ∧ fitLoop m size fuel (getLink m (prev + 12)) = some b ∧
        size ≤ GET_SIZE m b ∧ ∀ c ∈ l1, GET_SIZE m c < size) ∨
      (fitLoop m size fuel (getLink m (prev + 12)) = some 0 ∧ ∀ b ∈ l, GET_SIZE m b < size) := by
  intro l
  induction l with
  | nil =>
    intro prev fuel hc _ hf
    obtain ⟨k, rfl⟩ : ∃ k, fuel = k + 1 := ⟨fuel - 1, by simp at hf; omega⟩
    unfold Chain at hc
    right
    rw [hc, fitLoop, if_neg (by simp)]
    exact ⟨rfl, fun b hb => absurd hb (List.not_mem_nil b)⟩
  | cons b t ih =>
    intro prev fuel hc hall hf
    obtain ⟨k, rfl⟩ : ∃ k, fuel = k + 1 := ⟨fuel - 1, by simp at hf; omega⟩
    unfold Chain at hc
    obtain ⟨h1, _, h3⟩ := hc
    obtain ⟨hb0, hb1, hb2, hb3⟩ := hall b (List.mem_cons_self _ _)
    rw [h1, fitLoop, if_pos ⟨hb0, hb1⟩, sext32_of_lt _ hb2]
    by_cases hsz : size ≤ GET_SIZE m b
    · left
      rw [if_pos ⟨hb3, hsz⟩]
      exact ⟨[], b, t, rfl, rfl, hsz, fun c hc => absurd hc (List.not_mem_nil c)⟩
    · rw [if_neg (fun hc => hsz hc.2)]
      rcases ih b k h3 (fun c hc => hall c (List.mem_cons_of_mem _ hc))
        (by simp at hf; omega) with ⟨l1, c, l2, he, hfit, hle, hlt⟩ | ⟨hfit, hlt⟩
      · left
        refine ⟨b :: l1, c, l2, by rw [he]; rfl, hfit, hle, ?_⟩
        intro d hd
        rcases List.mem_cons.mp hd with rfl | hd
        · omega
        · exact hlt d hd
      · right
        refine ⟨hfit, ?_⟩
        intro d hd
        rcases List.mem_cons.mp hd with rfl | hd
        · omega
        · exact hlt d hd

theorem checkLoop_chain (m : Mem) :
    ∀ (l : List Nat) (prev fuel : Nat), Chain m prev l →
      (∀ b ∈ l, b ≠ 0 ∧ 1 < GET_SIZE m b) → l.length < fuel →
      checkLoop m fuel (getLink m (prev + 12)) = true := by
  intro l
  induction l with
  | nil =>
    intro prev fuel hc _ hf
    obtain ⟨k, rfl⟩ : ∃ k, fuel = k + 1 := ⟨fuel - 1, by simp at hf; omega⟩
    unfold Chain at hc
    rw [hc, checkLoop, if_neg (by simp)]
  | cons b t ih =>
    intro prev fuel hc hall hf
    obtain ⟨k, rfl⟩ : ∃ k, fuel = k + 1 := ⟨fuel - 1, by simp at hf; omega⟩
    unfold Chain at hc
    obtain ⟨h1, _, h3⟩ := hc
    obtain ⟨hb0, hb1⟩ := hall b (List.mem_cons_self _ _)
    rw [h1, checkLoop, if_pos ⟨hb0, hb1⟩]
    exact ih b k h3 (fun c hc => hall c (List.mem_cons_of_mem _ hc)) (by simp at hf; omega)

theorem WF.member_facts {s : State} {B : Set Nat} {fl : List Nat} {L P : Set Nat}
    (hwf : WF s B fl L P) :
    ∀ b ∈ fl, b ≠ 0 ∧ 1 < GET_SIZE s.mem b ∧ GET_SIZE s.mem b < 2147483648 ∧
      GET_ALLOC s.mem b = 0 := by
  intro b hb
  have hbB := hwf.mem_B hb
  have := hwf.shape.blk b hbB
  have := hwf.lt_top hbB
  exact ⟨hwf.ne_zero hbB, by omega, by omega, hwf.mem_free hb⟩

/-- `fit` on a well-formed heap: the first member of the list that is large enough,
or `NULL` when there is none. -/
theorem fit_WF {s : State} {B : Set Nat} {fl : List Nat} {L P : Set Nat} (hwf : WF s B fl L P)
    (size fuel : Nat) (hf : fl.length + 1 < fuel) :
    (∃ l1 b l2, fl = l1 ++ b :: l2 ∧ fit fuel s size = some b ∧
      size ≤ GET_SIZE s.mem b ∧ ∀ c ∈ l1, GET_SIZE s.mem c < size) ∨
    (fit fuel s size = some 0 ∧ ∀ b ∈ fl, GET_SIZE s.mem b < size) := by
  obtain ⟨k, rfl⟩ : ∃ k, fuel = k + 1 := ⟨fuel - 1, by omega⟩
  have hr := hwf.shape.root_size
  have hstep : fit (k + 1) s size = fitLoop s.mem size k (getLink s.mem (s.heap_listp + 12)) := by
    unfold fit
    rw [fitLoop, if_pos ⟨Nat.pos_iff_ne_zero.mp hwf.root_pos, by omega⟩,
      if_neg (fun hc => by omega)]
  rw [hstep]
  exact fitLoop_chain s.mem size fl s.heap_listp k hwf.chain hwf.member_facts (by omega)

theorem checkheap_WF {s : State} {B : Set Nat} {fl : List Nat} {L P : Set Nat}
    (hwf : WF s B fl L P) (fuel : Nat) (hf : fl.length + 1 < fuel) :
    mm_checkheap fuel s = true := by
  obtain ⟨k, rfl⟩ : ∃ k, fuel = k + 1 := ⟨fuel - 1, by omega⟩
  have hr := hwf.shape.root_size
  unfold mm_checkheap
  rw [checkLoop, if_pos ⟨Nat.pos_iff_ne_zero.mp hwf.root_pos, by omega⟩]
  exact checkLoop_chain s.mem fl s.heap_listp k hwf.chain
    (fun b hb => ⟨(hwf.member_facts b hb).1, (hwf.member_facts b hb).2.1⟩) (by omega)

/-- The heap has a last block: one that ends at `brk`. -/
theorem Shape.last {m : Mem} {root brk : Nat} {B : Set Nat} (h : Shape m root brk B) :
    ∃ a ∈ B, a + GET_SIZE m a = brk := by
  have key : ∀ k a, a ∈ B → brk - a ≤ k → ∃ c ∈ B, c + GET_SIZE m c = brk := by
    intro k
    induction k with
    | zero =>
      intro a ha hk
      have := h.blk a ha
      omega
    | succ k ih =>
      intro a ha hk
      have hb := h.blk a ha
      by_cases he : a + GET_SIZE m a = brk
      · exact ⟨a, ha, he⟩
      · exact ih _ (h.succ a ha (by omega)) (by omega)
  exact key (brk - root) root h.root_mem (le_refl _)

/-! ## `mm_free` -/

/-- The first half of `mm_free`: header and footer of the block are rewritten with the
allocated bit clear; the block is then pending. -/
theorem free_mark_WF {s : State} {B : Set Nat} {fl : List Nat} {L : Set Nat} {bp : Nat}
    (hwf : WF s B fl L ∅) (hbB : bp ∈ B) (hbr : bp ≠ s.heap_listp)
    (hba : GET_ALLOC s.mem bp = 1) :
    ∃ m2 : Mem,
      PUT (PUT s.mem bp (PACK (GET_SIZE s.mem bp) 0))
        (bp + GET_SIZE (PUT s.mem bp (PACK (GET_SIZE s.mem bp) 0)) bp - 4)
        (PACK (GET_SIZE (PUT s.mem bp (PACK (GET_SIZE s.mem bp) 0)) bp) 0) = m2 ∧
      WF { s with mem := m2 } B fl (L \ {bp + 4}) {bp} ∧
      GET_ALLOC m2 bp = 0 ∧ GET_SIZE m2 bp = GET_SIZE s.mem bp ∧
      Frame s.mem m2 s.heap_listp B bp := by
  have hS := hwf.shape
  have hb := hS.blk bp hbB
  have hbtop := hwf.lt_top hbB
  have e1 : GET_SIZE (PUT s.mem bp (PACK (GET_SIZE s.mem bp) 0)) bp = GET_SIZE s.mem bp := by
    rw [PACK_zero]
    have : GET (PUT s.mem bp (GET_SIZE s.mem bp)) bp = GET_SIZE s.mem bp + 0 := by
      rw [GET_PUT_same]; omega
    exact (GET_SIZE_of_GET this (by omega) (by omega)).1
  refine ⟨_, rfl, ?_⟩
  rw [e1, PACK_zero]
  have T1 : GET (PUT (PUT s.mem bp (GET_SIZE s.mem bp)) (bp + GET_SIZE s.mem bp - 4)
      (GET_SIZE s.mem bp)) bp = GET_SIZE s.mem bp + 0 := by
    rw [GET_PUT_sep _ _ _ _ (by omega), GET_PUT_same]; omega
  have T2 : GET (PUT (PUT s.mem bp (GET_SIZE s.mem bp)) (bp + GET_SIZE s.mem bp - 4)
      (GET_SIZE s.mem bp)) (bp + GET_SIZE s.mem bp - 4) = GET_SIZE s.mem bp + 0 := by
    rw [GET_PUT_same]; omega
  have hfr : ∀ z, (z < bp ∨ bp + 4 ≤ z) →
      (z < bp + GET_SIZE s.mem bp - 4 ∨ bp + GET_SIZE s.mem bp ≤ z) →
      (PUT (PUT s.mem bp (GET_SIZE s.mem bp)) (bp + GET_SIZE s.mem bp - 4)
        (GET_SIZE s.mem bp)).byte z = s.mem.byte z := by
    intro z h1 h2
    rw [PUT_byte_out _ _ _ _ (by omega), PUT_byte_out _ _ _ _ (by omega)]
  obtain ⟨M, hM⟩ : ∃ M : Mem, M = PUT (PUT s.mem bp (GET_SIZE s.mem bp))
    (bp + GET_SIZE s.mem bp - 4) (GET_SIZE s.mem bp) := ⟨_, rfl⟩
  rw [← hM] at T1 T2 hfr ⊢
  have hs := GET_SIZE_of_GET T1 (by omega) (by omega)
  have hother : ∀ a ∈ B, a ≠ bp →
      ∀ z, a ≤ z → z < a + GET_SIZE s.mem a → M.byte z = s.mem.byte z := by
    intro a ha hab z hz1 hz2
    have := hS.sep ha hbB
    exact hfr z (by omega) (by omega)
  have hG : ∀ a ∈ B, a ≠ bp → GET M a = GET s.mem a ∧
      GET M (a + GET_SIZE s.mem a - 4) = GET s.mem (a + GET_SIZE s.mem a - 4) := by
    intro a ha hab
    have hba := hS.blk a ha
    exact ⟨GET_congr _ _ _ (fun z h1 h2 => hother a ha hab z (by omega) (by omega)),
      GET_congr _ _ _ (fun z h1 h2 => hother a ha hab z (by omega) (by omega))⟩
  have hal : ∀ a ∈ B, a ≠ bp → GET_ALLOC M a = GET_ALLOC s.mem a :=
    fun a ha hab => GET_ALLOC_congr _ _ _ (hG a ha hab).1
  have hbfl : bp ∉ fl := by
    intro hc
    have := hwf.mem_free hc
    omega
  have hmemne : ∀ z ∈ s.heap_listp :: fl, z ∈ B ∧ z ≠ bp := by
    intro z hz
    refine ⟨hwf.anchor_mem_B hz, ?_⟩
    rintro rfl
    rcases List.mem_cons.mp hz with h1 | h1
    · exact hbr h1
    · exact hbfl h1
  refine ⟨⟨hwf.glob.with_mem _, ?_, ?_, hwf.nodup, ?_, ?_⟩, hs.2, hs.1, ?_⟩
  · apply hS.congr
    · rw [(hG _ hS.root_mem (Ne.symm hbr)).1]; exact hS.root_hdr
    · intro a ha
      by_cases hab : a = bp
      · rw [hab]; exact hs.1
      · exact GET_SIZE_congr _ _ _ (hG a ha hab).1
    · intro a ha
      by_cases hab : a = bp
      · rw [hab, T1, T2]
      · rw [(hG a ha hab).1, (hG a ha hab).2]; exact (hS.blk a ha).2.2.2.2.2
  · apply Chain_congr s.mem M fl _ hwf.chain
    · intro z hz
      obtain ⟨hzB, hzb⟩ := hmemne z hz
      have hbz := hS.blk z hzB
      exact getLink_congr _ _ _ (fun w h1 h2 => hother z hzB hzb w (by omega) (by omega))
    · intro z hz
      obtain ⟨hzB, hzb⟩ := hmemne z (List.mem_cons_of_mem _ hz)
      have hbz := hS.blk z hzB
      exact getLink_congr _ _ _ (fun w h1 h2 => hother z hzB hzb w (by omega) (by omega))
  · intro a
    by_cases hab : a = bp
    · rw [hab]
      refine iff_of_false hbfl ?_
      rintro ⟨_, _, h3⟩
      exact h3 rfl
    · have := hwf.free a
      simp only [Set.mem_singleton_iff, hab, not_false_eq_true, and_true,
        Set.mem_empty_iff_false] at this ⊢
      rw [this]
      constructor
      · rintro ⟨h1, h2⟩; exact ⟨h1, by rw [hal a h1 hab]; exact h2⟩
      · rintro ⟨h1, h2⟩; exact ⟨h1, by rw [← hal a h1 hab]; exact h2⟩
  · intro q
    simp only [Set.mem_diff, Set.mem_singleton_iff]
    rw [hwf.live q]
    constructor
    · rintro ⟨⟨a, ha, h1, h2, h3⟩, hq⟩
      have hab : a ≠ bp := by rintro rfl; exact hq h3
      exact ⟨a, ha, h1, by rw [hal a ha hab]; exact h2, h3⟩
    · rintro ⟨a, ha, h1, h2, h3⟩
      have hab : a ≠ bp := by
        rintro rfl
        have h2' : GET_ALLOC M a = 1 := h2
        have := hs.2
        omega
      exact ⟨⟨a, ha, h1, by rw [← hal a ha hab]; exact h2, h3⟩, by omega⟩
  · intro a ha har hab haa
    have hba := hS.blk a ha
    exact ⟨(hG a ha hab).1, fun z h1 h2 => hother a ha hab z (by omega) (by omega)⟩

theorem Frame.weaken {m m' : Mem} {root x : Nat} {B : Set Nat} (h : Frame m m' root B 0)
    (h0 : (0 : Nat) ∉ B) : Frame m m' root B x :=
  fun a ha har _ haa => h a ha har (fun e => h0 (e ▸ ha)) haa

theorem WF.zero_not_mem {s : State} {B : Set Nat} {fl : List Nat} {L P : Set Nat}
    (h : WF s B fl L P) : (0 : Nat) ∉ B := fun hc => h.ne_zero hc rfl

/-- `mm_free(p)` on a live pointer: the block goes back to the free list (merged
with a free successor or, failing that, a free predecessor); every other allocated
block keeps its header and payload. -/
theorem mm_free_WF {s : State} {B : Set Nat} {fl : List Nat} {L : Set Nat} {p : Nat}
    (hwf : WF s B fl L ∅) (hp : p ∈ L) (fuel : Nat) :
    ∃ s' B' fl', mm_free fuel s p = Res.ok () s' ∧ WF s' B' fl' (L \ {p}) ∅ ∧
      fl'.length ≤ fl.length + 1 ∧
      Frame s.mem s'.mem s.heap_listp B (p - 4) ∧
      s'.lo = s.lo ∧ s'.brk = s.brk ∧ s'.lim = s.lim ∧ s'.heap_listp = s.heap_listp ∧
      (∃ r ∈ B', r ≤ p - 4 ∧ p - 4 + GET_SIZE s.mem (p - 4) ≤ r + GET_SIZE s'.mem r ∧
        GET_ALLOC s'.mem r = 0) ∧
      (∀ a ∈ B, a ≠ p - 4 → GET_ALLOC s.mem a = 1 → a ∈ B') ∧ (∀ a ∈ B', a ∈ B) := by
  obtain ⟨a, haB, har, haa, rfl⟩ := (hwf.live p).mp hp
  have ha0 := hwf.ne_zero haB
  have hr0 : s.heap_listp ≠ 0 := Nat.pos_iff_ne_zero.mp hwf.root_pos
  obtain ⟨m2, hm2, hwf2, hal, hsz, hfr⟩ := free_mark_WF hwf haB har haa
  have hrun : mm_free fuel s (a + 4) = Res.ok () (coalesce { s with mem := m2 } a).2 := by
    unfold mm_free
    simp only [Nat.add_sub_cancel, ne_eq, Nat.add_eq_zero, OfNat.ofNat_ne_zero, and_false,
      not_false_eq_true, if_true, ha0, if_false, lazyInit_of_ne_zero fuel s hr0, har]
    rw [hm2]
  obtain ⟨B', fl', hwf3, hlen, hfr3, e1, e2, e3, e4, e5, hle, hcov, hkeep, hsub⟩ :=
    coalesce_WF hwf2 haB hal har
  refine ⟨_, B', _, hrun, hwf3, by simpa using hlen, ?_, e1, e2, e3, e4, ?_, ?_, hsub⟩
  · simp only [Nat.add_sub_cancel]
    refine hfr.trans (hfr3.weaken hwf.zero_not_mem) ?_
    intro c hc _ _ _
    exact hc
  · simp only [Nat.add_sub_cancel]
    have hhead : (coalesce { s with mem := m2 } a).1 ∈
        (coalesce { s with mem := m2 } a).1 :: fl' := List.mem_cons_self _ _
    refine ⟨_, hwf3.mem_B hhead, hle, ?_, hwf3.mem_free hhead⟩
    rw [← hsz]; exact hcov
  · intro c hc hca hcal
    simp only [Nat.add_sub_cancel] at hca
    apply hkeep c hc
    by_cases hcr : c = s.heap_listp
    · rw [hcr]; exact hwf2.shape.root_size.2
    · obtain ⟨g, _⟩ := hfr c hc hcr hca hcal
      show GET_ALLOC m2 c = 1
      rw [GET_ALLOC_congr _ _ _ g]; exact hcal

/-! ## `extend_heap` -/

/-- The first half of `extend_heap` when the region grows: the new space is one block,
tagged free and pending, at the old end of the region. -/
theorem extend_mark_WF {s : State} {B : Set Nat} {fl : List Nat} {L : Set Nat}
    (hwf : WF s B fl L ∅) (bytes : Nat) (h24 : 24 ≤ bytes) (h8 : bytes % 8 = 0)
    (hlim : s.brk + bytes ≤ s.lim) (m3 : Mem)
    (hm3 : m3 = PUT (PUT (memset (memset s.mem s.brk 0 bytes) s.brk 0 bytes) s.brk
      (PACK bytes 0)) (s.brk + bytes - 4) (PACK bytes 0)) :
    WF { s with mem := m3, brk := s.brk + bytes, heap_hi := s.brk + bytes - 4 }
      (insert s.brk B) fl L {s.brk} ∧
    GET_SIZE m3 s.brk = bytes ∧ GET_ALLOC m3 s.brk = 0 ∧ s.brk ∉ B ∧
    s.brk ≠ s.heap_listp ∧ (∀ z, z < s.brk → m3.byte z = s.mem.byte z) := by
  have hS := hwf.shape
  have hg := hwf.glob
  have hlim2 := hg.lim_le
  have T1 : GET m3 s.brk = bytes + 0 := by
    rw [hm3, PACK_zero, GET_PUT_sep _ _ _ _ (by omega), GET_PUT_same]; omega
  have T2 : GET m3 (s.brk + bytes - 4) = bytes + 0 := by
    rw [hm3, PACK_zero, GET_PUT_same]; omega
  have hlow : ∀ z, z < s.brk → m3.byte z = s.mem.byte z := by
    intro z hz
    rw [hm3, PUT_byte_out _ _ _ _ (by omega), PUT_byte_out _ _ _ _ (by omega),
      memset_byte_out _ _ _ _ _ (by omega), memset_byte_out _ _ _ _ _ (by omega)]
  have hs := GET_SIZE_of_GET T1 (by omega) (by omega)
  have hG : ∀ a ∈ B, GET m3 a = GET s.mem a ∧
      GET m3 (a + GET_SIZE s.mem a - 4) = GET s.mem (a + GET_SIZE s.mem a - 4) := by
    intro a ha
    have hba := hS.blk a ha
    exact ⟨GET_congr _ _ _ (fun z h1 h2 => hlow z (by omega)),
      GET_congr _ _ _ (fun z h1 h2 => hlow z (by omega))⟩
  have hsz : ∀ a ∈ B, GET_SIZE m3 a = GET_SIZE s.mem a :=
    fun a ha => GET_SIZE_congr _ _ _ (hG a ha).1
  have hal : ∀ a ∈ B, GET_ALLOC m3 a = GET_ALLOC s.mem a :=
    fun a ha => GET_ALLOC_congr _ _ _ (hG a ha).1
  have hnew : s.brk ∉ B := by
    intro hc
    have := hS.blk _ hc
    omega
  have hbr : s.brk ≠ s.heap_listp := by
    have := hg.root_eq; have := hg.brk_ge; omega
  obtain ⟨lst, hlstB, hlst⟩ := hS.last
  refine ⟨⟨?_, ?_, ?_, hwf.nodup, ?_, ?_⟩, hs.1, hs.2, hnew, hbr, hlow⟩
  · exact ⟨hg.lo_pos, hg.lo_al, hg.root_eq, by show s.lo + 28 ≤ s.brk + bytes; have := hg.brk_ge; omega,
      by show (s.brk + bytes) % 8 = 4; have := hg.brk_al; omega,
      by show s.brk + bytes ≤ s.lim; exact hlim, hg.lim_le, fun _ => rfl⟩
  · show Shape m3 s.heap_listp (s.brk + bytes) (insert s.brk B)
    have hszall : ∀ a ∈ insert s.brk B, (a = s.brk ∧ GET_SIZE m3 a = bytes) ∨
        (a ∈ B ∧ GET_SIZE m3 a = GET_SIZE s.mem a ∧ a + GET_SIZE s.mem a ≤ s.brk ∧
          24 ≤ GET_SIZE s.mem a) := by
      intro a ha
      rcases Set.mem_insert_iff.mp ha with h1 | h1
      · left; exact ⟨h1, h1 ▸ hs.1⟩
      · right
        have := hS.blk a h1
        exact ⟨h1, hsz a h1, this.2.2.2.2.1, this.2.2.1⟩
    refine ⟨Set.mem_insert_of_mem _ hS.root_mem, ?_, ?_, ?_, ?_, ?_⟩
    · rw [(hG _ hS.root_mem).1]; exact hS.root_hdr
    · intro a ha
      rcases hszall a ha with ⟨h1, h2⟩ | ⟨h1, h2, _, _⟩
      · rw [h2, h1]
        have := hg.root_eq; have := hg.brk_ge; have := hg.brk_al
        refine ⟨by omega, by omega, by omega, by omega, by omega, ?_⟩
        rw [T1, T2]
      · rw [h2]
        have := hS.blk a h1
        refine ⟨this.1, this.2.1, this.2.2.1, this.2.2.2.1, by omega, ?_⟩
        rw [(hG a h1).1, (hG a h1).2]; exact this.2.2.2.2.2
    · intro a ha hlt
      rcases hszall a ha with ⟨h1, h2⟩ | ⟨h1, h2, h3, _⟩
      · rw [h2, h1] at hlt; omega
      · rw [h2] at hlt ⊢
        by_cases he : a + GET_SIZE s.mem a = s.brk
        · rw [he]; exact Set.mem_insert _ _
        · exact Set.mem_insert_of_mem _ (hS.succ a h1 (by omega))
    · intro a ha hne
      rcases Set.mem_insert_iff.mp ha with h1 | h1
      · exact ⟨lst, Set.mem_insert_of_mem _ hlstB, by rw [hsz lst hlstB, h1]; exact hlst⟩
      · obtain ⟨a', ha', he⟩ := hS.pred a h1 hne
        exact ⟨a', Set.mem_insert_of_mem _ ha', by rw [hsz a' ha']; exact he⟩
    · intro a ha a' ha' hlt
      rcases hszall a ha with ⟨h1, h2⟩ | ⟨h1, h2, h3, h4⟩ <;>
      rcases hszall a' ha' with ⟨h1', h2'⟩ | ⟨h1', h2', h3', h4'⟩ <;> rw [h2]
      · omega
      · omega
      · omega
      · exact hS.disj a h1 a' h1' hlt
  · apply Chain_congr s.mem m3 fl _ hwf.chain
    · intro z hz
      have hzB := hwf.anchor_mem_B hz
      have hbz := hS.blk z hzB
      exact getLink_congr _ _ _ (fun w h1 h2 => hlow w (by omega))
    · intro z hz
      have hzB := hwf.mem_B hz
      have hbz := hS.blk z hzB
      exact getLink_congr _ _ _ (fun w h1 h2 => hlow w (by omega))
  · intro a
    by_cases hab : a = s.brk
    · rw [hab]
      refine iff_of_false (fun hc => hnew (hwf.mem_B hc)) ?_
      rintro ⟨_, _, h3⟩
      exact h3 rfl
    · have := hwf.free a
      simp only [Set.mem_singleton_iff, hab, not_false_eq_true, and_true,
        Set.mem_empty_iff_false, Set.mem_insert_iff, false_or] at this ⊢
      rw [this]
      constructor
      · rintro ⟨h1, h2⟩; exact ⟨h1, by rw [hal a h1]; exact h2⟩
      · rintro ⟨h1, h2⟩; exact ⟨h1, by rw [← hal a h1]; exact h2⟩
  · intro q
    rw [hwf.live q]
    constructor
    · rintro ⟨a, ha, h1, h2, h3⟩
      exact ⟨a, Set.mem_insert_of_mem _ ha, h1, by rw [hal a ha]; exact h2, h3⟩
    · rintro ⟨a, ha, h1, h2, h3⟩
      rcases Set.mem_insert_iff.mp ha with h4 | h4
      · have h2' : GET_ALLOC m3 a = 1 := h2
        rw [h4] at h2'
        have := hs.2
        omega
      · exact ⟨a, h4, h1, by rw [← hal a h4]; exact h2, h3⟩

theorem extendBytes_ge (words : Nat) : 4096 ≤ extendBytes words := by
  unfold extendBytes; exact le_max_right _ _

/-- `extend_heap(words)` on a well-formed heap: either the growth primitive refuses and
nothing changes, or the new space (merged with a free last block) is the head of the
free list. -/
theorem extend_heap_WF {s : State} {B : Set Nat} {fl : List Nat} {L : Set Nat}
    (hwf : WF s B fl L ∅) (words fuel : Nat) (h8 : extendBytes words % 8 = 0)
    (hfuel : fl.length + 2 < fuel) :
    (mem_sbrk s (extendBytes words) = none ∧ extend_heap fuel s words = Res.ok 0 s) ∨
    (∃ r s' B' fl', extend_heap fuel s words = Res.ok r s' ∧ r ≠ 0 ∧
      WF s' B' (r :: fl') L ∅ ∧ fl'.length ≤ fl.length ∧
      extendBytes words ≤ GET_SIZE s'.mem r ∧
      Frame s.mem s'.mem s.heap_listp B 0 ∧
      s'.lo = s.lo ∧ s'.lim = s.lim ∧ s'.heap_listp = s.heap_listp ∧ s.brk ≤ s'.brk ∧
      (∀ a ∈ B, GET_ALLOC s.mem a = 1 → a ∈ B')) := by
  have hge := extendBytes_ge words
  have hg := hwf.glob
  by_cases hlim : s.brk + extendBytes words ≤ s.lim
  · right
    obtain ⟨m3, hm3⟩ : ∃ m3 : Mem, m3 = PUT (PUT (memset (memset s.mem s.brk 0
      (extendBytes words)) s.brk 0 (extendBytes words)) s.brk (PACK (extendBytes words) 0))
      (s.brk + extendBytes words - 4) (PACK (extendBytes words) 0) := ⟨_, rfl⟩
    obtain ⟨hwf2, hsz, hal, hnew, hbr, hlow⟩ :=
      extend_mark_WF hwf (extendBytes words) (by omega) h8 hlim m3 hm3
    obtain ⟨s2, hs2⟩ : ∃ s2 : State, s2 =
      { s with mem := m3, brk := s.brk + extendBytes words, heap_hi := s.brk + extendBytes words - 4 } :=
      ⟨_, rfl⟩
    rw [← hs2] at hwf2
    have hs2m : s2.mem = m3 := by rw [hs2]
    have hs2r : s2.heap_listp = s.heap_listp := by rw [hs2]
    have hs2b : s2.brk = s.brk + extendBytes words := by rw [hs2]
    obtain ⟨B', fl', hwf3, hlen, hfr3, e1, e2, e3, e4, e5, hle, hcov, hkeep, hsub⟩ :=
      coalesce_WF hwf2 (Set.mem_insert _ _) (by rw [hs2m]; exact hal) (by rw [hs2r]; exact hbr)
    have hchk := checkheap_WF hwf3 fuel (by simp only [List.length_cons]; omega)
    have hrun : extend_heap fuel s words = Res.ok (coalesce s2 s.brk).1 (coalesce s2 s.brk).2 := by
      unfold extend_heap
      simp only [mem_sbrk, hlim, if_true]
      have hb63 : ¬ (9223372036854775808 ≤ s.brk) := by
        have := hg.lim_le; have := hg.brk_le; omega
      rw [if_neg hb63]
      simp only [mem_heap_hi]
      rw [← hm3, ← hs2, hchk, if_pos rfl]
    have hhead : (coalesce s2 s.brk).1 ∈ (coalesce s2 s.brk).1 :: fl' :=
      List.mem_cons_self _ _
    rw [hs2m, hs2r] at hfr3
    rw [hs2m] at hcov hkeep
    have hfr0 : Frame s.mem m3 s.heap_listp B 0 := by
      intro a ha _ _ _
      have hba := hwf.shape.blk a ha
      exact ⟨GET_congr _ _ _ (fun z h1 h2 => hlow z (by omega)),
        fun z h1 h2 => hlow z (by omega)⟩
    have hal0 : ∀ a ∈ B, GET_ALLOC m3 a = GET_ALLOC s.mem a := by
      intro a ha
      have hba := hwf.shape.blk a ha
      exact GET_ALLOC_congr _ _ _ (GET_congr _ _ _ (fun z h1 h2 => hlow z (by omega)))
    refine ⟨_, _, B', fl', hrun, hwf3.ne_zero (hwf3.mem_B hhead), hwf3, hlen, ?_, ?_,
      by rw [e1, hs2], by rw [e3, hs2], by rw [e4, hs2], ?_, ?_⟩
    · have h1 : s.brk + GET_SIZE m3 s.brk ≤ _ := hcov
      rw [hsz] at h1
      omega
    · exact hfr0.trans hfr3 (fun a ha _ _ _ => Set.mem_insert_of_mem _ ha)
    · rw [e2, hs2b]; omega
    · intro a ha haa
      exact hkeep a (Set.mem_insert_of_mem _ ha) (by rw [hal0 a ha]; exact haa)
  · left
    have hnone : mem_sbrk s (extendBytes words) = none := by
      unfold mem_sbrk; rw [if_neg hlim]
    refine ⟨hnone, ?_⟩
    unfold extend_heap
    simp only [hnone]

/-! ## `mm_malloc` -/

theorem adjust_eq (n : Nat) (h : n + 15 < 18446744073709551616) :
    adjust n = if n ≤ 16 then 24 else 8 * ((n + 15) / 8) := by
  unfold adjust
  split_ifs with h1
  · rfl
  · have e : n + 8 + 7 = n + 15 := by omega
    rw [e, Nat.mod_eq_of_lt h, Nat.mod_eq_of_lt (by omega)]

theorem adjust_facts (n : Nat) (h : n + 15 < 18446744073709551616) :
    24 ≤ adjust n ∧ adjust n % 8 = 0 ∧ n + 8 ≤ adjust n ∧ adjust n ≤ n + 24 := by
  rw [adjust_eq n h]
  split_ifs with h1 <;> omega

theorem extendBytes_of_mul8 (x : Nat) (h8 : x % 8 = 0) (hx : 4096 ≤ x)
    (hlt : x < 18446744073709551616) : extendBytes (x / 4) = x := by
  unfold extendBytes
  rw [Nat.and_one_is_mod]
  have h1 : x / 4 % 2 = 0 := by omega
  rw [h1, Nat.add_zero]
  have h2 : x / 4 * 4 = x := by omega
  rw [h2, Nat.mod_eq_of_lt hlt]
  exact max_eq_left hx

/-- The placement step of `mm_malloc` on a member of the free list. -/
theorem place_WF {s : State} {B : Set Nat} {l1 l2 : List Nat} {L : Set Nat}
    (bp asize : Nat) (hwf : WF s B (l1 ++ bp :: l2) L ∅)
    (ha1 : 24 ≤ asize) (ha2 : asize % 8 = 0) (ha3 : asize ≤ GET_SIZE s.mem bp) :
    ∃ B' fl', WF { s with mem := place s.mem bp asize } B' fl' (insert (bp + 4) L) ∅ ∧
      fl'.length ≤ (l1 ++ bp :: l2).length ∧
      Frame s.mem (place s.mem bp asize) s.heap_listp B 0 ∧
      bp ∈ B' ∧ GET_ALLOC (place s.mem bp asize) bp = 1 ∧
      asize ≤ GET_SIZE (place s.mem bp asize) bp ∧ bp + 4 ∉ L ∧ bp % 8 = 4 ∧
      (∀ a ∈ B, a ∈ B') := by
  have hbpm : bp ∈ l1 ++ bp :: l2 := by simp
  have hbpB := hwf.mem_B hbpm
  have hbpf := hwf.mem_free hbpm
  have hb := hwf.shape.blk bp hbpB
  have htop := hwf.lt_top hbpB
  have hnl : bp + 4 ∉ L := by
    intro hc
    obtain ⟨a, _, _, h2, h3⟩ := (hwf.live _).mp hc
    have : a = bp := by omega
    rw [this] at h2; omega
  by_cases hsp : 24 ≤ sub64 (GET_SIZE s.mem bp) asize
  · rw [sub64_of_le _ _ ha3 (by omega)] at hsp
    obtain ⟨h1, h2, h3⟩ := place_split_WF bp asize hwf ha1 ha2 (by omega)
    have hs := GET_SIZE_of_GET h3 (by omega) (le_refl 1)
    refine ⟨_, _, h1, by simp, h2, Set.mem_insert_of_mem _ hbpB, hs.2, by rw [hs.1], hnl,
      hb.2.1, fun a ha => Set.mem_insert_of_mem _ ha⟩
  · obtain ⟨h1, h2, h3⟩ := place_nosplit_WF bp asize hwf (by omega)
    have hs := GET_SIZE_of_GET h3 (by omega) (le_refl 1)
    refine ⟨_, _, h1, by simp, h2, hbpB, hs.2, by rw [hs.1]; exact ha3, hnl, hb.2.1,
      fun a ha => ha⟩

/-- `mm_malloc(n)` on a well-formed heap, `0 < n < 2^31`, with fuel for the walk. -/
theorem mm_malloc_WF {s : State} {B : Set Nat} {fl : List Nat} {L : Set Nat}
    (hwf : WF s B fl L ∅) (n : Nat) (hn : 0 < n) (hn31 : n < 2147483648) (fuel : Nat)
    (hfuel : fl.length + 2 < fuel) :
    ∃ p s', mm_malloc fuel s n = Res.ok p s' ∧ MallocPost s B fl L n p s' := by
  have hr0 : s.heap_listp ≠ 0 := Nat.pos_iff_ne_zero.mp hwf.root_pos
  have hn0 : n ≠ 0 := Nat.pos_iff_ne_zero.mp hn
  obtain ⟨ha1, ha2, ha3, ha4⟩ := adjust_facts n (by omega)
  rcases fit_WF hwf (adjust n) fuel (by omega) with ⟨l1, bp, l2, hfl, hfit, hle, _⟩ | ⟨hfit, _⟩
  · -- a fit
    subst hfl
    have hbpB : bp ∈ B := hwf.mem_B (by simp)
    have hbp0 := hwf.ne_zero hbpB
    obtain ⟨B', fl', hwf', hlen, hfr, hmem, hal, hsz, hnl, hal8, hsub⟩ :=
      place_WF bp (adjust n) hwf ha1 ha2 hle
    refine ⟨bp + 4, { s with mem := place s.mem bp (adjust n) }, ?_, Or.inr ⟨by omega, B', fl',
      hwf', by omega, by simpa using hmem, by omega, hnl, by simpa using hal,
      by simp only [Nat.add_sub_cancel]; show n + 8 ≤ GET_SIZE (place s.mem bp (adjust n)) bp; omega,
      hfr, rfl, rfl, rfl, le_refl _, fun a ha _ => hsub a ha⟩⟩
    unfold mm_malloc
    simp only [lazyInit_of_ne_zero fuel s hr0, hn0, if_false, hfit, ne_eq, hbp0,
      not_false_eq_true, if_true]
  · -- no fit: grow
    have hx8 : max (adjust n) 4096 % 8 = 0 := by
      rcases le_total (adjust n) 4096 with h | h
      · rw [max_eq_right h]
      · rw [max_eq_left h]; exact ha2
    have heb : extendBytes (max (adjust n) 4096 / 4) = max (adjust n) 4096 :=
      extendBytes_of_mul8 _ hx8 (le_max_right _ _) (by
        rcases le_total (adjust n) 4096 with h | h
        · rw [max_eq_right h]; omega
        · rw [max_eq_left h]; omega)
    rcases extend_heap_WF hwf (max (adjust n) 4096 / 4) fuel (by rw [heb]; exact hx8) hfuel
      with ⟨_, hext⟩ | ⟨r, s2, B2, fl2, hext, hr, hwf2, hlen2, hsz2, hfr2, e1, e3, e4, hbrk, hkeep⟩
    · refine ⟨0, s, ?_, Or.inl ⟨rfl, rfl⟩⟩
      unfold mm_malloc
      simp only [lazyInit_of_ne_zero fuel s hr0, hn0, if_false, hfit, ne_eq,
        not_true_eq_false, hext, if_true]
    · rw [heb] at hsz2
      have hle2 : adjust n ≤ GET_SIZE s2.mem r := le_trans (le_max_left _ _) hsz2
      have hwf2' : WF s2 B2 ([] ++ r :: fl2) L ∅ := hwf2
      obtain ⟨B', fl', hwf', hlen, hfr, hmem, hal, hsz, hnl, hal8, hsub⟩ :=
        place_WF r (adjust n) hwf2' ha1 ha2 hle2
      refine ⟨r + 4, { s2 with mem := place s2.mem r (adjust n) }, ?_, Or.inr ⟨by omega, B', fl',
        hwf', ?_, by simpa using hmem, by omega, hnl, by simpa using hal,
        by simp only [Nat.add_sub_cancel]; show n + 8 ≤ GET_SIZE (place s2.mem r (adjust n)) r; omega,
        ?_, e1, e3, e4, hbrk, fun a ha haa => hsub a (hkeep a ha haa)⟩⟩
      · unfold mm_malloc
        simp only [lazyInit_of_ne_zero fuel s hr0, hn0, if_false, hfit, ne_eq,
          not_true_eq_false, hext, hr, not_false_eq_true, if_true]
      · simp only [List.nil_append, List.length_cons] at hlen
        omega
      · rw [e4] at hfr
        exact hfr2.trans hfr (fun a ha _ _ haa => hkeep a ha haa)

/-! ## More fuel does not change a result -/

theorem fitLoop_mono (m : Mem) (size : Nat) :
    ∀ (fuel bp r : Nat), fitLoop m size fuel bp = some r →
      ∀ k, fitLoop m size (fuel + k) bp = some r := by
  intro fuel
  induction fuel with
  | zero => intro bp r h; simp [fitLoop] at h
  | succ f ih =>
    intro bp r h k
    rw [Nat.add_right_comm]
    rw [fitLoop] at h ⊢
    split_ifs at h ⊢ with h1 h2
    · exact h
    · exact ih _ _ h k
    · exact h

theorem checkLoop_mono (m : Mem) :
    ∀ (fuel bp : Nat), checkLoop m fuel bp = true → ∀ k, checkLoop m (fuel + k) bp = true := by
  intro fuel
  induction fuel with
  | zero => intro bp h; simp [checkLoop] at h
  | succ f ih =>
    intro bp h k
    rw [Nat.add_right_comm]
    rw [checkLoop] at h ⊢
    split_ifs at h ⊢ with h1
    · exact ih _ h k
    · rfl

theorem mm_checkheap_mono (fuel : Nat) (s : State) (h : mm_checkheap fuel s = true)
    (k : Nat) : mm_checkheap (fuel + k) s = true :=
  checkLoop_mono _ _ _ h k

theorem extend_heap_mono (fuel : Nat) (s : State) (w : Nat) (r : Nat) (s' : State)
    (h : extend_heap fuel s w = Res.ok r s') (k : Nat) :
    extend_heap (fuel + k) s w = Res.ok r s' := by
  unfold extend_heap at h ⊢
  cases hsb : mem_sbrk s (extendBytes w) with
  | none => simp only [hsb] at h ⊢; exact h
  | some v =>
    obtain ⟨bp, s1⟩ := v
    simp only [hsb] at h ⊢
    by_cases h1 : 9223372036854775808 ≤ bp
    · rw [if_pos h1] at h ⊢; exact h
    · rw [if_neg h1] at h ⊢
      split_ifs at h with h2
      rw [if_pos (mm_checkheap_mono _ _ h2 k)]
      exact h

theorem mm_init_mono (fuel : Nat) (s : State) (r : Int) (s' : State)
    (h : mm_init fuel s = Res.ok r s') (k : Nat) : mm_init (fuel + k) s = Res.ok r s' := by
  unfold mm_init at h ⊢
  cases hsb : mem_sbrk s 28 with
  | none => simp only [hsb] at h ⊢; exact h
  | some v =>
    obtain ⟨p, s1⟩ := v
    simp only [hsb] at h ⊢
    split_ifs at h ⊢ with h1
    · exact h
    · revert h
      generalize he : extend_heap fuel _ _ = e
      cases e with
      | ok r2 s3 =>
        intro h
        rw [extend_heap_mono _ _ _ _ _ he k]
        exact h
      | fault => intro h; cases h
      | timeout => intro h; cases h

theorem lazyInit_mono (fuel : Nat) (s : State) (s' : State)
    (h : lazyInit fuel s = Res.ok () s') (k : Nat) : lazyInit (fuel + k) s = Res.ok () s' := by
  unfold lazyInit at h ⊢
  split_ifs at h ⊢ with h1
  · revert h
    generalize he : mm_init fuel s = e
    cases e with
    | ok r2 s3 =>
      intro h
      rw [mm_init_mono _ _ _ _ he k]
      exact h
    | fault => intro h; cases h
    | timeout => intro h; cases h
  · exact h

theorem mm_malloc_mono (fuel : Nat) (s : State) (n : Nat) (p : Nat) (s' : State)
    (h : mm_malloc fuel s n = Res.ok p s') (k : Nat) :
    mm_malloc (fuel + k) s n = Res.ok p s' := by
  unfold mm_malloc at h ⊢
  revert h
  generalize he : lazyInit fuel s = e
  cases e with
  | fault => intro h; cases h
  | timeout => intro h; cases h
  | ok u s1 =>
    rw [lazyInit_mono _ _ _ he k]
    simp only
    intro h
    split_ifs at h ⊢ with h1
    · exact h
    · revert h
      generalize hf : fit fuel s1 (adjust n) = f
      cases f with
      | none => intro h; cases h
      | some bp =>
        have hf' : fit (fuel + k) s1 (adjust n) = some bp := fitLoop_mono _ _ _ _ _ hf k
        rw [hf']
        simp only
        intro h
        split_ifs at h ⊢ with h2
        · exact h
        · revert h
          generalize hx : extend_heap fuel s1 (max (adjust n) 4096 / 4) = x
          cases x with
          | fault => intro h; cases h
          | timeout => intro h; cases h
          | ok r s2 =>
            rw [extend_heap_mono _ _ _ _ _ hx k]
            exact fun h => h

theorem mm_free_mono (fuel : Nat) (s : State) (p : Nat) (s' : State)
    (h : mm_free fuel s p = Res.ok () s') (k : Nat) :
    mm_free (fuel + k) s p = Res.ok () s' := by
  unfold mm_free at h ⊢
  simp only at h ⊢
  generalize (if p ≠ 0 then p - 4 else p) = bp at h ⊢
  by_cases h1 : bp = 0
  · rw [if_pos h1] at h ⊢; exact h
  · rw [if_neg h1] at h ⊢
    revert h
    generalize he : lazyInit fuel s = e
    cases e with
    | fault => intro h; cases h
    | timeout => intro h; cases h
    | ok u s1 =>
      rw [lazyInit_mono _ _ _ he k]
      exact fun h => h

theorem mm_realloc_mono (fuel : Nat) (s : State) (p n : Nat) (q : Nat) (s' : State)
    (h : mm_realloc fuel s p n = Res.ok q s') (k : Nat) :
    mm_realloc (fuel + k) s p n = Res.ok q s' := by
  unfold mm_realloc at h ⊢
  simp only at h ⊢
  generalize (if p ≠ 0 ∧ n > 0 then p - 4 else p) = bp at h ⊢
  by_cases h1 : n = 0
  · rw [if_pos h1] at h ⊢
    revert h
    generalize he : mm_free fuel s bp = e
    cases e with
    | fault => intro h; cases h
    | timeout => intro h; cases h
    | ok u s1 =>
      rw [mm_free_mono _ _ _ _ he k]
      exact fun h => h
  · rw [if_neg h1] at h ⊢
    by_cases h2 : bp = 0
    · rw [if_pos h2] at h ⊢
      exact mm_malloc_mono _ _ _ _ _ h k
    · rw [if_neg h2] at h ⊢
      revert h
      generalize he : mm_malloc fuel s n = e
      cases e with
      | fault => intro h; cases h
      | timeout => intro h; cases h
      | ok np s1 =>
        rw [mm_malloc_mono _ _ _ _ _ he k]
        simp only
        intro h
        by_cases h3 : np = 0
        · rw [if_pos h3] at h ⊢; exact h
        · rw [if_neg h3] at h ⊢
          revert h
          generalize hf : mm_free fuel _ _ = f
          cases f with
          | fault => intro h; cases h
          | timeout => intro h; cases h
          | ok u s2 =>
            rw [mm_free_mono _ _ _ _ hf k]
            exact fun h => h

theorem mm_calloc_mono (fuel : Nat) (s : State) (c n : Nat) (q : Nat) (s' : State)
    (h : mm_calloc fuel s c n = Res.ok q s') (k : Nat) :
    mm_calloc (fuel + k) s c n = Res.ok q s' := by
  unfold mm_calloc at h ⊢
  revert h
  generalize he : lazyInit fuel s = e
  cases e with
  | fault => intro h; cases h
  | timeout => intro h; cases h
  | ok u s1 =>
    rw [lazyInit_mono _ _ _ he k]
    simp only
    generalize hm : mm_malloc fuel s1 _ = x
    cases x with
    | fault => intro h; cases h
    | timeout => intro h; cases h
    | ok np s2 =>
      rw [mm_malloc_mono _ _ _ _ _ hm k]
      exact fun h => h

/-! ## `mm_init` -/

theorem getLink_zero (m : Mem) (a : Nat) (h1 : GET m a = 0) (h2 : GET m (a + 4) = 0) :
    getLink m a = 0 := by
  unfold getLink
  rw [h1, h2]
  exact addrPair_small 0 (by omega)

/-- After the seven stores of `mm_init` the heap is the sentinel alone, with an empty
free list. -/
theorem init_WF (s : State) (hf : Fresh s) (hlim : s.lo + 28 ≤ s.lim) (m7 : Mem)
    (hm7 : m7 = PUT (PUT (PUT (PUT (PUT (PUT (PUT (memset s.mem s.brk 0 28) s.lo 0)
      (s.lo + 4) (PACK 24 1)) (s.lo + 8) 0) (s.lo + 12) 0) (s.lo + 16) 0) (s.lo + 20) 0)
      (s.lo + 24) (PACK 24 1)) :
    WF { s with mem := m7, brk := s.brk + 28, heap_listp := s.lo + 4 } {s.lo + 4} [] ∅ ∅ := by
  have hpk : PACK 24 1 = 25 := by decide
  have T1 : GET m7 (s.lo + 4) = 25 := by
    rw [hm7, hpk, GET_PUT_sep _ _ _ _ (by omega), GET_PUT_sep _ _ _ _ (by omega),
      GET_PUT_sep _ _ _ _ (by omega), GET_PUT_sep _ _ _ _ (by omega),
      GET_PUT_sep _ _ _ _ (by omega), GET_PUT_same]
  have T2 : GET m7 (s.lo + 24) = 25 := by
    rw [hm7, hpk, GET_PUT_same]
  have T3 : GET m7 (s.lo + 16) = 0 := by
    rw [hm7, GET_PUT_sep _ _ _ _ (by omega), GET_PUT_sep _ _ _ _ (by omega), GET_PUT_same]
  have T4 : GET m7 (s.lo + 20) = 0 := by
    rw [hm7, GET_PUT_sep _ _ _ _ (by omega), GET_PUT_same]
  have hs := GET_SIZE_of_GET (c := 24) (k := 1) T1 (by omega) (by omega)
  have hbrk := hf.brk_eq
  have hlo := hf.lo_pos
  have hal := hf.lo_al
  refine ⟨?_, ?_, ?_, List.nodup_nil, ?_, ?_⟩
  · exact ⟨hlo, hal, rfl, by show s.lo + 28 ≤ s.brk + 28; omega,
      by show (s.brk + 28) % 8 = 4; omega, by show s.brk + 28 ≤ s.lim; omega, hf.lim_le,
      fun h => by
        have h' : s.lo + 28 < s.brk + 28 := h
        omega⟩
  · show Shape m7 (s.lo + 4) (s.brk + 28) {s.lo + 4}
    refine ⟨rfl, T1, ?_, ?_, ?_, ?_⟩
    · intro a ha
      rw [Set.mem_singleton_iff.mp ha, hs.1]
      refine ⟨le_refl _, by omega, by omega, by omega, by omega, ?_⟩
      rw [T1]
      have : s.lo + 4 + 24 - 4 = s.lo + 24 := by omega
      rw [this, T2]
    · intro a ha hlt
      rw [Set.mem_singleton_iff.mp ha, hs.1] at hlt
      omega
    · intro a ha hne
      exact absurd (Set.mem_singleton_iff.mp ha) hne
    · intro a ha a' ha' hlt
      rw [Set.mem_singleton_iff.mp ha, Set.mem_singleton_iff.mp ha'] at hlt
      omega
  · show Chain m7 (s.lo + 4) []
    unfold Chain
    exact getLink_zero _ _ T3 (by
      have : s.lo + 4 + 12 + 4 = s.lo + 20 := by omega
      rw [this]; exact T4)
  · intro a
    refine iff_of_false (List.not_mem_nil a) ?_
    rintro ⟨h1, h2, _⟩
    rw [Set.mem_singleton_iff.mp h1] at h2
    have h2' : GET_ALLOC m7 (s.lo + 4) = 0 := h2
    have := hs.2
    omega
  · intro q
    refine iff_of_false (Set.not_mem_empty q) ?_
    rintro ⟨a, h1, h2, _⟩
    exact h2 (Set.mem_singleton_iff.mp h1)

/-- `mm_init()` from a fresh state returns, and leaves a state that satisfies the
invariant with no live pointer. -/
theorem mm_init_Inv (s : State) (hf : Fresh s) (fuel : Nat) (hfuel : 2 < fuel) :
    ∃ r s', mm_init fuel s = Res.ok r s' ∧ Inv s' ∅ ∧ s'.lo = s.lo ∧ s'.lim = s.lim := by
  by_cases hlim : s.lo + 28 ≤ s.lim
  · obtain ⟨m7, hm7⟩ : ∃ m7 : Mem, m7 = PUT (PUT (PUT (PUT (PUT (PUT (PUT
      (memset s.mem s.brk 0 28) s.lo 0) (s.lo + 4) (PACK 24 1)) (s.lo + 8) 0) (s.lo + 12) 0)
      (s.lo + 16) 0) (s.lo + 20) 0) (s.lo + 24) (PACK 24 1) := ⟨_, rfl⟩
    have hwf := init_WF s hf hlim m7 hm7
    obtain ⟨s2, hs2⟩ : ∃ s2 : State, s2 =
      { s with mem := m7, brk := s.brk + 28, heap_listp := s.lo + 4 } := ⟨_, rfl⟩
    rw [← hs2] at hwf
    have hsb : mem_sbrk s 28 =
        some (s.brk, { s with brk := s.brk + 28, mem := memset s.mem s.brk 0 28 }) := by
      unfold mem_sbrk
      rw [if_pos (by rw [hf.brk_eq]; exact hlim)]
    have hb0 : s.brk ≠ 0 := by rw [hf.brk_eq]; exact Nat.pos_iff_ne_zero.mp hf.lo_pos
    have h8 : extendBytes (4096 / 4) % 8 = 0 := by decide
    rcases extend_heap_WF hwf (4096 / 4) fuel h8 (by simpa using hfuel) with
      ⟨_, hext⟩ | ⟨r, s3, B3, fl3, hext, hr, hwf3, _, _, _, e1, e3, _, _, _⟩
    · refine ⟨-1, s2, ?_, Or.inr ⟨_, _, hwf⟩, by rw [hs2], by rw [hs2]⟩
      unfold mm_init
      simp only [hsb, hb0, if_false, mem_heap_lo]
      rw [← hm7, ← hs2, hext]
      rfl
    · refine ⟨0, s3, ?_, Or.inr ⟨_, _, hwf3⟩, by rw [e1, hs2], by rw [e3, hs2]⟩
      unfold mm_init
      simp only [hsb, hb0, if_false, mem_heap_lo]
      rw [← hm7, ← hs2, hext]
      simp only [hr, if_false]
  · refine ⟨-1, s, ?_, Or.inl ⟨⟨hf.root_eq, hf.brk_eq, hf.lo_pos, by omega⟩, rfl⟩, rfl, rfl⟩
    unfold mm_init
    have hsb : mem_sbrk s 28 = none := by
      unfold mem_sbrk
      rw [if_neg (by rw [hf.brk_eq]; exact hlim)]
    simp only [hsb]

/-! ## Stores that stay inside a payload -/

theorem Mem.ext_byte {m m' : Mem} (h : ∀ x, m'.byte x = m.byte x) : m' = m := by
  cases m; cases m'
  simp only [Mem.mk.injEq]
  funext x
  exact h x

theorem memset_zero_len (m : Mem) (p c : Nat) : memset m p c 0 = m :=
  Mem.ext_byte (fun x => memset_byte_out m p c 0 x (by omega))

/-- Memory that agrees on all tags and all links of the list gives the same heap. -/
theorem WF.of_same {s : State} {B : Set Nat} {fl : List Nat} {L P : Set Nat}
    (hwf : WF s B fl L P) (m' : Mem)
    (hG : ∀ a ∈ B, GET m' a = GET s.mem a ∧
      GET m' (a + GET_SIZE s.mem a - 4) = GET s.mem (a + GET_SIZE s.mem a - 4))
    (hF : ∀ a ∈ s.heap_listp :: fl, getLink m' (a + 12) = getLink s.mem (a + 12))
    (hK : ∀ a ∈ fl, getLink m' (a + 4) = getLink s.mem (a + 4)) :
    WF { s with mem := m' } B fl L P := by
  have hS := hwf.shape
  have hal : ∀ a ∈ B, GET_ALLOC m' a = GET_ALLOC s.mem a :=
    fun a ha => GET_ALLOC_congr _ _ _ (hG a ha).1
  refine ⟨hwf.glob.with_mem _, ?_, Chain_congr s.mem m' fl _ hwf.chain hF hK, hwf.nodup, ?_, ?_⟩
  · apply hS.congr
    · rw [(hG _ hS.root_mem).1]; exact hS.root_hdr
    · exact fun a ha => GET_SIZE_congr _ _ _ (hG a ha).1
    · intro a ha
      rw [(hG a ha).1, (hG a ha).2]; exact (hS.blk a ha).2.2.2.2.2
  · intro a
    rw [hwf.free a]
    constructor
    · rintro ⟨h1, h2, h3⟩; exact ⟨h1, by rw [hal a h1]; exact h2, h3⟩
    · rintro ⟨h1, h2, h3⟩; exact ⟨h1, by rw [← hal a h1]; exact h2, h3⟩
  · intro q
    rw [hwf.live q]
    constructor
    · rintro ⟨a, ha, h1, h2, h3⟩; exact ⟨a, ha, h1, by rw [hal a ha]; exact h2, h3⟩
    · rintro ⟨a, ha, h1, h2, h3⟩; exact ⟨a, ha, h1, by rw [← hal a ha]; exact h2, h3⟩

/-- Writing inside the payload of an allocated block changes neither the shape of the
heap nor any other block. -/
theorem WF.payload_write {s : State} {B : Set Nat} {fl : List Nat} {L P : Set Nat} {a : Nat}
    (hwf : WF s B fl L P) (ha : a ∈ B) (har : a ≠ s.heap_listp)
    (haa : GET_ALLOC s.mem a = 1) (m' : Mem)
    (hfr : ∀ z, (z < a + 4 ∨ a + GET_SIZE s.mem a - 4 ≤ z) → m'.byte z = s.mem.byte z) :
    WF { s with mem := m' } B fl L P ∧ Frame s.mem m' s.heap_listp B a ∧
    (∀ c ∈ B, GET m' c = GET s.mem c) := by
  have hS := hwf.shape
  have hba := hS.blk a ha
  have hother : ∀ c ∈ B, c ≠ a →
      ∀ z, c ≤ z → z < c + GET_SIZE s.mem c → m'.byte z = s.mem.byte z := by
    intro c hc hca z hz1 hz2
    have := hS.sep hc ha
    exact hfr z (by omega)
  have hG : ∀ c ∈ B, GET m' c = GET s.mem c ∧
      GET m' (c + GET_SIZE s.mem c - 4) = GET s.mem (c + GET_SIZE s.mem c - 4) := by
    intro c hc
    have hbc := hS.blk c hc
    by_cases hca : c = a
    · rw [hca]
      exact ⟨GET_congr _ _ _ (fun z h1 h2 => hfr z (by omega)),
        GET_congr _ _ _ (fun z h1 h2 => hfr z (by omega))⟩
    · exact ⟨GET_congr _ _ _ (fun z h1 h2 => hother c hc hca z (by omega) (by omega)),
        GET_congr _ _ _ (fun z h1 h2 => hother c hc hca z (by omega) (by omega))⟩
  have hmemne : ∀ z ∈ s.heap_listp :: fl, z ∈ B ∧ z ≠ a := by
    intro z hz
    refine ⟨hwf.anchor_mem_B hz, ?_⟩
    rintro rfl
    rcases List.mem_cons.mp hz with h1 | h1
    · exact har h1
    · have := hwf.mem_free h1; omega
  refine ⟨hwf.of_same m' hG ?_ ?_, ?_, fun c hc => (hG c hc).1⟩
  · intro z hz
    obtain ⟨hzB, hza⟩ := hmemne z hz
    have hbz := hS.blk z hzB
    exact getLink_congr _ _ _ (fun w h1 h2 => hother z hzB hza w (by omega) (by omega))
  · intro z hz
    obtain ⟨hzB, hza⟩ := hmemne z (List.mem_cons_of_mem _ hz)
    have hbz := hS.blk z hzB
    exact getLink_congr _ _ _ (fun w h1 h2 => hother z hzB hza w (by omega) (by omega))
  · intro c hc hcr hca hcal
    have hbc := hS.blk c hc
    exact ⟨(hG c hc).1, fun z h1 h2 => hother c hc hca z (by omega) (by omega)⟩

/-! ## The uninitialised state -/

theorem Uninit.sbrk_none {s : State} (h : Uninit s) (k : Nat) (hk : 28 ≤ k) :
    mem_sbrk s k = none := by
  unfold mem_sbrk
  have := h.full; have := h.brk_eq
  rw [if_neg (by omega)]

theorem Uninit.lazyInit {s : State} (h : Uninit s) (fuel : Nat) :
    lazyInit fuel s = Res.ok () s := by
  unfold MM.lazyInit
  rw [if_pos h.root_eq]
  unfold mm_init
  simp only [h.sbrk_none 28 (le_refl _)]

theorem Uninit.malloc_null {s : State} (h : Uninit s) (fuel n : Nat) :
    mm_malloc (fuel + 1) s n = Res.ok 0 s := by
  unfold mm_malloc
  simp only [h.lazyInit]
  split_ifs with h0
  · rfl
  · have hfit : fit (fuel + 1) s (adjust n) = some 0 := by
      unfold fit
      rw [h.root_eq, fitLoop, if_neg (by simp)]
    simp only [hfit, ne_eq, not_true_eq_false, if_false]
    have hext : extend_heap (fuel + 1) s (max (adjust n) 4096 / 4) = Res.ok 0 s := by
      unfold extend_heap
      simp only [h.sbrk_none _ (le_trans (by omega) (extendBytes_ge _))]
    simp only [hext, if_true]

theorem Uninit.free_null {s : State} (fuel : Nat) : mm_free fuel s 0 = Res.ok () s := by
  unfold mm_free
  simp

theorem State.with_mem_self (s : State) : { s with mem := s.mem } = s := by
  cases s; rfl

/-! ## `mm_calloc` and `mm_realloc` -/

theorem mm_malloc_size_zero (fuel : Nat) (s : State) (hinit : s.heap_listp ≠ 0) :
    mm_malloc fuel s 0 = Res.ok 0 s := by
  unfold mm_malloc
  rw [lazyInit_of_ne_zero fuel s hinit]
  simp

/-- `mm_calloc(c, n)` on a well-formed heap when `mm_malloc` succeeds: the payload is
in a well-formed heap and every one of its `c * n` bytes is zero. -/
theorem mm_calloc_WF {s : State} {B : Set Nat} {fl : List Nat} {L : Set Nat}
    (hwf : WF s B fl L ∅) (c n : Nat) (hcn : c * n < 2147483648) (fuel : Nat)
    (hfuel : fl.length + 2 < fuel) :
    (c * n = 0 ∧ mm_calloc fuel s c n = Res.ok 0 s) ∨
    (0 < c * n ∧ mm_malloc fuel s (c * n) = Res.ok 0 s ∧ mm_calloc fuel s c n = Res.fault) ∨
    (∃ p s', mm_calloc fuel s c n = Res.ok p s' ∧ p ≠ 0 ∧ p % 8 = 0 ∧ p ∉ L ∧
      (∃ B' fl', WF s' B' fl' (insert p L) ∅) ∧
      (∀ i, i < c * n → s'.mem.byte (p + i) = 0) ∧ s'.lo = s.lo ∧ s'.lim = s.lim) := by
  have hr0 : s.heap_listp ≠ 0 := Nat.pos_iff_ne_zero.mp hwf.root_pos
  have hmod : c * n % 18446744073709551616 = c * n := Nat.mod_eq_of_lt (by omega)
  by_cases h0 : c * n = 0
  · left
    refine ⟨h0, ?_⟩
    unfold mm_calloc
    simp only [lazyInit_of_ne_zero fuel s hr0, h0, Nat.zero_mod, mm_malloc_size_zero fuel s hr0, bzero,
      ne_eq, not_true_eq_false, and_false, if_false, memset_zero_len, State.with_mem_self]
  · right
    obtain ⟨p, s1, hrun, hpost⟩ := mm_malloc_WF hwf (c * n) (Nat.pos_of_ne_zero h0) hcn fuel hfuel
    rcases hpost with ⟨hp0, hs1⟩ | ⟨hp0, B1, fl1, hwf1, _, hmem, hal8, hnl, haa, hsz, _, e1, e3, e4, _, _⟩
    · left
      subst hp0; rw [hs1] at hrun
      refine ⟨Nat.pos_of_ne_zero h0, hrun, ?_⟩
      unfold mm_calloc
      simp only [lazyInit_of_ne_zero fuel s hr0, hmod, hrun, bzero, ne_eq, h0,
        not_false_eq_true, and_self, if_true]
    · right
      have hb := hwf1.shape.blk _ hmem
      have h4 : 4 ≤ p := by omega
      have hbr : p - 4 ≠ s1.heap_listp := by
        obtain ⟨a, _, har, _, hpa⟩ := (hwf1.live p).mp (Set.mem_insert _ _)
        rw [hpa, Nat.add_sub_cancel]; exact har
      obtain ⟨hwf2, _, _⟩ := hwf1.payload_write hmem hbr haa (memset s1.mem p 0 (c * n))
        (fun z hz => memset_byte_out _ _ _ _ _ (by omega))
      refine ⟨p, { s1 with mem := memset s1.mem p 0 (c * n) }, ?_, hp0, hal8, hnl,
        ⟨B1, fl1, hwf2⟩, ?_, e1, e3⟩
      · unfold mm_calloc
        simp only [lazyInit_of_ne_zero fuel s hr0, hmod, hrun, bzero, ne_eq, hp0, false_and,
          if_false]
      · intro i hi
        show (memset s1.mem p 0 (c * n)).byte (p + i) = 0
        rw [memset_byte_in _ _ _ _ _ (by omega) (by omega)]

/-- `mm_realloc(p, n)` on a live pointer, `0 < n`: NULL with the state unchanged, or a
new block that starts with the bytes of the old payload, the old block being free. -/
theorem mm_realloc_WF {s : State} {B : Set Nat} {fl : List Nat} {L : Set Nat} {p : Nat}
    (hwf : WF s B fl L ∅) (hp : p ∈ L) (n : Nat) (hn : 0 < n) (hn31 : n < 2147483648)
    (fuel : Nat) (hfuel : fl.length + 2 < fuel) :
    ∃ q s', mm_realloc fuel s p n = Res.ok q s' ∧
      ((q = 0 ∧ s' = s) ∨
       (q ≠ 0 ∧ q % 8 = 0 ∧ q ∉ L ∧ (∃ B' fl', WF s' B' fl' (insert q (L \ {p})) ∅ ∧
          ∃ r ∈ B', r ≤ p - 4 ∧ p - 4 + GET_SIZE s.mem (p - 4) ≤ r + GET_SIZE s'.mem r ∧
            GET_ALLOC s'.mem r = 0) ∧
        (∀ i, i < n → i + 8 < GET_SIZE s.mem (p - 4) →
          s'.mem.byte (q + i) = s.mem.byte (p + i)) ∧
        s'.lo = s.lo ∧ s'.lim = s.lim)) := by
  obtain ⟨a, haB, har, haa, rfl⟩ := (hwf.live p).mp hp
  have ha0 := hwf.ne_zero haB
  have hn0 : n ≠ 0 := Nat.pos_iff_ne_zero.mp hn
  have hba := hwf.shape.blk a haB
  have hatop := hwf.lt_top haB
  obtain ⟨q, s1, hrun, hpost⟩ := mm_malloc_WF hwf n hn hn31 fuel hfuel
  have hr0 : s.heap_listp ≠ 0 := Nat.pos_iff_ne_zero.mp hwf.root_pos
  rcases hpost with ⟨hq0, hs1⟩ | ⟨hq0, B1, fl1, hwf1, hlen1, hmem, hal8, hnl, hqa, hsz, hfr1, e1, e3, e4, _, hkeep⟩
  · subst hq0; rw [hs1] at hrun
    refine ⟨0, s, ?_, Or.inl ⟨rfl, rfl⟩⟩
    unfold mm_realloc
    simp only [ne_eq, Nat.add_eq_zero, OfNat.ofNat_ne_zero, and_false, not_false_eq_true,
      gt_iff_lt, hn, and_self, if_true, Nat.add_sub_cancel, hn0, if_false, ha0, hrun,
      lazyInit_of_ne_zero fuel s hr0]
  · obtain ⟨g1, p1⟩ := hfr1 a haB har ha0 haa
    have hsz1 : GET_SIZE s1.mem a = GET_SIZE s.mem a := GET_SIZE_congr _ _ _ g1
    have hal1 : GET_ALLOC s1.mem a = 1 := by rw [GET_ALLOC_congr _ _ _ g1]; exact haa
    have hold : (GET_SIZE s1.mem a + 4294967296 - 8) % 4294967296 = GET_SIZE s.mem a - 8 := by
      rw [hsz1]; omega
    obtain ⟨cnt, hcnt⟩ : ∃ cnt, cnt = if n < GET_SIZE s.mem a - 8 then n
      else GET_SIZE s.mem a - 8 := ⟨_, rfl⟩
    have hcn : cnt ≤ n := by rw [hcnt]; split_ifs <;> omega
    have hcs : cnt + 8 ≤ GET_SIZE s.mem a := by rw [hcnt]; split_ifs <;> omega
    have hci : ∀ i, i < n → i + 8 < GET_SIZE s.mem a → i < cnt := by
      intro i h1 h2; rw [hcnt]; split_ifs <;> omega
    have hbq := hwf1.shape.blk _ hmem
    have hq4 : 4 ≤ q := by omega
    have hqr : q - 4 ≠ s1.heap_listp := by
      obtain ⟨a', _, har', _, hpa⟩ := (hwf1.live q).mp (Set.mem_insert _ _)
      rw [hpa, Nat.add_sub_cancel]; exact har'
    have hqa' : q ≠ a + 4 := fun he => hnl (he ▸ hp)
    obtain ⟨hwf2, hfr2, hG2⟩ := hwf1.payload_write hmem hqr hqa (memcpy s1.mem q (a + 4) cnt)
      (fun z hz => memcpy_byte_out _ _ _ _ _ (by omega))
    have hpin : a + 4 ∈ insert q L := Set.mem_insert_of_mem _ hp
    obtain ⟨s3, B3, fl3, hfree, hwf3, _, hfr3, f1, _, f3, _, hcov, _, _⟩ :=
      mm_free_WF hwf2 hpin fuel
    refine ⟨q, s3, ?_, Or.inr ⟨hq0, hal8, hnl, ⟨B3, fl3, ?_, ?_⟩, ?_, by rw [f1]; exact e1,
      by rw [f3]; exact e3⟩⟩
    · unfold mm_realloc
      simp only [ne_eq, Nat.add_eq_zero, OfNat.ofNat_ne_zero, and_false, not_false_eq_true,
        gt_iff_lt, hn, and_self, if_true, Nat.add_sub_cancel, hn0, if_false, ha0, hrun,
        lazyInit_of_ne_zero fuel s hr0, hq0, hold, ← hcnt, hfree]
    · have : insert q (L \ {a + 4}) = insert q L \ {a + 4} := by
        ext z
        simp only [Set.mem_insert_iff, Set.mem_diff, Set.mem_singleton_iff]
        constructor
        · rintro (h1 | h1)
          · exact ⟨Or.inl h1, by rw [h1]; exact hqa'⟩
          · exact ⟨Or.inr h1.1, h1.2⟩
        · rintro ⟨h1 | h1, h2⟩
          · exact Or.inl h1
          · exact Or.inr ⟨h1, h2⟩
      rw [this]; exact hwf3
    · obtain ⟨r, hrB, h1, h2, h3⟩ := hcov
      refine ⟨r, hrB, h1, ?_, h3⟩
      simp only [Nat.add_sub_cancel] at h2 ⊢
      have e : GET_SIZE (memcpy s1.mem q (a + 4) cnt) a = GET_SIZE s.mem a := by
        rw [GET_SIZE_congr _ _ _ (hG2 a (hkeep a haB haa))]; exact hsz1
      have h2' : a + GET_SIZE (memcpy s1.mem q (a + 4) cnt) a ≤ r + GET_SIZE s3.mem r := h2
      rw [e] at h2'
      exact h2'
    · intro i hi1 hi2
      simp only [Nat.add_sub_cancel] at hi2
      have hic := hci i hi1 hi2
      have hq2 : GET_ALLOC (memcpy s1.mem q (a + 4) cnt) (q - 4) = 1 := by
        rw [GET_ALLOC_congr _ _ _ (hG2 _ hmem)]; exact hqa
      have hsq2 : GET_SIZE (memcpy s1.mem q (a + 4) cnt) (q - 4) = GET_SIZE s1.mem (q - 4) :=
        GET_SIZE_congr _ _ _ (hG2 _ hmem)
      obtain ⟨_, p3⟩ := hfr3 (q - 4) hmem hqr (by
        simp only [Nat.add_sub_cancel]; omega) hq2
      have hb3 : s3.mem.byte (q + i) = (memcpy s1.mem q (a + 4) cnt).byte (q + i) :=
        p3 (q + i) (by omega) (by
          have : GET_SIZE (memcpy s1.mem q (a + 4) cnt) (q - 4) = GET_SIZE s1.mem (q - 4) := hsq2
          rw [this]; omega)
      rw [hb3, memcpy_byte_in _ _ _ _ _ hic]
      exact p1 (a + 4 + i) (by omega) (by omega)

/-! ## The invariant holds in every reachable state -/

theorem WF.zero_not_live {s : State} {B : Set Nat} {fl : List Nat} {L P : Set Nat}
    (h : WF s B fl L P) : (0 : Nat) ∉ L := by
  intro h0
  obtain ⟨a, _, _, _, e⟩ := (h.live 0).mp h0
  omega

theorem diff_null {L : Set Nat} (h : (0 : Nat) ∉ L) : L \ {0} = L := by
  ext z
  simp only [Set.mem_diff, Set.mem_singleton_iff]
  exact ⟨fun hz => hz.1, fun hz => ⟨hz, fun e => h (e ▸ hz)⟩⟩

/-- Whatever fuel made `mm_malloc(n)` return, the result is the one of `mm_malloc_WF`. -/
theorem mm_malloc_post {s : State} {B : Set Nat} {fl : List Nat} {L : Set Nat}
    (hwf : WF s B fl L ∅) {n : Nat} (hn : 0 < n) (hn31 : n < 2147483648) {fuel p : Nat}
    {s' : State} (h : mm_malloc fuel s n = Res.ok p s') : MallocPost s B fl L n p s' := by
  have h' := mm_malloc_mono fuel s n p s' h (fl.length + 3)
  obtain ⟨p1, s1, hrun, hpost⟩ := mm_malloc_WF hwf n hn hn31 (fuel + (fl.length + 3)) (by omega)
  rw [h'] at hrun
  obtain ⟨e1, e2⟩ := Res.ok.inj hrun
  rw [e1, e2]
  exact hpost

theorem Uninit.malloc_eq {s : State} (hu : Uninit s) {fuel n p : Nat} {s' : State}
    (h : mm_malloc fuel s n = Res.ok p s') : p = 0 ∧ s' = s := by
  have h' := mm_malloc_mono fuel s n p s' h 1
  rw [hu.malloc_null fuel n] at h'
  obtain ⟨e1, e2⟩ := Res.ok.inj h'
  exact ⟨e1.symm, e2.symm⟩

theorem Inv.malloc {s : State} {L : Set Nat} (hI : Inv s L) {fuel n p : Nat} {s' : State}
    (hn31 : n < 2147483648) (h : mm_malloc fuel s n = Res.ok p s') :
    Inv s' (if p = 0 then L else insert p L) := by
  rcases hI with ⟨hu, hL⟩ | ⟨B, fl, hwf⟩
  · obtain ⟨e1, e2⟩ := hu.malloc_eq h
    rw [e1, e2, if_pos rfl]
    exact Or.inl ⟨hu, hL⟩
  · by_cases hn : n = 0
    · rw [hn, mm_malloc_size_zero fuel s (Nat.pos_iff_ne_zero.mp hwf.root_pos)] at h
      obtain ⟨e1, e2⟩ := Res.ok.inj h
      rw [← e1, ← e2, if_pos rfl]
      exact Or.inr ⟨B, fl, hwf⟩
    · rcases mm_malloc_post hwf (Nat.pos_of_ne_zero hn) hn31 h with
        ⟨e1, e2⟩ | ⟨hp0, B', fl', hwf', _⟩
      · rw [e1, e2, if_pos rfl]
        exact Or.inr ⟨B, fl, hwf⟩
      · rw [if_neg hp0]
        exact Or.inr ⟨B', fl', hwf'⟩

theorem Uninit.calloc_eq {s : State} (hu : Uninit s) {fuel c n p : Nat} {s' : State}
    (h : mm_calloc fuel s c n = Res.ok p s') : p = 0 ∧ s' = s := by
  have h' := mm_calloc_mono fuel s c n p s' h 1
  unfold mm_calloc at h'
  simp only [hu.lazyInit, hu.malloc_null fuel, bzero] at h'
  by_cases h0 : c * n % 18446744073709551616 = 0
  · simp only [h0, ne_eq, not_true_eq_false, and_false, if_false, memset_zero_len,
      State.with_mem_self] at h'
    obtain ⟨e1, e2⟩ := Res.ok.inj h'
    exact ⟨e1.symm, e2.symm⟩
  · simp only [ne_eq, h0, not_false_eq_true, and_self, if_true] at h'
    cases h'

theorem Inv.calloc {s : State} {L : Set Nat} (hI : Inv s L) {fuel c n p : Nat} {s' : State}
    (hcn : c * n < 2147483648) (h : mm_calloc fuel s c n = Res.ok p s') :
    Inv s' (if p = 0 then L else insert p L) := by
  rcases hI with ⟨hu, hL⟩ | ⟨B, fl, hwf⟩
  · obtain ⟨e1, e2⟩ := hu.calloc_eq h
    rw [e1, e2, if_pos rfl]
    exact Or.inl ⟨hu, hL⟩
  · have h' := mm_calloc_mono fuel s c n p s' h (fl.length + 3)
    rcases mm_calloc_WF hwf c n hcn (fuel + (fl.length + 3)) (by omega) with
      ⟨_, hrun⟩ | ⟨_, _, hrun⟩ | ⟨p1, s1, hrun, hp0, _, _, ⟨B', fl', hwf'⟩, _⟩
    · rw [h'] at hrun
      obtain ⟨e1, e2⟩ := Res.ok.inj hrun
      rw [e1, e2, if_pos rfl]
      exact Or.inr ⟨B, fl, hwf⟩
    · rw [h'] at hrun; cases hrun
    · rw [h'] at hrun
      obtain ⟨e1, e2⟩ := Res.ok.inj hrun
      rw [e1, e2, if_neg hp0]
      exact Or.inr ⟨B', fl', hwf'⟩

theorem mm_free_null (fuel : Nat) (s : State) : mm_free fuel s 0 = Res.ok () s := by
  unfold mm_free
  simp

theorem Inv.free {s : State} {L : Set Nat} (hI : Inv s L) {fuel p : Nat} {s' : State}
    (hp : p = 0 ∨ p ∈ L) (h : mm_free fuel s p = Res.ok () s') : Inv s' (L \ {p}) := by
  rcases hI with ⟨hu, hL⟩ | ⟨B, fl, hwf⟩
  · have hp0 : p = 0 := by
      rcases hp with hp | hp
      · exact hp
      · rw [hL] at hp; exact absurd hp (Set.not_mem_empty _)
    rw [hp0, mm_free_null] at h
    obtain ⟨_, e2⟩ := Res.ok.inj h
    rw [← e2, hL, Set.empty_diff]
    exact Or.inl ⟨hu, rfl⟩
  · rcases hp with hp | hp
    · rw [hp, mm_free_null] at h
      obtain ⟨_, e2⟩ := Res.ok.inj h
      rw [← e2, hp, diff_null hwf.zero_not_live]
      exact Or.inr ⟨B, fl, hwf⟩
    · obtain ⟨s1, B', fl', hrun, hwf', _⟩ := mm_free_WF hwf hp fuel
      rw [h] at hrun
      obtain ⟨_, e2⟩ := Res.ok.inj hrun
      rw [e2]
      exact Or.inr ⟨B', fl', hwf'⟩

theorem mm_realloc_size_zero (fuel : Nat) (s : State) (p : Nat) {q : Nat} {s' : State}
    (h : mm_realloc fuel s p 0 = Res.ok q s') : mm_free fuel s p = Res.ok () s' := by
  unfold mm_realloc at h
  simp only [gt_iff_lt, Nat.lt_irrefl, and_false, if_false, if_true] at h
  revert h
  generalize mm_free fuel s p = e
  cases e with
  | ok u t => intro h; obtain ⟨_, e2⟩ := Res.ok.inj h; rw [e2]
  | fault => intro h; cases h
  | timeout => intro h; cases h

theorem mm_realloc_null (fuel : Nat) (s : State) (n : Nat) (hn : n ≠ 0) :
    mm_realloc fuel s 0 n = mm_malloc fuel s n := by
  unfold mm_realloc
  simp [hn]

/-- Whatever fuel made `mm_realloc(p, n)` return, the result is the one of
`mm_realloc_WF`. -/
theorem mm_realloc_post {s : State} {B : Set Nat} {fl : List Nat} {L : Set Nat} {p : Nat}
    (hwf : WF s B fl L ∅) (hp : p ∈ L) {n : Nat} (hn : 0 < n) (hn31 : n < 2147483648)
    {fuel q : Nat} {s' : State} (h : mm_realloc fuel s p n = Res.ok q s') :
    (q = 0 ∧ s' = s) ∨
    (q ≠ 0 ∧ q % 8 = 0 ∧ q ∉ L ∧ (∃ B' fl', WF s' B' fl' (insert q (L \ {p})) ∅ ∧
        ∃ r ∈ B', r ≤ p - 4 ∧ p - 4 + GET_SIZE s.mem (p - 4) ≤ r + GET_SIZE s'.mem r ∧
          GET_ALLOC s'.mem r = 0) ∧
      (∀ i, i < n → i + 8 < GET_SIZE s.mem (p - 4) →
        s'.mem.byte (q + i) = s.mem.byte (p + i)) ∧
      s'.lo = s.lo ∧ s'.lim = s.lim) := by
  have h' := mm_realloc_mono fuel s p n q s' h (fl.length + 3)
  obtain ⟨q1, s1, hrun, hpost⟩ := mm_realloc_WF hwf hp n hn hn31 (fuel + (fl.length + 3))
    (by omega)
  rw [h'] at hrun
  obtain ⟨e1, e2⟩ := Res.ok.inj hrun
  rw [e1, e2]
  exact hpost

theorem Inv.realloc {s : State} {L : Set Nat} (hI : Inv s L) {fuel p n q : Nat} {s' : State}
    (hp : p = 0 ∨ p ∈ L) (hn31 : n < 2147483648) (h : mm_realloc fuel s p n = Res.ok q s') :
    Inv s' (if n = 0 then L \ {p} else if q = 0 then L else insert q (L \ {p})) := by
  by_cases hn : n = 0
  · rw [if_pos hn]
    rw [hn] at h
    exact hI.free hp (mm_realloc_size_zero fuel s p h)
  · rw [if_neg hn]
    have h0L : (0 : Nat) ∉ L := by
      rcases hI with ⟨_, hL⟩ | ⟨B, fl, hwf⟩
      · rw [hL]; exact Set.not_mem_empty _
      · exact hwf.zero_not_live
    by_cases hp0 : p = 0
    · rw [hp0, mm_realloc_null fuel s n hn] at h
      rw [hp0, diff_null h0L]
      exact hI.malloc hn31 h
    · have hpL : p ∈ L := hp.resolve_left hp0
      rcases hI with ⟨_, hL⟩ | ⟨B, fl, hwf⟩
      · rw [hL] at hpL; exact absurd hpL (Set.not_mem_empty _)
      · rcases mm_realloc_post hwf hpL (Nat.pos_of_ne_zero hn) hn31 h with
          ⟨e1, e2⟩ | ⟨hq0, _, _, ⟨B', fl', hwf', _⟩, _⟩
        · rw [e1, e2, if_pos rfl]
          exact Or.inr ⟨B, fl, hwf⟩
        · rw [if_neg hq0]
          exact Or.inr ⟨B', fl', hwf'⟩

theorem Inv.store {s : State} {L : Set Nat} (hI : Inv s L) {p i v : Nat} (hp : p ∈ L)
    (hi : i + 8 < GET_SIZE s.mem (p - 4)) :
    Inv { s with mem := storeByte s.mem (p + i) v } L := by
  rcases hI with ⟨_, hL⟩ | ⟨B, fl, hwf⟩
  · rw [hL] at hp; exact absurd hp (Set.not_mem_empty _)
  · obtain ⟨a, haB, har, haa, rfl⟩ := (hwf.live p).mp hp
    rw [Nat.add_sub_cancel] at hi
    obtain ⟨hwf', _⟩ := hwf.payload_write haB har haa (storeByte s.mem (a + 4 + i) v)
      (fun z hz => by
        show (if z = a + 4 + i then v % 256 else s.mem.byte z) = s.mem.byte z
        rw [if_neg (by omega)])
    exact Or.inr ⟨B, fl, hwf'⟩

/-- Every reachable state is either the state in which `mm_init` could not obtain the
sentinel (with nothing allocated) or a well-formed heap whose allocated payload
pointers are exactly the live set. -/
theorem Reach.inv {s : State} {L : Set Nat} (h : Reach s L) : Inv s L := by
  induction h with
  | init s0 s fuel r hf hrun =>
    have h' := mm_init_mono fuel s0 r s hrun 3
    obtain ⟨r1, s1, hrun1, hI, _⟩ := mm_init_Inv s0 hf (fuel + 3) (by omega)
    rw [h'] at hrun1
    obtain ⟨_, e2⟩ := Res.ok.inj hrun1
    rw [e2]; exact hI
  | malloc s s' L fuel n p _ hn hrun ih => exact ih.malloc hn hrun
  | calloc s s' L fuel c n p _ hcn hrun ih => exact ih.calloc hcn hrun
  | realloc s s' L fuel p n q _ hp hn hrun ih => exact ih.realloc hp hn hrun
  | free s s' L fuel p _ hp hrun ih => exact ih.free hp hrun
  | store s L p i v _ hp hi ih => exact ih.store hp hi

/-! ## Blocks by position -/

theorem Shape.blockAt_mem {m : Mem} {root brk : Nat} {B : Set Nat} (h : Shape m root brk B) :
    ∀ k, blockAt m root k < brk → blockAt m root k ∈ B := by
  intro k
  induction k with
  | zero => intro _; exact h.root_mem
  | succ k ih =>
    intro hk
    have hk' : blockAt m root k + GET_SIZE m (blockAt m root k) < brk := hk
    exact h.succ _ (ih (by omega)) hk'

theorem Shape.mem_blockAt {m : Mem} {root brk : Nat} {B : Set Nat} (h : Shape m root brk B) :
    ∀ a ∈ B, ∃ k, blockAt m root k = a ∧ blockAt m root k < brk := by
  have key : ∀ N a, a ≤ N → a ∈ B → ∃ k, blockAt m root k = a ∧ blockAt m root k < brk := by
    intro N
    induction N with
    | zero =>
      intro a ha haB
      have hb := h.blk a haB
      by_cases har : a = root
      · exact ⟨0, har.symm, by rw [har] at hb; show root < brk; omega⟩
      · obtain ⟨a', ha', e⟩ := h.pred a haB har
        have := h.blk a' ha'
        omega
    | succ N ih =>
      intro a ha haB
      have hb := h.blk a haB
      by_cases har : a = root
      · exact ⟨0, har.symm, by rw [har] at hb; show root < brk; omega⟩
      · obtain ⟨a', ha', e⟩ := h.pred a haB har
        have hb' := h.blk a' ha'
        obtain ⟨k, hk, _⟩ := ih a' (by omega) ha'
        refine ⟨k + 1, ?_, ?_⟩
        · show blockAt m root k + GET_SIZE m (blockAt m root k) = a
          rw [hk]; exact e
        · show blockAt m root k + GET_SIZE m (blockAt m root k) < brk
          rw [hk, e]; omega
  intro a ha
  exact key a a (le_refl _) ha

/-! ## Calls return -/

theorem Res.returned_ok {α : Type} {r : Res α} {v : α} {s : State} (h : r = Res.ok v s) :
    r.returned = true := by
  rw [h]; rfl

theorem Res.eq_ok_of_returned {α : Type} (r : Res α) (d : α) (ds : State)
    (h : r.returned = true) : r = Res.ok (r.valOr d) (r.stateOr ds) := by
  cases r with
  | ok v s => rfl
  | fault => cases h
  | timeout => cases h

theorem Inv.malloc_returns {s : State} {L : Set Nat} (hI : Inv s L) (n : Nat)
    (hn : 0 < n) (hn31 : n < 2147483648) :
    ∃ N, ∀ fuel, N ≤ fuel → (mm_malloc fuel s n).returned = true := by
  rcases hI with ⟨hu, _⟩ | ⟨B, fl, hwf⟩
  · refine ⟨1, fun fuel hf => ?_⟩
    obtain ⟨f, rfl⟩ : ∃ f, fuel = f + 1 := ⟨fuel - 1, by omega⟩
    exact Res.returned_ok (hu.malloc_null f n)
  · refine ⟨fl.length + 3, fun fuel hf => ?_⟩
    obtain ⟨p, s', hrun, _⟩ := mm_malloc_WF hwf n hn hn31 fuel (by omega)
    exact Res.returned_ok hrun

theorem Inv.realloc_returns {s : State} {L : Set Nat} (hI : Inv s L) {p : Nat} (hp : p ∈ L)
    (n : Nat) (hn : 0 < n) (hn31 : n < 2147483648) :
    ∃ N, ∀ fuel, N ≤ fuel → (mm_realloc fuel s p n).returned = true := by
  rcases hI with ⟨_, hL⟩ | ⟨B, fl, hwf⟩
  · rw [hL] at hp; exact absurd hp (Set.not_mem_empty _)
  · refine ⟨fl.length + 3, fun fuel hf => ?_⟩
    obtain ⟨q, s', hrun, _⟩ := mm_realloc_WF hwf hp n hn hn31 fuel (by omega)
    exact Res.returned_ok hrun

/-! ## Concrete reachable states -/

theorem reach_initState : Reach (initState 100000) ∅ :=
  Reach.init (freshState 4096 100000) (initState 100000) 8
    ((mm_init 8 (freshState 4096 100000)).valOr 0)
    ⟨rfl, rfl, by decide, by decide, by decide⟩
    (Res.eq_ok_of_returned _ _ _ (by decide))

set_option maxRecDepth 100000 in
theorem reach_oneLive : Reach oneLive (insert 4128 (∅ : Set Nat)) := by
  have hv : (mm_malloc 8 (initState 100000) 16).valOr 0 = 4128 := by decide
  have h := Res.eq_ok_of_returned (mm_malloc 8 (initState 100000) 16) 0 (initState 100000)
    (by decide)
  rw [hv] at h
  have hr := Reach.malloc (initState 100000) oneLive ∅ 8 16 4128 reach_initState
    (by decide) h
  rw [if_neg (by decide)] at hr
  exact hr

/-! ## Claims about reachable states -/

/-- C2: in every state reachable from `mm_init()` by allocator calls, for `0 < n < 2^31`,
`mm_malloc(n)` returns (for every large enough fuel), and whenever it returns a non-null
`p`, `p` is a multiple of 8 and lies in the managed region: `lo ≤ p`, `p` is not past the
last word of the region, and the whole range `[p, p + n)` ends before the break. -/
theorem mm_malloc_aligned_in_bounds (s : State) (L : Set Nat) (hr : Reach s L) (n : Nat)
    (hn : 0 < n) (hn31 : n < 2147483648) :
    (∃ N, ∀ fuel, N ≤ fuel → (mm_malloc fuel s n).returned = true) ∧
    ∀ fuel p s', mm_malloc fuel s n = Res.ok p s' → p ≠ 0 →
      p % 8 = 0 ∧ mem_heap_lo s' ≤ p ∧ p ≤ mem_heap_hi s' ∧ p + n ≤ s'.brk := by
  have hI := hr.inv
  refine ⟨hI.malloc_returns n hn hn31, ?_⟩
  intro fuel p s' hrun hp0
  rcases hI with ⟨hu, _⟩ | ⟨B, fl, hwf⟩
  · exact absurd (hu.malloc_eq hrun).1 hp0
  · rcases mm_malloc_post hwf hn hn31 hrun with ⟨e, _⟩ | ⟨_, B', fl', hwf', _, hmem, hal, _, _, hsz, _⟩
    · exact absurd e hp0
    · have hb := hwf'.shape.blk _ hmem
      have hroot := hwf'.glob.root_eq
      unfold mem_heap_lo mem_heap_hi
      refine ⟨hal, ?_, ?_, ?_⟩ <;> omega

set_option maxRecDepth 100000 in
theorem mm_malloc_aligned_in_bounds_witness :
    Reach oneLive (insert 4128 (∅ : Set Nat)) ∧ 0 < 16 ∧ 16 < 2147483648 ∧
    (mm_malloc 8 oneLive 16).valOr 0 = 4152 ∧
    ((∃ N, ∀ fuel, N ≤ fuel → (mm_malloc fuel oneLive 16).returned = true) ∧
     ∀ fuel p s', mm_malloc fuel oneLive 16 = Res.ok p s' → p ≠ 0 →
      p % 8 = 0 ∧ mem_heap_lo s' ≤ p ∧ p ≤ mem_heap_hi s' ∧ p + 16 ≤ s'.brk) :=
  ⟨reach_oneLive, by decide, by decide, by decide,
    mm_malloc_aligned_in_bounds oneLive _ reach_oneLive 16 (by decide) (by decide)⟩

/-- C1: in every state reachable from `mm_init()` by allocator calls, for `0 < n < 2^31`,
`mm_malloc(n)` returns, and whenever it returns a non-null `p`: the block at `p - 4` is
a block of the heap, marked allocated, whose payload holds `[p, p + n)` (`n + 8` is at
most its size, so the range lies between the header at `p - 4` and the footer); the
extent of every other block of the heap (header, payload with its link words, footer),
the sentinel (block 0) included, is disjoint from the extent of the returned block; and
every pointer `q` that was allocated before the call is different from `p`, still
allocated with the same header, and its block is disjoint from the returned block. -/
theorem mm_malloc_no_aliasing (s : State) (L : Set Nat) (hr : Reach s L) (n : Nat)
    (hn : 0 < n) (hn31 : n < 2147483648) :
    (∃ N, ∀ fuel, N ≤ fuel → (mm_malloc fuel s n).returned = true) ∧
    ∀ fuel p s', mm_malloc fuel s n = Res.ok p s' → p ≠ 0 →
      4 ≤ p ∧ GET_ALLOC s'.mem (p - 4) = 1 ∧ n + 8 ≤ GET_SIZE s'.mem (p - 4) ∧
      (∃ k, blockAt s'.mem s'.heap_listp k = p - 4 ∧ p - 4 + GET_SIZE s'.mem (p - 4) ≤ s'.brk) ∧
      (GET s'.mem s'.heap_listp = 25 ∧ s'.heap_listp + 24 ≤ p - 4) ∧
      (∀ k, blockAt s'.mem s'.heap_listp k < s'.brk → blockAt s'.mem s'.heap_listp k ≠ p - 4 →
        blockAt s'.mem s'.heap_listp k + GET_SIZE s'.mem (blockAt s'.mem s'.heap_listp k) ≤ p - 4 ∨
        p - 4 + GET_SIZE s'.mem (p - 4) ≤ blockAt s'.mem s'.heap_listp k) ∧
      (∀ q ∈ L, q ≠ p ∧ GET s'.mem (q - 4) = GET s.mem (q - 4) ∧ GET_ALLOC s'.mem (q - 4) = 1 ∧
        (∃ k, blockAt s'.mem s'.heap_listp k = q - 4) ∧
        (q - 4 + GET_SIZE s'.mem (q - 4) ≤ p - 4 ∨ p - 4 + GET_SIZE s'.mem (p - 4) ≤ q - 4)) := by
  have hI := hr.inv
  refine ⟨hI.malloc_returns n hn hn31, ?_⟩
  intro fuel p s' hrun hp0
  rcases hI with ⟨hu, _⟩ | ⟨B, fl, hwf⟩
  · exact absurd (hu.malloc_eq hrun).1 hp0
  · rcases mm_malloc_post hwf hn hn31 hrun with
      ⟨e, _⟩ | ⟨_, B', fl', hwf', _, hmem, hal, hpL, haa, hsz, hfr, _, _, hroot, _, hkeep⟩
    · exact absurd e hp0
    · have hS := hwf'.shape
      have hb := hS.blk _ hmem
      have hrs := hS.root_size
      have hpr : p - 4 ≠ s'.heap_listp := by
        obtain ⟨a, _, har, _, hpa⟩ := (hwf'.live p).mp (Set.mem_insert _ _)
        rw [hpa, Nat.add_sub_cancel]; exact har
      have hrp := hwf'.root_pos
      refine ⟨by omega, haa, hsz, ?_, ⟨hS.root_hdr, ?_⟩, ?_, ?_⟩
      · obtain ⟨k, hk, _⟩ := hS.mem_blockAt _ hmem
        exact ⟨k, hk, hb.2.2.2.2.1⟩
      · rcases hS.sep hS.root_mem hmem with e | h1 | h1
        · exact absurd e.symm hpr
        · rw [hrs.1] at h1; exact h1
        · omega
      · intro k hk hne
        rcases hS.sep (hS.blockAt_mem k hk) hmem with e | h1 | h1
        · exact absurd e hne
        · exact Or.inl h1
        · exact Or.inr h1
      · intro q hq
        obtain ⟨a, haB, har, haa0, rfl⟩ := (hwf.live q).mp hq
        rw [Nat.add_sub_cancel]
        have haB' := hkeep a haB haa0
        obtain ⟨g, _⟩ := hfr a haB har (hwf.ne_zero haB) haa0
        have hne : a + 4 ≠ p := fun e => hpL (e ▸ hq)
        refine ⟨hne, g, by rw [GET_ALLOC_congr _ _ _ g]; exact haa0, ?_, ?_⟩
        · obtain ⟨k, hk, _⟩ := hS.mem_blockAt _ haB'
          exact ⟨k, hk⟩
        · rcases hS.sep haB' hmem with e | h1 | h1
          · exact absurd (by omega) hne
          · exact Or.inl h1
          · exact Or.inr h1

set_option maxRecDepth 100000 in
theorem mm_malloc_no_aliasing_witness :
    Reach oneLive (insert 4128 (∅ : Set Nat)) ∧ 0 < 16 ∧ 16 < 2147483648 ∧
    (mm_malloc 8 oneLive 16).valOr 0 = 4152 ∧
    ((∃ N, ∀ fuel, N ≤ fuel → (mm_malloc fuel oneLive 16).returned = true) ∧
     ∀ fuel p s', mm_malloc fuel oneLive 16 = Res.ok p s' → p ≠ 0 →
      4 ≤ p ∧ GET_ALLOC s'.mem (p - 4) = 1 ∧ 16 + 8 ≤ GET_SIZE s'.mem (p - 4) ∧
      (∃ k, blockAt s'.mem s'.heap_listp k = p - 4 ∧ p - 4 + GET_SIZE s'.mem (p - 4) ≤ s'.brk) ∧
      (GET s'.mem s'.heap_listp = 25 ∧ s'.heap_listp + 24 ≤ p - 4) ∧
      (∀ k, blockAt s'.mem s'.heap_listp k < s'.brk → blockAt s'.mem s'.heap_listp k ≠ p - 4 →
        blockAt s'.mem s'.heap_listp k + GET_SIZE s'.mem (blockAt s'.mem s'.heap_listp k) ≤ p - 4 ∨
        p - 4 + GET_SIZE s'.mem (p - 4) ≤ blockAt s'.mem s'.heap_listp k) ∧
      (∀ q ∈ insert 4128 (∅ : Set Nat), q ≠ p ∧ GET s'.mem (q - 4) = GET oneLive.mem (q - 4) ∧
        GET_ALLOC s'.mem (q - 4) = 1 ∧
        (∃ k, blockAt s'.mem s'.heap_listp k = q - 4) ∧
        (q - 4 + GET_SIZE s'.mem (q - 4) ≤ p - 4 ∨ p - 4 + GET_SIZE s'.mem (p - 4) ≤ q - 4))) :=
  ⟨reach_oneLive, by decide, by decide, by decide,
    mm_malloc_no_aliasing oneLive _ reach_oneLive 16 (by decide) (by decide)⟩

/-- `mm_realloc(p, n)` for requests below `2^31`: in every state of `Reach`, for a
currently allocated pointer `p`, the call returns, and whenever it returns a non-null
`q`: `q` is a multiple of 8; the first `min(n, size - 8)` bytes at `q` after the call are
the bytes that were at `p` before the call; and the heap after the call has a block
marked free whose extent contains the old block. -/
theorem mm_realloc_content_bounded (s : State) (L : Set Nat) (hr : Reach s L) (p : Nat)
    (hp : p ∈ L) (n : Nat) (hn : 0 < n) (hn31 : n < 2147483648) :
    (∃ N, ∀ fuel, N ≤ fuel → (mm_realloc fuel s p n).returned = true) ∧
    ∀ fuel q s', mm_realloc fuel s p n = Res.ok q s' → q ≠ 0 →
      q % 8 = 0 ∧
      (∀ i, i < min n (GET_SIZE s.mem (p - 4) - 8) → s'.mem.byte (q + i) = s.mem.byte (p + i)) ∧
      (∃ k, blockAt s'.mem s'.heap_listp k < s'.brk ∧
        GET_ALLOC s'.mem (blockAt s'.mem s'.heap_listp k) = 0 ∧
        blockAt s'.mem s'.heap_listp k ≤ p - 4 ∧
        p - 4 + GET_SIZE s.mem (p - 4) ≤
          blockAt s'.mem s'.heap_listp k + GET_SIZE s'.mem (blockAt s'.mem s'.heap_listp k)) := by
  have hI := hr.inv
  refine ⟨hI.realloc_returns hp n hn hn31, ?_⟩
  intro fuel q s' hrun hq0
  rcases hI with ⟨_, hL⟩ | ⟨B, fl, hwf⟩
  · rw [hL] at hp; exact absurd hp (Set.not_mem_empty _)
  · rcases mm_realloc_post hwf hp hn hn31 hrun with
      ⟨e, _⟩ | ⟨_, hal, _, ⟨B', fl', hwf', r, hrB, h1, h2, h3⟩, hcopy, _⟩
    · exact absurd e hq0
    · refine ⟨hal, ?_, ?_⟩
      · intro i hi
        have := Nat.lt_min.mp hi
        exact hcopy i this.1 (by omega)
      · obtain ⟨k, hk, hkb⟩ := hwf'.shape.mem_blockAt _ hrB
        refine ⟨k, hkb, ?_⟩
        rw [hk]
        exact ⟨h3, h1, h2⟩

/-! ## Size normalisation -/

/-- C12: for a request `0 < n` with `n + 15 < 2^64`, the block size `adjust n` that
`mm_malloc` computes is `24` when `n ≤ 16` and `8 * ceil((n + 8) / 8)` when `n > 16`
(the multiple of 8 that is at least `n + 8` and less than `n + 16`); it is a multiple of
8, at least 24 and at least `n + 8`. -/
theorem adjust_normalizes (n : Nat) (hn : 0 < n) (h : n + 15 < 18446744073709551616) :
    (n ≤ 16 → adjust n = 24) ∧
    (16 < n → adjust n = 8 * ((n + 8 + 7) / 8) ∧ n + 8 ≤ adjust n ∧ adjust n < n + 8 + 8) ∧
    adjust n % 8 = 0 ∧ 24 ≤ adjust n ∧ n + 8 ≤ adjust n := by
  rw [adjust_eq n h]
  split_ifs with h1
  · refine ⟨fun _ => rfl, fun h2 => ?_, ?_, ?_, ?_⟩ <;> omega
  · refine ⟨fun h2 => ?_, fun _ => ⟨?_, ?_, ?_⟩, ?_, ?_, ?_⟩ <;> omega

theorem adjust_normalizes_witness :
    0 < 100 ∧ 100 + 15 < 18446744073709551616 ∧ adjust 100 = 112 ∧
    ((100 ≤ 16 → adjust 100 = 24) ∧
    (16 < 100 → adjust 100 = 8 * ((100 + 8 + 7) / 8) ∧ 100 + 8 ≤ adjust 100 ∧
      adjust 100 < 100 + 8 + 8) ∧
    adjust 100 % 8 = 0 ∧ 24 ≤ adjust 100 ∧ 100 + 8 ≤ adjust 100) :=
  ⟨by decide, by decide, by decide, adjust_normalizes 100 (by decide) (by decide)⟩

/-! ## The pointer codec above `2^31` -/

/-- C16 (fails): the address `0x80000000` is split into the halves `0x80000000` and `0`;
`addrPair` receives them in `int` parameters, the low half is sign-extended by the cast
to `unsigned long`, and the result is `0xFFFFFFFF80000000`, not the address. -/
theorem addrPair_sign_extends :
    addrSplit 2147483648 0 = 2147483648 ∧ addrSplit 2147483648 1 = 0 ∧
    addrPair (addrSplit 2147483648 0) (addrSplit 2147483648 1) = 18446744071562067968 ∧
    addrPair (addrSplit 2147483648 0) (addrSplit 2147483648 1) ≠ 2147483648 := by
  decide

/-! ## Reaching the state with two adjacent free blocks -/

theorem Reach.malloc_ret {s : State} {L : Set Nat} (h : Reach s L) (fuel n p : Nat)
    (hn : n < 2147483648) (hr : (mm_malloc fuel s n).returned = true)
    (hv : (mm_malloc fuel s n).valOr 0 = p) (hp : p ≠ 0) :
    Reach ((mm_malloc fuel s n).stateOr s) (insert p L) := by
  have e := Res.eq_ok_of_returned (mm_malloc fuel s n) 0 s hr
  rw [hv] at e
  have hr := Reach.malloc s _ L fuel n p h hn e
  rw [if_neg hp] at hr
  exact hr

theorem Reach.free_ret {s : State} {L : Set Nat} (h : Reach s L) (fuel p : Nat)
    (hp : p ∈ L) (hr : (mm_free fuel s p).returned = true) :
    Reach ((mm_free fuel s p).stateOr s) (L \ {p}) :=
  Reach.free s _ L fuel p h (Or.inr hp) (Res.eq_ok_of_returned (mm_free fuel s p) () s hr)

set_option maxRecDepth 100000 in
theorem reach_abcFreed : ∃ L, Reach abcFreed L := by
  have h1 := reach_oneLive
  have h2 := h1.malloc_ret 8 16 4152 (by decide) (by decide) (by decide) (by decide)
  have h3 := h2.malloc_ret 8 16 4176 (by decide) (by decide) (by decide) (by decide)
  have h4 := h3.malloc_ret 8 16 4200 (by decide) (by decide) (by decide) (by decide)
  have h5 := h4.free_ret 8 4128 (by simp) (by decide)
  have h6 := h5.free_ret 8 4176 (by simp) (by decide)
  have h7 := h6.free_ret 8 4152 (by simp) (by decide)
  exact ⟨_, h7⟩

set_option maxRecDepth 100000 in
/-- C13 (fails): the state reached by `a = mm_malloc(16)`, `b = mm_malloc(16)`,
`c = mm_malloc(16)`, `d = mm_malloc(16)`, `mm_free(a)`, `mm_free(c)`, `mm_free(b)` is
reachable, and in it the block at `4124` (block 1 of the heap, size 24) and the block
that follows it at `4148` both have the allocated bit clear. -/
theorem adjacent_free_blocks_reachable :
    (∃ L, Reach abcFreed L) ∧
    blockAt abcFreed.mem abcFreed.heap_listp 1 = 4124 ∧
    blockAt abcFreed.mem abcFreed.heap_listp 2 = 4148 ∧
    4124 + GET_SIZE abcFreed.mem 4124 = 4148 ∧ 4148 < abcFreed.brk ∧
    GET_ALLOC abcFreed.mem 4124 = 0 ∧ GET_ALLOC abcFreed.mem 4148 = 0 :=
  ⟨reach_abcFreed, by decide, by decide, by decide, by decide, by decide, by decide⟩

/-! ## First fit -/

theorem fitLoop_first (m : Mem) (size b : Nat) (l2 : List Nat) :
    ∀ (l1 : List Nat) (prev fuel : Nat), Chain m prev (l1 ++ b :: l2) →
      (∀ c ∈ l1, c ≠ 0 ∧ 1 < GET_SIZE m c ∧ GET_SIZE m c < 2147483648 ∧
        ¬ (GET_ALLOC m c = 0 ∧ size ≤ GET_SIZE m c)) →
      b ≠ 0 → 1 < GET_SIZE m b → GET_SIZE m b < 2147483648 → GET_ALLOC m b = 0 →
      size ≤ GET_SIZE m b → l1.length < fuel →
      fitLoop m size fuel (getLink m (prev + 12)) = some b := by
  intro l1
  induction l1 with
  | nil =>
    intro prev fuel hc _ hb0 hb1 hb3 hba hbs hf
    obtain ⟨k, rfl⟩ : ∃ k, fuel = k + 1 := ⟨fuel - 1, by simp at hf; omega⟩
    simp only [List.nil_append, Chain] at hc
    rw [hc.1, fitLoop, if_pos ⟨hb0, hb1⟩, sext32_of_lt _ hb3, if_pos ⟨hba, hbs⟩]
  | cons c l1 ih =>
    intro prev fuel hc hall hb0 hb1 hb3 hba hbs hf
    obtain ⟨k, rfl⟩ : ∃ k, fuel = k + 1 := ⟨fuel - 1, by simp at hf; omega⟩
    simp only [List.cons_append, Chain] at hc
    obtain ⟨hc0, hc1, hc3, hcn⟩ := hall c (List.mem_cons_self _ _)
    rw [hc.1, fitLoop, if_pos ⟨hc0, hc1⟩, sext32_of_lt _ hc3, if_neg hcn]
    exact ih c k hc.2.2 (fun x hx => hall x (List.mem_cons_of_mem _ hx)) hb0 hb1 hb3 hba hbs
      (by simp at hf; omega)

theorem fit_step {s : State} {B : Set Nat} {fl : List Nat} {L P : Set Nat}
    (hwf : WF s B fl L P) (size k : Nat) :
    fit (k + 1) s size = fitLoop s.mem size k (getLink s.mem (s.heap_listp + 12)) := by
  have hr := hwf.shape.root_size
  unfold fit
  rw [fitLoop, if_pos ⟨Nat.pos_iff_ne_zero.mp hwf.root_pos, by omega⟩,
    if_neg (fun hc => by omega)]

/-- `fit` returns the first member of the list that is large enough. -/
theorem fit_first {s : State} {B : Set Nat} {l1 l2 : List Nat} {L P : Set Nat} {b : Nat}
    (hwf : WF s B (l1 ++ b :: l2) L P) (size fuel : Nat)
    (hl1 : ∀ c ∈ l1, GET_SIZE s.mem c < size) (hb : size ≤ GET_SIZE s.mem b)
    (hf : l1.length + 1 < fuel) : fit fuel s size = some b := by
  obtain ⟨k, rfl⟩ : ∃ k, fuel = k + 1 := ⟨fuel - 1, by omega⟩
  rw [fit_step hwf]
  have hm := hwf.member_facts
  have hbm := hm b (by simp)
  exact fitLoop_first s.mem size b l2 l1 s.heap_listp k hwf.chain
    (fun c hc => by
      have h1 := hm c (by simp [hc])
      have h2 := hl1 c hc
      exact ⟨h1.1, by omega, by omega, fun h => by omega⟩)
    hbm.1 hbm.2.1 hbm.2.2.1 hbm.2.2.2 hb (by omega)

/-- C20: on a well-formed heap with free list `fl` (the blocks reached from the sentinel
by forward links), `fit(size)` returns, for every large enough fuel, a result `r` that
is not the sentinel, and either `r` is NULL and no member of the list is free with
`size` bytes or more, or `r` is the first member of the list that is free with `size`
bytes or more (no member before it in list order is).  `fit` reads the memory and
returns an address only: it has no memory result. -/
theorem fit_first_fit (s : State) (B : Set Nat) (fl : List Nat) (L : Set Nat)
    (hwf : WF s B fl L ∅) (size : Nat) :
    ∃ N, ∀ fuel, N ≤ fuel → ∃ r, fit fuel s size = some r ∧ r ≠ s.heap_listp ∧
      ((r = 0 ∧ ∀ b ∈ fl, ¬ (GET_ALLOC s.mem b = 0 ∧ size ≤ GET_SIZE s.mem b)) ∨
       (r ≠ 0 ∧ ∃ l1 l2, fl = l1 ++ r :: l2 ∧
         GET_ALLOC s.mem r = 0 ∧ size ≤ GET_SIZE s.mem r ∧
         ∀ c ∈ l1, ¬ (GET_ALLOC s.mem c = 0 ∧ size ≤ GET_SIZE s.mem c))) := by
  refine ⟨fl.length + 2, fun fuel hf => ?_⟩
  rcases fit_WF hwf size fuel (by omega) with ⟨l1, b, l2, hfl, hfit, hle, hl1⟩ | ⟨hfit, hall⟩
  · have hbm : b ∈ fl := by rw [hfl]; simp
    refine ⟨b, hfit, fun he => hwf.root_not_mem (he ▸ hbm), Or.inr
      ⟨(hwf.member_facts b hbm).1, l1, l2, hfl, hwf.mem_free hbm, hle, ?_⟩⟩
    intro c hc h
    have := hl1 c hc
    omega
  · refine ⟨0, hfit, fun he => (Nat.pos_iff_ne_zero.mp hwf.root_pos) he.symm,
      Or.inl ⟨rfl, ?_⟩⟩
    intro b hb h
    have := hall b hb
    omega

/-! ## Links around a position of the list -/

theorem Chain_join_links (m : Mem) (l2 : List Nat) :
    ∀ (l1 : List Nat) (q : Nat), Chain m q (l1 ++ l2) →
      getLink m ((q :: l1).getLast (List.cons_ne_nil _ _) + 12) = l2.headD 0 ∧
      (∀ c l3, l2 = c :: l3 →
        getLink m (c + 4) = (q :: l1).getLast (List.cons_ne_nil _ _)) := by
  intro l1
  induction l1 with
  | nil =>
    intro q h
    simp only [List.nil_append] at h
    simp only [List.getLast_singleton]
    cases l2 with
    | nil => exact ⟨h, fun c l3 hc => by cases hc⟩
    | cons c l3 =>
      simp only [Chain] at h
      refine ⟨h.1, fun c' l3' hc => ?_⟩
      obtain ⟨rfl, _⟩ := List.cons.inj hc
      exact h.2.1
  | cons a l1 ih =>
    intro q h
    simp only [List.cons_append, Chain] at h
    have := ih a h.2.2
    rw [List.getLast_cons (List.cons_ne_nil _ _)]
    exact this

/-! ## `place`: the words around the block -/

/-- The words that the splitting branch of `place` leaves: the tags of the two halves,
the four links around the residual, and every tag and link of the other blocks. -/
theorem place_split_tags {s : State} {B : Set Nat} {l1 l2 : List Nat} {L : Set Nat}
    (bp asize : Nat) (hwf : WF s B (l1 ++ bp :: l2) L ∅)
    (ha1 : 24 ≤ asize) (ha2 : asize % 8 = 0) (ha3 : asize + 24 ≤ GET_SIZE s.mem bp) :
    GET (place s.mem bp asize) (bp + asize - 4) = asize + 1 ∧
    GET (place s.mem bp asize) (bp + asize) = GET_SIZE s.mem bp - asize ∧
    GET (place s.mem bp asize) (bp + GET_SIZE s.mem bp - 4) = GET_SIZE s.mem bp - asize ∧
    getLink (place s.mem bp asize) (getLink s.mem (bp + 4) + 12) = bp + asize ∧
    getLink (place s.mem bp asize) (bp + asize + 4) = getLink s.mem (bp + 4) ∧
    getLink (place s.mem bp asize) (bp + asize + 12) = getLink s.mem (bp + 12) ∧
    (getLink s.mem (bp + 12) ≠ 0 →
      getLink (place s.mem bp asize) (getLink s.mem (bp + 12) + 4) = bp + asize) ∧
    (∀ a ∈ B, a ≠ bp → GET (place s.mem bp asize) a = GET s.mem a ∧
      GET (place s.mem bp asize) (a + GET_SIZE s.mem a - 4) =
        GET s.mem (a + GET_SIZE s.mem a - 4)) ∧
    (∀ a ∈ B, a ≠ bp → a ≠ getLink s.mem (bp + 4) →
      getLink (place s.mem bp asize) (a + 12) = getLink s.mem (a + 12)) ∧
    (∀ a ∈ B, a ≠ bp → a ≠ getLink s.mem (bp + 12) →
      getLink (place s.mem bp asize) (a + 4) = getLink s.mem (a + 4)) := by
  have hS := hwf.shape
  obtain ⟨hbpB, hbpf, hbpr, hpm, hpB, hpne, hpfree, hnm, hnfacts⟩ := hwf.mid
  have hbp := hS.blk bp hbpB
  have hbptop := hwf.lt_top hbpB
  have hp := hS.blk _ hpB
  have hptop := hwf.lt_top hpB
  have hsp := hS.sep hpB hbpB
  have hn3 : getLink s.mem (bp + 12) < 2147483648 := by
    by_cases hn0 : getLink s.mem (bp + 12) = 0
    · omega
    · have := hwf.lt_top (hnfacts hn0).1
      have := hS.blk _ (hnfacts hn0).1
      omega
  obtain ⟨_, T2, T3, T4, Lk1, Lk2, Lk3, Lk4, Fr⟩ := place_split_mem s.mem bp asize
    (GET_SIZE s.mem bp) (getLink s.mem (bp + 4)) (getLink s.mem (bp + 12)) rfl rfl rfl
    ha1 ha2 ha3 (by omega) (hwf.ne_zero hpB) (by omega) hn3 (by omega)
    (by
      intro hn0
      obtain ⟨h1, _, h2, _⟩ := hnfacts hn0
      have := hS.blk _ h1
      have := hS.sep h1 hbpB
      omega)
    (by
      intro hn0
      obtain ⟨h1, _, _, h3, _⟩ := hnfacts hn0
      have := hS.blk _ h1
      have := hS.sep h1 hpB
      omega)
  have hT : Touch s.mem (place s.mem bp asize) bp (bp + GET_SIZE s.mem bp)
      [getLink s.mem (bp + 4)] [getLink s.mem (bp + 12)] := by
    intro x h1 hF hG
    exact Fr x h1 (hF _ (List.mem_singleton_self _)) (hG _ (List.mem_singleton_self _))
  have hF' : ∀ f ∈ [getLink s.mem (bp + 4)], f ∈ B := by
    intro f hf; rw [List.mem_singleton.mp hf]; exact hpB
  have hG' : ∀ g ∈ [getLink s.mem (bp + 12)], g = 0 ∨ g ∈ B := by
    intro g hg; rw [List.mem_singleton.mp hg]
    by_cases hn0 : getLink s.mem (bp + 12) = 0
    · left; exact hn0
    · right; exact (hnfacts hn0).1
  have hout : ∀ a ∈ B, a ≠ bp →
      a + GET_SIZE s.mem a ≤ bp ∨ bp + GET_SIZE s.mem bp ≤ a := by
    intro a ha hab
    have := hS.sep ha hbpB
    omega
  refine ⟨T2, T3, T4, Lk1, Lk2, Lk3, Lk4,
    fun a ha hab => hT.tags hS hF' hG' ha (hout a ha hab),
    fun a ha hab hap => hT.fwd hS hF' hG' ha (hout a ha hab) (by simpa using hap),
    fun a ha hab han => hT.back hS hF' hG' ha (hout a ha hab) (by simpa using han)⟩

/-- C19: on a well-formed heap, for a member `bp` of the free list `l1 ++ bp :: l2` of
size `c` and an `asize` that is a multiple of 8 with `24 ≤ asize` and `asize + 24 ≤ c`,
`place(bp, asize)` leaves an allocated block at `bp` (header and footer `asize | 1`) and
a free block `bp + asize` (header and footer `c - asize`); the residual has the back and
forward links `bp` had, the forward link of `bp`'s list predecessor and the back link
of its list successor decode to the residual, the free list is `l1 ++ (bp + asize) :: l2`
in a well-formed heap whose blocks are the old ones and the residual, and every other
block keeps its header, its footer and (apart from the two links just named) its
links; allocated blocks keep their payload. -/
theorem place_split_correct (s : State) (B : Set Nat) (l1 l2 : List Nat) (L : Set Nat)
    (bp asize : Nat) (hwf : WF s B (l1 ++ bp :: l2) L ∅)
    (ha1 : 24 ≤ asize) (ha2 : asize % 8 = 0) (ha3 : asize + 24 ≤ GET_SIZE s.mem bp) :
    getLink s.mem (bp + 4) = (s.heap_listp :: l1).getLast (List.cons_ne_nil _ _) ∧
    getLink s.mem (bp + 12) = l2.headD 0 ∧
    GET (place s.mem bp asize) bp = asize + 1 ∧
    GET (place s.mem bp asize) (bp + asize - 4) = asize + 1 ∧
    GET (place s.mem bp asize) (bp + asize) = GET_SIZE s.mem bp - asize ∧
    GET (place s.mem bp asize) (bp + GET_SIZE s.mem bp - 4) = GET_SIZE s.mem bp - asize ∧
    getLink (place s.mem bp asize) (bp + asize + 4) = getLink s.mem (bp + 4) ∧
    getLink (place s.mem bp asize) (bp + asize + 12) = getLink s.mem (bp + 12) ∧
    getLink (place s.mem bp asize) (getLink s.mem (bp + 4) + 12) = bp + asize ∧
    (getLink s.mem (bp + 12) ≠ 0 →
      getLink (place s.mem bp asize) (getLink s.mem (bp + 12) + 4) = bp + asize) ∧
    WF { s with mem := place s.mem bp asize } (insert (bp + asize) B)
      (l1 ++ (bp + asize) :: l2) (insert (bp + 4) L) ∅ ∧
    (∀ a ∈ B, a ≠ bp → GET (place s.mem bp asize) a = GET s.mem a ∧
      GET (place s.mem bp asize) (a + GET_SIZE s.mem a - 4) =
        GET s.mem (a + GET_SIZE s.mem a - 4)) ∧
    (∀ a ∈ B, a ≠ bp → a ≠ getLink s.mem (bp + 4) →
      getLink (place s.mem bp asize) (a + 12) = getLink s.mem (a + 12)) ∧
    (∀ a ∈ B, a ≠ bp → a ≠ getLink s.mem (bp + 12) →
      getLink (place s.mem bp asize) (a + 4) = getLink s.mem (a + 4)) ∧
    Frame s.mem (place s.mem bp asize) s.heap_listp B 0 := by
  obtain ⟨hwf', hfr, T1⟩ := place_split_WF bp asize hwf ha1 ha2 ha3
  obtain ⟨T2, T3, T4, Lk1, Lk2, Lk3, Lk4, hG, hFw, hBk⟩ :=
    place_split_tags bp asize hwf ha1 ha2 ha3
  obtain ⟨hp, hn⟩ := Chain_mid_links s.mem bp l2 l1 s.heap_listp hwf.chain
  exact ⟨hp, hn, T1, T2, T3, T4, Lk2, Lk3, Lk1, Lk4, hwf', hG, hFw, hBk, hfr⟩

/-- C18: on a well-formed heap, for a member `bp` of the free list `l1 ++ bp :: l2` of
size `c`, with list predecessor `prev` (the sentinel when `l1` is empty) and list
successor `post` (null when `l2` is empty), `place(bp, asize)` with `c - asize < 24`
(in `size_t`) marks `bp` allocated with size `c` in header and footer, sets `prev`'s
forward link to `post` and, when `post` is not null, `post`'s back link to `prev`; the
free list afterwards is `l1 ++ l2`, in a well-formed heap with the same blocks, and
allocated blocks keep header and payload. -/
theorem place_whole_block (s : State) (B : Set Nat) (l1 l2 : List Nat) (L : Set Nat)
    (bp asize : Nat) (hwf : WF s B (l1 ++ bp :: l2) L ∅)
    (h : sub64 (GET_SIZE s.mem bp) asize < 24) :
    getLink s.mem (bp + 4) = (s.heap_listp :: l1).getLast (List.cons_ne_nil _ _) ∧
    getLink s.mem (bp + 12) = l2.headD 0 ∧
    GET (place s.mem bp asize) bp = GET_SIZE s.mem bp + 1 ∧
    GET (place s.mem bp asize) (bp + GET_SIZE s.mem bp - 4) = GET_SIZE s.mem bp + 1 ∧
    getLink (place s.mem bp asize) (getLink s.mem (bp + 4) + 12) = getLink s.mem (bp + 12) ∧
    (getLink s.mem (bp + 12) ≠ 0 →
      getLink (place s.mem bp asize) (getLink s.mem (bp + 12) + 4) = getLink s.mem (bp + 4)) ∧
    WF { s with mem := place s.mem bp asize } B (l1 ++ l2) (insert (bp + 4) L) ∅ ∧
    Frame s.mem (place s.mem bp asize) s.heap_listp B 0 := by
  obtain ⟨hwf', hfr, T1⟩ := place_nosplit_WF bp asize hwf h
  obtain ⟨hp, hn⟩ := Chain_mid_links s.mem bp l2 l1 s.heap_listp hwf.chain
  have hbpB : bp ∈ B := hwf.mem_B (by simp)
  have hb := hwf.shape.blk bp hbpB
  have hsz := (GET_SIZE_of_GET T1 (by omega) (le_refl 1)).1
  have hft := (hwf'.shape.blk bp hbpB).2.2.2.2.2
  have hft' : GET (place s.mem bp asize) (bp + GET_SIZE (place s.mem bp asize) bp - 4) =
      GET (place s.mem bp asize) bp := hft
  rw [hsz, T1] at hft'
  obtain ⟨hj1, hj2⟩ := Chain_join_links (place s.mem bp asize) l2 l1 s.heap_listp hwf'.chain
  refine ⟨hp, hn, T1, hft', ?_, ?_, hwf', hfr⟩
  · rw [hp, hn]; exact hj1
  · intro hn0
    rw [hn] at hn0 ⊢
    cases l2 with
    | nil => exact absurd rfl hn0
    | cons c l3 =>
      simp only [List.headD_cons]
      rw [hp]
      exact hj2 c l3 rfl

/-! ## `coalesce`: the exact list after each branch -/

/-- Branch `!(H || L)`: the block goes to the head of the list, nothing else changes. -/
theorem coalesceNone_exact {s : State} {B : Set Nat} {fl : List Nat} {L : Set Nat} {bp : Nat}
    (hwf : WF s B fl L {bp}) (hbB : bp ∈ B) (hbf : GET_ALLOC s.mem bp = 0)
    (hbr : bp ≠ s.heap_listp) :
    WF { s with mem := coalesceNone s.mem s.heap_listp bp } B (bp :: fl) L ∅ ∧
    Frame s.mem (coalesceNone s.mem s.heap_listp bp) s.heap_listp B 0 ∧
    (∀ a ∈ B, GET (coalesceNone s.mem s.heap_listp bp) a = GET s.mem a) := by
  have hS := hwf.shape
  have hb := hS.blk bp hbB
  have hrs := hS.sep hS.root_mem hbB
  have hrsz := hS.root_size
  have hbtop := hwf.lt_top hbB
  have hbfl : bp ∉ fl := fun hc => ((hwf.free bp).mp hc).2.2 rfl
  have hh := Chain_fwd_mem s.mem fl s.heap_listp s.heap_listp hwf.chain
    (List.mem_cons_self _ _)
  obtain ⟨Lk1, Lk2, Lk3, Lk4, hT⟩ := coalesceNone_mem s.mem s.heap_listp bp
    (getLink s.mem (s.heap_listp + 12)) rfl (by omega) (by omega) (by omega)
    (by
      intro h0
      have hm := hh.resolve_left h0
      have hhB := hwf.mem_B hm
      have : getLink s.mem (s.heap_listp + 12) ≠ bp := fun he => hbfl (he ▸ hm)
      have := hS.sep hhB hbB
      have := hS.blk _ hhB
      omega)
    (by
      intro h0
      have hm := hh.resolve_left h0
      have hhB := hwf.mem_B hm
      have : getLink s.mem (s.heap_listp + 12) ≠ s.heap_listp :=
        fun he => hwf.root_not_mem (he ▸ hm)
      have := hS.sep hS.root_mem hhB
      have := hS.blk _ hhB
      omega)
  obtain ⟨hwf', hfr, hG⟩ := hwf.insert hbB rfl hbf hbr _ Lk1 Lk2 Lk3 Lk4 hT
  exact ⟨hwf'.congr_P (fun a _ => by simp), hfr, hG⟩

/-- Branch `if(H)`: the successor leaves the list, the merged block is its head. -/
theorem coalesceH_exact {s : State} {B : Set Nat} {l1 l2 : List Nat} {L : Set Nat} {bp : Nat}
    (hwf : WF s B (l1 ++ (bp + GET_SIZE s.mem bp) :: l2) L {bp}) (hbB : bp ∈ B)
    (hbf : GET_ALLOC s.mem bp = 0) (hbr : bp ≠ s.heap_listp) :
    WF { s with mem := coalesceH s.mem s.heap_listp bp } (B \ {bp + GET_SIZE s.mem bp})
      (bp :: (l1 ++ l2)) L ∅ ∧
    GET (coalesceH s.mem s.heap_listp bp) bp =
      GET_SIZE s.mem bp + GET_SIZE s.mem (bp + GET_SIZE s.mem bp) ∧
    Frame s.mem (coalesceH s.mem s.heap_listp bp) s.heap_listp B 0 ∧
    (∀ a ∈ B, a ≠ bp → a ≠ bp + GET_SIZE s.mem bp →
      GET (coalesceH s.mem s.heap_listp bp) a = GET s.mem a) := by
  have hS := hwf.shape
  have hym : bp + GET_SIZE s.mem bp ∈ l1 ++ (bp + GET_SIZE s.mem bp) :: l2 := by simp
  have hyB := hwf.mem_B hym
  have hyf := hwf.mem_free hym
  have hb := hS.blk bp hbB
  have hy := hS.blk _ hyB
  have hytop := hwf.lt_top hyB
  have hyne : bp + GET_SIZE s.mem bp ≠ bp := by omega
  obtain ⟨hwf1, htag1, hfr1⟩ := hwf.unlink
  have e1 : GET_SIZE (unlinkMem s.mem (bp + GET_SIZE s.mem bp)) bp = GET_SIZE s.mem bp :=
    GET_SIZE_congr _ _ _ (htag1 bp hbB).1
  have e2 : GET_SIZE (unlinkMem s.mem (bp + GET_SIZE s.mem bp)) (bp + GET_SIZE s.mem bp) =
      GET_SIZE s.mem (bp + GET_SIZE s.mem bp) := GET_SIZE_congr _ _ _ (htag1 _ hyB).1
  have a1 : GET_ALLOC (unlinkMem s.mem (bp + GET_SIZE s.mem bp)) bp = 0 := by
    rw [GET_ALLOC_congr _ _ _ (htag1 bp hbB).1]; exact hbf
  have a2 : GET_ALLOC (unlinkMem s.mem (bp + GET_SIZE s.mem bp)) (bp + GET_SIZE s.mem bp)
      = 0 := by
    rw [GET_ALLOC_congr _ _ _ (htag1 _ hyB).1]; exact hyf
  have key : ∃ M4 : Mem, coalesceH s.mem s.heap_listp bp = headInsert M4 s.heap_listp bp ∧
      GET M4 bp = GET_SIZE s.mem bp + GET_SIZE s.mem (bp + GET_SIZE s.mem bp) ∧
      GET M4 (bp + GET_SIZE s.mem bp + GET_SIZE s.mem (bp + GET_SIZE s.mem bp) - 4) =
        GET_SIZE s.mem bp + GET_SIZE s.mem (bp + GET_SIZE s.mem bp) ∧
      (∀ z, (z < bp ∨ bp + 4 ≤ z) →
        (z < bp + GET_SIZE s.mem bp + GET_SIZE s.mem (bp + GET_SIZE s.mem bp) - 4 ∨
          bp + GET_SIZE s.mem bp + GET_SIZE s.mem (bp + GET_SIZE s.mem bp) ≤ z) →
        M4.byte z = (unlinkMem s.mem (bp + GET_SIZE s.mem bp)).byte z) := by
    refine ⟨_, coalesceH_eq s.mem s.heap_listp bp, ?_, ?_, ?_⟩
    · rw [e2, GET_PUT_same, PACK_zero]
      have e3 : GET_SIZE (PUT (unlinkMem s.mem (bp + GET_SIZE s.mem bp))
          (bp + GET_SIZE s.mem bp + GET_SIZE s.mem (bp + GET_SIZE s.mem bp) - 4)
          (PACK (GET_SIZE s.mem bp + GET_SIZE s.mem (bp + GET_SIZE s.mem bp)) 0))
          (bp + GET_SIZE s.mem bp) = GET_SIZE s.mem (bp + GET_SIZE s.mem bp) := by
        rw [← e2]
        apply GET_SIZE_congr
        exact GET_PUT_sep _ _ _ _ (by omega)
      rw [e3]; omega
    · rw [e2, GET_PUT_sep _ _ _ _ (by omega), GET_PUT_same, PACK_zero]; omega
    · rw [e2]
      intro z h1 h2
      rw [PUT_byte_out _ _ _ _ (by omega), PUT_byte_out _ _ _ _ (by omega)]
  obtain ⟨M4, hmem, hT1, hT2, hfrM⟩ := key
  obtain ⟨hwf2, hfr2, hsz2, hal2⟩ := hwf1.merge_sizes (x := bp) e1 e2 hbB (by simp) a1 hyB
    (by simp) a2 hbr M4 hT1 hT2 hfrM
  have hwf2' : WF { s with mem := M4 } (B \ {bp + GET_SIZE s.mem bp}) (l1 ++ l2) L {bp} := by
    refine hwf2.congr_P (fun a ha => ?_)
    simp only [Set.mem_diff, Set.mem_insert_iff, Set.mem_singleton_iff]
    constructor
    · rintro ⟨h1 | h1, h2⟩
      · exact absurd h1 h2
      · exact h1
    · intro h1
      exact ⟨Or.inr h1, by rw [h1]; omega⟩
  have hbB' : bp ∈ B \ {bp + GET_SIZE s.mem bp} := ⟨hbB, by simpa using hyne.symm⟩
  obtain ⟨hwf3, hfr3, hG3⟩ := hwf2'.headInsert hbB' rfl hal2 hbr
  have hsz3 : GET_SIZE (headInsert M4 s.heap_listp bp) bp =
      GET_SIZE s.mem bp + GET_SIZE s.mem (bp + GET_SIZE s.mem bp) := by
    rw [GET_SIZE_congr _ _ _ (hG3 bp hbB')]; exact hsz2
  have hal3 : GET_ALLOC (headInsert M4 s.heap_listp bp) bp = 0 := by
    rw [GET_ALLOC_congr _ _ _ (hG3 bp hbB')]; exact hal2
  rw [hmem]
  refine ⟨hwf3.congr_P (fun a _ => by simp), ?_, ?_, ?_⟩
  · rw [GET_of_free hal3, hsz3]
  · refine (hfr1.trans hfr2 (fun a ha _ _ _ => ha)).trans hfr3 ?_
    intro a ha _ _ haa
    refine ⟨ha, ?_⟩
    simp only [Set.mem_singleton_iff]
    rintro rfl
    omega
  · intro a ha hab hay
    have ha' : a ∈ B \ {bp + GET_SIZE s.mem bp} := ⟨ha, by simpa using hay⟩
    have hba := hS.blk a ha
    have h1 := hS.sep ha hbB
    have h2 := hS.sep ha hyB
    rw [hG3 a ha', ← (htag1 a ha).1]
    exact GET_congr _ _ _ (fun z hz1 hz2 => hfrM z (by omega) (by omega))

/-- Branch `if(L)`: the predecessor `x` leaves its place in the list, the merged block
at `x` is the head. -/
theorem coalesceL_exact {s : State} {B : Set Nat} {l1 l2 : List Nat} {L : Set Nat} {bp x : Nat}
    (hwf : WF s B (l1 ++ x :: l2) L {bp}) (hbB : bp ∈ B) (hbf : GET_ALLOC s.mem bp = 0)
    (hxe : x + GET_SIZE s.mem x = bp)
    (hx' : bp - GET_SIZE s.mem (bp - 4) = x)
    (hxs : GET_SIZE s.mem (bp - 4) = GET_SIZE s.mem x) :
    WF { s with mem := coalesceL s.mem s.heap_listp bp } (B \ {bp}) (x :: (l1 ++ l2)) L ∅ ∧
    GET (coalesceL s.mem s.heap_listp bp) x = GET_SIZE s.mem x + GET_SIZE s.mem bp ∧
    Frame s.mem (coalesceL s.mem s.heap_listp bp) s.heap_listp B 0 ∧
    (∀ a ∈ B, a ≠ bp → a ≠ x → GET (coalesceL s.mem s.heap_listp bp) a = GET s.mem a) := by
  subst hxe
  have hS := hwf.shape
  have hxm : x ∈ l1 ++ x :: l2 := by simp
  have hxB := hwf.mem_B hxm
  have hxf := hwf.mem_free hxm
  have hb := hS.blk _ hbB
  have hx := hS.blk x hxB
  have hbtop := hwf.lt_top hbB
  have hxne : x ≠ x + GET_SIZE s.mem x := by omega
  have hxr : x ≠ s.heap_listp := by
    intro he
    have := hS.root_size.2
    rw [he] at hxf; omega
  obtain ⟨hwf1, htag1, hfr1⟩ := hwf.unlink
  have e1 : GET_SIZE (unlinkMem s.mem x) x = GET_SIZE s.mem x :=
    GET_SIZE_congr _ _ _ (htag1 x hxB).1
  have e2 : GET_SIZE (unlinkMem s.mem x) (x + GET_SIZE s.mem x) =
      GET_SIZE s.mem (x + GET_SIZE s.mem x) := GET_SIZE_congr _ _ _ (htag1 _ hbB).1
  have a1 : GET_ALLOC (unlinkMem s.mem x) x = 0 := by
    rw [GET_ALLOC_congr _ _ _ (htag1 x hxB).1]; exact hxf
  have a2 : GET_ALLOC (unlinkMem s.mem x) (x + GET_SIZE s.mem x) = 0 := by
    rw [GET_ALLOC_congr _ _ _ (htag1 _ hbB).1]; exact hbf
  have key : ∃ M4 : Mem, coalesceL s.mem s.heap_listp (x + GET_SIZE s.mem x) =
        headInsert M4 s.heap_listp x ∧
      GET M4 x = GET_SIZE s.mem x + GET_SIZE s.mem (x + GET_SIZE s.mem x) ∧
      GET M4 (x + GET_SIZE s.mem x + GET_SIZE s.mem (x + GET_SIZE s.mem x) - 4) =
        GET_SIZE s.mem x + GET_SIZE s.mem (x + GET_SIZE s.mem x) ∧
      (∀ z, (z < x ∨ x + 4 ≤ z) →
        (z < x + GET_SIZE s.mem x + GET_SIZE s.mem (x + GET_SIZE s.mem x) - 4 ∨
          x + GET_SIZE s.mem x + GET_SIZE s.mem (x + GET_SIZE s.mem x) ≤ z) →
        M4.byte z = (unlinkMem s.mem x).byte z) := by
    have hmem0 := coalesceL_eq s.mem s.heap_listp (x + GET_SIZE s.mem x)
    rw [hx', hxs] at hmem0
    refine ⟨_, hmem0, ?_, ?_, ?_⟩
    · rw [e2, GET_PUT_same, PACK_zero]
      have e3 : GET_SIZE (PUT (unlinkMem s.mem x)
          (x + GET_SIZE s.mem x + GET_SIZE s.mem (x + GET_SIZE s.mem x) - 4)
          (PACK (GET_SIZE s.mem x + GET_SIZE s.mem (x + GET_SIZE s.mem x)) 0))
          (x + GET_SIZE s.mem x) = GET_SIZE s.mem (x + GET_SIZE s.mem x) := by
        rw [← e2]
        apply GET_SIZE_congr
        exact GET_PUT_sep _ _ _ _ (by omega)
      rw [e3]; omega
    · rw [e2, GET_PUT_sep _ _ _ _ (by omega), GET_PUT_same, PACK_zero]; omega
    · rw [e2]
      intro z h1 h2
      rw [PUT_byte_out _ _ _ _ (by omega), PUT_byte_out _ _ _ _ (by omega)]
  obtain ⟨M4, hmem, hT1, hT2, hfrM⟩ := key
  obtain ⟨hwf2, hfr2, hsz2, hal2⟩ := hwf1.merge_sizes (x := x) e1 e2 hxB (by simp) a1 hbB
    (by simp) a2 hxr M4 hT1 hT2 hfrM
  have hwf2' : WF { s with mem := M4 } (B \ {x + GET_SIZE s.mem x}) (l1 ++ l2) L {x} := by
    refine hwf2.congr_P (fun a ha => ?_)
    simp only [Set.mem_diff, Set.mem_insert_iff, Set.mem_singleton_iff]
    constructor
    · rintro ⟨h1 | h1, h2⟩
      · exact h1
      · exact absurd h1 h2
    · intro h1
      exact ⟨Or.inl h1, by rw [h1]; omega⟩
  have hxB' : x ∈ B \ {x + GET_SIZE s.mem x} := ⟨hxB, by simpa using hxne⟩
  obtain ⟨hwf3, hfr3, hG3⟩ := hwf2'.headInsert hxB' rfl hal2 hxr
  have hsz3 : GET_SIZE (headInsert M4 s.heap_listp x) x =
      GET_SIZE s.mem x + GET_SIZE s.mem (x + GET_SIZE s.mem x) := by
    rw [GET_SIZE_congr _ _ _ (hG3 x hxB')]; exact hsz2
  have hal3 : GET_ALLOC (headInsert M4 s.heap_listp x) x = 0 := by
    rw [GET_ALLOC_congr _ _ _ (hG3 x hxB')]; exact hal2
  rw [hmem]
  refine ⟨hwf3.congr_P (fun a _ => by simp), ?_, ?_, ?_⟩
  · rw [GET_of_free hal3, hsz3]
  · refine (hfr1.trans hfr2 (fun a ha _ _ _ => ha)).trans hfr3 ?_
    intro a ha _ _ haa
    refine ⟨ha, ?_⟩
    simp only [Set.mem_singleton_iff]
    rintro rfl
    omega
  · intro a ha hab hax
    have ha' : a ∈ B \ {x + GET_SIZE s.mem x} := ⟨ha, by simpa using hab⟩
    have hba := hS.blk a ha
    have h1 := hS.sep ha hbB
    have h2 := hS.sep ha hxB
    rw [hG3 a ha', ← (htag1 a ha).1]
    exact GET_congr _ _ _ (fun z hz1 hz2 => hfrM z (by omega) (by omega))

/-! ## `mm_free`: marking, then `coalesce` -/

theorem mm_free_eq_coalesce (fuel : Nat) (s : State) (bp : Nat) (hr0 : s.heap_listp ≠ 0)
    (hb0 : bp ≠ 0) (hbr : bp ≠ s.heap_listp) :
    mm_free fuel s (bp + 4) = Res.ok () (coalesce (freeMark s bp) bp).2 := by
  unfold mm_free
  simp only [Nat.add_sub_cancel, ne_eq, Nat.add_eq_zero, OfNat.ofNat_ne_zero, and_false,
    not_false_eq_true, if_true, hb0, if_false, lazyInit_of_ne_zero fuel s hr0, hbr]
  rfl

theorem free_mark_facts {s : State} {B : Set Nat} {fl : List Nat} {L : Set Nat} {bp : Nat}
    (hwf : WF s B fl L ∅) (hbB : bp ∈ B) (hbr : bp ≠ s.heap_listp)
    (hba : GET_ALLOC s.mem bp = 1) :
    WF (freeMark s bp) B fl (L \ {bp + 4}) {bp} ∧
    GET_ALLOC (freeMark s bp).mem bp = 0 ∧
    GET_SIZE (freeMark s bp).mem bp = GET_SIZE s.mem bp ∧
    Frame s.mem (freeMark s bp).mem s.heap_listp B bp ∧
    (∀ c ∈ B, c ≠ bp → GET (freeMark s bp).mem c = GET s.mem c) := by
  obtain ⟨m2, hm2, hwf2, hal, hsz, hfr⟩ := free_mark_WF hwf hbB hbr hba
  have e : freeMark s bp = { s with mem := m2 } := by rw [← hm2]; rfl
  rw [e]
  refine ⟨hwf2, hal, hsz, hfr, ?_⟩
  intro c hc hcb
  have hS := hwf.shape
  have hb := hS.blk bp hbB
  have hbc := hS.blk c hc
  have hsep := hS.sep hc hbB
  have hbtop := hwf.lt_top hbB
  have e1 : GET_SIZE (PUT s.mem bp (PACK (GET_SIZE s.mem bp) 0)) bp = GET_SIZE s.mem bp := by
    rw [PACK_zero]
    have : GET (PUT s.mem bp (GET_SIZE s.mem bp)) bp = GET_SIZE s.mem bp + 0 := by
      rw [GET_PUT_same]; omega
    exact (GET_SIZE_of_GET this (by omega) (by omega)).1
  show GET m2 c = GET s.mem c
  rw [← hm2, e1, GET_PUT_sep _ _ _ _ (by omega), GET_PUT_sep _ _ _ _ (by omega)]

theorem erase_mid {l1 l2 : List Nat} {y : Nat} (h : (l1 ++ y :: l2).Nodup) :
    (l1 ++ y :: l2).erase y = l1 ++ l2 := by
  have hy : y ∉ l1 := by
    rw [List.nodup_middle, List.nodup_cons] at h
    exact fun hc => h.1 (List.mem_append_left _ hc)
  rw [List.erase_append_right _ hy, List.erase_cons_head]

/-- `mm_free`, no free neighbour. -/
theorem free_none_exact {s : State} {B : Set Nat} {fl : List Nat} {L : Set Nat} {b : Nat}
    (hwf : WF s B fl L ∅) (hb : b ∈ B) (hbr : b ≠ s.heap_listp)
    (hba : GET_ALLOC s.mem b = 1)
    (hpred : ∀ m ∈ B, m + GET_SIZE s.mem m = b → GET_ALLOC s.mem m = 1)
    (hsucc : b + GET_SIZE s.mem b ∈ B → GET_ALLOC s.mem (b + GET_SIZE s.mem b) = 1) :
    ∃ s', coalesce (freeMark s b) b = (b, s') ∧ WF s' B (b :: fl) (L \ {b + 4}) ∅ ∧
      GET s'.mem b = GET_SIZE s.mem b ∧ (∀ a ∈ B, a ≠ b → GET s'.mem a = GET s.mem a) ∧
      Frame s.mem s'.mem s.heap_listp B b ∧
      s'.lo = s.lo ∧ s'.brk = s.brk ∧ s'.lim = s.lim ∧ s'.heap_listp = s.heap_listp := by
  obtain ⟨hwf2, hal, hsz, hfr, htag⟩ := free_mark_facts hwf hb hbr hba
  have hbr2 : b ≠ (freeMark s b).heap_listp := hbr
  obtain ⟨⟨x, hxB, hxe, _, _, hL⟩, hH⟩ := hwf2.flags hb hbr2
  have hbx := hwf2.shape.blk x hxB
  have hxb : x ≠ b := by omega
  have hLf : flagL (freeMark s b).mem b = false := by
    rw [← Bool.not_eq_true, hL, GET_ALLOC_congr _ _ _ (htag x hxB hxb)]
    have hxe' : x + GET_SIZE s.mem x = b := by
      rw [← GET_SIZE_congr _ _ _ (htag x hxB hxb)]; exact hxe
    rw [hpred x hxB hxe']
    omega
  have hHf : flagH (freeMark s b).mem (freeMark s b).heap_hi b = false := by
    rw [← Bool.not_eq_true, hH, hsz]
    rintro ⟨h1, h2⟩
    have hyb : b + GET_SIZE s.mem b ≠ b := by
      have := hwf.shape.blk b hb; omega
    rw [GET_ALLOC_congr _ _ _ (htag _ h1 hyb), hsucc h1] at h2
    omega
  obtain ⟨hwf3, hfr3, hG3⟩ := coalesceNone_exact hwf2 hb hal hbr2
  refine ⟨_, coalesce_none_eq _ b hal hLf hHf, hwf3, ?_, ?_, ?_, rfl, rfl, rfl, rfl⟩
  · show GET (coalesceNone (freeMark s b).mem (freeMark s b).heap_listp b) b = _
    rw [hG3 b hb, GET_of_free hal, hsz]
  · intro a ha hab
    show GET (coalesceNone (freeMark s b).mem (freeMark s b).heap_listp b) a = _
    rw [hG3 a ha, htag a ha hab]
  · exact hfr.trans (hfr3.weaken hwf.zero_not_mem) (fun c hc _ _ _ => hc)

/-- `mm_free`, the physical successor is free and the predecessor is not. -/
theorem free_H_exact {s : State} {B : Set Nat} {l1 l2 : List Nat} {L : Set Nat} {b : Nat}
    (hwf : WF s B (l1 ++ (b + GET_SIZE s.mem b) :: l2) L ∅) (hb : b ∈ B)
    (hbr : b ≠ s.heap_listp) (hba : GET_ALLOC s.mem b = 1) :
    ∃ s', coalesce (freeMark s b) b = (b, s') ∧
      WF s' (B \ {b + GET_SIZE s.mem b}) (b :: (l1 ++ l2)) (L \ {b + 4}) ∅ ∧
      GET s'.mem b = GET_SIZE s.mem b + GET_SIZE s.mem (b + GET_SIZE s.mem b) ∧
      (∀ a ∈ B, a ≠ b → a ≠ b + GET_SIZE s.mem b → GET s'.mem a = GET s.mem a) ∧
      Frame s.mem s'.mem s.heap_listp B b := by
  obtain ⟨hwf2, hal, hsz, hfr, htag⟩ := free_mark_facts hwf hb hbr hba
  have hbr2 : b ≠ (freeMark s b).heap_listp := hbr
  have hym : b + GET_SIZE s.mem b ∈ l1 ++ (b + GET_SIZE s.mem b) :: l2 := by simp
  have hyB := hwf.mem_B hym
  have hyf := hwf.mem_free hym
  have hyb : b + GET_SIZE s.mem b ≠ b := by
    have := hwf.shape.blk b hb; omega
  obtain ⟨_, hH⟩ := hwf2.flags hb hbr2
  have hHt : flagH (freeMark s b).mem (freeMark s b).heap_hi b = true := by
    rw [hH, hsz, GET_ALLOC_congr _ _ _ (htag _ hyB hyb)]
    exact ⟨hyB, hyf⟩
  rw [← hsz] at hwf2
  obtain ⟨hwf3, hG, hfr3, hoth⟩ := coalesceH_exact hwf2 hb hal hbr2
  rw [hsz] at hwf3 hG hoth
  refine ⟨_, coalesce_H_eq _ b hal hHt, hwf3, ?_, ?_, ?_⟩
  · show GET (coalesceH (freeMark s b).mem (freeMark s b).heap_listp b) b = _
    rw [hG, GET_SIZE_congr _ _ _ (htag _ hyB hyb)]
  · intro a ha hab hay
    show GET (coalesceH (freeMark s b).mem (freeMark s b).heap_listp b) a = _
    rw [hoth a ha hab hay, htag a ha hab]
  · exact hfr.trans (hfr3.weaken hwf.zero_not_mem) (fun c hc _ _ _ => hc)

/-- `mm_free`, the physical predecessor `x` is free and the successor is not. -/
theorem free_L_exact {s : State} {B : Set Nat} {l1 l2 : List Nat} {L : Set Nat} {b x : Nat}
    (hwf : WF s B (l1 ++ x :: l2) L ∅) (hb : b ∈ B)
    (hbr : b ≠ s.heap_listp) (hba : GET_ALLOC s.mem b = 1)
    (hxe : x + GET_SIZE s.mem x = b)
    (hsucc : b + GET_SIZE s.mem b ∈ B → GET_ALLOC s.mem (b + GET_SIZE s.mem b) = 1) :
    ∃ s', coalesce (freeMark s b) b = (x, s') ∧
      WF s' (B \ {b}) (x :: (l1 ++ l2)) (L \ {b + 4}) ∅ ∧
      GET s'.mem x = GET_SIZE s.mem x + GET_SIZE s.mem b ∧
      (∀ a ∈ B, a ≠ b → a ≠ x → GET s'.mem a = GET s.mem a) ∧
      Frame s.mem s'.mem s.heap_listp B b := by
  obtain ⟨hwf2, hal, hsz, hfr, htag⟩ := free_mark_facts hwf hb hbr hba
  have hbr2 : b ≠ (freeMark s b).heap_listp := hbr
  have hxm : x ∈ l1 ++ x :: l2 := by simp
  have hxB := hwf.mem_B hxm
  have hxf := hwf.mem_free hxm
  have hbx := hwf.shape.blk x hxB
  have hxb : x ≠ b := by omega
  have hxsz : GET_SIZE (freeMark s b).mem x = GET_SIZE s.mem x :=
    GET_SIZE_congr _ _ _ (htag x hxB hxb)
  obtain ⟨⟨x', hxB', hxe', hx', hxs, hL⟩, hH⟩ := hwf2.flags hb hbr2
  have hxx : x' = x := by
    have h1 := hwf2.shape.sep hxB' hxB
    have h2 := hwf2.shape.blk x' hxB'
    have h3 : x + GET_SIZE (freeMark s b).mem x = b := by rw [hxsz]; exact hxe
    have h4 := hwf2.shape.blk x hxB
    omega
  rw [hxx] at hxe' hx' hxs hL
  have hLt : flagL (freeMark s b).mem b = true := by
    rw [hL, GET_ALLOC_congr _ _ _ (htag x hxB hxb)]; exact hxf
  have hHf : flagH (freeMark s b).mem (freeMark s b).heap_hi b = false := by
    rw [← Bool.not_eq_true, hH, hsz]
    rintro ⟨h1, h2⟩
    have hyb : b + GET_SIZE s.mem b ≠ b := by
      have := hwf.shape.blk b hb; omega
    rw [GET_ALLOC_congr _ _ _ (htag _ h1 hyb), hsucc h1] at h2
    omega
  obtain ⟨hwf3, hG, hfr3, hoth⟩ := coalesceL_exact hwf2 hb hal hxe' hx' hxs
  have hco := coalesce_L_eq (freeMark s b) b hal hLt hHf
  rw [hx'] at hco
  refine ⟨_, hco, hwf3, ?_, ?_, ?_⟩
  · show GET (coalesceL (freeMark s b).mem (freeMark s b).heap_listp b) x = _
    rw [hG, hxsz, hsz]
  · intro a ha hab hax
    show GET (coalesceL (freeMark s b).mem (freeMark s b).heap_listp b) a = _
    rw [hoth a ha hab hax, htag a ha hab]
  · exact hfr.trans (hfr3.weaken hwf.zero_not_mem) (fun c hc _ _ _ => hc)

theorem WF.footer_of_header {s : State} {B : Set Nat} {fl : List Nat} {L P : Set Nat}
    (hwf : WF s B fl L P) {a v : Nat} (ha : a ∈ B) (hv : GET s.mem a = v) (h2 : v % 2 = 0) :
    GET s.mem (a + v - 4) = v := by
  have hft := (hwf.shape.blk a ha).2.2.2.2.2
  have hsz : GET_SIZE s.mem a = v :=
    (GET_SIZE_of_GET (c := v) (k := 0) (by rw [hv]; rfl) h2 (by omega)).1
  rw [hsz, hv] at hft
  exact hft

/-- C17: on a well-formed heap with free list `fl`, for an allocated block `b` other
than the sentinel, `mm_free(b + 4)` returns with the state that `coalesce(b)` leaves
after the header and footer of `b` have been marked free, and (1) when neither physical
neighbour is free, `coalesce` returns `b`, `b` is free with its old size in header and
footer and the list is `b :: fl`; (2) when the predecessor is not free and the successor
`b + size b` is, `coalesce` returns `b`, header and footer of `b` hold the sum of the two
sizes and the list is `b` followed by `fl` without the successor; (3) when the predecessor
`m` is free and the successor is not, `coalesce` returns `m`, header and footer of `m`
hold the sum of the two sizes and the list is `m` followed by `fl` without `m`.  In each
case the heap after the call is well-formed with that list (the merged-away block is no
longer a block), so the other members keep their order. -/
theorem mm_free_one_neighbour (s : State) (B : Set Nat) (fl : List Nat) (L : Set Nat)
    (b : Nat) (hwf : WF s B fl L ∅) (hb : b ∈ B) (hbr : b ≠ s.heap_listp)
    (hba : GET_ALLOC s.mem b = 1) (fuel : Nat) :
    ∃ r s', coalesce (freeMark s b) b = (r, s') ∧
      mm_free fuel s (b + 4) = Res.ok () s' ∧
      ((∀ m ∈ B, m + GET_SIZE s.mem m = b → GET_ALLOC s.mem m = 1) →
       (b + GET_SIZE s.mem b ∈ B → GET_ALLOC s.mem (b + GET_SIZE s.mem b) = 1) →
        r = b ∧ GET s'.mem b = GET_SIZE s.mem b ∧
        GET s'.mem (b + GET_SIZE s.mem b - 4) = GET_SIZE s.mem b ∧
        WF s' B (b :: fl) (L \ {b + 4}) ∅) ∧
      ((∀ m ∈ B, m + GET_SIZE s.mem m = b → GET_ALLOC s.mem m = 1) →
       b + GET_SIZE s.mem b ∈ B → GET_ALLOC s.mem (b + GET_SIZE s.mem b) = 0 →
        r = b ∧
        GET s'.mem b = GET_SIZE s.mem b + GET_SIZE s.mem (b + GET_SIZE s.mem b) ∧
        GET s'.mem (b + (GET_SIZE s.mem b + GET_SIZE s.mem (b + GET_SIZE s.mem b)) - 4) =
          GET_SIZE s.mem b + GET_SIZE s.mem (b + GET_SIZE s.mem b) ∧
        WF s' (B \ {b + GET_SIZE s.mem b}) (b :: fl.erase (b + GET_SIZE s.mem b))
          (L \ {b + 4}) ∅) ∧
      (∀ m ∈ B, m + GET_SIZE s.mem m = b → GET_ALLOC s.mem m = 0 →
       (b + GET_SIZE s.mem b ∈ B → GET_ALLOC s.mem (b + GET_SIZE s.mem b) = 1) →
        r = m ∧ GET s'.mem m = GET_SIZE s.mem m + GET_SIZE s.mem b ∧
        GET s'.mem (m + (GET_SIZE s.mem m + GET_SIZE s.mem b) - 4) =
          GET_SIZE s.mem m + GET_SIZE s.mem b ∧
        WF s' (B \ {b}) (m :: fl.erase m) (L \ {b + 4}) ∅) := by
  have hr0 : s.heap_listp ≠ 0 := Nat.pos_iff_ne_zero.mp hwf.root_pos
  have hS := hwf.shape
  have hbb := hS.blk b hb
  refine ⟨(coalesce (freeMark s b) b).1, (coalesce (freeMark s b) b).2, rfl,
    mm_free_eq_coalesce fuel s b hr0 (hwf.ne_zero hb) hbr, ?_, ?_, ?_⟩
  · intro hpred hsucc
    obtain ⟨s1, hco, hwf1, hG, _⟩ := free_none_exact hwf hb hbr hba hpred hsucc
    rw [hco]
    exact ⟨rfl, hG, hwf1.footer_of_header (List.mem_cons_self _ _ |> hwf1.mem_B) hG
      (by omega), hwf1⟩
  · intro _ hyB hyf
    have hym : b + GET_SIZE s.mem b ∈ fl :=
      (hwf.free _).mpr ⟨hyB, hyf, Set.not_mem_empty _⟩
    obtain ⟨l1, l2, hfl⟩ := List.append_of_mem hym
    have hnd := hwf.nodup
    rw [hfl] at hwf hnd ⊢
    have hby := hwf.shape.blk _ hyB
    obtain ⟨s1, hco, hwf1, hG, _⟩ := free_H_exact hwf hb hbr hba
    rw [hco, erase_mid hnd]
    exact ⟨rfl, hG, hwf1.footer_of_header (List.mem_cons_self _ _ |> hwf1.mem_B) hG
      (by omega), hwf1⟩
  · intro m hm hme hmf hsucc
    have hmm : m ∈ fl := (hwf.free _).mpr ⟨hm, hmf, Set.not_mem_empty _⟩
    obtain ⟨l1, l2, hfl⟩ := List.append_of_mem hmm
    have hnd := hwf.nodup
    rw [hfl] at hwf hnd ⊢
    have hbm := hwf.shape.blk _ hm
    obtain ⟨s1, hco, hwf1, hG, _⟩ := free_L_exact hwf hb hbr hba hme hsucc
    rw [hco, erase_mid hnd]
    exact ⟨rfl, hG, hwf1.footer_of_header (List.mem_cons_self _ _ |> hwf1.mem_B) hG
      (by omega), hwf1⟩

/-! ## Growing a heap whose last block is allocated -/

theorem extend_heap_none_exact {s : State} {B : Set Nat} {fl : List Nat} {L : Set Nat}
    (hwf : WF s B fl L ∅) (words fuel : Nat) (h8 : extendBytes words % 8 = 0)
    (hfuel : fl.length + 2 < fuel) (hlim : s.brk + extendBytes words ≤ s.lim)
    (hlast : ∀ x ∈ B, x + GET_SIZE s.mem x = s.brk → GET_ALLOC s.mem x = 1) :
    ∃ s', extend_heap fuel s words = Res.ok s.brk s' ∧
      WF s' (insert s.brk B) (s.brk :: fl) L ∅ ∧
      GET s'.mem s.brk = extendBytes words ∧ (∀ a ∈ B, GET s'.mem a = GET s.mem a) ∧
      s'.brk = s.brk + extendBytes words ∧ s'.lo = s.lo ∧ s'.lim = s.lim ∧
      s'.heap_listp = s.heap_listp := by
  have hge := extendBytes_ge words
  have hg := hwf.glob
  obtain ⟨m3, hm3⟩ : ∃ m3 : Mem, m3 = PUT (PUT (memset (memset s.mem s.brk 0
    (extendBytes words)) s.brk 0 (extendBytes words)) s.brk (PACK (extendBytes words) 0))
    (s.brk + extendBytes words - 4) (PACK (extendBytes words) 0) := ⟨_, rfl⟩
  obtain ⟨hwf2, hsz, hal, hnew, hbr, hlow⟩ :=
    extend_mark_WF hwf (extendBytes words) (by omega) h8 hlim m3 hm3
  obtain ⟨s2, hs2⟩ : ∃ s2 : State, s2 =
    { s with mem := m3, brk := s.brk + extendBytes words, heap_hi := s.brk + extendBytes words - 4 } :=
    ⟨_, rfl⟩
  rw [← hs2] at hwf2
  have hs2m : s2.mem = m3 := by rw [hs2]
  have hs2r : s2.heap_listp = s.heap_listp := by rw [hs2]
  have hs2b : s2.brk = s.brk + extendBytes words := by rw [hs2]
  have hbB2 : s.brk ∈ insert s.brk B := Set.mem_insert _ _
  have hal2 : GET_ALLOC s2.mem s.brk = 0 := by rw [hs2m]; exact hal
  have hsz2 : GET_SIZE s2.mem s.brk = extendBytes words := by rw [hs2m]; exact hsz
  have hbr2 : s.brk ≠ s2.heap_listp := by rw [hs2r]; exact hbr
  have hold : ∀ a ∈ B, GET s2.mem a = GET s.mem a := by
    intro a ha
    have hba := hwf.shape.blk a ha
    rw [hs2m]
    exact GET_congr _ _ _ (fun z h1 h2 => hlow z (by omega))
  obtain ⟨⟨x, hxB, hxe, _, _, hL⟩, hH⟩ := hwf2.flags hbB2 hbr2
  have hbx := hwf2.shape.blk x hxB
  have hxB' : x ∈ B := by
    rcases hxB with h | h
    · omega
    · exact h
  have hLf : flagL s2.mem s.brk = false := by
    rw [← Bool.not_eq_true, hL, GET_ALLOC_congr _ _ _ (hold x hxB')]
    have hxe' : x + GET_SIZE s.mem x = s.brk := by
      rw [← GET_SIZE_congr _ _ _ (hold x hxB')]; exact hxe
    rw [hlast x hxB' hxe']
    omega
  have hHf : flagH s2.mem s2.heap_hi s.brk = false := by
    rw [← Bool.not_eq_true, hH, hsz2]
    rintro ⟨h1, _⟩
    have := hwf2.shape.blk _ h1
    omega
  obtain ⟨hwf3, _, hG3⟩ := coalesceNone_exact hwf2 hbB2 hal2 hbr2
  have hco := coalesce_none_eq s2 s.brk hal2 hLf hHf
  have hchk := checkheap_WF hwf3 fuel (by simp only [List.length_cons]; omega)
  have hrun : extend_heap fuel s words = Res.ok (coalesce s2 s.brk).1 (coalesce s2 s.brk).2 := by
    unfold extend_heap
    simp only [mem_sbrk, hlim, if_true]
    have hb63 : ¬ (9223372036854775808 ≤ s.brk) := by
      have := hg.lim_le; have := hg.brk_le; omega
    rw [if_neg hb63]
    simp only [mem_heap_hi]
    rw [← hm3, ← hs2, hco]
    simp only [hchk, if_true]
  rw [hco] at hrun
  refine ⟨_, hrun, hwf3, ?_, ?_, hs2b, by rw [hs2], by rw [hs2], hs2r⟩
  · show GET (coalesceNone s2.mem s2.heap_listp s.brk) s.brk = _
    rw [hG3 _ hbB2, GET_of_free hal2, hsz2]
  · intro a ha
    show GET (coalesceNone s2.mem s2.heap_listp s.brk) a = _
    rw [hG3 a (Set.mem_insert_of_mem _ ha), hold a ha]

/-! ## `mm_init` when the region can grow -/

theorem mm_init_exact (s : State) (hf : Fresh s) (hlim : s.lo + 4124 ≤ s.lim) (fuel : Nat)
    (hfuel : 2 < fuel) :
    ∃ s', mm_init fuel s = Res.ok 0 s' ∧
      WF s' (insert (s.lo + 28) {s.lo + 4}) [s.lo + 28] ∅ ∅ ∧
      GET s'.mem (s.lo + 28) = 4096 ∧ s'.brk = s.lo + 4124 ∧ s'.lo = s.lo ∧
      s'.lim = s.lim := by
  obtain ⟨m7, hm7⟩ : ∃ m7 : Mem, m7 = PUT (PUT (PUT (PUT (PUT (PUT (PUT
    (memset s.mem s.brk 0 28) s.lo 0) (s.lo + 4) (PACK 24 1)) (s.lo + 8) 0) (s.lo + 12) 0)
    (s.lo + 16) 0) (s.lo + 20) 0) (s.lo + 24) (PACK 24 1) := ⟨_, rfl⟩
  have hwf := init_WF s hf (by omega) m7 hm7
  obtain ⟨s2, hs2⟩ : ∃ s2 : State, s2 =
    { s with mem := m7, brk := s.brk + 28, heap_listp := s.lo + 4 } := ⟨_, rfl⟩
  rw [← hs2] at hwf
  have hs2b : s2.brk = s.lo + 28 := by rw [hs2, ← hf.brk_eq]
  have hs2l : s2.lim = s.lim := by rw [hs2]
  have hs2o : s2.lo = s.lo := by rw [hs2]
  have hsb : mem_sbrk s 28 =
      some (s.brk, { s with brk := s.brk + 28, mem := memset s.mem s.brk 0 28 }) := by
    unfold mem_sbrk
    rw [if_pos (by rw [hf.brk_eq]; omega)]
  have hb0 : s.brk ≠ 0 := by rw [hf.brk_eq]; exact Nat.pos_iff_ne_zero.mp hf.lo_pos
  have hby : extendBytes (4096 / 4) = 4096 := by decide
  obtain ⟨s3, hext, hwf3, hG, _, hbrk, hlo, hli, _⟩ :=
    extend_heap_none_exact hwf (4096 / 4) fuel (by rw [hby]) (by simpa using hfuel)
      (by rw [hby, hs2b, hs2l]; omega)
      (by
        intro x hx _
        have hroot : s2.heap_listp = s.lo + 4 := by rw [hs2]
        rw [Set.mem_singleton_iff.mp hx, ← hroot]
        exact hwf.shape.root_size.2)
  rw [hs2b] at hext hwf3 hG hbrk
  rw [hby] at hG hbrk
  refine ⟨s3, ?_, hwf3, hG, by rw [hbrk], by rw [hlo, hs2o], by rw [hli, hs2l]⟩
  unfold mm_init
  simp only [hsb, hb0, if_false, mem_heap_lo]
  rw [← hm7, ← hs2, hext]
  have : s.lo + 28 ≠ 0 := by omega
  simp only [this, if_false]

/-- `mm_init` returns `0` only when the region could grow by the sentinel and the
first chunk. -/
theorem mm_init_ok_room (s : State) (hf : Fresh s) (fuel : Nat) (s' : State)
    (h : mm_init fuel s = Res.ok 0 s') : s.lo + 4124 ≤ s.lim := by
  by_contra hlim
  by_cases h28 : s.lo + 28 ≤ s.lim
  · obtain ⟨m7, hm7⟩ : ∃ m7 : Mem, m7 = PUT (PUT (PUT (PUT (PUT (PUT (PUT
      (memset s.mem s.brk 0 28) s.lo 0) (s.lo + 4) (PACK 24 1)) (s.lo + 8) 0) (s.lo + 12) 0)
      (s.lo + 16) 0) (s.lo + 20) 0) (s.lo + 24) (PACK 24 1) := ⟨_, rfl⟩
    obtain ⟨s2, hs2⟩ : ∃ s2 : State, s2 =
      { s with mem := m7, brk := s.brk + 28, heap_listp := s.lo + 4 } := ⟨_, rfl⟩
    have hs2b : s2.brk = s.lo + 28 := by rw [hs2, ← hf.brk_eq]
    have hs2l : s2.lim = s.lim := by rw [hs2]
    have hsb : mem_sbrk s 28 =
        some (s.brk, { s with brk := s.brk + 28, mem := memset s.mem s.brk 0 28 }) := by
      unfold mem_sbrk
      rw [if_pos (by rw [hf.brk_eq]; omega)]
    have hb0 : s.brk ≠ 0 := by rw [hf.brk_eq]; exact Nat.pos_iff_ne_zero.mp hf.lo_pos
    have hby : extendBytes (4096 / 4) = 4096 := by decide
    have hnone : mem_sbrk s2 (extendBytes (4096 / 4)) = none := by
      unfold mem_sbrk
      rw [if_neg (by rw [hby, hs2b, hs2l]; omega)]
    have hext : extend_heap fuel s2 (4096 / 4) = Res.ok 0 s2 := by
      unfold extend_heap
      simp only [hnone]
    unfold mm_init at h
    simp only [hsb, hb0, if_false, mem_heap_lo] at h
    rw [← hm7, ← hs2, hext] at h
    simp only [if_true] at h
    have := (Res.ok.inj h).1
    omega
  · have hsb : mem_sbrk s 28 = none := by
      unfold mem_sbrk
      rw [if_neg (by rw [hf.brk_eq]; exact h28)]
    unfold mm_init at h
    simp only [hsb] at h
    have := (Res.ok.inj h).1
    omega

/-! ## `mm_malloc` from the first fitting member, with a split -/

theorem mm_malloc_split_exact {s : State} {B : Set Nat} {l1 l2 : List Nat} {L : Set Nat}
    {b : Nat} (hwf : WF s B (l1 ++ b :: l2) L ∅) (n : Nat) (hn : 0 < n) (fuel : Nat)
    (hfuel : l1.length + 1 < fuel) (hl1 : ∀ c ∈ l1, GET_SIZE s.mem c < adjust n)
    (hb : adjust n ≤ GET_SIZE s.mem b) :
    mm_malloc fuel s n = Res.ok (b + 4) { s with mem := place s.mem b (adjust n) } := by
  have hr0 : s.heap_listp ≠ 0 := Nat.pos_iff_ne_zero.mp hwf.root_pos
  have hn0 : n ≠ 0 := Nat.pos_iff_ne_zero.mp hn
  have hb0 : b ≠ 0 := hwf.ne_zero (hwf.mem_B (by simp))
  have hfit := fit_first hwf (adjust n) fuel hl1 hb hfuel
  unfold mm_malloc
  simp only [lazyInit_of_ne_zero fuel s hr0, hn0, if_false, hfit, ne_eq, hb0,
    not_false_eq_true, if_true]

/-! ## The scenario `init; alloc 100; alloc 100; free; alloc 50` -/

theorem tag_even {m : Mem} {a v : Nat} (h : GET m a = v) (h2 : v % 2 = 0) :
    GET_SIZE m a = v ∧ GET_ALLOC m a = 0 :=
  GET_SIZE_of_GET (c := v) (k := 0) (by rw [h]; rfl) h2 (by omega)

theorem tag_odd {m : Mem} {a v : Nat} (h : GET m a = v + 1) (h2 : v % 2 = 0) :
    GET_SIZE m a = v ∧ GET_ALLOC m a = 1 :=
  GET_SIZE_of_GET (c := v) (k := 1) h h2 (by omega)

/-- One `mm_malloc(n)` served from the head of the free list with a split. -/
theorem malloc_head_split {s : State} {B : Set Nat} {l2 : List Nat} {L : Set Nat}
    {b c : Nat} (hwf : WF s B (b :: l2) L ∅) (n asize : Nat) (hn : 0 < n)
    (had : adjust n = asize) (fuel : Nat) (hfuel : 1 < fuel) (hc : GET s.mem b = c)
    (hc2 : c % 2 = 0) (ha1 : 24 ≤ asize) (ha2 : asize % 8 = 0) (ha3 : asize + 24 ≤ c) :
    ∃ s', mm_malloc fuel s n = Res.ok (b + 4) s' ∧
      WF s' (insert (b + asize) B) ((b + asize) :: l2) (insert (b + 4) L) ∅ ∧
      GET s'.mem b = asize + 1 ∧ GET s'.mem (b + asize - 4) = asize + 1 ∧
      GET s'.mem (b + asize) = c - asize ∧ GET s'.mem (b + c - 4) = c - asize ∧
      (∀ a ∈ B, a ≠ b → GET s'.mem a = GET s.mem a) ∧
      s'.lo = s.lo ∧ s'.heap_listp = s.heap_listp := by
  have hsz := (tag_even hc hc2).1
  have hwf' : WF s B ([] ++ b :: l2) L ∅ := hwf
  have hrun := mm_malloc_split_exact hwf' n hn fuel (by simpa using hfuel) (by simp)
    (by rw [had, hsz]; omega)
  rw [had] at hrun
  obtain ⟨hwf2, _, T1⟩ := place_split_WF b asize hwf' ha1 ha2 (by rw [hsz]; exact ha3)
  obtain ⟨T2, T3, T4, _, _, _, _, hG, _, _⟩ :=
    place_split_tags b asize hwf' ha1 ha2 (by rw [hsz]; exact ha3)
  rw [hsz] at T3 T4
  exact ⟨_, hrun, hwf2, T1, T2, T3, T4, fun a ha hab => (hG a ha hab).1, rfl, rfl⟩

/-- The end-to-end scenario in a region that stays below `2^31`: from an empty region
whose low address `lo` is 8-byte aligned, after `mm_init()` has returned 0, the calls
`p1 = mm_malloc(100)`, `p2 = mm_malloc(100)`, `mm_free(p1)`, `p3 = mm_malloc(50)` all
return, with `p1 = lo + 32`, `p2 = lo + 144` and `p3 = p1`; afterwards the block at
`p1 - 4` has header and footer `64 | 1`, the residual at `p1 + 60` has header and footer
`48` (free), and the residual is the head of the free list `[lo + 92, lo + 252]` of a
well-formed heap: the sentinel's forward link decodes to it. -/
theorem scenario_reuse_by_split (s0 : State) (hf : Fresh s0) (fuel : Nat) (hfuel : 4 ≤ fuel)
    (s1 : State) (h1 : mm_init fuel s0 = Res.ok 0 s1) :
    ∃ s2 s3 s4 s5 B L,
      mm_malloc fuel s1 100 = Res.ok (s0.lo + 32) s2 ∧
      mm_malloc fuel s2 100 = Res.ok (s0.lo + 144) s3 ∧
      mm_free fuel s3 (s0.lo + 32) = Res.ok () s4 ∧
      mm_malloc fuel s4 50 = Res.ok (s0.lo + 32) s5 ∧
      GET s5.mem (s0.lo + 28) = 65 ∧ GET s5.mem (s0.lo + 88) = 65 ∧
      GET s5.mem (s0.lo + 92) = 48 ∧ GET s5.mem (s0.lo + 136) = 48 ∧
      s5.heap_listp = s0.lo + 4 ∧ getLink s5.mem (s5.heap_listp + 12) = s0.lo + 92 ∧
      WF s5 B [s0.lo + 92, s0.lo + 252] L ∅ := by
  have hroom := mm_init_ok_room s0 hf fuel s1 h1
  obtain ⟨s1', hi, hwf1, hG1, _, ho1, _⟩ := mm_init_exact s0 hf hroom fuel (by omega)
  rw [h1] at hi
  obtain ⟨_, e⟩ := Res.ok.inj hi
  subst e
  -- first allocation
  obtain ⟨s2, hm2, hwf2, T21, _, T23, _, hG2, ho2, hr2⟩ :=
    malloc_head_split hwf1 100 112 (by omega) (by decide) fuel (by omega) hG1
      (by omega) (by omega) (by omega) (by omega)
  have e140 : s0.lo + 28 + 112 = s0.lo + 140 := by omega
  have e32 : s0.lo + 28 + 4 = s0.lo + 32 := by omega
  rw [e140] at hwf2 T23
  have T23' : GET s2.mem (s0.lo + 140) = 3984 := by rw [T23]
  -- second allocation
  obtain ⟨s3, hm3, hwf3, T31, _, T33, _, hG3, ho3, hr3⟩ :=
    malloc_head_split hwf2 100 112 (by omega) (by decide) fuel (by omega) T23'
      (by omega) (by omega) (by omega) (by omega)
  have e252 : s0.lo + 140 + 112 = s0.lo + 252 := by omega
  have e144 : s0.lo + 140 + 4 = s0.lo + 144 := by omega
  rw [e252] at hwf3 T33
  have hlo3 : s3.lo = s0.lo := by rw [ho3, ho2, ho1]
  have hroot3 : s3.heap_listp = s0.lo + 4 := by rw [hwf3.glob.root_eq, hlo3]
  have G28 : GET s3.mem (s0.lo + 28) = 112 + 1 := by
    rw [(hG3 (s0.lo + 28) (by simp) (by omega)), T21]
  have G140 : GET s3.mem (s0.lo + 140) = 112 + 1 := T31
  have G252 : GET s3.mem (s0.lo + 252) = 3872 := by rw [T33]
  have Groot : GET s3.mem (s0.lo + 4) = 24 + 1 := by
    have := hwf3.shape.root_hdr
    rw [hroot3] at this
    exact this
  -- the free
  have hb3 : s0.lo + 28 ∈ insert (s0.lo + 252) (insert (s0.lo + 140)
      (insert (s0.lo + 28) ({s0.lo + 4} : Set Nat))) := by simp
  obtain ⟨s4, hco, hwf4, G4, hG4, _, ho4, _, _, hr4⟩ :=
    free_none_exact hwf3 hb3 (by rw [hroot3]; omega) (tag_odd G28 (by omega)).2
      (by
        intro m hm he
        simp only [Set.mem_insert_iff, Set.mem_singleton_iff] at hm
        rcases hm with rfl | rfl | rfl | rfl
        · rw [(tag_even G252 (by omega)).1] at he; omega
        · rw [(tag_odd G140 (by omega)).1] at he; omega
        · rw [(tag_odd G28 (by omega)).1] at he; omega
        · exact (tag_odd Groot (by omega)).2)
      (by
        intro _
        rw [(tag_odd G28 (by omega)).1, e140]
        exact (tag_odd G140 (by omega)).2)
  have hfree : mm_free fuel s3 (s0.lo + 28 + 4) = Res.ok () s4 := by
    rw [mm_free_eq_coalesce fuel s3 (s0.lo + 28) (by rw [hroot3]; omega) (by omega)
      (by rw [hroot3]; omega), hco]
  rw [(tag_odd G28 (by omega)).1] at G4
  -- third allocation
  obtain ⟨s5, hm5, hwf5, T51, T52, T53, T54, _, ho5, hr5⟩ :=
    malloc_head_split hwf4 50 64 (by omega) (by decide) fuel (by omega) G4
      (by omega) (by omega) (by omega) (by omega)
  have e92 : s0.lo + 28 + 64 = s0.lo + 92 := by omega
  have e88 : s0.lo + 28 + 64 - 4 = s0.lo + 88 := by omega
  have e136 : s0.lo + 28 + 112 - 4 = s0.lo + 136 := by omega
  rw [e92] at hwf5 T53
  rw [e88] at T52
  rw [e136] at T54
  rw [e32] at hm2 hfree hm5
  rw [e144] at hm3
  have hroot5 : s5.heap_listp = s0.lo + 4 := by rw [hr5, hr4, hroot3]
  have hch := hwf5.chain
  unfold Chain at hch
  exact ⟨s2, s3, s4, s5, _, _, hm2, hm3, hfree, hm5, T51, T52, by rw [T53], by rw [T54],
    hroot5, hch.1, hwf5⟩

/-! ## The invariants of reachable states -/

theorem blockAt_mono (m : Mem) (root : Nat) : ∀ j k, j ≤ k → blockAt m root j ≤ blockAt m root k := by
  intro j k h
  induction k with
  | zero => rw [Nat.le_zero.mp h]
  | succ k ih =>
    rcases Nat.lt_or_ge j (k + 1) with h1 | h1
    · have := ih (by omega)
      show blockAt m root j ≤ blockAt m root k + GET_SIZE m (blockAt m root k)
      omega
    · have : j = k + 1 := by omega
      rw [this]

theorem WF.blockFormat {s : State} {B : Set Nat} {fl : List Nat} {L P : Set Nat}
    (hwf : WF s B fl L P) : BlockFormat s := by
  have hS := hwf.shape
  obtain ⟨a, ha, hae⟩ := hS.last
  obtain ⟨k, hk, _⟩ := hS.mem_blockAt a ha
  refine ⟨k + 1, by omega, ?_, ?_⟩
  · show blockAt s.mem s.heap_listp k + GET_SIZE s.mem (blockAt s.mem s.heap_listp k) = s.brk
    rw [hk]; exact hae
  · intro j hj
    have hba := hS.blk a ha
    have hle := blockAt_mono s.mem s.heap_listp j k (by omega)
    rw [hk] at hle
    have hjB := hS.blockAt_mem j (by omega)
    have hb := hS.blk _ hjB
    exact ⟨hb.1, by omega, hb.2.1, hb.2.2.1, hb.2.2.2.1, hb.2.2.2.2.2⟩

theorem extendBytes_mod8 (words : Nat) : extendBytes words % 8 = 0 := by
  unfold extendBytes
  rw [Nat.and_one_is_mod]
  rcases Nat.le_total ((words + words % 2) * 4 % 18446744073709551616) 4096 with h | h
  · rw [max_eq_right h]
  · rw [max_eq_left h]; omega

theorem Reach.wf {s : State} {L : Set Nat} (hr : Reach s L) (hinit : s.heap_listp ≠ 0) :
    ∃ B fl, WF s B fl L ∅ := by
  rcases hr.inv with ⟨hu, _⟩ | h
  · exact absurd hu.root_eq hinit
  · exact h

/-- C14: in every state reachable from `mm_init()` by allocator calls in which the
sentinel exists (`heap_listp` is not null), there is a finite list `fl` of non-null
addresses, without repetition and not containing the sentinel, such that the forward
links from the sentinel lead through exactly the blocks of `fl` to a null link, the back
link of each one naming the block before it (`Chain`); and the members of `fl` are
exactly the blocks of the heap whose allocated bit is 0. -/
theorem free_list_invariant (s : State) (L : Set Nat) (hr : Reach s L)
    (hinit : s.heap_listp ≠ 0) :
    ∃ fl : List Nat, Chain s.mem s.heap_listp fl ∧ fl.Nodup ∧ s.heap_listp ∉ fl ∧
      (∀ a ∈ fl, a ≠ 0) ∧
      (∀ a, a ∈ fl ↔
        (∃ k, blockAt s.mem s.heap_listp k = a ∧ a < s.brk) ∧ GET_ALLOC s.mem a = 0) := by
  obtain ⟨B, fl, hwf⟩ := hr.wf hinit
  refine ⟨fl, hwf.chain, hwf.nodup, hwf.root_not_mem,
    fun a ha => hwf.ne_zero (hwf.mem_B ha), fun a => ?_⟩
  rw [hwf.free a]
  constructor
  · rintro ⟨h1, h2, _⟩
    obtain ⟨k, hk, hlt⟩ := hwf.shape.mem_blockAt a h1
    exact ⟨⟨k, hk, by rw [← hk]; exact hlt⟩, h2⟩
  · rintro ⟨⟨k, hk, hlt⟩, h2⟩
    refine ⟨?_, h2, Set.not_mem_empty _⟩
    rw [← hk]
    exact hwf.shape.blockAt_mem k (by rw [hk]; exact hlt)

/-- The block format in the states of `Reach` in which the sentinel exists: the
physical walk from the sentinel reaches the end of the region exactly, and every block
met has a footer equal to its header, a size that is a multiple of 8 and at least 24,
and an address congruent to 4 modulo 8.  The same holds in the state `extend_heap`
leaves when it is called in such a state. -/
theorem block_format_of_reach (s : State) (L : Set Nat) (hr : Reach s L)
    (hinit : s.heap_listp ≠ 0) :
    BlockFormat s ∧ s.heap_listp = mem_heap_lo s + 4 ∧
    (blockAt s.mem s.heap_listp 1 < s.brk → s.heap_hi = mem_heap_hi s) ∧
    ∀ words, ∃ N, ∀ fuel, N ≤ fuel →
      ∃ r s', extend_heap fuel s words = Res.ok r s' ∧ BlockFormat s' := by
  obtain ⟨B, fl, hwf⟩ := hr.wf hinit
  refine ⟨hwf.blockFormat, hwf.glob.root_eq, ?_, ?_⟩
  · intro h
    have h1 : s.heap_listp + GET_SIZE s.mem s.heap_listp < s.brk := h
    rw [hwf.shape.root_size.1, hwf.glob.root_eq] at h1
    exact hwf.glob.hi (by omega)
  · intro words
    refine ⟨fl.length + 3, fun fuel hfuel => ?_⟩
    rcases extend_heap_WF hwf words fuel (extendBytes_mod8 words) (by omega) with
      ⟨_, hext⟩ | ⟨r, s', B', fl', hext, _, hwf', _⟩
    · exact ⟨0, s, hext, hwf.blockFormat⟩
    · exact ⟨r, s', hext, hwf'.blockFormat⟩

/-! ## Two concrete well-formed heaps -/

theorem fresh_4096 : Fresh (freshState 4096 100000) :=
  ⟨rfl, rfl, by decide, by decide, by decide⟩

theorem initState_eq : mm_init 8 (freshState 4096 100000) = Res.ok 0 (initState 100000) := by
  have h := Res.eq_ok_of_returned (mm_init 8 (freshState 4096 100000)) 0
    (freshState 4096 100000) (by decide)
  have hv : (mm_init 8 (freshState 4096 100000)).valOr 0 = 0 := by decide
  rw [hv] at h
  exact h

theorem initState_WF :
    WF (initState 100000) (insert 4124 {4100}) [4124] ∅ ∅ ∧
    GET (initState 100000).mem 4124 = 4096 := by
  obtain ⟨s', h, hwf, hG, _⟩ :=
    mm_init_exact (freshState 4096 100000) fresh_4096 (by decide) 8 (by decide)
  rw [initState_eq] at h
  obtain ⟨_, e⟩ := Res.ok.inj h
  subst e
  exact ⟨hwf, hG⟩

theorem oneLive_WF :
    WF oneLive (insert 4148 (insert 4124 {4100})) [4148] (insert 4128 ∅) ∅ := by
  obtain ⟨s', h, hwf, _⟩ := malloc_head_split initState_WF.1 16 24 (by decide) (by decide) 8
    (by decide) initState_WF.2 (by decide) (by decide) (by decide) (by decide)
  have e : oneLive = s' := by
    show (mm_malloc 8 (initState 100000) 16).stateOr (initState 100000) = s'
    rw [h]; rfl
  rw [e]
  exact hwf

/-! ## The claims at concrete heaps -/

set_option maxRecDepth 100000 in
theorem scenario_reuse_by_split_witness :
    Fresh (freshState 4096 100000) ∧ 4 ≤ 8 ∧
    mm_init 8 (freshState 4096 100000) = Res.ok 0 (initState 100000) ∧
    ∃ s2 s3 s4 s5 B L,
      mm_malloc 8 (initState 100000) 100 = Res.ok 4128 s2 ∧
      mm_malloc 8 s2 100 = Res.ok 4240 s3 ∧
      mm_free 8 s3 4128 = Res.ok () s4 ∧
      mm_malloc 8 s4 50 = Res.ok 4128 s5 ∧
      GET s5.mem 4124 = 65 ∧ GET s5.mem 4184 = 65 ∧
      GET s5.mem 4188 = 48 ∧ GET s5.mem 4232 = 48 ∧
      s5.heap_listp = 4100 ∧ getLink s5.mem (s5.heap_listp + 12) = 4188 ∧
      WF s5 B [4188, 4348] L ∅ :=
  ⟨fresh_4096, by decide, initState_eq,
    scenario_reuse_by_split _ fresh_4096 8 (by decide) _ initState_eq⟩

set_option maxRecDepth 100000 in
theorem free_list_invariant_witness :
    Reach oneLive (insert 4128 (∅ : Set Nat)) ∧ oneLive.heap_listp ≠ 0 ∧
    ∃ fl : List Nat, Chain oneLive.mem oneLive.heap_listp fl ∧ fl.Nodup ∧
      oneLive.heap_listp ∉ fl ∧ (∀ a ∈ fl, a ≠ 0) ∧
      (∀ a, a ∈ fl ↔
        (∃ k, blockAt oneLive.mem oneLive.heap_listp k = a ∧ a < oneLive.brk) ∧
          GET_ALLOC oneLive.mem a = 0) :=
  ⟨reach_oneLive, by decide, free_list_invariant _ _ reach_oneLive (by decide)⟩

set_option maxRecDepth 100000 in
theorem mm_free_one_neighbour_witness :
    WF oneLive (insert 4148 (insert 4124 {4100})) [4148] (insert 4128 ∅) ∅ ∧
    4124 ∈ (insert 4148 (insert 4124 {4100}) : Set Nat) ∧ 4124 ≠ oneLive.heap_listp ∧
    GET_ALLOC oneLive.mem 4124 = 1 ∧
    4124 + GET_SIZE oneLive.mem 4124 = 4148 ∧ GET_ALLOC oneLive.mem 4148 = 0 ∧
    ∃ r s', coalesce (freeMark oneLive 4124) 4124 = (r, s') ∧
      mm_free 8 oneLive (4124 + 4) = Res.ok () s' ∧
      ((∀ m ∈ (insert 4148 (insert 4124 {4100}) : Set Nat),
          m + GET_SIZE oneLive.mem m = 4124 → GET_ALLOC oneLive.mem m = 1) →
       (4124 + GET_SIZE oneLive.mem 4124 ∈ (insert 4148 (insert 4124 {4100}) : Set Nat) →
          GET_ALLOC oneLive.mem (4124 + GET_SIZE oneLive.mem 4124) = 1) →
        r = 4124 ∧ GET s'.mem 4124 = GET_SIZE oneLive.mem 4124 ∧
        GET s'.mem (4124 + GET_SIZE oneLive.mem 4124 - 4) = GET_SIZE oneLive.mem 4124 ∧
        WF s' (insert 4148 (insert 4124 {4100})) (4124 :: [4148])
          (insert 4128 ∅ \ {4124 + 4}) ∅) ∧
      ((∀ m ∈ (insert 4148 (insert 4124 {4100}) : Set Nat),
          m + GET_SIZE oneLive.mem m = 4124 → GET_ALLOC oneLive.mem m = 1) →
       4124 + GET_SIZE oneLive.mem 4124 ∈ (insert 4148 (insert 4124 {4100}) : Set Nat) →
       GET_ALLOC oneLive.mem (4124 + GET_SIZE oneLive.mem 4124) = 0 →
        r = 4124 ∧
        GET s'.mem 4124 = GET_SIZE oneLive.mem 4124 +
          GET_SIZE oneLive.mem (4124 + GET_SIZE oneLive.mem 4124) ∧
        GET s'.mem (4124 + (GET_SIZE oneLive.mem 4124 +
          GET_SIZE oneLive.mem (4124 + GET_SIZE oneLive.mem 4124)) - 4) =
          GET_SIZE oneLive.mem 4124 +
            GET_SIZE oneLive.mem (4124 + GET_SIZE oneLive.mem 4124) ∧
        WF s' ((insert 4148 (insert 4124 {4100}) : Set Nat) \
            {4124 + GET_SIZE oneLive.mem 4124})
          (4124 :: [4148].erase (4124 + GET_SIZE oneLive.mem 4124))
          (insert 4128 ∅ \ {4124 + 4}) ∅) ∧
      (∀ m ∈ (insert 4148 (insert 4124 {4100}) : Set Nat),
        m + GET_SIZE oneLive.mem m = 4124 → GET_ALLOC oneLive.mem m = 0 →
       (4124 + GET_SIZE oneLive.mem 4124 ∈ (insert 4148 (insert 4124 {4100}) : Set Nat) →
          GET_ALLOC oneLive.mem (4124 + GET_SIZE oneLive.mem 4124) = 1) →
        r = m ∧ GET s'.mem m = GET_SIZE oneLive.mem m + GET_SIZE oneLive.mem 4124 ∧
        GET s'.mem (m + (GET_SIZE oneLive.mem m + GET_SIZE oneLive.mem 4124) - 4) =
          GET_SIZE oneLive.mem m + GET_SIZE oneLive.mem 4124 ∧
        WF s' ((insert 4148 (insert 4124 {4100}) : Set Nat) \ {4124})
          (m :: [4148].erase m) (insert 4128 ∅ \ {4124 + 4}) ∅) :=
  ⟨oneLive_WF, by simp, by decide, by decide, by decide, by decide,
    mm_free_one_neighbour oneLive _ _ _ 4124 oneLive_WF (by simp) (by decide) (by decide) 8⟩

set_option maxRecDepth 100000 in
theorem place_whole_block_witness :
    WF (initState 100000) (insert 4124 {4100}) ([] ++ 4124 :: []) ∅ ∅ ∧
    sub64 (GET_SIZE (initState 100000).mem 4124) 4080 < 24 ∧
    (getLink (initState 100000).mem (4124 + 4) =
      ((initState 100000).heap_listp :: []).getLast (List.cons_ne_nil _ _) ∧
    getLink (initState 100000).mem (4124 + 12) = ([] : List Nat).headD 0 ∧
    GET (place (initState 100000).mem 4124 4080) 4124 =
      GET_SIZE (initState 100000).mem 4124 + 1 ∧
    GET (place (initState 100000).mem 4124 4080)
      (4124 + GET_SIZE (initState 100000).mem 4124 - 4) =
      GET_SIZE (initState 100000).mem 4124 + 1 ∧
    getLink (place (initState 100000).mem 4124 4080)
      (getLink (initState 100000).mem (4124 + 4) + 12) =
      getLink (initState 100000).mem (4124 + 12) ∧
    (getLink (initState 100000).mem (4124 + 12) ≠ 0 →
      getLink (place (initState 100000).mem 4124 4080)
        (getLink (initState 100000).mem (4124 + 12) + 4) =
        getLink (initState 100000).mem (4124 + 4)) ∧
    WF { initState 100000 with mem := place (initState 100000).mem 4124 4080 }
      (insert 4124 {4100}) ([] ++ []) (insert (4124 + 4) ∅) ∅ ∧
    Frame (initState 100000).mem (place (initState 100000).mem 4124 4080)
      (initState 100000).heap_listp (insert 4124 {4100}) 0) :=
  ⟨initState_WF.1, by decide,
    place_whole_block (initState 100000) _ [] [] ∅ 4124 4080 initState_WF.1 (by decide)⟩

set_option maxRecDepth 100000 in
theorem place_split_correct_witness :
    WF (initState 100000) (insert 4124 {4100}) ([] ++ 4124 :: []) ∅ ∅ ∧
    24 ≤ 112 ∧ 112 % 8 = 0 ∧ 112 + 24 ≤ GET_SIZE (initState 100000).mem 4124 ∧
    (getLink (initState 100000).mem (4124 + 4) =
      ((initState 100000).heap_listp :: []).getLast (List.cons_ne_nil _ _) ∧
    getLink (initState 100000).mem (4124 + 12) = ([] : List Nat).headD 0 ∧
    GET (place (initState 100000).mem 4124 112) 4124 = 112 + 1 ∧
    GET (place (initState 100000).mem 4124 112) (4124 + 112 - 4) = 112 + 1 ∧
    GET (place (initState 100000).mem 4124 112) (4124 + 112) =
      GET_SIZE (initState 100000).mem 4124 - 112 ∧
    GET (place (initState 100000).mem 4124 112)
      (4124 + GET_SIZE (initState 100000).mem 4124 - 4) =
      GET_SIZE (initState 100000).mem 4124 - 112 ∧
    getLink (place (initState 100000).mem 4124 112) (4124 + 112 + 4) =
      getLink (initState 100000).mem (4124 + 4) ∧
    getLink (place (initState 100000).mem 4124 112) (4124 + 112 + 12) =
      getLink (initState 100000).mem (4124 + 12) ∧
    getLink (place (initState 100000).mem 4124 112)
      (getLink (initState 100000).mem (4124 + 4) + 12) = 4124 + 112 ∧
    (getLink (initState 100000).mem (4124 + 12) ≠ 0 →
      getLink (place (initState 100000).mem 4124 112)
        (getLink (initState 100000).mem (4124 + 12) + 4) = 4124 + 112) ∧
    WF { initState 100000 with mem := place (initState 100000).mem 4124 112 }
      (insert (4124 + 112) (insert 4124 {4100}))
      ([] ++ (4124 + 112) :: []) (insert (4124 + 4) ∅) ∅ ∧
    (∀ a ∈ (insert 4124 {4100} : Set Nat), a ≠ 4124 →
      GET (place (initState 100000).mem 4124 112) a = GET (initState 100000).mem a ∧
      GET (place (initState 100000).mem 4124 112)
        (a + GET_SIZE (initState 100000).mem a - 4) =
        GET (initState 100000).mem (a + GET_SIZE (initState 100000).mem a - 4)) ∧
    (∀ a ∈ (insert 4124 {4100} : Set Nat), a ≠ 4124 →
      a ≠ getLink (initState 100000).mem (4124 + 4) →
      getLink (place (initState 100000).mem 4124 112) (a + 12) =
        getLink (initState 100000).mem (a + 12)) ∧
    (∀ a ∈ (insert 4124 {4100} : Set Nat), a ≠ 4124 →
      a ≠ getLink (initState 100000).mem (4124 + 12) →
      getLink (place (initState 100000).mem 4124 112) (a + 4) =
        getLink (initState 100000).mem (a + 4)) ∧
    Frame (initState 100000).mem (place (initState 100000).mem 4124 112)
      (initState 100000).heap_listp (insert 4124 {4100}) 0) :=
  ⟨initState_WF.1, by decide, by decide, by decide,
    place_split_correct (initState 100000) _ [] [] ∅ 4124 112 initState_WF.1 (by decide)
      (by decide) (by decide)⟩

set_option maxRecDepth 100000 in
theorem fit_first_fit_witness :
    WF oneLive (insert 4148 (insert 4124 {4100})) [4148] (insert 4128 ∅) ∅ ∧
    fit 8 oneLive 24 = some 4148 ∧
    ∃ N, ∀ fuel, N ≤ fuel → ∃ r, fit fuel oneLive 24 = some r ∧ r ≠ oneLive.heap_listp ∧
      ((r = 0 ∧ ∀ b ∈ [4148], ¬ (GET_ALLOC oneLive.mem b = 0 ∧ 24 ≤ GET_SIZE oneLive.mem b)) ∨
       (r ≠ 0 ∧ ∃ l1 l2, [4148] = l1 ++ r :: l2 ∧
         GET_ALLOC oneLive.mem r = 0 ∧ 24 ≤ GET_SIZE oneLive.mem r ∧
         ∀ c ∈ l1, ¬ (GET_ALLOC oneLive.mem c = 0 ∧ 24 ≤ GET_SIZE oneLive.mem c))) :=
  ⟨oneLive_WF, by decide, fit_first_fit oneLive _ _ _ oneLive_WF 24⟩

/-! ## Requests of `2^31` bytes and more -/

theorem mm_malloc_big {s : State} {B : Set Nat} {fl : List Nat} {L : Set Nat}
    (hwf : WF s B fl L ∅) (n : Nat) (hn : 2147483648 ≤ n)
    (h64 : n + 15 < 18446744073709551616) (fuel : Nat) (hfuel : fl.length + 2 < fuel) :
    mm_malloc fuel s n = Res.ok 0 s := by
  have hr0 : s.heap_listp ≠ 0 := Nat.pos_iff_ne_zero.mp hwf.root_pos
  have hn0 : n ≠ 0 := by omega
  have had : adjust n = 8 * ((n + 15) / 8) := by
    rw [adjust_eq n h64, if_neg (by omega)]
  have hfit : fit fuel s (adjust n) = some 0 := by
    rcases fit_WF hwf (adjust n) fuel (by omega) with ⟨l1, b, l2, hfl, _, hle, _⟩ | ⟨hfit, _⟩
    · have := hwf.member_facts b (by rw [hfl]; simp)
      omega
    · exact hfit
  have hby : extendBytes (max (adjust n) 4096 / 4) = adjust n := by
    rw [max_eq_left (by omega)]
    exact extendBytes_of_mul8 _ (by omega) (by omega) (by omega)
  have hnone : mem_sbrk s (extendBytes (max (adjust n) 4096 / 4)) = none := by
    unfold mem_sbrk
    rw [hby, if_neg (by have := hwf.glob.lim_le; omega)]
  simp [mm_malloc, lazyInit_of_ne_zero fuel s hr0, hn0, hfit, extend_heap, hnone]

theorem Inv.malloc_big_eq {s : State} {L : Set Nat} (hI : Inv s L) {n : Nat}
    (hn : 2147483648 ≤ n) (h64 : n + 15 < 18446744073709551616) {fuel p : Nat}
    {s' : State} (h : mm_malloc fuel s n = Res.ok p s') : p = 0 ∧ s' = s := by
  rcases hI with ⟨hu, _⟩ | ⟨B, fl, hwf⟩
  · exact hu.malloc_eq h
  · have h' := mm_malloc_mono fuel s n p s' h (fl.length + 3)
    rw [mm_malloc_big hwf n hn h64 (fuel + (fl.length + 3)) (by omega)] at h'
    obtain ⟨e1, e2⟩ := Res.ok.inj h'
    exact ⟨e1.symm, e2.symm⟩

theorem mm_realloc_big {s : State} {B : Set Nat} {fl : List Nat} {L : Set Nat}
    (hwf : WF s B fl L ∅) (p n : Nat) (hn : 2147483648 ≤ n)
    (h64 : n + 15 < 18446744073709551616) (fuel : Nat) (hfuel : fl.length + 2 < fuel) :
    mm_realloc fuel s p n = Res.ok 0 s := by
  have hn0 : n ≠ 0 := by omega
  unfold mm_realloc
  simp only [hn0, if_false, mm_malloc_big hwf n hn h64 fuel hfuel]
  split_ifs <;> rfl

theorem Inv.realloc_big_eq {s : State} {L : Set Nat} (hI : Inv s L) {p n : Nat}
    (hp : p = 0 ∨ p ∈ L) (hn : 2147483648 ≤ n) (h64 : n + 15 < 18446744073709551616)
    {fuel q : Nat} {s' : State} (h : mm_realloc fuel s p n = Res.ok q s') :
    q = 0 ∧ s' = s := by
  rcases hI with ⟨hu, hL⟩ | ⟨B, fl, hwf⟩
  · have hp0 : p = 0 := by
      rcases hp with hp | hp
      · exact hp
      · rw [hL] at hp; exact absurd hp (Set.not_mem_empty _)
    rw [hp0, mm_realloc_null fuel s n (by omega)] at h
    exact hu.malloc_eq h
  · have h' := mm_realloc_mono fuel s p n q s' h (fl.length + 3)
    rw [mm_realloc_big hwf p n hn h64 (fuel + (fl.length + 3)) (by omega)] at h'
    obtain ⟨e1, e2⟩ := Res.ok.inj h'
    exact ⟨e1.symm, e2.symm⟩

theorem mm_calloc_one (fuel : Nat) (s : State) (c n : Nat) :
    mm_calloc fuel s c n = mm_calloc fuel s 1 (c * n % 18446744073709551616) := by
  unfold mm_calloc
  simp only [Nat.one_mul, Nat.mod_mod]

theorem mm_calloc_big_not_ok {s : State} {B : Set Nat} {fl : List Nat} {L : Set Nat}
    (hwf : WF s B fl L ∅) (c n : Nat) (hn : 2147483648 ≤ c * n % 18446744073709551616)
    (h64 : c * n % 18446744073709551616 + 15 < 18446744073709551616) (fuel : Nat)
    (hfuel : fl.length + 2 < fuel) : mm_calloc fuel s c n = Res.fault := by
  have hr0 : s.heap_listp ≠ 0 := Nat.pos_iff_ne_zero.mp hwf.root_pos
  have hn0 : c * n % 18446744073709551616 ≠ 0 := by omega
  unfold mm_calloc
  simp only [lazyInit_of_ne_zero fuel s hr0, mm_malloc_big hwf _ hn h64 fuel hfuel, bzero,
    ne_eq, hn0, not_false_eq_true, and_self, if_true]

/-! ## The two notions of reachable state agree -/

theorem Reach.toW {s : State} {L : Set Nat} (h : Reach s L) : ReachW s L := by
  induction h with
  | init s0 s fuel r hf hrun => exact ReachW.init s0 s fuel r hf hrun
  | malloc s s' L fuel n p _ hn hrun ih => exact ReachW.malloc s s' L fuel n p ih (by omega) hrun
  | calloc s s' L fuel c n p _ hcn hrun ih =>
    exact ReachW.calloc s s' L fuel c n p ih
      (by rw [Nat.mod_eq_of_lt (by omega)]; omega) hrun
  | realloc s s' L fuel p n q _ hp hn hrun ih =>
    exact ReachW.realloc s s' L fuel p n q ih hp (by omega) hrun
  | free s s' L fuel p _ hp hrun ih => exact ReachW.free s s' L fuel p ih hp hrun
  | store s L p i v _ hp hi ih => exact ReachW.store s L p i v ih hp hi

/-- A request of `2^31` bytes or more that does not wrap is refused with the state
unchanged, so allowing such requests adds no reachable state. -/
theorem ReachW.reach {s : State} {L : Set Nat} (h : ReachW s L) : Reach s L := by
  induction h with
  | init s0 s fuel r hf hrun => exact Reach.init s0 s fuel r hf hrun
  | malloc s s' L fuel n p _ h64 hrun ih =>
    by_cases hn : n < 2147483648
    · exact Reach.malloc s s' L fuel n p ih hn hrun
    · obtain ⟨e1, e2⟩ := ih.inv.malloc_big_eq (by omega) h64 hrun
      rw [e1, e2, if_pos rfl]
      exact ih
  | calloc s s' L fuel c n p _ h64 hrun ih =>
    by_cases hn : c * n % 18446744073709551616 < 2147483648
    · rw [mm_calloc_one] at hrun
      exact Reach.calloc s s' L fuel 1 _ p ih (by rw [Nat.one_mul]; exact hn) hrun
    · rcases ih.inv with ⟨hu, _⟩ | ⟨B, fl, hwf⟩
      · obtain ⟨e1, e2⟩ := hu.calloc_eq hrun
        rw [e1, e2, if_pos rfl]
        exact ih
      · have h' := mm_calloc_mono fuel s c n p s' hrun (fl.length + 3)
        rw [mm_calloc_big_not_ok hwf c n (by omega) h64 (fuel + (fl.length + 3))
          (by omega)] at h'
        cases h'
  | realloc s s' L fuel p n q _ hp h64 hrun ih =>
    by_cases hn : n < 2147483648
    · exact Reach.realloc s s' L fuel p n q ih hp hn hrun
    · obtain ⟨e1, e2⟩ := ih.inv.realloc_big_eq hp (by omega) h64 hrun
      have hn0 : n ≠ 0 := by omega
      rw [e1, e2, if_neg hn0, if_pos rfl]
      exact ih
  | free s s' L fuel p _ hp hrun ih => exact Reach.free s s' L fuel p ih hp hrun
  | store s L p i v _ hp hi ih => exact Reach.store s L p i v ih hp hi

/-! ## Requests whose size wraps, blocks of `2^31` bytes, regions that reach `2^31` -/

/-- C5 (amended): in every state reached from `mm_init()` in a region below `2^31` by
allocator calls whose request sizes do not wrap (`n + 15 < 2^64`), for a currently
allocated pointer `p` and a request `0 < n` with `n + 15 < 2^64`, `mm_realloc(p, n)`
returns, and whenever it returns a non-null `q`: `q` is a multiple of 8; the first
`min(n, size - 8)` bytes at `q` after the call are the bytes that were at `p` before the
call; and the heap after the call has a block marked free whose extent contains the old
block. -/
theorem mm_realloc_preserves_content (s : State) (L : Set Nat) (hr : ReachW s L) (p : Nat)
    (hp : p ∈ L) (n : Nat) (hn : 0 < n) (h64 : n + 15 < 18446744073709551616) :
    (∃ N, ∀ fuel, N ≤ fuel → (mm_realloc fuel s p n).returned = true) ∧
    ∀ fuel q s', mm_realloc fuel s p n = Res.ok q s' → q ≠ 0 →
      q % 8 = 0 ∧
      (∀ i, i < min n (GET_SIZE s.mem (p - 4) - 8) → s'.mem.byte (q + i) = s.mem.byte (p + i)) ∧
      (∃ k, blockAt s'.mem s'.heap_listp k < s'.brk ∧
        GET_ALLOC s'.mem (blockAt s'.mem s'.heap_listp k) = 0 ∧
        blockAt s'.mem s'.heap_listp k ≤ p - 4 ∧
        p - 4 + GET_SIZE s.mem (p - 4) ≤
          blockAt s'.mem s'.heap_listp k + GET_SIZE s'.mem (blockAt s'.mem s'.heap_listp k)) := by
  have hR := hr.reach
  by_cases hn31 : n < 2147483648
  · exact mm_realloc_content_bounded s L hR p hp n hn hn31
  · have hI := hR.inv
    refine ⟨?_, ?_⟩
    · rcases hI with ⟨_, hL⟩ | ⟨B, fl, hwf⟩
      · rw [hL] at hp; exact absurd hp (Set.not_mem_empty _)
      · refine ⟨fl.length + 3, fun fuel hfuel => ?_⟩
        rw [mm_realloc_big hwf p n (by omega) h64 fuel (by omega)]
        rfl
    · intro fuel q s' hrun hq0
      exact absurd (hI.realloc_big_eq (Or.inr hp) (by omega) h64 hrun).1 hq0

set_option maxRecDepth 100000 in
theorem mm_realloc_preserves_content_witness :
    ReachW oneLive (insert 4128 (∅ : Set Nat)) ∧ 4128 ∈ insert 4128 (∅ : Set Nat) ∧
    0 < 40 ∧ 40 + 15 < 18446744073709551616 ∧
    (mm_realloc 8 oneLive 4128 40).valOr 0 = 4152 ∧
    ((∃ N, ∀ fuel, N ≤ fuel → (mm_realloc fuel oneLive 4128 40).returned = true) ∧
     ∀ fuel q s', mm_realloc fuel oneLive 4128 40 = Res.ok q s' → q ≠ 0 →
      q % 8 = 0 ∧
      (∀ i, i < min 40 (GET_SIZE oneLive.mem (4128 - 4) - 8) →
        s'.mem.byte (q + i) = oneLive.mem.byte (4128 + i)) ∧
      (∃ k, blockAt s'.mem s'.heap_listp k < s'.brk ∧
        GET_ALLOC s'.mem (blockAt s'.mem s'.heap_listp k) = 0 ∧
        blockAt s'.mem s'.heap_listp k ≤ 4128 - 4 ∧
        4128 - 4 + GET_SIZE oneLive.mem (4128 - 4) ≤
          blockAt s'.mem s'.heap_listp k + GET_SIZE s'.mem (blockAt s'.mem s'.heap_listp k))) :=
  ⟨reach_oneLive.toW, Set.mem_insert _ _, by decide, by decide, by decide,
    mm_realloc_preserves_content oneLive _ reach_oneLive.toW 4128 (Set.mem_insert _ _) 40
      (by decide) (by decide)⟩

set_option maxRecDepth 100000 in
/-- C5 (as stated, refuted): `oneLive` is reached by `mm_init()` and `mm_malloc(16)`, and
`4128` is its one allocated pointer, in a block of 24 bytes.  For `n = 2^64 - 1` the
size arithmetic of `mm_malloc` wraps: the adjusted size is `8`.  `mm_realloc(4128, n)`
returns the non-null pointer `4152`, and of the first `min(n, 24 - 8) = 16` bytes the one
at offset 8 is `28` at `q` after the call and was `0` at `p` before it. -/
theorem mm_realloc_wrapped_request :
    Reach oneLive (insert 4128 (∅ : Set Nat)) ∧ 4128 ∈ insert 4128 (∅ : Set Nat) ∧
    0 < 18446744073709551615 ∧ GET_SIZE oneLive.mem (4128 - 4) = 24 ∧
    adjust 18446744073709551615 = 8 ∧
    (mm_realloc 8 oneLive 4128 18446744073709551615).returned = true ∧
    (mm_realloc 8 oneLive 4128 18446744073709551615).valOr 0 = 4152 ∧
    8 < min 18446744073709551615 (GET_SIZE oneLive.mem (4128 - 4) - 8) ∧
    oneLive.mem.byte (4128 + 8) = 0 ∧
    ((mm_realloc 8 oneLive 4128 18446744073709551615).stateOr oneLive).mem.byte (4152 + 8)
      = 28 ∧
    ¬ (∀ fuel q s', mm_realloc fuel oneLive 4128 18446744073709551615 = Res.ok q s' →
        q ≠ 0 → ∀ i, i < min 18446744073709551615 (GET_SIZE oneLive.mem (4128 - 4) - 8) →
          s'.mem.byte (q + i) = oneLive.mem.byte (4128 + i)) := by
  refine ⟨reach_oneLive, Set.mem_insert _ _, by decide, by decide, by decide, by decide,
    by decide, by decide, by decide, by decide, ?_⟩
  intro h
  have e := Res.eq_ok_of_returned (mm_realloc 8 oneLive 4128 18446744073709551615) 0 oneLive
    (by decide)
  have h8 := h 8 _ _ e (by decide) 8 (by decide)
  revert h8
  decide

/-- C15 (amended): in every state reached from `mm_init()` in a region below `2^31` by
allocator calls whose request sizes do not wrap (`n + 15 < 2^64`, for `mm_calloc` the
product modulo `2^64`), once the sentinel exists: the physical walk from the sentinel
reaches the end of the region exactly, and every block met has a footer equal to its
header, a size that is a multiple of 8 and at least 24, and an address congruent to 4
modulo 8; the sentinel is at `mem_heap_lo() + 4`, the tracked high address is the last
word of the region once a block follows the sentinel, and `extend_heap` called in such a
state returns and leaves a state with the same block format. -/
theorem block_format_invariant (s : State) (L : Set Nat) (hr : ReachW s L)
    (hinit : s.heap_listp ≠ 0) :
    BlockFormat s ∧ s.heap_listp = mem_heap_lo s + 4 ∧
    (blockAt s.mem s.heap_listp 1 < s.brk → s.heap_hi = mem_heap_hi s) ∧
    ∀ words, ∃ N, ∀ fuel, N ≤ fuel →
      ∃ r s', extend_heap fuel s words = Res.ok r s' ∧ BlockFormat s' :=
  block_format_of_reach s L hr.reach hinit

set_option maxRecDepth 100000 in
theorem block_format_invariant_witness :
    ReachW oneLive (insert 4128 (∅ : Set Nat)) ∧ oneLive.heap_listp ≠ 0 ∧
    (BlockFormat oneLive ∧ oneLive.heap_listp = mem_heap_lo oneLive + 4 ∧
    (blockAt oneLive.mem oneLive.heap_listp 1 < oneLive.brk →
      oneLive.heap_hi = mem_heap_hi oneLive) ∧
    ∀ words, ∃ N, ∀ fuel, N ≤ fuel →
      ∃ r s', extend_heap fuel oneLive words = Res.ok r s' ∧ BlockFormat s') :=
  ⟨reach_oneLive.toW, by decide, block_format_invariant _ _ reach_oneLive.toW (by decide)⟩

set_option maxRecDepth 100000 in
/-- C15 (as stated, refuted): from the state `mm_init()` leaves, `mm_malloc(2^64 - 1)`
returns `4128`: the adjusted size wraps to `8`, and the block placed at `4124` gets the
header `8 | 1`.  In the state after the call the second block of the physical walk is
that block, inside the region, with a size of `8`, less than `24`: the state does not
have the block format. -/
theorem wrapped_request_breaks_block_format :
    Reach (initState 100000) ∅ ∧
    adjust 18446744073709551615 = 8 ∧
    (mm_malloc 8 (initState 100000) 18446744073709551615).returned = true ∧
    (mm_malloc 8 (initState 100000) 18446744073709551615).valOr 0 = 4128 ∧
    wrapState.heap_listp = 4100 ∧
    blockAt wrapState.mem wrapState.heap_listp 1 = 4124 ∧ 4124 < wrapState.brk ∧
    GET wrapState.mem 4124 = 9 ∧ GET_SIZE wrapState.mem 4124 = 8 ∧
    ¬ BlockFormat wrapState := by
  refine ⟨reach_initState, by decide, by decide, by decide, by decide, by decide, by decide,
    by decide, by decide, ?_⟩
  rintro ⟨K, hK0, hKe, hall⟩
  have h1 : 1 < K := by
    by_contra hc
    have hK1 : K = 1 := by omega
    rw [hK1] at hKe
    revert hKe
    decide
  have h24 := (hall 1 h1).2.2.2.1
  revert h24
  decide

set_option maxRecDepth 100000 in
/-- C11 (the code at the failing input): in the empty region at `lo = 2^31`, which is
8-byte aligned, `mm_init()` returns 0 and the two calls `mm_malloc(100)` return
`p1 = lo + 32` and `p2 = lo + 144`.  After `mm_free(p1)` the sentinel's forward link
holds the two halves `0x8000001C` and `0` of the freed block's address `lo + 28`, and
`addrPair` decodes them to `0xFFFFFFFF8000001C`, an address outside the region, so the
list walk does not meet the freed block: `mm_malloc(50)` returns `lo + 256`, not `p1`. -/
theorem scenario_above_2G :
    (freshState 2147483648 2147583648).lo % 8 = 0 ∧
    (mm_init 8 (freshState 2147483648 2147583648)).returned = true ∧
    (mm_init 8 (freshState 2147483648 2147583648)).valOr 1 = 0 ∧
    (mm_malloc 8 highInit 100).valOr 0 = 2147483648 + 32 ∧
    (mm_malloc 8 ((mm_malloc 8 highInit 100).stateOr highInit) 100).valOr 0
      = 2147483648 + 144 ∧
    (mm_free 8 highTwo (2147483648 + 32)).returned = true ∧
    GET highFreed.mem (highFreed.heap_listp + 12) = 2147483648 + 28 ∧
    GET highFreed.mem (highFreed.heap_listp + 16) = 0 ∧
    getLink highFreed.mem (highFreed.heap_listp + 12) = 18446744071562067996 ∧
    (mm_malloc 8 highFreed 50).returned = true ∧
    (mm_malloc 8 highFreed 50).valOr 0 = 2147483648 + 256 ∧
    (mm_malloc 8 highFreed 50).valOr 0 ≠ 2147483648 + 32 := by
  refine ⟨by decide, by decide, by decide, by decide, by decide, by decide, by decide,
    by decide, by decide, by decide, by decide, by decide⟩

end MM
